import Mathlib

/-!
Verification of `my-malloc` (`src/memory.cpp`), a thread-caching `malloc`.

The allocator is embedded at the level of the machine: memory is a map from
byte addresses to bytes, a block header is two little-endian 64-bit words
(`size` at offset 0, `next` at offset 8), and `size_t` arithmetic is taken
modulo `2^64`. Loops take fuel. The outcomes of `try_lock` are arguments.

The first part holds the definitions: the embedding of the source, the
block-level view of a state used in the proofs, and the reachable states.
The second part holds the theorems.
-/

namespace MyMalloc

/-! ## Definitions -/

/-- The modulus of `size_t` arithmetic. -/
def W64 : Nat := 18446744073709551616

/-- `size_t` addition. -/
def addw (a b : Nat) : Nat := (a + b) % W64

/-- `size_t` subtraction. -/
def subw (a b : Nat) : Nat := (a % W64 + W64 - b % W64) % W64

/-- `size_t` multiplication. -/
def mulw (a b : Nat) : Nat := (a * b) % W64

/-- `constexpr size_t chunk_size = 32768;` (line 29). -/
def chunk_size : Nat := 32768

/-- `constexpr size_t meta_size = sizeof(block);` (line 30): two 8-byte fields. -/
def meta_size : Nat := 16

/-- `size_align` (lines 32-34): `(s + 7) & ~7` on `size_t`. -/
def size_align (s : Nat) : Nat := ((s + 7) % W64) &&& (W64 - 1 - 7)

/-- Byte-addressed memory. -/
abbrev Mem := Nat → Nat

/-- Load of a 64-bit little-endian word at address `a`. -/
def readW (m : Mem) (a : Nat) : Nat :=
  m a % 256 + 256 * (m (a + 1) % 256 + 256 * (m (a + 2) % 256 + 256 * (m (a + 3) % 256 +
    256 * (m (a + 4) % 256 + 256 * (m (a + 5) % 256 + 256 * (m (a + 6) % 256 +
    256 * (m (a + 7) % 256)))))))

/-- Store of a 64-bit little-endian word at address `a`. -/
def writeW (m : Mem) (a v : Nat) : Mem :=
  fun x => if a ≤ x ∧ x < a + 8 then v / 256 ^ (x - a) % 256 else m x

/-- Modelled from the spec: the bulk-zero primitive `memset` of the C library. -/
def memset (m : Mem) (p c n : Nat) : Mem :=
  fun x => if p ≤ x ∧ x < p + n then c % 256 else m x

/-- Modelled from the spec: the bulk-copy primitive `memcpy` of the C library. -/
def memcpy (m : Mem) (dst src n : Nat) : Mem :=
  fun x => if dst ≤ x ∧ x < dst + n then m (src + (x - dst)) else m x

/-- The allocator state of one thread: memory, `local_head`, `global_head`,
the program break, and the two call counters. -/
structure State where
  mem : Mem
  local_head : Nat
  global_head : Nat
  brk : Nat
  ntry : Nat
  nsbrk : Nat

/-- Field `b->size`. -/
def State.size (st : State) (b : Nat) : Nat := readW st.mem b

/-- Field `b->next`. -/
def State.next (st : State) (b : Nat) : Nat := readW st.mem (b + 8)

/-- Assignment `b->size = v`. -/
def State.setSize (st : State) (b v : Nat) : State := { st with mem := writeW st.mem b v }

/-- Assignment `b->next = v`. -/
def State.setNext (st : State) (b v : Nat) : State := { st with mem := writeW st.mem (b + 8) v }

/-- Assignment `local_head = v`. -/
def State.setLocal (st : State) (v : Nat) : State := { st with local_head := v }

/-- Assignment `global_head = v`. -/
def State.setGlobal (st : State) (v : Nat) : State := { st with global_head := v }

/-- One call of `global_mutex.try_lock()`; its outcome is an argument of the caller. -/
def State.tryLock (st : State) : State := { st with ntry := st.ntry + 1 }

/-- The state before the first call: both lists empty, break at `base`. -/
def init (base : Nat) (m0 : Mem) : State :=
  { mem := m0, local_head := 0, global_head := 0, brk := base, ntry := 0, nsbrk := 0 }

/-- Modelled from the spec: the heap extender `sbrk` (external). It extends the
heap by `n` bytes and returns the start of the new region, or returns
`(void*)-1` when the region would not fit below `2^64 - 1`. -/
def sbrk (n : Nat) (st : State) : Nat × State :=
  if st.brk + n < W64 - 1 then (st.brk, { st with brk := st.brk + n, nsbrk := st.nsbrk + 1 })
  else (W64 - 1, { st with nsbrk := st.nsbrk + 1 })

/-- The address-ordered walk of `free` (lines 44-48) and `realloc` (lines 324-328):
stops at the first node whose address exceeds `mid`; returns `(pre, cur)`. -/
def addr_walk (st : State) (mid : Nat) : Nat → Nat → Nat → Option (Nat × Nat)
  | 0, _, _ => none
  | fuel + 1, pre, cur =>
    if cur = 0 then some (pre, cur)
    else if cur > mid then some (pre, cur)
    else addr_walk st mid fuel cur (st.next cur)

/-- The first-fit walk of `malloc` (lines 82-87): stops at the first node with
`size >= size`; returns `(prepre, pre, cur)`. The walks at lines 96-100 and
114-118 are the same loop without the `prepre` variable. -/
def fit_walk (st : State) (size : Nat) : Nat → Nat → Nat → Nat → Option (Nat × Nat × Nat)
  | 0, _, _, _ => none
  | fuel + 1, prepre, pre, cur =>
    if cur = 0 then some (prepre, pre, cur)
    else if st.size cur ≥ size then some (prepre, pre, cur)
    else fit_walk st size fuel pre cur (st.next cur)

/-- `free` (lines 36-71). -/
def free (fuel : Nat) (ptr : Nat) (st : State) : Option State :=
  if ptr = 0 then some st
  else
    let mid := ptr - meta_size
    match addr_walk st mid fuel 0 st.local_head with
    | none => none
    | some (pre, cur) =>
      let st := st.setNext mid cur
      let st := if pre ≠ 0 then st.setNext pre mid else st.setLocal mid
      -- merge with right
      let st :=
        if st.next mid ≠ 0 then
          if mid + meta_size + st.size mid = cur then
            let st := st.setSize mid (addw (st.size mid) (addw meta_size (st.size cur)))
            let st := st.setNext mid (st.next cur)
            st.setNext cur 0
          else st
        else st
      -- merge with left
      let st :=
        if mid ≠ st.local_head then
          if pre + meta_size + st.size pre = mid then
            let st := st.setSize pre (addw (st.size pre) (addw meta_size (st.size mid)))
            let st := st.setNext pre (st.next mid)
            st.setNext mid 0
          else st
        else st
      some st

/-- Which `return` statement of `malloc` was taken. -/
inductive Path where
  | zero          -- line 74
  | pool_split    -- line 130
  | pool_whole    -- line 136
  | large         -- line 166
  | merge_split   -- line 210
  | merge_whole   -- line 216
  | tail_split    -- line 229
  | tail_whole    -- line 234
  | head_split    -- line 248
  | head_whole    -- line 253
  | cache_split   -- line 268
  | cache_whole   -- line 276
  deriving DecidableEq, Repr

/-- Lines 259-277: the block `cur` was found in the local list. -/
def malloc_hit (st : State) (size pre cur : Nat) : Nat × Path × State :=
  if st.size cur > addw size meta_size then
    let sub := cur + size + meta_size
    let st := st.setSize sub (subw (subw (st.size cur) size) meta_size)
    let st := st.setNext sub (st.next cur)
    let st := if cur = st.local_head then st.setLocal sub else st.setNext pre sub
    let st := st.setSize cur size
    let st := st.setNext cur 0
    (cur + meta_size, Path.cache_split, st)
  else
    let st := if cur = st.local_head then st.setLocal (st.next cur)
              else st.setNext pre (st.next cur)
    let st := st.setNext cur 0
    (cur + meta_size, Path.cache_whole, st)

/-- Lines 92-143: the probe of the global list. `Sum.inl r` is `return r`;
`Sum.inr st` means control reaches line 145 in state `st`. -/
def malloc_probe (fuel : Nat) (t1 : Bool) (st : State) (size : Nat) :
    Option ((Nat × Path × State) ⊕ State) :=
  let st := st.tryLock
  if t1 then
    match fit_walk st size fuel 0 0 st.global_head with
    | none => none
    | some (_, prev, curr) =>
      if curr ≠ 0 then
        let st := if prev ≠ 0 then st.setNext prev (st.next curr)
                  else st.setGlobal (st.next curr)
        match free fuel (curr + meta_size) st with
        | none => none
        | some st =>
          match fit_walk st size fuel 0 0 st.local_head with
          | none => none
          | some (_, p, c) =>
            if c ≠ 0 then
              if st.size c > addw size meta_size then
                let s := c + size + meta_size
                let st := st.setSize s (subw (subw (st.size c) size) meta_size)
                let st := st.setNext s (st.next c)
                let st := if p ≠ 0 then st.setNext p s else st.setLocal s
                let st := st.setSize c size
                let st := st.setNext c 0
                some (Sum.inl (c + meta_size, Path.pool_split, st))
              else
                let st := if p ≠ 0 then st.setNext p (st.next c) else st.setLocal (st.next c)
                let st := st.setNext c 0
                some (Sum.inl (c + meta_size, Path.pool_whole, st))
            else some (Sum.inr st)
      else some (Sum.inr st)
  else some (Sum.inr st)

/-- Lines 146-167: growth for a large request. -/
def malloc_large (fuel : Nat) (t2 : Bool) (st : State) (size : Nat) :
    Option (Nat × Path × State) :=
  let r := sbrk (addw (mulw size 2) (mulw meta_size 2)) st
  let tmp := r.1
  let st := r.2
  if tmp = W64 - 1 then none
  else
    let cur := tmp
    let half := cur + meta_size + size
    let st := st.setSize half size
    let st := st.tryLock
    if t2 then
      let st := st.setNext half st.global_head
      let st := st.setGlobal half
      let st := st.setSize cur size
      let st := st.setNext cur 0
      some (cur + meta_size, Path.large, st)
    else
      match free fuel (half + meta_size) st with
      | none => none
      | some st =>
        let st := st.setSize cur size
        let st := st.setNext cur 0
        some (cur + meta_size, Path.large, st)

/-- Lines 170-256: growth for a small request; `prepre` and `pre` are the
values left by the walk at lines 82-87. -/
def malloc_small (t2 : Bool) (st : State) (size prepre pre : Nat) :
    Option (Nat × Path × State) :=
  let r := sbrk (mulw chunk_size 2) st
  let tmp := r.1
  let st := r.2
  if tmp = W64 - 1 then none
  else
    let cur := tmp
    let half := cur + chunk_size
    let st := st.setSize half (chunk_size - meta_size)
    let st := st.tryLock
    let st :=
      if t2 then
        let st := st.setNext half st.global_head
        let st := st.setGlobal half
        st.setSize cur (chunk_size - meta_size)
      else st.setSize cur (chunk_size * 2 - meta_size)
    -- insert to free list
    let st := st.setNext cur 0
    let st := if pre ≠ 0 then st.setNext pre cur else st.setLocal cur
    if cur ≠ st.local_head then
      if pre + meta_size + st.size pre = cur then
        let st := st.setSize pre (addw (st.size pre) (addw meta_size (st.size cur)))
        let st := st.setNext pre (st.next cur)
        if st.size pre > addw size meta_size then
          let sub := pre + size + meta_size
          let st := st.setSize sub (subw (subw (st.size pre) size) meta_size)
          let st := st.setNext sub (st.next pre)
          let st := st.setSize pre size
          let st := st.setNext pre 0
          let st := if prepre ≠ 0 then st.setNext prepre sub else st.setLocal sub
          some (pre + meta_size, Path.merge_split, st)
        else
          let st := if prepre ≠ 0 then st.setNext prepre (st.next pre)
                    else st.setLocal (st.next pre)
          let st := st.setNext pre 0
          some (pre + meta_size, Path.merge_whole, st)
      else
        if st.size cur > addw size meta_size then
          let sub := cur + size + meta_size
          let st := st.setSize sub (subw (subw (st.size cur) size) meta_size)
          let st := st.setNext sub (st.next cur)
          let st := st.setNext pre sub
          let st := st.setSize cur size
          let st := st.setNext cur 0
          some (cur + meta_size, Path.tail_split, st)
        else
          let st := st.setNext pre (st.next cur)
          let st := st.setNext cur 0
          some (cur + meta_size, Path.tail_whole, st)
    else
      if st.size cur > addw size meta_size then
        let sub := cur + size + meta_size
        let st := st.setSize sub (subw (subw (st.size cur) size) meta_size)
        let st := st.setNext sub (st.next cur)
        let st := st.setLocal sub
        let st := st.setSize cur size
        let st := st.setNext cur 0
        some (cur + meta_size, Path.head_split, st)
      else
        let st := st.setLocal (st.next cur)
        let st := st.setNext cur 0
        some (cur + meta_size, Path.head_whole, st)

/-- `malloc` (lines 73-279). The result is the returned pointer, the `return`
statement that produced it, and the new state. -/
def malloc (fuel : Nat) (t1 t2 : Bool) (size : Nat) (st : State) :
    Option (Nat × Path × State) :=
  if size = 0 then some (0, Path.zero, st)
  else
    let size := size_align size
    match fit_walk st size fuel 0 0 st.local_head with
    | none => none
    | some (prepre, pre, cur) =>
      if cur = 0 then
        match malloc_probe fuel t1 st size with
        | none => none
        | some (Sum.inl r) => some r
        | some (Sum.inr st) =>
          if size > chunk_size - meta_size then malloc_large fuel t2 st size
          else malloc_small t2 st size prepre pre
      else some (malloc_hit st size pre cur)

/-- `calloc` (lines 281-292). -/
def calloc (fuel : Nat) (t1 t2 : Bool) (nitems nsize : Nat) (st : State) :
    Option (Nat × State) :=
  if nitems = 0 ∨ nsize = 0 then some (0, st)
  else
    let sum_size := mulw nitems nsize
    let sum_size := size_align sum_size
    match malloc fuel t1 t2 sum_size st with
    | none => none
    | some (p, _, st) =>
      if p = 0 then none
      else some (p, { st with mem := memset st.mem p 0 sum_size })

/-- `realloc` (lines 294-365). -/
def realloc (fuel : Nat) (t1 t2 : Bool) (ptr size : Nat) (st : State) :
    Option (Nat × State) :=
  if ptr = 0 then
    match malloc fuel t1 t2 size st with
    | none => none
    | some (p, _, st) => some (p, st)
  else if size = 0 then
    match free fuel ptr st with
    | none => none
    | some st => some (0, st)
  else
    let size := size_align size
    let old_block := ptr - meta_size
    if st.size old_block = size then some (ptr, st)
    else if st.size old_block > size then
      if st.size old_block > addw size meta_size then
        let sub := old_block + size + meta_size
        let st := st.setSize sub (subw (subw (st.size old_block) size) meta_size)
        match free fuel (sub + meta_size) st with
        | none => none
        | some st => some (ptr, st.setSize old_block size)
      else some (ptr, st)
    else
      match addr_walk st old_block fuel 0 st.local_head with
      | none => none
      | some (pre, cur) =>
        if cur ≠ 0 ∧ old_block + meta_size + st.size old_block = cur
            ∧ addw (addw (st.size old_block) meta_size) (st.size cur) ≥ size then
          let st := st.setSize old_block (addw (st.size old_block) (addw meta_size (st.size cur)))
          let st := st.setNext old_block (st.next cur)
          let st := st.setNext cur 0
          if st.size old_block > addw meta_size size then
            let sub := old_block + size + meta_size
            let st := st.setSize sub (subw (subw (st.size old_block) size) meta_size)
            let st := st.setNext sub (st.next old_block)
            let st := if pre ≠ 0 then st.setNext pre sub else st.setLocal sub
            let st := st.setSize old_block size
            let st := st.setNext old_block 0
            some (old_block + meta_size, st)
          else
            let st := if pre ≠ 0 then st.setNext pre (st.next old_block)
                      else st.setLocal (st.next old_block)
            let st := st.setNext old_block 0
            some (old_block + meta_size, st)
        else
          match malloc fuel t1 t2 size st with
          | none => none
          | some (new_ptr, _, st1) =>
            if new_ptr = 0 then none
            else
              let st1 := { st1 with mem := memcpy st1.mem new_ptr ptr (st1.size old_block) }
              match free fuel ptr st1 with
              | none => none
              | some st2 => some (new_ptr, st2)

/-- A block as the allocator sees it: header address and recorded payload size. -/
structure Blk where
  addr : Nat
  size : Nat
  deriving DecidableEq, Repr

/-- The first address after the block: `addr + meta_size + size`. -/
def Blk.fin (b : Blk) : Nat := b.addr + meta_size + b.size

/-- The pointer handed to the caller for this block. -/
def Blk.ptr (b : Blk) : Nat := b.addr + meta_size

/-- `BSeg m h l t`: following `next` from `h` visits exactly the blocks of `l`
(with the sizes recorded in memory) and arrives at `t`. -/
def BSeg (m : Mem) : Nat → List Blk → Nat → Prop
  | h, [], t => h = t
  | h, b :: l, t => h = b.addr ∧ b.addr ≠ 0 ∧ readW m b.addr = b.size ∧
      BSeg m (readW m (b.addr + 8)) l t

/-- The free list starting at `h` consists of the blocks `l`, in link order. -/
def FreeList (m : Mem) (h : Nat) (l : List Blk) : Prop := BSeg m h l 0

/-- Address `x` lies outside the 16-byte headers at the addresses `W`. -/
abbrev Out (W : List Nat) (x : Nat) : Prop := ∀ w ∈ W, x < w ∨ w + 16 ≤ x

/-- Memory `m2` agrees with `m` outside the headers at `W`. -/
def Same (W : List Nat) (m m2 : Mem) : Prop := ∀ x, Out W x → m2 x = m x

/-- Headers at `a` and `b` do not overlap. -/
abbrev HSep (a b : Nat) : Prop := a + 16 ≤ b ∨ b + 16 ≤ a

/-- The last address of `l`, or `d` when `l` is empty: the `pre` variable after a walk. -/
def lastA : List Blk → Nat → Nat
  | [], d => d
  | b :: l, _ => lastA l b.addr

/-- The first address of `l`, or `0`: the `cur` variable after a walk. -/
def headA (l : List Blk) : Nat := (l.map Blk.addr).headD 0

/-- The `prepre` variable after the first-fit walk has passed the blocks `l`. -/
def penA (l : List Blk) (pp p : Nat) : Nat :=
  match l with
  | [] => pp
  | b :: l => penA l p b.addr

/-- The split-or-hand-over rule on blocks: the live block handed out and what
replaces the selected block `c` in the list. -/
def takeA (size : Nat) (c : Blk) : Blk × List Blk :=
  if c.size > addw size meta_size then
    (⟨c.addr, size⟩, [⟨c.addr + size + meta_size, subw (subw c.size size) meta_size⟩])
  else (c, [])

/-- The split-or-hand-over statements in the order of lines 121-137, with
`p` the predecessor of `c` (null when `c` is the head). -/
def takeBlock (st : State) (size p c : Nat) : State :=
  if st.size c > addw size meta_size then
    let s := c + size + meta_size
    let st := st.setSize s (subw (subw (st.size c) size) meta_size)
    let st := st.setNext s (st.next c)
    let st := if p ≠ 0 then st.setNext p s else st.setLocal s
    let st := st.setSize c size
    st.setNext c 0
  else
    let st := if p ≠ 0 then st.setNext p (st.next c) else st.setLocal (st.next c)
    st.setNext c 0

/-- The blocks passed by the walk of `free` (addresses `≤ mid`) and the rest. -/
def splitAddr (mid : Nat) : List Blk → List Blk × List Blk
  | [] => ([], [])
  | c :: l => if c.addr > mid then ([], c :: l)
              else (c :: (splitAddr mid l).1, (splitAddr mid l).2)

/-- Merge with right (lines 54-60) on blocks. -/
def mergeR (b : Blk) : List Blk → Blk × List Blk
  | [] => (b, [])
  | c :: r => if b.addr + meta_size + b.size = c.addr
              then (⟨b.addr, addw b.size (addw meta_size c.size)⟩, r) else (b, c :: r)

/-- Merge with left (lines 63-69) on blocks. -/
def mergeL (l1 : List Blk) (b : Blk) (r : List Blk) : List Blk :=
  match l1.getLast? with
  | none => l1 ++ b :: r
  | some pre =>
    if pre.addr + meta_size + pre.size = b.addr
    then l1.dropLast ++ ⟨pre.addr, addw pre.size (addw meta_size b.size)⟩ :: r
    else l1 ++ b :: r

/-- The local list after `free` of block `b`. -/
def ains (b : Blk) (ca : List Blk) : List Blk :=
  mergeL (splitAddr b.addr ca).1 (mergeR b (splitAddr b.addr ca).2).1
    (mergeR b (splitAddr b.addr ca).2).2

/-- Lines 49-51: splice `mid` between `pre` and `cur`. -/
def insertC (st : State) (mid pre cur : Nat) : State :=
  let st := st.setNext mid cur
  if pre ≠ 0 then st.setNext pre mid else st.setLocal mid

/-- Lines 56-58 and 65-67: block `x` absorbs its successor `y`. -/
def absorbC (st : State) (x y : Nat) : State :=
  let st := st.setSize x (addw (st.size x) (addw meta_size (st.size y)))
  let st := st.setNext x (st.next y)
  st.setNext y 0

/-- Lines 54-60. -/
def mergeRightC (st : State) (mid cur : Nat) : State :=
  if st.next mid ≠ 0 then
    if mid + meta_size + st.size mid = cur then absorbC st mid cur else st
  else st

/-- Lines 63-69. -/
def mergeLeftC (st : State) (mid pre : Nat) : State :=
  if mid ≠ st.local_head then
    if pre + meta_size + st.size pre = mid then absorbC st pre mid else st
  else st

/-- The blocks of a state: live blocks, the local list and the global list (in link order). -/
structure Abs where
  lv : List Blk
  ca : List Blk
  po : List Blk

/-- All blocks. -/
def Abs.all (A : Abs) : List Blk := A.lv ++ (A.ca ++ A.po)

/-- The extents `[addr, addr + 16 + size)` of two blocks do not overlap. -/
abbrev Disj (a b : Blk) : Prop := a.addr + 16 + a.size ≤ b.addr ∨ b.addr + 16 + b.size ≤ a.addr

/-- A block lies in the heap `[base, brk)`, and its address (relative to
`base`) and size are multiples of 8. -/
structure Good (base brk : Nat) (b : Blk) : Prop where
  al : b.size % 8 = 0
  lo : base ≤ b.addr
  hi : b.addr + 16 + b.size ≤ brk
  rel : (b.addr - base) % 8 = 0

/-- The sum of the extents of a list of blocks. -/
def tot (l : List Blk) : Nat := (l.map (fun b => 16 + b.size)).sum

/-- The blocks `l` tile the heap `[base, brk)`. -/
structure Tiles (base brk : Nat) (l : List Blk) : Prop where
  good : ∀ b ∈ l, Good base brk b
  disj : l.Pairwise Disj
  total : tot l + base = brk

/-- The local list is strictly sorted with a gap between neighbours. -/
abbrev Gap (a b : Blk) : Prop := a.addr + 16 + a.size < b.addr

/-- The invariant on blocks. -/
structure AInv (base brk : Nat) (A : Abs) : Prop where
  base_pos : 0 < base
  brk_lt : brk + 1 < W64
  tiles : Tiles base brk A.all
  sorted : A.ca.Pairwise Gap

/-- Memory represents the blocks. -/
structure Rep (st : State) (A : Abs) : Prop where
  cache : BSeg st.mem st.local_head A.ca 0
  pool : BSeg st.mem st.global_head A.po 0
  live : ∀ b ∈ A.lv, readW st.mem b.addr = b.size

/-- Header `w` lies inside the extent of block `c`. -/
abbrev Inside (w : Nat) (c : Blk) : Prop := c.addr ≤ w ∧ w + 16 ≤ c.addr + 16 + c.size

/-- Memory is unchanged outside the extents of the blocks `F` and below `brk`. -/
def Frame (F : List Blk) (brk : Nat) (m m2 : Mem) : Prop :=
  ∀ x, (∀ c ∈ F, x < c.addr ∨ c.addr + 16 + c.size ≤ x) → x < brk → m2 x = m x

/-- The blocks passed by the first-fit walk (sizes `< size`) and the rest. -/
def splitFit (size : Nat) : List Blk → List Blk × List Blk
  | [] => ([], [])
  | c :: l => if c.size ≥ size then ([], c :: l)
              else (c :: (splitFit size l).1, (splitFit size l).2)

/-- The state of the list while `free` runs: `b` sits between `l1` and `r`. -/
structure Mid (base brk : Nat) (l1 : List Blk) (b : Blk) (r R : List Blk) : Prop where
  tiles : Tiles base brk (b :: (l1 ++ r ++ R))
  s1 : l1.Pairwise Gap
  s2 : r.Pairwise Gap
  lo : ∀ a ∈ l1, a.addr + 16 + a.size ≤ b.addr
  cross : ∀ a ∈ l1, ∀ c ∈ r, Gap a c

/-- Lines 104-105: unlink `curr` from the global list. -/
def unlinkG (st : State) (prev curr : Nat) : State :=
  if prev ≠ 0 then st.setNext prev (st.next curr) else st.setGlobal (st.next curr)

/-- Address `x` lies outside the extents of the blocks `F`. -/
abbrev OutB (F : List Blk) (x : Nat) : Prop := ∀ c ∈ F, x < c.addr ∨ c.addr + 16 + c.size ≤ x

/-- The blocks after the growth for a large request. -/
def largeA (brk : Nat) (t2 : Bool) (size : Nat) (A : Abs) : Abs :=
  ⟨⟨brk, size⟩ :: A.lv,
   if t2 then A.ca else ains ⟨brk + meta_size + size, size⟩ A.ca,
   if t2 then ⟨brk + meta_size + size, size⟩ :: A.po else A.po⟩

/-- The split-or-hand-over statements in the order of lines 202-217. -/
def takeBlockM (st : State) (size prepre pre : Nat) : State :=
  if st.size pre > addw size meta_size then
    let sub := pre + size + meta_size
    let st := st.setSize sub (subw (subw (st.size pre) size) meta_size)
    let st := st.setNext sub (st.next pre)
    let st := st.setSize pre size
    let st := st.setNext pre 0
    if prepre ≠ 0 then st.setNext prepre sub else st.setLocal sub
  else
    let st := if prepre ≠ 0 then st.setNext prepre (st.next pre) else st.setLocal (st.next pre)
    st.setNext pre 0

/-- Lines 172-191: the heap grows by two chunks and the retained chunk is
linked at the tail of the local list. -/
def growSmall (t2 : Bool) (st : State) (pre : Nat) : State :=
  let r := sbrk (mulw chunk_size 2) st
  let cur := r.1
  let st := r.2
  let half := cur + chunk_size
  let st := st.setSize half (chunk_size - meta_size)
  let st := st.tryLock
  let st :=
    if t2 then
      let st := st.setNext half st.global_head
      let st := st.setGlobal half
      st.setSize cur (chunk_size - meta_size)
    else st.setSize cur (chunk_size * 2 - meta_size)
  let st := st.setNext cur 0
  if pre ≠ 0 then st.setNext pre cur else st.setLocal cur

/-- Lines 198-199: the last block of the list absorbs the chunk behind it. -/
def absorbT (st : State) (pre cur : Nat) : State :=
  let st := st.setSize pre (addw (st.size pre) (addw meta_size (st.size cur)))
  st.setNext pre (st.next cur)

/-- Lines 194-255: the chunk `cur` has been linked; serve the request. -/
def smallTake (st : State) (size prepre pre cur : Nat) : Option (Nat × Path × State) :=
  if cur ≠ st.local_head then
    if pre + meta_size + st.size pre = cur then
      let st := st.setSize pre (addw (st.size pre) (addw meta_size (st.size cur)))
      let st := st.setNext pre (st.next cur)
      if st.size pre > addw size meta_size then
        let sub := pre + size + meta_size
        let st := st.setSize sub (subw (subw (st.size pre) size) meta_size)
        let st := st.setNext sub (st.next pre)
        let st := st.setSize pre size
        let st := st.setNext pre 0
        let st := if prepre ≠ 0 then st.setNext prepre sub else st.setLocal sub
        some (pre + meta_size, Path.merge_split, st)
      else
        let st := if prepre ≠ 0 then st.setNext prepre (st.next pre)
                  else st.setLocal (st.next pre)
        let st := st.setNext pre 0
        some (pre + meta_size, Path.merge_whole, st)
    else
      if st.size cur > addw size meta_size then
        let sub := cur + size + meta_size
        let st := st.setSize sub (subw (subw (st.size cur) size) meta_size)
        let st := st.setNext sub (st.next cur)
        let st := st.setNext pre sub
        let st := st.setSize cur size
        let st := st.setNext cur 0
        some (cur + meta_size, Path.tail_split, st)
      else
        let st := st.setNext pre (st.next cur)
        let st := st.setNext cur 0
        some (cur + meta_size, Path.tail_whole, st)
  else
    if st.size cur > addw size meta_size then
      let sub := cur + size + meta_size
      let st := st.setSize sub (subw (subw (st.size cur) size) meta_size)
      let st := st.setNext sub (st.next cur)
      let st := st.setLocal sub
      let st := st.setSize cur size
      let st := st.setNext cur 0
      some (cur + meta_size, Path.head_split, st)
    else
      let st := st.setLocal (st.next cur)
      let st := st.setNext cur 0
      some (cur + meta_size, Path.head_whole, st)

/-- The retained chunk of a small growth. -/
def chunkA (brk : Nat) (t2 : Bool) : Blk := ⟨brk, if t2 then 32752 else 65520⟩

/-- The global list after a small growth. -/
def poolA (brk : Nat) (t2 : Bool) (po : List Blk) : List Blk :=
  if t2 then ⟨brk + 32768, 32752⟩ :: po else po

/-- The blocks after a small growth, before the request is served: the
retained chunk is at the tail of the local list, merged into its predecessor
when they are adjacent. -/
def smallA (brk : Nat) (t2 : Bool) (A : Abs) : Abs :=
  ⟨A.lv, mergeL A.ca (chunkA brk t2) [], poolA brk t2 A.po⟩

/-- The `return` statement of the small growth path. -/
def smallPath (ca : List Blk) (brk : Nat) (sp : Bool) : Path :=
  match ca.getLast? with
  | none => if sp then Path.head_split else Path.head_whole
  | some pre =>
    if pre.addr + meta_size + pre.size = brk
    then (if sp then Path.merge_split else Path.merge_whole)
    else (if sp then Path.tail_split else Path.tail_whole)

/-- The result of `malloc` on blocks: the block handed out, the `return`
statement taken, the blocks afterwards and the new break. -/
structure AOut where
  blk : Blk
  path : Path
  abs : Abs
  brk : Nat

/-- Serve the request from the first fit of the local list. -/
def takeFit (A : Abs) (size brk : Nat) (pf : Bool → Path) : Option AOut :=
  match (splitFit size A.ca).2 with
  | [] => none
  | c :: l2 =>
    some ⟨(takeA size c).1, pf (decide (c.size > addw size meta_size)),
      ⟨(takeA size c).1 :: A.lv, (splitFit size A.ca).1 ++ (takeA size c).2 ++ l2, A.po⟩, brk⟩

/-- `malloc` on blocks, for an aligned non-zero request `size`. -/
def amalloc (brk : Nat) (t1 t2 : Bool) (size : Nat) (A : Abs) : Option AOut :=
  match (splitFit size A.ca).2 with
  | _ :: _ => takeFit A size brk (fun sp => if sp then Path.cache_split else Path.cache_whole)
  | [] =>
    match (if t1 then (splitFit size A.po).2 else []) with
    | g :: g2 =>
      takeFit ⟨A.lv, ains g A.ca, (splitFit size A.po).1 ++ g2⟩ size brk
        (fun sp => if sp then Path.pool_split else Path.pool_whole)
    | [] =>
      if size > chunk_size - meta_size then
        some ⟨⟨brk, size⟩, Path.large, largeA brk t2 size A, brk + (2 * size + 32)⟩
      else takeFit (smallA brk t2 A) size (brk + 65536) (smallPath A.ca brk)

/-- The number of `try_lock` calls on the way to a `return` statement. -/
def Path.tries : Path → Nat
  | Path.zero => 0
  | Path.cache_split => 0
  | Path.cache_whole => 0
  | Path.pool_split => 1
  | Path.pool_whole => 1
  | _ => 2

/-- The number of `sbrk` calls on the way to a `return` statement. -/
def Path.sbrks : Path → Nat
  | Path.zero => 0
  | Path.cache_split => 0
  | Path.cache_whole => 0
  | Path.pool_split => 0
  | Path.pool_whole => 0
  | _ => 1

/-- The conclusion of the refinement theorems for `malloc`: when the break
may move to `nb` the call returns what the block-level `malloc` says, and
otherwise the call does not return. -/
def MallocOk (base : Nat) (st : State) (A : Abs) (ao : Option AOut) (nb : Nat)
    (r : Option (Nat × Path × State)) (tries : Nat) : Prop :=
  (nb + 1 < W64 →
    ∃ o st', ao = some o ∧ o.brk = nb ∧ o.path.tries = tries ∧
      r = some (o.blk.addr + meta_size, o.path, st') ∧
      Rep st' o.abs ∧ AInv base st'.brk o.abs ∧ st'.brk = o.brk ∧
      Frame (A.ca ++ A.po) st.brk st.mem st'.mem ∧
      st'.ntry = st.ntry + tries ∧ st'.nsbrk = st.nsbrk + o.path.sbrks) ∧
  (¬ nb + 1 < W64 → r = none)

/-- The number of bytes requested from the heap extender. -/
def growBy (size : Nat) : Nat :=
  if size > chunk_size - meta_size then 2 * size + 32 else 65536

/-- The break after `malloc` on blocks: it moves only on the growth paths. -/
def abrk (brk : Nat) (t1 : Bool) (size : Nat) (A : Abs) : Nat :=
  match (splitFit size A.ca).2 with
  | _ :: _ => brk
  | [] =>
    match (if t1 then (splitFit size A.po).2 else []) with
    | _ :: _ => brk
    | [] => brk + growBy size

/-- Memory `m2` agrees with `m` outside `[lo, hi)`. -/
def SameR (lo hi : Nat) (m m2 : Mem) : Prop := ∀ x, x < lo ∨ hi ≤ x → m2 x = m x

/-- The `return` statements that follow a split. -/
def Path.isSplit : Path → Bool
  | Path.pool_split => true
  | Path.merge_split => true
  | Path.tail_split => true
  | Path.head_split => true
  | Path.cache_split => true
  | _ => false

/-- The free block right behind `b` in the cache, if it makes `size` fit. -/
def growBlk (b : Blk) (size : Nat) (ca : List Blk) : Option Blk :=
  match (splitAddr b.addr ca).2 with
  | [] => none
  | c :: _ => if b.addr + 16 + b.size = c.addr ∧ size ≤ b.size + 16 + c.size then some c else none

/-- The single-thread executions. `Reach base st L`: the state `st` is reached
from the initial state (both lists empty, heap empty, break at `base`) by a
finite sequence of `malloc`, `calloc`, `realloc` and `free` calls and of
stores of the program into live payloads; `L` lists the live pointers. Every
`try_lock` outcome is arbitrary, `free` and `realloc` are given null or a live
pointer, and no request is so large that a `size_t` computation wraps. -/
inductive Reach (base : Nat) : State → List Nat → Prop
  | init (m0 : Mem) : 0 < base → base + 1 < W64 → Reach base (init base m0) []
  | malloc {st : State} {L : List Nat} (fuel : Nat) (t1 t2 : Bool) (s p : Nat) (path : Path)
      (st' : State) : Reach base st L → 2 * s + 80 < W64 →
      malloc fuel t1 t2 s st = some (p, path, st') →
      Reach base st' (if p = 0 then L else p :: L)
  | calloc {st : State} {L : List Nat} (fuel : Nat) (t1 t2 : Bool) (a k p : Nat)
      (st' : State) : Reach base st L → 2 * (a * k) + 80 < W64 →
      calloc fuel t1 t2 a k st = some (p, st') →
      Reach base st' (if p = 0 then L else p :: L)
  | free {st : State} {L : List Nat} (fuel p : Nat) (st' : State) : Reach base st L →
      p = 0 ∨ p ∈ L → free fuel p st = some st' → Reach base st' (L.erase p)
  | realloc {st : State} {L : List Nat} (fuel : Nat) (t1 t2 : Bool) (p s q : Nat)
      (st' : State) : Reach base st L → p = 0 ∨ p ∈ L → 2 * s + 80 < W64 →
      realloc fuel t1 t2 p s st = some (q, st') →
      Reach base st' (if q = 0 then L.erase p else q :: L.erase p)
  | store {st : State} {L : List Nat} (p i v : Nat) : Reach base st L → p ∈ L →
      i < st.size (p - meta_size) →
      Reach base { st with mem := fun x => if x = p + i then v else st.mem x } L

/-- The representation invariant: the memory represents block lists `A` that
tile the heap, and the live pointers are the payload addresses of the live
blocks. -/
def Inv (base : Nat) (st : State) (L : List Nat) : Prop :=
  ∃ A : Abs, Rep st A ∧ AInv base st.brk A ∧ L.Perm (A.lv.map Blk.ptr)

/-- A fresh thread: heap at address 4096, memory all zero. -/
def demo0 : State := init 4096 (fun _ => 0)

/-- The state after `malloc(100)` on a fresh thread, both `try_lock` calls
succeeding. -/
def demo1 : State :=
  match malloc 8 true true 100 demo0 with
  | some (_, _, st) => st
  | none => demo0

/-- The state after `malloc(16)` on a fresh thread when the donation
`try_lock` fails: the retained chunk spans both chunks, and the remainder of
the split ends at the break. -/
def demo2 : State :=
  match malloc 8 true false 16 demo0 with
  | some (_, _, st) => st
  | none => demo0

/-- How a call changes the global list: blocks are unlinked, or one block
that lies at or behind the old break is pushed at the head. -/
def PoolStep (brk : Nat) (po po2 : List Blk) : Prop :=
  po2.Sublist po ∨ ∃ hd : Blk, po2 = hd :: po ∧ brk ≤ hd.addr

/-- The representation invariant together with the order of the global list:
strictly descending header addresses. -/
def InvPool (base : Nat) (st : State) (L : List Nat) : Prop :=
  ∃ A : Abs, Rep st A ∧ AInv base st.brk A ∧ L.Perm (A.lv.map Blk.ptr) ∧
    A.po.Pairwise (fun x y => y.addr < x.addr)

/-- The state after `malloc(100)` and then `malloc(40000)` on a fresh thread
whose heap starts at 4096; the first call donates the upper half of its
chunk, the second call skips the probe of the global list (its `try_lock`
fails) and donates the upper half of its region. -/
def demo3 : State :=
  match malloc 8 false true 40000 demo1 with
  | some (_, _, st) => st
  | none => demo1

/-- The `return` statements of the small growth path that lie inside the
branch `cur != local_head` of line 194, that is, behind the left-merge test
of line 197, which reads `pre->size`. -/
def Path.testsPre : Path → Bool
  | Path.merge_split => true
  | Path.merge_whole => true
  | Path.tail_split => true
  | Path.tail_whole => true
  | _ => false

/-- The state after `malloc(100)` (donation succeeds) and then `malloc(32700)`
(the probe's `try_lock` fails) on a fresh thread whose heap starts at 4096. -/
def demo4 : State :=
  match malloc 8 false true 32700 demo1 with
  | some (_, _, st) => st
  | none => demo1

/-- The set of addresses covered by the extents of the blocks `l`. -/
def extents (l : List Blk) : Finset Nat :=
  l.foldr (fun b acc => Finset.Ico b.addr (b.addr + 16 + b.size) ∪ acc) ∅

/-- The state after `a = malloc(16); b = malloc(16); free(a); free(b)` on a
fresh thread whose heap starts at 4096, with every `try_lock` succeeding. -/
def demo5 : State :=
  match malloc 8 true true 16 demo0 with
  | none => demo0
  | some (a, _, st1) =>
    match malloc 8 true true 16 st1 with
    | none => st1
    | some (b, _, st2) =>
      match free 8 a st2 with
      | none => st2
      | some st3 =>
        match free 8 b st3 with
        | none => st3
        | some st4 => st4

/-! ## Theorems -/

theorem land_mask_eq (x : Nat) (hx : x < W64) : x &&& (W64 - 1 - 7) = x / 8 * 8 := by
  apply Nat.eq_of_testBit_eq
  intro i
  have hm : (W64 - 1 - 7 : Nat) = 2 ^ 3 * (2 ^ 61 - 1) := by norm_num [W64]
  rw [Nat.testBit_land, hm, Nat.mul_comm (x / 8) 8]
  have h8 : (8 : Nat) = 2 ^ 3 := by norm_num
  rw [h8, Nat.testBit_mul_pow_two, Nat.testBit_mul_pow_two, Nat.testBit_two_pow_sub_one,
    ← Nat.shiftRight_eq_div_pow, Nat.testBit_shiftRight]
  by_cases h3 : 3 ≤ i
  · simp only [h3, decide_True, Bool.true_and]
    have e : 3 + (i - 3) = i := by omega
    rw [e]
    by_cases h64 : i - 3 < 61
    · simp [h64]
    · simp only [h64, decide_False, Bool.and_false]
      symm
      apply Nat.testBit_lt_two_pow
      have : 2 ^ 64 ≤ 2 ^ i := Nat.pow_le_pow_right (by norm_num) (by omega)
      have hw : W64 = 2 ^ 64 := by norm_num [W64]
      omega
  · simp [h3]

theorem size_align_eq (s : Nat) : size_align s = (s + 7) % W64 / 8 * 8 := by
  unfold size_align
  exact land_mask_eq _ (Nat.mod_lt _ (by norm_num [W64]))

theorem size_align_of_lt (s : Nat) (h : s + 7 < W64) : size_align s = (s + 7) / 8 * 8 := by
  rw [size_align_eq, Nat.mod_eq_of_lt h]

theorem readW_writeW_same (m : Mem) (a v : Nat) : readW (writeW m a v) a = v % W64 := by
  unfold readW writeW W64
  simp only [Nat.le_refl, Nat.le_add_right, Nat.lt_add_of_pos_right, Nat.add_lt_add_iff_left,
    Nat.sub_self, Nat.add_sub_cancel_left, and_self, if_true, true_and, Nat.pow_zero,
    Nat.div_one, Nat.reduceLT, Nat.reducePow, Nat.lt_add_right_iff_pos, Nat.ofNat_pos, ↓reduceIte,
    pow_one, Nat.mod_mod]
  omega

theorem readW_writeW_disj (m : Mem) (a b v : Nat) (h : b + 8 ≤ a ∨ a + 8 ≤ b) :
    readW (writeW m a v) b = readW m b := by
  unfold readW writeW
  have e : ∀ i, i < 8 → ¬ (a ≤ b + i ∧ b + i < a + 8) := by intro i hi; omega
  have e0 : ¬ (a ≤ b ∧ b < a + 8) := by omega
  simp only [e0, e 1 (by omega), e 2 (by omega), e 3 (by omega), e 4 (by omega), e 5 (by omega),
    e 6 (by omega), e 7 (by omega), if_false]

theorem writeW_out (m : Mem) (a v x : Nat) (h : x < a ∨ a + 8 ≤ x) : writeW m a v x = m x := by
  unfold writeW
  have : ¬ (a ≤ x ∧ x < a + 8) := by omega
  simp [this]

theorem readW_lt (m : Mem) (a : Nat) : readW m a < W64 := by
  unfold readW W64
  omega

theorem readW_congr (m m2 : Mem) (a : Nat) (h : ∀ x, a ≤ x → x < a + 8 → m2 x = m x) :
    readW m2 a = readW m a := by
  unfold readW
  rw [h a (by omega) (by omega), h (a + 1) (by omega) (by omega), h (a + 2) (by omega) (by omega),
    h (a + 3) (by omega) (by omega), h (a + 4) (by omega) (by omega),
    h (a + 5) (by omega) (by omega), h (a + 6) (by omega) (by omega),
    h (a + 7) (by omega) (by omega)]

theorem addw_eq (a b : Nat) (h : a + b < W64) : addw a b = a + b := Nat.mod_eq_of_lt h

theorem subw_eq (a b : Nat) (ha : a < W64) (h : b ≤ a) : subw a b = a - b := by
  unfold subw W64 at *
  omega

theorem mulw_eq (a b : Nat) (h : a * b < W64) : mulw a b = a * b := Nat.mod_eq_of_lt h

theorem Same.refl (W : List Nat) (m : Mem) : Same W m m := fun _ _ => rfl

theorem Same.trans_same {W : List Nat} {m m2 m3 : Mem} (h1 : Same W m m2) (h2 : Same W m2 m3) :
    Same W m m3 := fun x hx => (h2 x hx).trans (h1 x hx)

theorem Same.mono_same {W W2 : List Nat} {m m2 : Mem} (h : Same W m m2) (hs : ∀ w ∈ W, w ∈ W2) :
    Same W2 m m2 := fun x hx => h x (fun w hw => hx w (hs w hw))

theorem Same.size {W : List Nat} {m m2 : Mem} (h : Same W m m2) (w v : Nat) (hw : w ∈ W) :
    Same W m (writeW m2 w v) := by
  intro x hx
  have := hx w hw
  rw [writeW_out _ _ _ _ (by omega)]
  exact h x hx

theorem Same.next {W : List Nat} {m m2 : Mem} (h : Same W m m2) (w v : Nat) (hw : w ∈ W) :
    Same W m (writeW m2 (w + 8) v) := by
  intro x hx
  have := hx w hw
  rw [writeW_out _ _ _ _ (by omega)]
  exact h x hx

theorem Same.read {W : List Nat} {m m2 : Mem} (h : Same W m m2) (a : Nat)
    (ha : ∀ w ∈ W, a + 8 ≤ w ∨ w + 16 ≤ a) : readW m2 a = readW m a := by
  apply readW_congr
  intro x h1 h2
  apply h
  intro w hw
  have := ha w hw
  omega

theorem Same.hdr {W : List Nat} {m m2 : Mem} (h : Same W m m2) (a : Nat)
    (ha : ∀ w ∈ W, HSep a w) :
    readW m2 a = readW m a ∧ readW m2 (a + 8) = readW m (a + 8) := by
  constructor
  · apply h.read
    intro w hw; have := ha w hw; unfold HSep at this; omega
  · apply h.read
    intro w hw; have := ha w hw; unfold HSep at this; omega

theorem BSeg.frame_seg {W : List Nat} {m m2 : Mem} (hs : Same W m m2) :
    ∀ {l : List Blk} {h t : Nat}, (∀ b ∈ l, ∀ w ∈ W, HSep b.addr w) →
      BSeg m h l t → BSeg m2 h l t := by
  intro l
  induction l with
  | nil => intro h t _ hb; exact hb
  | cons b l ih =>
    intro h t hsep hb
    obtain ⟨h1, h2, h3, h4⟩ := hb
    have hb := hs.hdr b.addr (hsep b (List.mem_cons_self _ _))
    refine ⟨h1, h2, hb.1.trans h3, ?_⟩
    rw [hb.2]
    exact ih (fun c hc => hsep c (List.mem_cons_of_mem _ hc)) h4

theorem BSeg.append {m : Mem} : ∀ {l1 l2 : List Blk} {h t : Nat},
    BSeg m h (l1 ++ l2) t ↔ ∃ k, BSeg m h l1 k ∧ BSeg m k l2 t := by
  intro l1
  induction l1 with
  | nil =>
    intro l2 h t
    simp only [List.nil_append, BSeg]
    constructor
    · intro hb; exact ⟨h, rfl, hb⟩
    · rintro ⟨k, rfl, hb⟩; exact hb
  | cons b l ih =>
    intro l2 h t
    constructor
    · intro hb
      obtain ⟨h1, h2, h3, h4⟩ := (hb : BSeg m h (b :: (l ++ l2)) t)
      obtain ⟨k, h5, h6⟩ := ih.1 h4
      exact ⟨k, ⟨h1, h2, h3, h5⟩, h6⟩
    · rintro ⟨k, ⟨h1, h2, h3, h4⟩, h5⟩
      exact ⟨h1, h2, h3, ih.2 ⟨k, h4, h5⟩⟩

theorem BSeg.head_eq {m : Mem} {l : List Blk} {h t : Nat} (hb : BSeg m h l t) :
    h = (l.map Blk.addr).headD t := by
  cases l with
  | nil => exact hb
  | cons b l => exact hb.1

theorem BSeg.sizes {m : Mem} : ∀ {l : List Blk} {h t : Nat}, BSeg m h l t →
    ∀ b ∈ l, readW m b.addr = b.size ∧ b.addr ≠ 0 := by
  intro l
  induction l with
  | nil => intro h t _ b hb; cases hb
  | cons c l ih =>
    intro h t hs b hb
    obtain ⟨_, h2, h3, h4⟩ := hs
    rcases List.mem_cons.1 hb with rfl | hb
    · exact ⟨h3, h2⟩
    · exact ih h4 b hb

theorem BSeg.unique {m : Mem} : ∀ {l l2 : List Blk} {h : Nat}, BSeg m h l 0 → BSeg m h l2 0 →
    l = l2 := by
  intro l
  induction l with
  | nil =>
    intro l2 h h1 h2
    cases l2 with
    | nil => rfl
    | cons c l2 =>
      simp only [BSeg] at h1 h2
      exact absurd (h2.1.symm.trans h1) h2.2.1
  | cons b l ih =>
    intro l2 h h1 h2
    cases l2 with
    | nil =>
      simp only [BSeg] at h1 h2
      exact absurd (h1.1.symm.trans h2) h1.2.1
    | cons c l2 =>
      obtain ⟨a1, _, a3, a4⟩ := h1
      obtain ⟨b1, _, b3, b4⟩ := h2
      have e : b.addr = c.addr := a1.symm.trans b1
      have e2 : b = c := by
        cases b; cases c
        simp only [Blk.mk.injEq] at *
        subst e
        exact ⟨rfl, a3.symm.trans b3⟩
      subst e2
      rw [ih a4 b4]

@[simp] theorem lastA_nil (d : Nat) : lastA [] d = d := rfl

@[simp] theorem lastA_cons (l : List Blk) (b : Blk) (d : Nat) :
    lastA (b :: l) d = lastA l b.addr := rfl

@[simp] theorem lastA_concat (l : List Blk) (b : Blk) (d : Nat) :
    lastA (l ++ [b]) d = b.addr := by
  induction l generalizing d with
  | nil => rfl
  | cons c l ih => simp [ih]

@[simp] theorem headA_nil : headA [] = 0 := rfl

@[simp] theorem headA_cons (l : List Blk) (b : Blk) : headA (b :: l) = b.addr := rfl

theorem addr_walk_spec (st : State) (mid : Nat) :
    ∀ (l1 l2 : List Blk) (fuel pre h : Nat), BSeg st.mem h (l1 ++ l2) 0 →
      (∀ b ∈ l1, b.addr ≤ mid) → (∀ b, l2.head? = some b → mid < b.addr) →
      l1.length < fuel →
      addr_walk st mid fuel pre h = some (lastA l1 pre, headA l2) := by
  intro l1
  induction l1 with
  | nil =>
    intro l2 fuel pre h hs _ h2 hf
    obtain ⟨fuel, rfl⟩ : ∃ f, fuel = f + 1 := ⟨fuel - 1, by simp at hf; omega⟩
    cases l2 with
    | nil =>
      simp only [List.nil_append, BSeg] at hs
      simp [addr_walk, hs]
    | cons c l2 =>
      obtain ⟨e, hz, _, _⟩ := hs
      have := h2 c rfl
      simp only [addr_walk, e, hz, if_false, lastA_nil, headA_cons]
      simp [this]
  | cons b l ih =>
    intro l2 fuel pre h hs h1 h2 hf
    obtain ⟨fuel, rfl⟩ : ∃ f, fuel = f + 1 := ⟨fuel - 1, by simp at hf; omega⟩
    obtain ⟨e, hz, _, hr⟩ := hs
    have hle := h1 b (List.mem_cons_self _ _)
    have : ¬ b.addr > mid := by omega
    simp only [addr_walk, e, hz, if_false, this, lastA_cons, State.next]
    exact ih l2 fuel b.addr _ hr (fun c hc => h1 c (List.mem_cons_of_mem _ hc)) h2
      (by simp at hf; omega)

@[simp] theorem penA_nil (pp p : Nat) : penA [] pp p = pp := rfl

@[simp] theorem penA_cons (l : List Blk) (b : Blk) (pp p : Nat) :
    penA (b :: l) pp p = penA l p b.addr := rfl

theorem penA_concat (l : List Blk) (b : Blk) (pp p : Nat) :
    penA (l ++ [b]) pp p = lastA l p := by
  induction l generalizing pp p with
  | nil => simp
  | cons c l ih => simp [ih]

theorem fit_walk_spec (st : State) (size : Nat) :
    ∀ (l1 l2 : List Blk) (fuel pp p h : Nat), BSeg st.mem h (l1 ++ l2) 0 →
      (∀ b ∈ l1, b.size < size) → (∀ b, l2.head? = some b → size ≤ b.size) →
      l1.length < fuel →
      fit_walk st size fuel pp p h = some (penA l1 pp p, lastA l1 p, headA l2) := by
  intro l1
  induction l1 with
  | nil =>
    intro l2 fuel pp p h hs _ h2 hf
    obtain ⟨fuel, rfl⟩ : ∃ f, fuel = f + 1 := ⟨fuel - 1, by simp at hf; omega⟩
    cases l2 with
    | nil =>
      simp only [List.nil_append, BSeg] at hs
      simp [fit_walk, hs]
    | cons c l2 =>
      obtain ⟨e, hz, hsz, _⟩ := hs
      have := h2 c rfl
      simp only [fit_walk, e, hz, if_false, lastA_nil, headA_cons, State.size, hsz, penA_nil]
      simp [this]
  | cons b l ih =>
    intro l2 fuel pp p h hs h1 h2 hf
    obtain ⟨fuel, rfl⟩ : ∃ f, fuel = f + 1 := ⟨fuel - 1, by simp at hf; omega⟩
    obtain ⟨e, hz, hsz, hr⟩ := hs
    have hle := h1 b (List.mem_cons_self _ _)
    have : ¬ b.size ≥ size := by omega
    simp only [fit_walk, e, hz, if_false, this, lastA_cons, State.next, State.size, hsz,
      penA_cons]
    exact ih l2 fuel p b.addr _ hr (fun c hc => h1 c (List.mem_cons_of_mem _ hc)) h2
      (by simp at hf; omega)

theorem addw_mod (a b : Nat) : addw a b % W64 = addw a b := Nat.mod_mod _ _

theorem subw_mod (a b : Nat) : subw a b % W64 = subw a b := Nat.mod_mod _ _

theorem mulw_mod (a b : Nat) : mulw a b % W64 = mulw a b := Nat.mod_mod _ _

theorem readW_mod (m : Mem) (a : Nat) : readW m a % W64 = readW m a :=
  Nat.mod_eq_of_lt (readW_lt m a)

theorem HSep.symm_sep {a b : Nat} (h : HSep a b) : HSep b a := Or.symm h

theorem pairwise_hsep_append {l1 l2 : List Blk} {c : Blk}
    (hp : ((l1 ++ c :: l2).map Blk.addr).Pairwise HSep) :
    (∀ b ∈ l1, HSep b.addr c.addr) ∧ (∀ b ∈ l2, HSep b.addr c.addr) ∧
    (∀ a ∈ l1, ∀ b ∈ l2, HSep a.addr b.addr) := by
  simp only [List.map_append, List.map_cons, List.pairwise_append, List.pairwise_cons,
    List.mem_map, List.mem_cons, forall_exists_index, and_imp, forall_apply_eq_imp_iff₂] at hp
  obtain ⟨_, ⟨h2, _⟩, h4⟩ := hp
  refine ⟨fun b hb => h4 b hb _ (Or.inl rfl), fun b hb => (h2 b hb).symm, ?_⟩
  intro a ha b hb
  exact h4 a ha _ (Or.inr ⟨b, hb, rfl⟩)

theorem mem_split_link (m : Mem) (sub p c v1 n size : Nat) (h1 : HSep sub p) (h2 : HSep sub c)
    (h3 : HSep p c) (hs : sub < W64) (hz : size < W64) :
    readW (writeW (writeW (writeW (writeW (writeW m sub v1) (sub + 8) n) (p + 8) sub) c size)
      (c + 8) 0) sub = v1 % W64 ∧
    readW (writeW (writeW (writeW (writeW (writeW m sub v1) (sub + 8) n) (p + 8) sub) c size)
      (c + 8) 0) (sub + 8) = n % W64 ∧
    readW (writeW (writeW (writeW (writeW (writeW m sub v1) (sub + 8) n) (p + 8) sub) c size)
      (c + 8) 0) p = readW m p ∧
    readW (writeW (writeW (writeW (writeW (writeW m sub v1) (sub + 8) n) (p + 8) sub) c size)
      (c + 8) 0) (p + 8) = sub ∧
    readW (writeW (writeW (writeW (writeW (writeW m sub v1) (sub + 8) n) (p + 8) sub) c size)
      (c + 8) 0) c = size ∧
    Same [sub, p, c] m (writeW (writeW (writeW (writeW (writeW m sub v1) (sub + 8) n) (p + 8) sub)
      c size) (c + 8) 0) := by
  refine ⟨?_, ?_, ?_, ?_, ?_, ?_⟩
  · simp (disch := omega) only [readW_writeW_same, readW_writeW_disj]
  · simp (disch := omega) only [readW_writeW_same, readW_writeW_disj]
  · simp (disch := omega) only [readW_writeW_same, readW_writeW_disj]
  · simp (disch := omega) only [readW_writeW_same, readW_writeW_disj, Nat.mod_eq_of_lt]
  · simp (disch := omega) only [readW_writeW_same, readW_writeW_disj, Nat.mod_eq_of_lt]
  · exact (((((Same.refl [sub, p, c] m).size sub v1 (by simp)).next sub n (by simp)).next p sub
      (by simp)).size c size (by simp)).next c 0 (by simp)

theorem mem_split_head (m : Mem) (sub c v1 n size : Nat) (h2 : HSep sub c)
    (hz : size < W64) :
    readW (writeW (writeW (writeW (writeW m sub v1) (sub + 8) n) c size) (c + 8) 0) sub
      = v1 % W64 ∧
    readW (writeW (writeW (writeW (writeW m sub v1) (sub + 8) n) c size) (c + 8) 0) (sub + 8)
      = n % W64 ∧
    readW (writeW (writeW (writeW (writeW m sub v1) (sub + 8) n) c size) (c + 8) 0) c = size ∧
    Same [sub, c] m (writeW (writeW (writeW (writeW m sub v1) (sub + 8) n) c size) (c + 8) 0) := by
  refine ⟨?_, ?_, ?_, ?_⟩
  · simp (disch := omega) only [readW_writeW_same, readW_writeW_disj]
  · simp (disch := omega) only [readW_writeW_same, readW_writeW_disj]
  · simp (disch := omega) only [readW_writeW_same, readW_writeW_disj, Nat.mod_eq_of_lt]
  · exact ((((Same.refl [sub, c] m).size sub v1 (by simp)).next sub n (by simp)).size c size
      (by simp)).next c 0 (by simp)

theorem mem_whole_link (m : Mem) (p c n : Nat) (h3 : HSep p c) :
    readW (writeW (writeW m (p + 8) n) (c + 8) 0) p = readW m p ∧
    readW (writeW (writeW m (p + 8) n) (c + 8) 0) (p + 8) = n % W64 ∧
    readW (writeW (writeW m (p + 8) n) (c + 8) 0) c = readW m c ∧
    Same [p, c] m (writeW (writeW m (p + 8) n) (c + 8) 0) := by
  refine ⟨?_, ?_, ?_, ?_⟩
  · simp (disch := omega) only [readW_writeW_same, readW_writeW_disj]
  · simp (disch := omega) only [readW_writeW_same, readW_writeW_disj]
  · simp (disch := omega) only [readW_writeW_same, readW_writeW_disj]
  · exact ((Same.refl [p, c] m).next p n (by simp)).next c 0 (by simp)

theorem sep_of_pairwise {l1 : List Blk} {pre : Blk} {L : List Blk}
    (hp : (((l1 ++ [pre]) ++ L).map Blk.addr).Pairwise HSep) :
    ∀ b ∈ l1, HSep b.addr pre.addr := by
  simp only [List.map_append, List.map_cons, List.pairwise_append, List.map_nil,
    List.pairwise_cons, List.mem_map, List.mem_cons, forall_exists_index, and_imp,
    forall_apply_eq_imp_iff₂, List.mem_append, List.mem_singleton] at hp
  intro b hb
  exact hp.1.2.2 b hb _ (Or.inl rfl)

theorem takeBlock_spec (st : State) (size : Nat) (l1 l2 : List Blk) (c : Blk)
    (k : Nat) (hA : BSeg st.mem st.local_head l1 k) (hcs : readW st.mem c.addr = c.size)
    (hC : BSeg st.mem (readW st.mem (c.addr + 8)) l2 0)
    (hp : ((l1 ++ c :: l2).map Blk.addr).Pairwise HSep)
    (hsub : c.size > addw size 16 →
      (∀ b ∈ l1 ++ c :: l2, HSep b.addr (c.addr + size + 16)) ∧ c.addr + size + 16 < W64)
    (hsz : size < W64) :
    BSeg (takeBlock st size (lastA l1 0) c.addr).mem
        (takeBlock st size (lastA l1 0) c.addr).local_head (l1 ++ (takeA size c).2 ++ l2) 0 ∧
    readW (takeBlock st size (lastA l1 0) c.addr).mem c.addr = (takeA size c).1.size ∧
    Same ((if c.size > addw size 16 then [c.addr + size + 16] else []) ++
      (l1 ++ c :: l2).map Blk.addr) st.mem (takeBlock st size (lastA l1 0) c.addr).mem ∧
    (takeBlock st size (lastA l1 0) c.addr).global_head = st.global_head ∧
    (takeBlock st size (lastA l1 0) c.addr).brk = st.brk ∧
    (takeBlock st size (lastA l1 0) c.addr).ntry = st.ntry ∧
    (takeBlock st size (lastA l1 0) c.addr).nsbrk = st.nsbrk := by
  obtain ⟨s1, s2, s3⟩ := pairwise_hsep_append hp
  by_cases hgt : c.size > addw size 16
  · -- split
    obtain ⟨hs1, hs2⟩ := hsub hgt
    have hsc := hs1 c (by simp)
    have hn : readW (writeW st.mem (c.addr + size + 16) (subw (subw c.size size) 16))
        (c.addr + 8) = readW st.mem (c.addr + 8) := readW_writeW_disj _ _ _ _ (by omega)
    rcases List.eq_nil_or_concat l1 with rfl | ⟨l1', pre, rfl⟩
    · simp only [BSeg] at hA
      simp only [takeBlock, takeA, meta_size, State.size, State.next, hcs, hgt, if_true,
        lastA_nil, ne_eq, not_true_eq_false, if_false, State.setSize, State.setNext,
        State.setLocal, List.nil_append, List.singleton_append, and_true, true_and, hn]
      obtain ⟨m1, m2, m3, m4⟩ := mem_split_head st.mem (c.addr + size + 16) c.addr
        (subw (subw c.size size) 16) (readW st.mem (c.addr + 8)) size hsc.symm hsz
      refine ⟨⟨rfl, Nat.succ_ne_zero _, ?_, ?_⟩, m3, ?_⟩
      · rw [m1, subw_mod]
      · simp only []
        rw [m2, readW_mod]
        refine BSeg.frame_seg m4 ?_ hC
        intro b hb w hw
        simp only [List.mem_cons, List.mem_singleton, List.not_mem_nil, or_false] at hw
        rcases hw with rfl | rfl
        · exact hs1 b (by simp [hb])
        · exact s2 b hb
      · refine m4.mono_same ?_
        intro w hw
        simp only [List.mem_cons, List.mem_singleton, List.not_mem_nil, or_false] at hw
        rcases hw with rfl | rfl <;> simp [hgt]
    · rw [List.concat_eq_append] at *
      obtain ⟨k2, hA1, hA2⟩ := BSeg.append.1 hA
      obtain ⟨hk2, hpz, hps, hpn⟩ := hA2
      simp only [BSeg] at hpn
      subst hk2
      have hpc := s1 pre (by simp)
      have hpsub := hs1 pre (by simp)
      simp only [takeBlock, takeA, meta_size, State.size, State.next, hcs, hgt, if_true,
        lastA_concat, ne_eq, hpz, not_false_eq_true, State.setSize, State.setNext,
        State.setLocal, and_true, true_and, hn]
      obtain ⟨m1, m2, m3, m4, m5, m6⟩ := mem_split_link st.mem (c.addr + size + 16) pre.addr
        c.addr (subw (subw c.size size) 16) (readW st.mem (c.addr + 8)) size hpsub.symm
        hsc.symm hpc hs2 hsz
      refine ⟨?_, m5, ?_⟩
      · simp only [List.append_assoc, List.singleton_append, List.cons_append, List.nil_append]
        refine BSeg.append.2 ⟨pre.addr, ?_, rfl, hpz, m3.trans hps, ?_⟩
        · refine BSeg.frame_seg m6 ?_ hA1
          intro b hb w hw
          simp only [List.mem_cons, List.mem_singleton, List.not_mem_nil, or_false] at hw
          rcases hw with rfl | rfl | rfl
          · exact hs1 b (by simp [hb])
          · exact sep_of_pairwise hp b hb
          · exact s1 b (by simp [hb])
        · rw [m4]
          refine ⟨rfl, Nat.succ_ne_zero _, ?_, ?_⟩
          · simp only []
            rw [m1, subw_mod]
          · simp only []
            rw [m2, readW_mod]
            refine BSeg.frame_seg m6 ?_ hC
            intro b hb w hw
            simp only [List.mem_cons, List.mem_singleton, List.not_mem_nil, or_false] at hw
            rcases hw with rfl | rfl | rfl
            · exact hs1 b (by simp [hb])
            · exact (s3 pre (by simp) b hb).symm
            · exact s2 b hb
      · refine m6.mono_same ?_
        intro w hw
        simp only [List.mem_cons, List.mem_singleton, List.not_mem_nil, or_false] at hw
        rcases hw with rfl | rfl | rfl <;> simp [hgt]
  · -- hand over the whole block
    rcases List.eq_nil_or_concat l1 with rfl | ⟨l1', pre, rfl⟩
    · simp only [BSeg] at hA
      simp only [takeBlock, takeA, meta_size, State.size, State.next, hcs, hgt, if_false,
        lastA_nil, ne_eq, not_true_eq_false, State.setSize, State.setNext,
        State.setLocal, List.nil_append, List.append_nil, and_true, true_and]
      have hW : Same [c.addr] st.mem (writeW st.mem (c.addr + 8) 0) :=
        (Same.refl [c.addr] st.mem).next c.addr 0 (by simp)
      refine ⟨?_, ?_, ?_⟩
      · refine BSeg.frame_seg hW ?_ hC
        intro b hb w hw
        simp only [List.mem_singleton] at hw
        subst hw
        exact s2 b hb
      · rw [readW_writeW_disj _ _ _ _ (by omega)]; exact hcs
      · exact hW.mono_same (by intro w hw; simp only [List.mem_singleton] at hw; subst hw; simp [hgt])
    · rw [List.concat_eq_append] at *
      obtain ⟨k2, hA1, hA2⟩ := BSeg.append.1 hA
      obtain ⟨hk2, hpz, hps, hpn⟩ := hA2
      simp only [BSeg] at hpn
      subst hk2
      have hpc := s1 pre (by simp)
      simp only [takeBlock, takeA, meta_size, State.size, State.next, hcs, hgt, if_false,
        lastA_concat, ne_eq, hpz, not_false_eq_true, State.setSize, State.setNext,
        State.setLocal, and_true, true_and, if_true, List.append_nil]
      obtain ⟨m1, m2, m3, m4⟩ := mem_whole_link st.mem pre.addr c.addr
        (readW st.mem (c.addr + 8)) hpc
      refine ⟨?_, m3.trans hcs, ?_⟩
      · simp only [List.append_assoc, List.singleton_append, List.cons_append, List.nil_append]
        refine BSeg.append.2 ⟨pre.addr, ?_, rfl, hpz, m1.trans hps, ?_⟩
        · refine BSeg.frame_seg m4 ?_ hA1
          intro b hb w hw
          simp only [List.mem_cons, List.mem_singleton, List.not_mem_nil, or_false] at hw
          rcases hw with rfl | rfl
          · exact sep_of_pairwise hp b hb
          · exact s1 b (by simp [hb])
        · rw [m2, readW_mod]
          refine BSeg.frame_seg m4 ?_ hC
          intro b hb w hw
          simp only [List.mem_cons, List.mem_singleton, List.not_mem_nil, or_false] at hw
          rcases hw with rfl | rfl
          · exact (s3 pre (by simp) b hb).symm
          · exact s2 b hb
      · refine m4.mono_same ?_
        intro w hw
        simp only [List.mem_cons, List.mem_singleton, List.not_mem_nil, or_false] at hw
        rcases hw with rfl | rfl <;> simp [hgt]

@[simp] theorem mergeL_nil (b : Blk) (r : List Blk) : mergeL [] b r = b :: r := rfl

theorem mergeL_concat (l : List Blk) (pre b : Blk) (r : List Blk) :
    mergeL (l ++ [pre]) b r =
      if pre.addr + meta_size + pre.size = b.addr
      then l ++ ⟨pre.addr, addw pre.size (addw meta_size b.size)⟩ :: r
      else l ++ [pre] ++ b :: r := by
  simp [mergeL, List.getLast?_concat, List.dropLast_concat]

theorem splitAddr_eq (mid : Nat) (l : List Blk) :
    (splitAddr mid l).1 ++ (splitAddr mid l).2 = l ∧
    (∀ b ∈ (splitAddr mid l).1, b.addr ≤ mid) ∧
    (∀ b, (splitAddr mid l).2.head? = some b → mid < b.addr) := by
  induction l with
  | nil => simp [splitAddr]
  | cons c l ih =>
    by_cases h : c.addr > mid
    · simp [splitAddr, h]
    · simp only [splitAddr, h, if_false, List.cons_append, ih.1, List.mem_cons, true_and]
      refine ⟨?_, ih.2.2⟩
      rintro b (rfl | hb)
      · omega
      · exact ih.2.1 b hb

theorem pairwise_cross {A B : List Blk} (hp : ((A ++ B).map Blk.addr).Pairwise HSep) :
    ∀ a ∈ A, ∀ b ∈ B, HSep a.addr b.addr := by
  rw [List.map_append, List.pairwise_append] at hp
  exact fun a ha b hb => hp.2.2 _ (List.mem_map_of_mem _ ha) _ (List.mem_map_of_mem _ hb)

theorem free_eq (fuel ptr : Nat) (st : State) :
    free fuel ptr st =
      if ptr = 0 then some st
      else match addr_walk st (ptr - meta_size) fuel 0 st.local_head with
        | none => none
        | some (pre, cur) =>
          some (mergeLeftC (mergeRightC (insertC st (ptr - meta_size) pre cur)
            (ptr - meta_size) cur) (ptr - meta_size) pre) := rfl

@[simp] theorem insertC_fields (st : State) (mid pre cur : Nat) :
    (insertC st mid pre cur).global_head = st.global_head ∧
    (insertC st mid pre cur).brk = st.brk ∧ (insertC st mid pre cur).ntry = st.ntry ∧
    (insertC st mid pre cur).nsbrk = st.nsbrk := by
  unfold insertC
  by_cases h : pre = 0 <;> simp [h, State.setNext, State.setLocal]

@[simp] theorem absorbC_fields (st : State) (x y : Nat) :
    (absorbC st x y).global_head = st.global_head ∧ (absorbC st x y).local_head = st.local_head ∧
    (absorbC st x y).brk = st.brk ∧ (absorbC st x y).ntry = st.ntry ∧
    (absorbC st x y).nsbrk = st.nsbrk := by
  simp [absorbC, State.setNext, State.setSize]

theorem insertC_spec (st : State) (mid msz : Nat) (l1 l2 : List Blk)
    (hl : BSeg st.mem st.local_head (l1 ++ l2) 0)
    (hm : readW st.mem mid = msz) (hmz : mid ≠ 0) (hmlt : mid < W64)
    (hclt : headA l2 < W64)
    (hp : ((l1 ++ l2).map Blk.addr).Pairwise HSep)
    (hs : ∀ b ∈ l1 ++ l2, HSep b.addr mid) :
    BSeg (insertC st mid (lastA l1 0) (headA l2)).mem
      (insertC st mid (lastA l1 0) (headA l2)).local_head (l1 ++ ⟨mid, msz⟩ :: l2) 0 ∧
    Same (mid :: (l1 ++ l2).map Blk.addr) st.mem (insertC st mid (lastA l1 0) (headA l2)).mem := by
  obtain ⟨k, hA, hB⟩ := BSeg.append.1 hl
  have hk : k = headA l2 := BSeg.head_eq hB
  subst hk
  rcases List.eq_nil_or_concat l1 with rfl | ⟨l1', pre, rfl⟩
  · simp only [insertC, lastA_nil, ne_eq, not_true_eq_false, if_false, State.setNext,
      State.setLocal, List.nil_append]
    have hW : Same [mid] st.mem (writeW st.mem (mid + 8) (headA l2)) :=
      (Same.refl [mid] st.mem).next mid _ (by simp)
    refine ⟨⟨rfl, hmz, ?_, ?_⟩, ?_⟩
    · simp only []
      rw [readW_writeW_disj _ _ _ _ (by omega)]; exact hm
    · simp only []
      rw [readW_writeW_same, Nat.mod_eq_of_lt hclt]
      refine BSeg.frame_seg hW ?_ hB
      intro b hb w hw
      simp only [List.mem_singleton] at hw
      subst hw
      exact hs b (by simp [hb])
    · exact hW.mono_same (by intro w hw; simp only [List.mem_singleton] at hw; subst hw; simp)
  · rw [List.concat_eq_append] at *
    obtain ⟨k2, hA1, hA2⟩ := BSeg.append.1 hA
    obtain ⟨hk2, hpz, hps, hpn⟩ := hA2
    simp only [BSeg] at hpn
    subst hk2
    have hpm : HSep pre.addr mid := hs pre (by simp)
    simp only [insertC, lastA_concat, ne_eq, hpz, not_false_eq_true, if_true, State.setNext]
    have hW : Same [mid, pre.addr] st.mem
        (writeW (writeW st.mem (mid + 8) (headA l2)) (pre.addr + 8) mid) :=
      ((Same.refl [mid, pre.addr] st.mem).next mid _ (by simp)).next pre.addr _ (by simp)
    refine ⟨?_, ?_⟩
    · simp only [List.append_assoc, List.singleton_append, List.cons_append, List.nil_append]
      refine BSeg.append.2 ⟨pre.addr, ?_, rfl, hpz, ?_, ?_⟩
      · refine BSeg.frame_seg hW ?_ hA1
        intro b hb w hw
        simp only [List.mem_cons, List.mem_singleton, List.not_mem_nil, or_false] at hw
        rcases hw with rfl | rfl
        · exact hs b (by simp [hb])
        · exact sep_of_pairwise hp b hb
      · simp (disch := omega) only [readW_writeW_same, readW_writeW_disj]
        exact hps
      · simp (disch := omega) only [readW_writeW_same, readW_writeW_disj, Nat.mod_eq_of_lt]
        refine ⟨rfl, hmz, ?_, ?_⟩
        · simp (disch := omega) only [readW_writeW_same, readW_writeW_disj]
          exact hm
        · simp (disch := omega) only [readW_writeW_same, readW_writeW_disj, Nat.mod_eq_of_lt]
          refine BSeg.frame_seg hW ?_ hB
          intro b hb w hw
          simp only [List.mem_cons, List.mem_singleton, List.not_mem_nil, or_false] at hw
          rcases hw with rfl | rfl
          · exact hs b (by simp [hb])
          · exact (pairwise_cross hp pre (by simp) b hb).symm
    · refine hW.mono_same ?_
      intro w hw
      simp only [List.mem_cons, List.mem_singleton, List.not_mem_nil, or_false] at hw
      rcases hw with rfl | rfl <;> simp

theorem absorbC_spec (st : State) (h t : Nat) (l1 r : List Blk) (x y : Blk)
    (hl : BSeg st.mem h (l1 ++ x :: y :: r) t)
    (hp : ((l1 ++ x :: y :: r).map Blk.addr).Pairwise HSep) :
    BSeg (absorbC st x.addr y.addr).mem h
      (l1 ++ ⟨x.addr, addw x.size (addw meta_size y.size)⟩ :: r) t ∧
    Same [x.addr, y.addr] st.mem (absorbC st x.addr y.addr).mem := by
  obtain ⟨k, hA, hB⟩ := BSeg.append.1 hl
  obtain ⟨hk, hxz, hxs, hB2⟩ := hB
  obtain ⟨hxn, hyz, hys, hC⟩ := hB2
  subst hk
  have hp2 := hp
  simp only [List.map_append, List.map_cons, List.pairwise_append, List.map_nil,
    List.pairwise_cons, List.mem_map, List.mem_cons, forall_exists_index, and_imp,
    forall_apply_eq_imp_iff₂, List.mem_append, List.mem_singleton, forall_eq_or_imp] at hp2
  obtain ⟨_, ⟨⟨hxy, hxr⟩, hyr, _⟩, hlx⟩ := hp2
  have hn : readW (writeW st.mem x.addr (addw x.size (addw 16 y.size))) (y.addr + 8)
      = readW st.mem (y.addr + 8) := readW_writeW_disj _ _ _ _ (by omega)
  simp only [absorbC, State.setSize, State.setNext, State.size, State.next, hxs, hys, meta_size,
    hn]
  have hW : Same [x.addr, y.addr] st.mem (writeW (writeW (writeW st.mem x.addr
      (addw x.size (addw 16 y.size))) (x.addr + 8) (readW st.mem (y.addr + 8))) (y.addr + 8) 0) :=
    (((Same.refl [x.addr, y.addr] st.mem).size x.addr _ (by simp)).next x.addr _
      (by simp)).next y.addr _ (by simp)
  refine ⟨BSeg.append.2 ⟨x.addr, ?_, rfl, hxz, ?_, ?_⟩, hW⟩
  · refine BSeg.frame_seg hW ?_ hA
    intro b hb w hw
    simp only [List.mem_cons, List.mem_singleton, List.not_mem_nil, or_false] at hw
    rcases hw with rfl | rfl
    · exact (hlx b hb).1
    · exact (hlx b hb).2.1
  · simp (disch := omega) only [readW_writeW_same, readW_writeW_disj, addw_mod]
  · simp (disch := omega) only [readW_writeW_same, readW_writeW_disj, readW_mod]
    refine BSeg.frame_seg hW ?_ hC
    intro b hb w hw
    simp only [List.mem_cons, List.mem_singleton, List.not_mem_nil, or_false] at hw
    rcases hw with rfl | rfl
    · exact (hxr b hb).symm
    · exact (hyr b hb).symm


theorem BSeg.node {m : Mem} {l1 r : List Blk} {x : Blk} {h t : Nat}
    (hl : BSeg m h (l1 ++ x :: r) t) :
    x.addr ≠ 0 ∧ readW m x.addr = x.size ∧ readW m (x.addr + 8) = (r.map Blk.addr).headD t := by
  obtain ⟨k, _, hB⟩ := BSeg.append.1 hl
  obtain ⟨_, hz, hs, hC⟩ := hB
  exact ⟨hz, hs, BSeg.head_eq hC⟩

theorem pairwise_insert {l1 l2 : List Blk} {b : Blk}
    (hp : ((l1 ++ l2).map Blk.addr).Pairwise HSep) (hs : ∀ c ∈ l1 ++ l2, HSep c.addr b.addr) :
    ((l1 ++ b :: l2).map Blk.addr).Pairwise HSep := by
  rw [List.map_append, List.pairwise_append] at hp
  rw [List.map_append, List.map_cons, List.pairwise_append, List.pairwise_cons]
  refine ⟨hp.1, ⟨?_, hp.2.1⟩, ?_⟩
  · intro a ha
    obtain ⟨c, hc, rfl⟩ := List.mem_map.1 ha
    exact (hs c (by simp [hc])).symm
  · intro a ha a2 ha2
    rcases List.mem_cons.1 ha2 with rfl | h2
    · obtain ⟨c, hc, rfl⟩ := List.mem_map.1 ha
      exact hs c (by simp [hc])
    · exact hp.2.2 a ha a2 h2

theorem mergeRightC_spec (st : State) (l1 l2 : List Blk) (b : Blk)
    (hl : BSeg st.mem st.local_head (l1 ++ b :: l2) 0)
    (hp : ((l1 ++ b :: l2).map Blk.addr).Pairwise HSep) :
    BSeg (mergeRightC st b.addr (headA l2)).mem (mergeRightC st b.addr (headA l2)).local_head
      (l1 ++ (mergeR b l2).1 :: (mergeR b l2).2) 0 ∧
    Same ((l1 ++ b :: l2).map Blk.addr) st.mem (mergeRightC st b.addr (headA l2)).mem ∧
    (mergeR b l2).1.addr = b.addr ∧
    (mergeRightC st b.addr (headA l2)).global_head = st.global_head ∧
    (mergeRightC st b.addr (headA l2)).brk = st.brk ∧
    (mergeRightC st b.addr (headA l2)).ntry = st.ntry ∧
    (mergeRightC st b.addr (headA l2)).nsbrk = st.nsbrk := by
  obtain ⟨hbz, hbs, hbn⟩ := hl.node
  cases l2 with
  | nil =>
    simp only [List.map_nil, List.headD_nil] at hbn
    simp only [mergeRightC, State.next, hbn, ne_eq, not_true_eq_false, if_false, mergeR,
      and_true]
    exact ⟨hl, Same.refl _ _⟩
  | cons c l2 =>
    simp only [List.map_cons, List.headD_cons] at hbn
    obtain ⟨hcz, _, _⟩ := (show BSeg st.mem st.local_head ((l1 ++ [b]) ++ c :: l2) 0 by
      simpa using hl).node
    by_cases hadj : b.addr + meta_size + b.size = c.addr
    · simp only [mergeRightC, State.next, hbn, ne_eq, hcz, not_false_eq_true, if_true,
        State.size, hbs, headA_cons, hadj, mergeR, absorbC_fields, and_true]
      obtain ⟨a1, a2⟩ := absorbC_spec st st.local_head 0 l1 l2 b c hl hp
      refine ⟨a1, a2.mono_same ?_⟩
      intro w hw
      simp only [List.mem_cons, List.mem_singleton, List.not_mem_nil, or_false] at hw
      rcases hw with rfl | rfl <;> simp
    · simp only [mergeRightC, State.next, hbn, ne_eq, hcz, not_false_eq_true, if_true,
        State.size, hbs, headA_cons, hadj, mergeR, if_false, and_true]
      exact ⟨hl, Same.refl _ _⟩

theorem mergeLeftC_spec (st : State) (l1 r : List Blk) (b : Blk)
    (hl : BSeg st.mem st.local_head (l1 ++ b :: r) 0)
    (hp : ((l1 ++ b :: r).map Blk.addr).Pairwise HSep) :
    BSeg (mergeLeftC st b.addr (lastA l1 0)).mem (mergeLeftC st b.addr (lastA l1 0)).local_head
      (mergeL l1 b r) 0 ∧
    Same ((l1 ++ b :: r).map Blk.addr) st.mem (mergeLeftC st b.addr (lastA l1 0)).mem ∧
    (mergeLeftC st b.addr (lastA l1 0)).global_head = st.global_head ∧
    (mergeLeftC st b.addr (lastA l1 0)).brk = st.brk ∧
    (mergeLeftC st b.addr (lastA l1 0)).ntry = st.ntry ∧
    (mergeLeftC st b.addr (lastA l1 0)).nsbrk = st.nsbrk := by
  rcases List.eq_nil_or_concat l1 with rfl | ⟨l1', pre, rfl⟩
  · have hh : st.local_head = b.addr := hl.1
    simp only [mergeLeftC, hh, ne_eq, not_true_eq_false, if_false, mergeL_nil, and_true]
    refine ⟨?_, Same.refl _ _⟩
    rw [← hh]
    exact hl
  · rw [List.concat_eq_append] at *
    have hl2 : BSeg st.mem st.local_head (l1' ++ pre :: b :: r) 0 := by simpa using hl
    have hp2 : ((l1' ++ pre :: b :: r).map Blk.addr).Pairwise HSep := by simpa using hp
    obtain ⟨hpz, hps, _⟩ := hl2.node
    have hne : b.addr ≠ st.local_head := by
      have hh := BSeg.head_eq hl2
      have hpb : HSep pre.addr b.addr := pairwise_cross hp pre (by simp) b (by simp)
      cases l1' with
      | nil =>
        simp only [List.nil_append, List.map_cons, List.headD_cons] at hh
        omega
      | cons a l1' =>
        simp only [List.cons_append, List.map_cons, List.headD_cons] at hh
        have := pairwise_cross hp a (by simp) b (by simp)
        omega
    by_cases hadj : pre.addr + meta_size + pre.size = b.addr
    · simp only [mergeLeftC, ne_eq, hne, not_false_eq_true, if_true, lastA_concat, State.size, hps,
        hadj, mergeL_concat, absorbC_fields, and_true]
      obtain ⟨a1, a2⟩ := absorbC_spec st st.local_head 0 l1' r pre b hl2 hp2
      refine ⟨a1, a2.mono_same ?_⟩
      intro w hw
      simp only [List.mem_cons, List.mem_singleton, List.not_mem_nil, or_false] at hw
      rcases hw with rfl | rfl <;> simp
    · simp only [mergeLeftC, ne_eq, hne, not_false_eq_true, if_true, lastA_concat, State.size, hps,
        hadj, mergeL_concat, if_false, and_true]
      exact ⟨hl, Same.refl _ _⟩

theorem free_spec (st : State) (fuel mid msz : Nat) (ca : List Blk)
    (hl : BSeg st.mem st.local_head ca 0)
    (hm : readW st.mem mid = msz) (hmz : mid ≠ 0) (hmlt : mid < W64)
    (hlt : ∀ b ∈ ca, b.addr < W64)
    (hp : (ca.map Blk.addr).Pairwise HSep) (hs : ∀ b ∈ ca, HSep b.addr mid)
    (hf : ca.length < fuel) :
    ∃ st', free fuel (mid + meta_size) st = some st' ∧
      BSeg st'.mem st'.local_head (ains ⟨mid, msz⟩ ca) 0 ∧
      Same (mid :: ca.map Blk.addr) st.mem st'.mem ∧
      st'.global_head = st.global_head ∧ st'.brk = st.brk ∧ st'.ntry = st.ntry ∧
      st'.nsbrk = st.nsbrk := by
  obtain ⟨he, h1, h2⟩ := splitAddr_eq mid ca
  unfold ains
  generalize (splitAddr mid ca).1 = l1 at he h1
  generalize (splitAddr mid ca).2 = l2 at he h2
  subst he
  have hw := addr_walk_spec st mid l1 l2 fuel 0 st.local_head hl h1 h2
    (by simp at hf; omega)
  have hptr : mid + meta_size ≠ 0 := by simp [meta_size]
  rw [free_eq, if_neg hptr, Nat.add_sub_cancel, hw]
  refine ⟨_, rfl, ?_⟩
  have hclt : headA l2 < W64 := by
    cases l2 with
    | nil => simp [W64]
    | cons c l2 => exact hlt c (by simp)
  obtain ⟨i1, i2⟩ := insertC_spec st mid msz l1 l2 hl hm hmz hmlt hclt hp hs
  have hp1 : ((l1 ++ (⟨mid, msz⟩ : Blk) :: l2).map Blk.addr).Pairwise HSep :=
    pairwise_insert hp hs
  obtain ⟨f1, f2, f3, f4⟩ := insertC_fields st mid (lastA l1 0) (headA l2)
  generalize insertC st mid (lastA l1 0) (headA l2) = st2 at i1 i2 f1 f2 f3 f4
  obtain ⟨r1, r2, r3, g1, g2, g3, g4⟩ := mergeRightC_spec st2 l1 l2 ⟨mid, msz⟩ i1 hp1
  have hsub : List.Sublist
      ((l1 ++ (mergeR ⟨mid, msz⟩ l2).1 :: (mergeR ⟨mid, msz⟩ l2).2).map Blk.addr)
      ((l1 ++ (⟨mid, msz⟩ : Blk) :: l2).map Blk.addr) := by
    cases l2 with
    | nil => simp [mergeR]
    | cons c l2 =>
      by_cases hadj : mid + meta_size + msz = c.addr
      · simp only [mergeR, hadj, if_true, List.map_append, List.map_cons]
        exact List.Sublist.append_left (List.Sublist.cons₂ _ (List.sublist_cons_self _ _)) _
      · simp [mergeR, hadj]
  have hp2 := hp1.sublist hsub
  simp only [] at r1 r2 g1 g2 g3 g4
  generalize mergeRightC st2 mid (headA l2) = st3 at r1 r2 g1 g2 g3 g4
  generalize (mergeR ⟨mid, msz⟩ l2).2 = r at r1 r3 hp2 hsub
  generalize (mergeR ⟨mid, msz⟩ l2).1 = b2 at r1 r3 hp2 hsub
  simp only [] at r3
  subst r3
  obtain ⟨q1, q2, k1, k2, k3, k4⟩ := mergeLeftC_spec st3 l1 r b2 r1 hp2
  refine ⟨q1, ?_, by rw [k1, g1, f1], by rw [k2, g2, f2], by rw [k3, g3, f3],
    by rw [k4, g4, f4]⟩
  have e1 : ∀ w ∈ (l1 ++ (⟨b2.addr, msz⟩ : Blk) :: l2).map Blk.addr,
      w ∈ b2.addr :: (l1 ++ l2).map Blk.addr := by
    intro w hw
    simp only [List.map_append, List.map_cons, List.mem_append, List.mem_cons] at hw ⊢
    rcases hw with h | h | h
    · exact Or.inr (Or.inl h)
    · exact Or.inl h
    · exact Or.inr (Or.inr h)
  refine (i2.trans_same (r2.mono_same e1)).trans_same (q2.mono_same ?_)
  intro w hw
  exact e1 w (hsub.subset hw)

theorem Disj.symm_disj {a b : Blk} (h : Disj a b) : Disj b a := Or.symm h

theorem disj_symmetric : Symmetric Disj := fun _ _ h => h.symm

theorem Disj.hsep {a b : Blk} (h : Disj a b) : HSep a.addr b.addr := by
  unfold Disj at h; unfold HSep; omega

@[simp] theorem tot_nil : tot [] = 0 := rfl

@[simp] theorem tot_cons (b : Blk) (l : List Blk) : tot (b :: l) = 16 + b.size + tot l := by
  simp [tot]

@[simp] theorem tot_append (l1 l2 : List Blk) : tot (l1 ++ l2) = tot l1 + tot l2 := by
  simp [tot]

theorem tot_perm {l1 l2 : List Blk} (h : l1.Perm l2) : tot l1 = tot l2 := by
  unfold tot
  exact (h.map _).sum_eq

theorem Tiles.perm {base brk : Nat} {l1 l2 : List Blk} (h : l1.Perm l2) (t : Tiles base brk l1) :
    Tiles base brk l2 :=
  ⟨fun b hb => t.good b (h.mem_iff.2 hb), (h.pairwise_iff (fun h => Disj.symm_disj h)).1 t.disj,
    by rw [← tot_perm h]; exact t.total⟩

theorem Good.mono_good {base brk brk2 : Nat} {b : Blk} (g : Good base brk b) (h : brk ≤ brk2) :
    Good base brk2 b := ⟨g.al, g.lo, le_trans g.hi h, g.rel⟩

/-- A block is split in two. -/
theorem Tiles.split {base brk : Nat} {c : Blk} {r : List Blk} (t : Tiles base brk (c :: r))
    (s : Nat) (hal : s % 8 = 0) (hlt : s + 16 < c.size) :
    Tiles base brk (⟨c.addr, s⟩ :: ⟨c.addr + s + 16, c.size - s - 16⟩ :: r) := by
  have gc := t.good c (by simp)
  have hd := t.disj
  rw [List.pairwise_cons] at hd
  refine ⟨?_, ?_, ?_⟩
  · intro b hb
    simp only [List.mem_cons] at hb
    rcases hb with rfl | rfl | hb
    · exact ⟨hal, gc.lo, by show c.addr + 16 + s ≤ brk; have := gc.hi; omega, gc.rel⟩
    · refine ⟨?_, ?_, ?_, ?_⟩
      · show (c.size - s - 16) % 8 = 0; have := gc.al; omega
      · show base ≤ c.addr + s + 16; have := gc.lo; omega
      · show c.addr + s + 16 + 16 + (c.size - s - 16) ≤ brk; have := gc.hi; omega
      · show (c.addr + s + 16 - base) % 8 = 0; have := gc.rel; have := gc.lo; omega
    · exact t.good b (by simp [hb])
  · simp only [List.pairwise_cons, List.mem_cons]
    refine ⟨?_, ?_, hd.2⟩
    · rintro b (rfl | hb)
      · show c.addr + 16 + s ≤ c.addr + s + 16 ∨ _; omega
      · have := hd.1 b hb
        show c.addr + 16 + s ≤ b.addr ∨ b.addr + 16 + b.size ≤ c.addr
        omega
    · intro b hb
      have := hd.1 b hb
      show c.addr + s + 16 + 16 + (c.size - s - 16) ≤ b.addr ∨ b.addr + 16 + b.size ≤ c.addr + s + 16
      omega
  · have := t.total
    simp only [tot_cons] at this ⊢
    omega

/-- Two adjacent blocks are merged. -/
theorem Tiles.merge {base brk : Nat} {x y : Blk} {r : List Blk} (t : Tiles base brk (x :: y :: r))
    (hadj : x.addr + 16 + x.size = y.addr) :
    Tiles base brk (⟨x.addr, x.size + 16 + y.size⟩ :: r) := by
  have gx := t.good x (by simp)
  have gy := t.good y (by simp)
  have hd := t.disj
  simp only [List.pairwise_cons, List.mem_cons, forall_eq_or_imp] at hd
  refine ⟨?_, ?_, ?_⟩
  · intro b hb
    simp only [List.mem_cons] at hb
    rcases hb with rfl | hb
    · refine ⟨?_, gx.lo, ?_, gx.rel⟩
      · show (x.size + 16 + y.size) % 8 = 0; have := gx.al; have := gy.al; omega
      · show x.addr + 16 + (x.size + 16 + y.size) ≤ brk; have := gy.hi; omega
    · exact t.good b (by simp [hb])
  · simp only [List.pairwise_cons]
    refine ⟨?_, hd.2.2⟩
    intro b hb
    have h1 := hd.1.2 b hb
    have h2 := hd.2.1 b hb
    show x.addr + 16 + (x.size + 16 + y.size) ≤ b.addr ∨ b.addr + 16 + b.size ≤ x.addr
    omega
  · have := t.total
    simp only [tot_cons] at this ⊢
    omega

/-- The heap grows by one block. -/
theorem Tiles.grow {base brk : Nat} {r : List Blk} (t : Tiles base brk r) (hb : base ≤ brk)
    (n : Nat) (hal : n % 8 = 0) (hrel : (brk - base) % 8 = 0) :
    Tiles base (brk + 16 + n) (⟨brk, n⟩ :: r) := by
  refine ⟨?_, ?_, ?_⟩
  · intro b hb
    simp only [List.mem_cons] at hb
    rcases hb with rfl | hb
    · exact ⟨hal, hb, le_refl _, hrel⟩
    · exact (t.good b hb).mono_good (by omega)
  · simp only [List.pairwise_cons]
    refine ⟨?_, t.disj⟩
    intro b hb
    have := (t.good b hb).hi
    show brk + 16 + n ≤ b.addr ∨ b.addr + 16 + b.size ≤ brk
    omega
  · have := t.total
    simp only [tot_cons]
    omega

theorem Tiles.base_le {base brk : Nat} {l : List Blk} (t : Tiles base brk l) : base ≤ brk := by
  have := t.total; omega

theorem Tiles.brk_rel {base brk : Nat} {l : List Blk} (t : Tiles base brk l) :
    (brk - base) % 8 = 0 := by
  have h : ∀ l : List Blk, (∀ b ∈ l, b.size % 8 = 0) → tot l % 8 = 0 := by
    intro l
    induction l with
    | nil => intro _; rfl
    | cons b l ih =>
      intro hg
      have h1 := hg b (by simp)
      have h2 := ih (fun c hc => hg c (by simp [hc]))
      simp only [tot_cons]
      omega
  have h1 := h l (fun b hb => (t.good b hb).al)
  have := t.total
  omega

theorem AInv.lv_free {base brk : Nat} {A : Abs} (h : AInv base brk A) :
    ∀ b ∈ A.lv, ∀ c ∈ A.ca ++ A.po, Disj b c := by
  have := h.tiles.disj
  unfold Abs.all at this
  rw [List.pairwise_append] at this
  exact this.2.2

theorem AInv.ca_po {base brk : Nat} {A : Abs} (h : AInv base brk A) :
    ∀ b ∈ A.ca, ∀ c ∈ A.po, Disj b c := by
  have := h.tiles.disj
  unfold Abs.all at this
  rw [List.pairwise_append, List.pairwise_append] at this
  exact this.2.1.2.2

theorem AInv.ca_disj {base brk : Nat} {A : Abs} (h : AInv base brk A) : A.ca.Pairwise Disj := by
  have := h.tiles.disj
  unfold Abs.all at this
  rw [List.pairwise_append, List.pairwise_append] at this
  exact this.2.1.1

theorem AInv.po_disj {base brk : Nat} {A : Abs} (h : AInv base brk A) : A.po.Pairwise Disj := by
  have := h.tiles.disj
  unfold Abs.all at this
  rw [List.pairwise_append, List.pairwise_append] at this
  exact this.2.1.2.1

theorem AInv.lv_disj {base brk : Nat} {A : Abs} (h : AInv base brk A) : A.lv.Pairwise Disj := by
  have := h.tiles.disj
  unfold Abs.all at this
  rw [List.pairwise_append] at this
  exact this.1

theorem pairwise_hsep_of_disj {l : List Blk} (h : l.Pairwise Disj) :
    (l.map Blk.addr).Pairwise HSep := by
  rw [List.pairwise_map]
  exact h.imp (fun h => h.hsep)

theorem AInv.good_ca {base brk : Nat} {A : Abs} (h : AInv base brk A) :
    ∀ b ∈ A.ca, Good base brk b := fun b hb => h.tiles.good b (by simp [Abs.all, hb])

theorem AInv.good_po {base brk : Nat} {A : Abs} (h : AInv base brk A) :
    ∀ b ∈ A.po, Good base brk b := fun b hb => h.tiles.good b (by simp [Abs.all, hb])

theorem AInv.good_lv {base brk : Nat} {A : Abs} (h : AInv base brk A) :
    ∀ b ∈ A.lv, Good base brk b := fun b hb => h.tiles.good b (by simp [Abs.all, hb])

theorem Good.lt {base brk : Nat} {b : Blk} (g : Good base brk b) (hb : brk + 1 < W64) :
    b.addr < W64 ∧ b.size < W64 ∧ b.addr + 16 + b.size < W64 := by
  have := g.hi
  omega

theorem Good.ne_zero {base brk : Nat} {b : Blk} (g : Good base brk b) (hb : 0 < base) :
    b.addr ≠ 0 := by
  have := g.lo
  omega

theorem live_frame {W : List Nat} {m m2 : Mem} {lv : List Blk} (hs : Same W m m2)
    (hl : ∀ b ∈ lv, readW m b.addr = b.size) (hsep : ∀ b ∈ lv, ∀ w ∈ W, HSep b.addr w) :
    ∀ b ∈ lv, readW m2 b.addr = b.size :=
  fun b hb => ((hs.hdr b.addr (hsep b hb)).1).trans (hl b hb)

theorem hsep_inside {b c : Blk} {w : Nat} (hd : Disj b c) (hi : Inside w c) : HSep b.addr w := by
  unfold Disj at hd; unfold Inside at hi; unfold HSep; omega

theorem inside_self (c : Blk) : Inside c.addr c := by
  unfold Inside; omega

theorem Frame.of_same {W : List Nat} {F : List Blk} {brk : Nat} {m m2 : Mem} (hs : Same W m m2)
    (hc : ∀ w ∈ W, (∃ c ∈ F, Inside w c) ∨ brk ≤ w) : Frame F brk m m2 := by
  intro x hx hb
  apply hs
  intro w hw
  rcases hc w hw with ⟨c, hcF, hi⟩ | h
  · have := hx c hcF
    unfold Inside at hi
    omega
  · omega

theorem Frame.trans_frame {F : List Blk} {brk : Nat} {m m2 m3 : Mem} (h1 : Frame F brk m m2)
    (h2 : Frame F brk m2 m3) : Frame F brk m m3 :=
  fun x hx hb => (h2 x hx hb).trans (h1 x hx hb)

theorem Frame.mono_frame {F F2 : List Blk} {brk brk2 : Nat} {m m2 : Mem} (h : Frame F brk m m2)
    (hF : ∀ c ∈ F, ∃ d ∈ F2, d.addr ≤ c.addr ∧ c.addr + 16 + c.size ≤ d.addr + 16 + d.size)
    (hb : brk2 ≤ brk) : Frame F2 brk2 m m2 := by
  intro x hx hlt
  apply h x _ (by omega)
  intro c hc
  obtain ⟨d, hd, h1, h2⟩ := hF c hc
  have := hx d hd
  omega

theorem perm_take_split (lv l1 l2 po : List Blk) (x y : Blk) :
    (x :: y :: (lv ++ (l1 ++ l2 ++ po))).Perm ((x :: lv) ++ ((l1 ++ [y] ++ l2) ++ po)) := by
  simp only [List.perm_iff_count]
  intro a
  simp only [List.count_append, List.count_cons, List.count_nil]
  omega

theorem perm_middle_all (lv l1 l2 po : List Blk) (c : Blk) :
    (lv ++ ((l1 ++ c :: l2) ++ po)).Perm (c :: (lv ++ (l1 ++ l2 ++ po))) := by
  simp only [List.perm_iff_count]
  intro a
  simp only [List.count_append, List.count_cons, List.count_nil]
  omega

theorem takeA_eq_split {size : Nat} {c : Blk} (h : size + 16 < c.size) (hc : c.size < W64) :
    takeA size c = (⟨c.addr, size⟩, [⟨c.addr + size + 16, c.size - size - 16⟩]) := by
  have h1 : addw size 16 = size + 16 := addw_eq _ _ (by omega)
  have h2 : subw c.size size = c.size - size := subw_eq _ _ hc (by omega)
  have h3 : subw (c.size - size) 16 = c.size - size - 16 := subw_eq _ _ (by omega) (by omega)
  simp [takeA, meta_size, h1, h2, h3, h]

theorem takeA_eq_whole {size : Nat} {c : Blk} (h : ¬ size + 16 < c.size) (hc : size + 16 < W64) :
    takeA size c = (c, []) := by
  have h1 : addw size 16 = size + 16 := addw_eq _ _ (by omega)
  simp [takeA, meta_size, h1, h]

theorem AInv.take {base brk : Nat} {A : Abs} (hi : AInv base brk A) (size : Nat)
    (l1 l2 : List Blk) (c : Blk) (hca : A.ca = l1 ++ c :: l2) (h8 : 8 ≤ size)
    (hal : size % 8 = 0) (hle : size ≤ c.size) :
    AInv base brk ⟨(takeA size c).1 :: A.lv, l1 ++ (takeA size c).2 ++ l2, A.po⟩ := by
  have gc : Good base brk c := hi.good_ca c (by simp [hca])
  have hclt := gc.lt hi.brk_lt
  have t0 : Tiles base brk (c :: (A.lv ++ (l1 ++ l2 ++ A.po))) := by
    have := hi.tiles
    unfold Abs.all at this
    rw [hca] at this
    exact this.perm (perm_middle_all _ _ _ _ _)
  have hs := hi.sorted
  rw [hca] at hs
  by_cases hgt : size + 16 < c.size
  · rw [takeA_eq_split hgt hclt.2.1]
    refine ⟨hi.base_pos, hi.brk_lt, ?_, ?_⟩
    · exact (t0.split size hal hgt).perm (perm_take_split _ _ _ _ _ _)
    · simp only [List.append_assoc, List.singleton_append]
      rw [List.pairwise_append, List.pairwise_cons] at hs ⊢
      refine ⟨hs.1, ⟨?_, hs.2.1.2⟩, ?_⟩
      · intro b hb
        have := hs.2.1.1 b hb
        show c.addr + size + 16 + 16 + (c.size - size - 16) < b.addr
        omega
      · intro a ha b hb
        simp only [List.mem_cons] at hb
        rcases hb with rfl | hb
        · have := hs.2.2 a ha c (by simp)
          show a.addr + 16 + a.size < c.addr + size + 16
          omega
        · exact hs.2.2 a ha b (by simp [hb])
  · rw [takeA_eq_whole hgt (by omega)]
    refine ⟨hi.base_pos, hi.brk_lt, ?_, ?_⟩
    · refine t0.perm ?_
      simp only [List.perm_iff_count]
      intro a
      simp only [List.count_append, List.count_cons, List.count_nil, Abs.all]
      omega
    · simp only [List.append_nil]
      exact hs.sublist (List.Sublist.append_left (List.sublist_cons_self _ _) _)

theorem takeBlock_rep (base : Nat) (st : State) (A : Abs) (size : Nat) (l1 l2 : List Blk)
    (c : Blk) (hr : Rep st A) (hi : AInv base st.brk A) (hca : A.ca = l1 ++ c :: l2)
    (hle : size ≤ c.size) :
    Rep (takeBlock st size (lastA l1 0) c.addr)
      ⟨(takeA size c).1 :: A.lv, l1 ++ (takeA size c).2 ++ l2, A.po⟩ ∧
    Frame A.ca st.brk st.mem (takeBlock st size (lastA l1 0) c.addr).mem ∧
    (takeA size c).1.addr = c.addr ∧
    (takeBlock st size (lastA l1 0) c.addr).brk = st.brk ∧
    (takeBlock st size (lastA l1 0) c.addr).ntry = st.ntry ∧
    (takeBlock st size (lastA l1 0) c.addr).nsbrk = st.nsbrk := by
  have gc : Good base st.brk c := hi.good_ca c (by simp [hca])
  have hclt := gc.lt hi.brk_lt
  have hadd : addw size 16 = size + 16 := addw_eq _ _ (by omega)
  have hcache := hr.cache
  rw [hca] at hcache
  obtain ⟨k, hA, hB⟩ := BSeg.append.1 hcache
  obtain ⟨hk, hcz, hcs, hC⟩ := hB
  have hp : ((l1 ++ c :: l2).map Blk.addr).Pairwise HSep := by
    rw [← hca]; exact pairwise_hsep_of_disj hi.ca_disj
  have hcd : ∀ b ∈ l1 ++ c :: l2, b = c ∨ Disj b c := by
    intro b hb
    have := hi.ca_disj
    rw [hca, List.pairwise_append, List.pairwise_cons] at this
    simp only [List.mem_append, List.mem_cons] at hb
    rcases hb with hb | rfl | hb
    · exact Or.inr (this.2.2 b hb c (by simp))
    · exact Or.inl rfl
    · exact Or.inr (this.2.1.1 b hb).symm
  have hin : c.size > addw size 16 → Inside (c.addr + size + 16) c := by
    intro h; rw [hadd] at h; unfold Inside; omega
  obtain ⟨t1, t2, t3, t4, t5, t6, t7⟩ := takeBlock_spec st size l1 l2 c k hA hcs hC hp
    (by
      intro h
      refine ⟨?_, by rw [hadd] at h; omega⟩
      intro b hb
      rcases hcd b hb with rfl | hd
      · rw [hadd] at h; unfold HSep; omega
      · exact hsep_inside hd (hin h))
    (by omega)
  have hW : ∀ b, (∀ c' ∈ A.ca, Disj b c') →
      ∀ w ∈ (if c.size > addw size 16 then [c.addr + size + 16] else []) ++
        (l1 ++ c :: l2).map Blk.addr, HSep b.addr w := by
    intro b hb w hw
    rcases List.mem_append.1 hw with hw | hw
    · by_cases h : c.size > addw size 16
      · simp only [h, if_true, List.mem_singleton] at hw
        subst hw
        exact hsep_inside (hb c (by simp [hca])) (hin h)
      · simp [h] at hw
    · obtain ⟨c', hc', rfl⟩ := List.mem_map.1 hw
      exact (hb c' (by rw [hca]; exact hc')).hsep
  refine ⟨⟨t1, ?_, ?_⟩, ?_, ?_, t5, t6, t7⟩
  · show BSeg _ _ A.po 0
    rw [t4]
    refine BSeg.frame_seg t3 ?_ hr.pool
    intro b hb
    exact hW b (fun c' hc' => (hi.ca_po c' hc' b hb).symm)
  · intro b hb
    rcases List.mem_cons.1 hb with rfl | hb
    · have : (takeA size c).1.addr = c.addr := by unfold takeA; split <;> rfl
      rw [this]; exact t2
    · refine live_frame t3 hr.live ?_ b hb
      intro b hb
      exact hW b (fun c' hc' => hi.lv_free b hb c' (by simp [hc']))
  · refine Frame.of_same t3 ?_
    intro w hw
    rcases List.mem_append.1 hw with hw | hw
    · by_cases h : c.size > addw size 16
      · simp only [h, if_true, List.mem_singleton] at hw
        subst hw
        exact Or.inl ⟨c, by simp [hca], hin h⟩
      · simp [h] at hw
    · obtain ⟨c', hc', rfl⟩ := List.mem_map.1 hw
      exact Or.inl ⟨c', by rw [hca]; exact hc', inside_self c'⟩
  · unfold takeA; split <;> rfl

theorem splitFit_eq (size : Nat) (l : List Blk) :
    (splitFit size l).1 ++ (splitFit size l).2 = l ∧
    (∀ b ∈ (splitFit size l).1, b.size < size) ∧
    (∀ b, (splitFit size l).2.head? = some b → size ≤ b.size) := by
  induction l with
  | nil => simp [splitFit]
  | cons c l ih =>
    by_cases h : c.size ≥ size
    · simp [splitFit, h]
    · simp only [splitFit, h, if_false, List.cons_append, ih.1, List.mem_cons, true_and]
      refine ⟨?_, ih.2.2⟩
      rintro b (rfl | hb)
      · omega
      · exact ih.2.1 b hb

theorem splitFit_none {size : Nat} {l : List Blk} (h : (splitFit size l).2 = []) :
    ∀ b ∈ l, b.size < size := by
  have := splitFit_eq size l
  rw [h, List.append_nil] at this
  intro b hb
  exact this.2.1 b (by rw [this.1]; exact hb)

theorem head_ne_of_sep {m : Mem} {l1 l2 : List Blk} {c : Blk} {h t : Nat}
    (hl : BSeg m h (l1 ++ c :: l2) t) (hp : ((l1 ++ c :: l2).map Blk.addr).Pairwise HSep) :
    (c.addr = h ↔ l1 = []) := by
  have hh := BSeg.head_eq hl
  cases l1 with
  | nil => simp only [List.nil_append, List.map_cons, List.headD_cons] at hh; simp [hh]
  | cons a l1 =>
    simp only [List.cons_append, List.map_cons, List.headD_cons] at hh
    have := pairwise_cross (A := a :: l1) (B := c :: l2) hp a (by simp) c (by simp)
    constructor
    · intro h2; omega
    · intro h2; cases h2

theorem malloc_hit_eq (st : State) (size : Nat) (l1 l2 : List Blk) (c : Blk)
    (hl : BSeg st.mem st.local_head (l1 ++ c :: l2) 0)
    (hp : ((l1 ++ c :: l2).map Blk.addr).Pairwise HSep) :
    malloc_hit st size (lastA l1 0) c.addr =
      (c.addr + meta_size,
        if c.size > addw size meta_size then Path.cache_split else Path.cache_whole,
        takeBlock st size (lastA l1 0) c.addr) := by
  have hh := head_ne_of_sep hl hp
  obtain ⟨_, hcs, _⟩ := hl.node
  rcases List.eq_nil_or_concat l1 with rfl | ⟨l1', pre, rfl⟩
  · have e : st.local_head = c.addr := (hh.2 rfl).symm
    by_cases hgt : c.size > addw size meta_size
    · simp [malloc_hit, takeBlock, State.size, hcs, hgt, e, State.setSize, State.setNext,
        State.setLocal]
    · simp [malloc_hit, takeBlock, State.size, hcs, hgt, e, State.setSize, State.setNext,
        State.setLocal]
  · rw [List.concat_eq_append] at *
    have e : ¬ c.addr = st.local_head := by rw [hh]; simp
    have hpz : pre.addr ≠ 0 := by
      have : BSeg st.mem st.local_head (l1' ++ pre :: c :: l2) 0 := by simpa using hl
      exact this.node.1
    by_cases hgt : c.size > addw size meta_size
    · simp [malloc_hit, takeBlock, State.size, hcs, hgt, e, State.setSize, State.setNext,
        State.setLocal, hpz]
    · simp [malloc_hit, takeBlock, State.size, hcs, hgt, e, State.setSize, State.setNext,
        State.setLocal, hpz]

theorem merged_eq {base brk : Nat} {x y : Blk} (gy : Good base brk y) (hb : brk + 1 < W64)
    (hadj : x.addr + 16 + x.size = y.addr) :
    addw x.size (addw meta_size y.size) = x.size + 16 + y.size := by
  have := gy.hi
  have h1 : addw meta_size y.size = 16 + y.size := addw_eq _ _ (by simp only [meta_size]; omega)
  rw [h1, addw_eq _ _ (by omega)]
  omega

theorem perm_cons_mid (b : Blk) (l1 l2 R : List Blk) :
    (b :: (l1 ++ l2 ++ R)).Perm (l1 ++ b :: l2 ++ R) := by
  simp only [List.perm_iff_count]
  intro a
  simp only [List.count_append, List.count_cons, List.count_nil]
  omega

theorem mergeR_mid {base brk : Nat} {l1 l2 R : List Blk} {b : Blk} (hb : brk + 1 < W64)
    (h : Mid base brk l1 b l2 R) (hi : ∀ c ∈ l2, b.addr + 16 + b.size ≤ c.addr) :
    Mid base brk l1 (mergeR b l2).1 (mergeR b l2).2 R ∧ (mergeR b l2).1.addr = b.addr ∧
    ∀ c ∈ (mergeR b l2).2, Gap (mergeR b l2).1 c := by
  cases l2 with
  | nil => exact ⟨h, rfl, by simp [mergeR]⟩
  | cons c r =>
    by_cases hadj : b.addr + meta_size + b.size = c.addr
    · have hadj2 : b.addr + 16 + b.size = c.addr := hadj
      have gc : Good base brk c := h.tiles.good c (by simp)
      have e := merged_eq gc hb hadj2
      simp only [mergeR, hadj, if_true, e]
      have hs2 := h.s2
      rw [List.pairwise_cons] at hs2
      refine ⟨⟨?_, h.s1, hs2.2, h.lo, ?_⟩, trivial, ?_⟩
      · have t := h.tiles
        have t2 : Tiles base brk (b :: c :: (l1 ++ r ++ R)) := by
          refine t.perm ?_
          simp only [List.perm_iff_count]
          intro a
          simp only [List.count_append, List.count_cons, List.count_nil]
          omega
        exact t2.merge hadj2
      · intro a ha d hd
        exact h.cross a ha d (by simp [hd])
      · intro d hd
        have := hs2.1 d hd
        show b.addr + 16 + (b.size + 16 + c.size) < d.addr
        omega
    · simp only [mergeR, hadj, if_false]
      refine ⟨h, trivial, ?_⟩
      intro d hd
      have hs2 := h.s2
      rw [List.pairwise_cons] at hs2
      have h1 := hi c (by simp)
      have hadj2 : ¬ b.addr + 16 + b.size = c.addr := hadj
      rcases List.mem_cons.1 hd with rfl | hd
      · show b.addr + 16 + b.size < d.addr; omega
      · have := hs2.1 d hd
        have gc : Good base brk c := h.tiles.good c (by simp)
        show b.addr + 16 + b.size < d.addr
        omega

theorem mergeL_mid {base brk : Nat} {l1 r R : List Blk} {b : Blk} (hb : brk + 1 < W64)
    (h : Mid base brk l1 b r R) (hg : ∀ c ∈ r, Gap b c) :
    Tiles base brk (mergeL l1 b r ++ R) ∧ (mergeL l1 b r).Pairwise Gap := by
  rcases List.eq_nil_or_concat l1 with rfl | ⟨l1', pre, rfl⟩
  · simp only [mergeL_nil, List.cons_append]
    refine ⟨by simpa using h.tiles, ?_⟩
    rw [List.pairwise_cons]
    exact ⟨hg, h.s2⟩
  · rw [List.concat_eq_append] at *
    have hs1 := h.s1
    rw [List.pairwise_append] at hs1
    have gb : Good base brk b := h.tiles.good b (by simp)
    have hlo := h.lo pre (by simp)
    rw [mergeL_concat]
    by_cases hadj : pre.addr + meta_size + pre.size = b.addr
    · have hadj2 : pre.addr + 16 + pre.size = b.addr := hadj
      have e := merged_eq gb hb hadj2
      simp only [hadj, if_true, e]
      constructor
      · have t2 : Tiles base brk (pre :: b :: (l1' ++ r ++ R)) := by
          refine h.tiles.perm ?_
          simp only [List.perm_iff_count]
          intro a
          simp only [List.count_append, List.count_cons, List.count_nil]
          omega
        exact (t2.merge hadj2).perm (by simpa using perm_cons_mid _ l1' r R)
      · rw [List.pairwise_append, List.pairwise_cons]
        refine ⟨hs1.1, ⟨?_, h.s2⟩, ?_⟩
        · intro c hc
          have := hg c hc
          show pre.addr + 16 + (pre.size + 16 + b.size) < c.addr
          omega
        · intro a ha c hc
          rcases List.mem_cons.1 hc with rfl | hc
          · exact hs1.2.2 a ha pre (by simp)
          · exact h.cross a (by simp [ha]) c hc
    · simp only [hadj, if_false]
      have hadj2 : ¬ pre.addr + 16 + pre.size = b.addr := hadj
      constructor
      · exact h.tiles.perm (by simpa using perm_cons_mid b (l1' ++ [pre]) r R)
      · rw [List.pairwise_append, List.pairwise_cons]
        refine ⟨h.s1, ⟨hg, h.s2⟩, ?_⟩
        intro a ha c hc
        rcases List.mem_cons.1 hc with rfl | hc
        · rcases List.mem_append.1 ha with ha | ha
          · have h1 := hs1.2.2 a ha pre (by simp)
            have gp : Good base brk pre := h.tiles.good pre (by simp)
            show a.addr + 16 + a.size < c.addr
            omega
          · simp only [List.mem_singleton] at ha
            subst ha
            show a.addr + 16 + a.size < c.addr
            omega
        · exact h.cross a ha c hc

theorem gap_head_le {l : List Blk} (hs : l.Pairwise Gap) (x : Nat)
    (hh : ∀ b, l.head? = some b → x < b.addr) : ∀ c ∈ l, x < c.addr := by
  cases l with
  | nil => intro c hc; cases hc
  | cons a l =>
    intro c hc
    have h1 := hh a rfl
    rw [List.pairwise_cons] at hs
    rcases List.mem_cons.1 hc with rfl | hc
    · exact h1
    · have := hs.1 c hc
      omega

/-- `free` of a block that tiles the heap together with the others keeps
the tiling and leaves the local list sorted with gaps. -/
theorem ains_tiles {base brk : Nat} {ca R : List Blk} {b : Blk} (hb : brk + 1 < W64)
    (t : Tiles base brk (b :: (ca ++ R))) (hs : ca.Pairwise Gap) :
    Tiles base brk (ains b ca ++ R) ∧ (ains b ca).Pairwise Gap := by
  obtain ⟨he, h1, h2⟩ := splitAddr_eq b.addr ca
  unfold ains
  generalize (splitAddr b.addr ca).1 = l1 at he h1
  generalize (splitAddr b.addr ca).2 = l2 at he h2
  subst he
  have hd := t.disj
  rw [List.pairwise_cons] at hd
  have hs' := hs
  rw [List.pairwise_append] at hs'
  have h2' := gap_head_le hs'.2.1 b.addr h2
  have gb : Good base brk b := t.good b (by simp)
  have hm : Mid base brk l1 b l2 R := by
    refine ⟨t, hs'.1, hs'.2.1, ?_, hs'.2.2⟩
    intro a ha
    have := hd.1 a (by simp [ha])
    have := h1 a ha
    omega
  have hhi : ∀ c ∈ l2, b.addr + 16 + b.size ≤ c.addr := by
    intro c hc
    have := hd.1 c (by simp [hc])
    have := h2' c hc
    have gc : Good base brk c := t.good c (by simp [hc])
    omega
  obtain ⟨m1, m2, m3⟩ := mergeR_mid hb hm hhi
  exact mergeL_mid hb m1 m3

theorem tiles_parts {base brk : Nat} {b : Blk} {A : Abs} {X : List Blk}
    (t : Tiles base brk (b :: (A.all ++ X))) :
    (∀ c ∈ A.all, Disj b c) ∧ A.lv.Pairwise Disj ∧ A.ca.Pairwise Disj ∧ A.po.Pairwise Disj ∧
    (∀ x ∈ A.lv, ∀ c ∈ A.ca ++ A.po, Disj x c) ∧ (∀ x ∈ A.ca, ∀ c ∈ A.po, Disj x c) := by
  have hd := t.disj
  unfold Abs.all at hd ⊢
  rw [List.pairwise_cons, List.pairwise_append, List.pairwise_append, List.pairwise_append] at hd
  exact ⟨fun c hc => hd.1 c (by simp only [List.mem_append] at hc ⊢; tauto), hd.2.1.1,
    hd.2.1.2.1.1, hd.2.1.2.1.2.1, hd.2.1.2.2, hd.2.1.2.1.2.2⟩

/-- Releasing a block `b` that is not in any list of `A`; the blocks `X` are
further blocks of the heap that memory does not represent yet. -/
theorem free_gen (base : Nat) (st : State) (A : Abs) (b : Blk) (fuel : Nat) (X : List Blk)
    (hr : Rep st A) (hbs : readW st.mem b.addr = b.size)
    (t : Tiles base st.brk (b :: (A.all ++ X))) (hs : A.ca.Pairwise Gap)
    (hbase : 0 < base) (hbrk : st.brk + 1 < W64) (hf : A.ca.length < fuel) :
    ∃ st', free fuel (b.addr + meta_size) st = some st' ∧
      Rep st' ⟨A.lv, ains b A.ca, A.po⟩ ∧
      Tiles base st'.brk ((⟨A.lv, ains b A.ca, A.po⟩ : Abs).all ++ X) ∧
      (ains b A.ca).Pairwise Gap ∧
      Same (b.addr :: A.ca.map Blk.addr) st.mem st'.mem ∧
      st'.brk = st.brk ∧ st'.ntry = st.ntry ∧ st'.nsbrk = st.nsbrk := by
  obtain ⟨d1, d2, d3, d4, d5, d6⟩ := tiles_parts t
  have gb : Good base st.brk b := t.good b (by simp)
  obtain ⟨st', f1, f2, f3, f4, f5, f6, f7⟩ := free_spec st fuel b.addr b.size A.ca hr.cache hbs
    (gb.ne_zero hbase) (gb.lt hbrk).1
    (fun c hc => ((t.good c (by simp [Abs.all, hc])).lt hbrk).1)
    (pairwise_hsep_of_disj d3)
    (fun c hc => (d1 c (by simp [Abs.all, hc])).symm_disj.hsep) hf
  have hW : ∀ x, Disj b x → (∀ c ∈ A.ca, Disj x c) →
      ∀ w ∈ b.addr :: A.ca.map Blk.addr, HSep x.addr w := by
    intro x h1 h2 w hw
    rcases List.mem_cons.1 hw with rfl | hw
    · exact h1.symm_disj.hsep
    · obtain ⟨c, hc, rfl⟩ := List.mem_map.1 hw
      exact (h2 c hc).hsep
  refine ⟨st', f1, ⟨f2, ?_, ?_⟩, ?_, ?_, f3, f5, f6, f7⟩
  · show BSeg _ _ A.po 0
    rw [f4]
    refine BSeg.frame_seg f3 ?_ hr.pool
    intro x hx
    exact hW x (d1 x (by simp [Abs.all, hx])) (fun c hc => (d6 c hc x hx).symm)
  · refine live_frame f3 hr.live ?_
    intro x hx
    exact hW x (d1 x (by simp [Abs.all, hx])) (fun c hc => d5 x hx c (by simp [hc]))
  · rw [f5]
    have t2 : Tiles base st.brk (b :: (A.ca ++ (A.po ++ A.lv ++ X))) := by
      refine t.perm ?_
      simp only [List.perm_iff_count]
      intro a
      simp only [List.count_append, List.count_cons, List.count_nil, Abs.all]
      omega
    refine (ains_tiles hbrk t2 hs).1.perm ?_
    simp only [List.perm_iff_count]
    intro a
    simp only [List.count_append, List.count_cons, List.count_nil, Abs.all]
    omega
  · have t2 : Tiles base st.brk (b :: (A.ca ++ (A.po ++ A.lv ++ X))) := by
      refine t.perm ?_
      simp only [List.perm_iff_count]
      intro a
      simp only [List.count_append, List.count_cons, List.count_nil, Abs.all]
      omega
    exact (ains_tiles hbrk t2 hs).2

theorem Rep.perm_lv {st : State} {A : Abs} (hr : Rep st A) {lv : List Blk}
    (h : ∀ b ∈ lv, b ∈ A.lv) : Rep st ⟨lv, A.ca, A.po⟩ :=
  ⟨hr.cache, hr.pool, fun b hb => hr.live b (h b hb)⟩

/-- `free` of a live block. -/
theorem free_rep (base : Nat) (st : State) (A : Abs) (b : Blk) (lv : List Blk) (fuel : Nat)
    (hr : Rep st A) (hi : AInv base st.brk A) (hp : A.lv.Perm (b :: lv))
    (hf : A.ca.length < fuel) :
    ∃ st', free fuel (b.addr + meta_size) st = some st' ∧
      Rep st' ⟨lv, ains b A.ca, A.po⟩ ∧
      AInv base st'.brk ⟨lv, ains b A.ca, A.po⟩ ∧
      Same (b.addr :: A.ca.map Blk.addr) st.mem st'.mem ∧
      st'.brk = st.brk ∧ st'.ntry = st.ntry ∧ st'.nsbrk = st.nsbrk := by
  have hr2 : Rep st ⟨lv, A.ca, A.po⟩ :=
    hr.perm_lv (fun x hx => hp.mem_iff.2 (by simp [hx]))
  have t : Tiles base st.brk (b :: ((⟨lv, A.ca, A.po⟩ : Abs).all ++ [])) := by
    refine hi.tiles.perm ?_
    unfold Abs.all
    simpa using (hp.append_right _)
  obtain ⟨st', h1, h2, h3, h4, h5, h6, h7, h8⟩ := free_gen base st ⟨lv, A.ca, A.po⟩ b fuel [] hr2
    (hr.live b (hp.mem_iff.2 (by simp))) t hi.sorted hi.base_pos hi.brk_lt hf
  exact ⟨st', h1, h2, ⟨hi.base_pos, by rw [h6]; exact hi.brk_lt, by simpa using h3, h4⟩,
    h5, h6, h7, h8⟩

theorem unlinkG_spec (st : State) (g1 g2 : List Blk) (g : Blk)
    (hl : BSeg st.mem st.global_head (g1 ++ g :: g2) 0)
    (hp : ((g1 ++ g :: g2).map Blk.addr).Pairwise HSep) :
    BSeg (unlinkG st (lastA g1 0) g.addr).mem (unlinkG st (lastA g1 0) g.addr).global_head
      (g1 ++ g2) 0 ∧
    Same (g1.map Blk.addr) st.mem (unlinkG st (lastA g1 0) g.addr).mem ∧
    (unlinkG st (lastA g1 0) g.addr).local_head = st.local_head ∧
    (unlinkG st (lastA g1 0) g.addr).brk = st.brk ∧
    (unlinkG st (lastA g1 0) g.addr).ntry = st.ntry ∧
    (unlinkG st (lastA g1 0) g.addr).nsbrk = st.nsbrk := by
  obtain ⟨k, hA, hB⟩ := BSeg.append.1 hl
  obtain ⟨hk, hgz, hgs, hC⟩ := hB
  subst hk
  obtain ⟨s1, s2, s3⟩ := pairwise_hsep_append hp
  rcases List.eq_nil_or_concat g1 with rfl | ⟨g1', pre, rfl⟩
  · simp only [unlinkG, lastA_nil, ne_eq, not_true_eq_false, if_false, State.setGlobal,
      State.next, List.nil_append, List.map_nil, and_true]
    exact ⟨hC, Same.refl _ _⟩
  · rw [List.concat_eq_append] at *
    obtain ⟨k2, hA1, hA2⟩ := BSeg.append.1 hA
    obtain ⟨hk2, hpz, hps, hpn⟩ := hA2
    simp only [BSeg] at hpn
    subst hk2
    simp only [unlinkG, lastA_concat, ne_eq, hpz, not_false_eq_true, if_true, State.setNext,
      State.next, and_true]
    have hW : Same [pre.addr] st.mem (writeW st.mem (pre.addr + 8) (readW st.mem (g.addr + 8))) :=
      (Same.refl [pre.addr] st.mem).next pre.addr _ (by simp)
    refine ⟨?_, hW.mono_same (by intro w hw; simp only [List.mem_singleton] at hw; subst hw; simp)⟩
    simp only [List.append_assoc, List.singleton_append]
    refine BSeg.append.2 ⟨pre.addr, ?_, rfl, hpz, ?_, ?_⟩
    · refine BSeg.frame_seg hW ?_ hA1
      intro b hb w hw
      simp only [List.mem_singleton] at hw
      subst hw
      exact sep_of_pairwise hp b hb
    · rw [readW_writeW_disj _ _ _ _ (by omega)]; exact hps
    · rw [readW_writeW_same, readW_mod]
      refine BSeg.frame_seg hW ?_ hC
      intro b hb w hw
      simp only [List.mem_singleton] at hw
      subst hw
      exact (s3 pre (by simp) b hb).symm

theorem malloc_probe_false (fuel : Nat) (st : State) (size : Nat) :
    malloc_probe fuel false st size = some (Sum.inr st.tryLock) := by
  simp [malloc_probe]

theorem malloc_probe_miss (fuel : Nat) (st : State) (size : Nat) (po : List Blk)
    (hl : BSeg st.mem st.global_head po 0) (hm : ∀ b ∈ po, b.size < size)
    (hf : po.length < fuel) :
    malloc_probe fuel true st size = some (Sum.inr st.tryLock) := by
  have := fit_walk_spec st.tryLock size po [] fuel 0 0 st.global_head (by simpa using hl) hm
    (by simp) hf
  simp only [headA_nil] at this
  simp only [malloc_probe, State.tryLock, if_true] at this ⊢
  rw [this]
  simp

theorem malloc_probe_found (fuel : Nat) (st : State) (size : Nat) (g1 g2 : List Blk) (g : Blk)
    (hl : BSeg st.mem st.global_head (g1 ++ g :: g2) 0) (hm : ∀ b ∈ g1, b.size < size)
    (hg : size ≤ g.size) (hf : g1.length < fuel) :
    malloc_probe fuel true st size =
      match free fuel (g.addr + meta_size) (unlinkG st.tryLock (lastA g1 0) g.addr) with
      | none => none
      | some st =>
        match fit_walk st size fuel 0 0 st.local_head with
        | none => none
        | some (_, p, c) =>
          if c ≠ 0 then
            some (Sum.inl (c + meta_size,
              if st.size c > addw size meta_size then Path.pool_split else Path.pool_whole,
              takeBlock st size p c))
          else some (Sum.inr st) := by
  have := fit_walk_spec st.tryLock size g1 (g :: g2) fuel 0 0 st.global_head hl hm
    (by intro b hb; simp only [List.head?_cons, Option.some.injEq] at hb; subst hb; exact hg) hf
  simp only [headA_cons] at this
  have hgz := hl.node.1
  simp only [malloc_probe, State.tryLock, if_true] at this ⊢
  rw [this]
  simp only [ne_eq, hgz, not_false_eq_true, if_true, unlinkG, State.tryLock]
  cases free fuel (g.addr + meta_size) _ with
  | none => rfl
  | some st2 =>
    simp only []
    cases fit_walk st2 size fuel 0 0 st2.local_head with
    | none => rfl
    | some r =>
      obtain ⟨pp, p, c⟩ := r
      simp only []
      by_cases hc : c = 0
      · simp [hc]
      · simp only [hc, not_false_eq_true, if_true, takeBlock]
        by_cases hgt : st2.size c > addw size meta_size
        · simp [hgt]
        · simp [hgt]

theorem Frame.sub {F F2 : List Blk} {brk brk2 : Nat} {m m2 : Mem} (h : Frame F brk m m2)
    (hF : ∀ x, OutB F2 x → OutB F x) (hb : brk2 ≤ brk) : Frame F2 brk2 m m2 :=
  fun x hx hlt => h x (hF x hx) (by omega)

theorem addw_le (a b : Nat) : addw a b ≤ a + b := Nat.mod_le _ _

theorem mergeR_out (b : Blk) (l : List Blk) (x : Nat) (h : OutB (b :: l) x) :
    OutB ((mergeR b l).1 :: (mergeR b l).2) x := by
  cases l with
  | nil => exact h
  | cons c r =>
    by_cases hadj : b.addr + meta_size + b.size = c.addr
    · simp only [mergeR, hadj, if_true]
      intro d hd
      rcases List.mem_cons.1 hd with rfl | hd
      · have h1 := h b (by simp)
        have h2 := h c (by simp)
        have h3 := addw_le b.size (addw meta_size c.size)
        have h4 := addw_le meta_size c.size
        simp only [meta_size] at hadj h3 h4
        show x < b.addr ∨ b.addr + 16 + addw b.size (addw meta_size c.size) ≤ x
        simp only [meta_size]
        omega
      · exact h d (by simp [hd])
    · simp only [mergeR, hadj, if_false]
      exact h

theorem mergeL_out (l1 : List Blk) (b : Blk) (r : List Blk) (x : Nat)
    (h : OutB (l1 ++ b :: r) x) : OutB (mergeL l1 b r) x := by
  rcases List.eq_nil_or_concat l1 with rfl | ⟨l1', pre, rfl⟩
  · simpa using h
  · rw [List.concat_eq_append, mergeL_concat]
    rw [List.concat_eq_append] at h
    by_cases hadj : pre.addr + meta_size + pre.size = b.addr
    · simp only [hadj, if_true]
      intro d hd
      rcases List.mem_append.1 hd with hd | hd
      · exact h d (by simp [hd])
      · rcases List.mem_cons.1 hd with rfl | hd
        · have h1 := h pre (by simp)
          have h2 := h b (by simp)
          have h3 := addw_le pre.size (addw meta_size b.size)
          have h4 := addw_le meta_size b.size
          simp only [meta_size] at hadj h3 h4
          show x < pre.addr ∨ pre.addr + 16 + addw pre.size (addw meta_size b.size) ≤ x
          simp only [meta_size]
          omega
        · exact h d (by simp [hd])
    · simp only [hadj, if_false]
      exact h

theorem ains_out (b : Blk) (ca : List Blk) (x : Nat) (h : OutB (b :: ca) x) :
    OutB (ains b ca) x := by
  obtain ⟨he, -, -⟩ := splitAddr_eq b.addr ca
  unfold ains
  generalize (splitAddr b.addr ca).1 = l1 at he
  generalize (splitAddr b.addr ca).2 = l2 at he
  subst he
  apply mergeL_out
  have h1 := mergeR_out b l2 x (fun c hc => h c (by
    simp only [List.mem_cons, List.mem_append] at hc ⊢; tauto))
  intro c hc
  rcases List.mem_append.1 hc with hc | hc
  · exact h c (by simp [hc])
  · exact h1 c hc

theorem mergeR_size {base brk : Nat} (b : Blk) (l R : List Blk) (hb : brk + 1 < W64)
    (t : Tiles base brk (b :: (l ++ R))) : b.size ≤ (mergeR b l).1.size := by
  cases l with
  | nil => exact le_refl _
  | cons c r =>
    by_cases hadj : b.addr + meta_size + b.size = c.addr
    · have gc : Good base brk c := t.good c (by simp)
      simp only [mergeR, hadj, if_true, merged_eq gc hb hadj]
      omega
    · simp only [mergeR, hadj, if_false]
      exact le_refl _

theorem mergeL_size {base brk : Nat} (l1 : List Blk) (b : Blk) (r : List Blk) (hb : brk + 1 < W64)
    (gb : Good base brk b) : ∃ c ∈ mergeL l1 b r, b.size ≤ c.size := by
  rcases List.eq_nil_or_concat l1 with rfl | ⟨l1', pre, rfl⟩
  · exact ⟨b, by simp, le_refl _⟩
  · rw [List.concat_eq_append, mergeL_concat]
    by_cases hadj : pre.addr + meta_size + pre.size = b.addr
    · simp only [hadj, if_true, merged_eq gb hb hadj]
      exact ⟨⟨pre.addr, pre.size + 16 + b.size⟩, by simp,
        by show b.size ≤ pre.size + 16 + b.size; omega⟩
    · simp only [hadj, if_false]
      exact ⟨b, by simp, le_refl _⟩

theorem ains_has_fit {base brk : Nat} {ca R : List Blk} {b : Blk} (hb : brk + 1 < W64)
    (t : Tiles base brk (b :: (ca ++ R))) (hs : ca.Pairwise Gap) :
    ∃ c ∈ ains b ca, b.size ≤ c.size := by
  have hm : ∃ l1 l2, l1 ++ l2 = ca ∧ (∀ a ∈ l1, a.addr ≤ b.addr) ∧
      (∀ a, l2.head? = some a → b.addr < a.addr) ∧ ains b ca = mergeL l1 (mergeR b l2).1
        (mergeR b l2).2 :=
    ⟨_, _, (splitAddr_eq b.addr ca).1, (splitAddr_eq b.addr ca).2.1,
      (splitAddr_eq b.addr ca).2.2, rfl⟩
  obtain ⟨l1, l2, he, h1, h2, e⟩ := hm
  subst he
  rw [e]
  have hd := t.disj
  rw [List.pairwise_cons] at hd
  have hs' := hs
  rw [List.pairwise_append] at hs'
  have h2' := gap_head_le hs'.2.1 b.addr h2
  have gb : Good base brk b := t.good b (by simp)
  have hmid : Mid base brk l1 b l2 R := by
    refine ⟨t, hs'.1, hs'.2.1, ?_, hs'.2.2⟩
    intro a ha
    have := hd.1 a (by simp [ha])
    have := h1 a ha
    omega
  have hhi : ∀ c ∈ l2, b.addr + 16 + b.size ≤ c.addr := by
    intro c hc
    have := hd.1 c (by simp [hc])
    have := h2' c hc
    have gc : Good base brk c := t.good c (by simp [hc])
    omega
  obtain ⟨m1, m2, m3⟩ := mergeR_mid hb hmid hhi
  have hsz : b.size ≤ (mergeR b l2).1.size := by
    refine mergeR_size b l2 (l1 ++ R) hb (t.perm ?_)
    simp only [List.perm_iff_count]
    intro a
    simp only [List.count_append, List.count_cons, List.count_nil]
    omega
  obtain ⟨c, hc, hle⟩ := mergeL_size l1 (mergeR b l2).1 (mergeR b l2).2 hb
    (m1.tiles.good _ (by simp))
  exact ⟨c, hc, le_trans hsz hle⟩

theorem splitFit_found {size : Nat} {l : List Blk} (h : ∃ c ∈ l, size ≤ c.size) :
    ∃ c l2, (splitFit size l).2 = c :: l2 := by
  obtain ⟨he, h1, _⟩ := splitFit_eq size l
  cases h2 : (splitFit size l).2 with
  | nil =>
    obtain ⟨c, hc, hle⟩ := h
    have := splitFit_none h2 c hc
    omega
  | cons c l2 => exact ⟨c, l2, rfl⟩

theorem splitFit_length (size : Nat) (l : List Blk) :
    (splitFit size l).1.length + (splitFit size l).2.length = l.length := by
  have := (splitFit_eq size l).1
  rw [← List.length_append, this]


theorem ains_length (b : Blk) (ca : List Blk) : (ains b ca).length ≤ ca.length + 1 := by
  obtain ⟨he, -, -⟩ := splitAddr_eq b.addr ca
  unfold ains
  generalize (splitAddr b.addr ca).1 = l1 at he
  generalize (splitAddr b.addr ca).2 = l2 at he
  subst he
  have h1 : (mergeR b l2).2.length ≤ l2.length := by
    cases l2 with
    | nil => simp [mergeR]
    | cons c r =>
      by_cases hadj : b.addr + meta_size + b.size = c.addr
      · simp [mergeR, hadj]
      · simp [mergeR, hadj]
  generalize (mergeR b l2).2 = r at h1
  generalize (mergeR b l2).1 = b2
  rcases List.eq_nil_or_concat l1 with rfl | ⟨l1', pre, rfl⟩
  · simp only [mergeL_nil, List.length_cons, List.nil_append]; omega
  · rw [List.concat_eq_append, mergeL_concat]
    split <;> simp only [List.length_append, List.length_cons, List.length_nil] <;> omega

theorem Rep.tryLock {st : State} {A : Abs} (hr : Rep st A) : Rep st.tryLock A :=
  ⟨hr.cache, hr.pool, hr.live⟩

theorem fit_walk_fit (st : State) (size fuel : Nat) (l : List Blk) (h : Nat)
    (hl : BSeg st.mem h l 0) (hf : (splitFit size l).1.length < fuel) :
    fit_walk st size fuel 0 0 h =
      some (penA (splitFit size l).1 0 0, lastA (splitFit size l).1 0, headA (splitFit size l).2)
    := by
  obtain ⟨he, h1, h2⟩ := splitFit_eq size l
  exact fit_walk_spec st size _ _ fuel 0 0 h (by rw [he]; exact hl) h1 h2 hf

/-- Taking the first fit of the local list, on a represented state. -/
theorem takeFit_rep (base : Nat) (st : State) (A : Abs) (size : Nat) (c : Blk) (l2 : List Blk)
    (hr : Rep st A) (hi : AInv base st.brk A) (hfit : (splitFit size A.ca).2 = c :: l2)
    (h8 : 8 ≤ size) (hal : size % 8 = 0) :
    Rep (takeBlock st size (lastA (splitFit size A.ca).1 0) c.addr)
      ⟨(takeA size c).1 :: A.lv, (splitFit size A.ca).1 ++ (takeA size c).2 ++ l2, A.po⟩ ∧
    AInv base st.brk
      ⟨(takeA size c).1 :: A.lv, (splitFit size A.ca).1 ++ (takeA size c).2 ++ l2, A.po⟩ ∧
    Frame A.ca st.brk st.mem (takeBlock st size (lastA (splitFit size A.ca).1 0) c.addr).mem ∧
    (takeA size c).1.addr = c.addr ∧
    (takeBlock st size (lastA (splitFit size A.ca).1 0) c.addr).brk = st.brk ∧
    (takeBlock st size (lastA (splitFit size A.ca).1 0) c.addr).ntry = st.ntry ∧
    (takeBlock st size (lastA (splitFit size A.ca).1 0) c.addr).nsbrk = st.nsbrk := by
  obtain ⟨he, h1, h2⟩ := splitFit_eq size A.ca
  rw [hfit] at he h2
  have hle : size ≤ c.size := h2 c rfl
  obtain ⟨r1, r2, r3, r4, r5, r6⟩ := takeBlock_rep base st A size _ l2 c hr hi he.symm hle
  exact ⟨r1, hi.take size _ l2 c he.symm h8 hal hle, r2, r3, r4, r5, r6⟩

theorem frame_of_same_addrs {W : List Nat} {F : List Blk} {brk : Nat} {m m2 : Mem}
    (hs : Same W m m2) (hc : ∀ w ∈ W, ∃ c ∈ F, c.addr = w) : Frame F brk m m2 := by
  refine Frame.of_same hs ?_
  intro w hw
  obtain ⟨c, hc, rfl⟩ := hc w hw
  exact Or.inl ⟨c, hc, inside_self c⟩

/-- The probe of the global list finds a block: it moves to the local list
and the request is served from there. -/
theorem probe_rep (base : Nat) (st : State) (A : Abs) (size fuel : Nat) (g : Blk)
    (g2 : List Blk) (hr : Rep st A) (hi : AInv base st.brk A)
    (hg : (splitFit size A.po).2 = g :: g2) (h8 : 8 ≤ size) (hal : size % 8 = 0)
    (hf1 : A.ca.length < fuel) (hf2 : A.po.length < fuel) :
    AInv base st.brk ⟨A.lv, ains g A.ca, (splitFit size A.po).1 ++ g2⟩ ∧
    ∃ c l2, (splitFit size (ains g A.ca)).2 = c :: l2 ∧
    ∃ st', malloc_probe fuel true st size = some (Sum.inl (c.addr + meta_size,
        (if c.size > addw size meta_size then Path.pool_split else Path.pool_whole), st')) ∧
      Rep st' ⟨(takeA size c).1 :: A.lv,
        (splitFit size (ains g A.ca)).1 ++ (takeA size c).2 ++ l2,
        (splitFit size A.po).1 ++ g2⟩ ∧
      AInv base st'.brk ⟨(takeA size c).1 :: A.lv,
        (splitFit size (ains g A.ca)).1 ++ (takeA size c).2 ++ l2,
        (splitFit size A.po).1 ++ g2⟩ ∧
      Frame (A.ca ++ A.po) st.brk st.mem st'.mem ∧
      st'.brk = st.brk ∧ st'.ntry = st.ntry + 1 ∧ st'.nsbrk = st.nsbrk := by
  obtain ⟨he, h1, h2⟩ := splitFit_eq size A.po
  rw [hg] at he h2
  generalize (splitFit size A.po).1 = g1 at he h1 ⊢
  have hlen : g1.length < fuel := by
    have : (g1 ++ g :: g2).length = A.po.length := by rw [he]
    simp only [List.length_append, List.length_cons] at this
    omega
  have hpool := hr.pool
  rw [← he] at hpool
  have hpp : ((g1 ++ g :: g2).map Blk.addr).Pairwise HSep := by
    rw [he]; exact pairwise_hsep_of_disj hi.po_disj
  have hpf := malloc_probe_found fuel st size g1 g2 g hpool h1 (h2 g rfl) hlen
  obtain ⟨u1, u2, u3, u4, u5, u6⟩ := unlinkG_spec st.tryLock g1 g2 g hpool hpp
  generalize unlinkG st.tryLock (lastA g1 0) g.addr = st1 at hpf u1 u2 u3 u4 u5 u6
  simp only [State.tryLock] at u2 u3 u4 u5 u6
  have hg1 : ∀ b ∈ g1, b ∈ A.po := fun b hb => by rw [← he]; simp [hb]
  have hgpo : g ∈ A.po := by rw [← he]; simp
  have hsep1 : ∀ x : Blk, (∀ c ∈ A.po, x = c ∨ Disj x c) → (∀ c ∈ g1, x ≠ c) →
      ∀ w ∈ g1.map Blk.addr, HSep x.addr w := by
    intro x hx hne w hw
    obtain ⟨c, hc, rfl⟩ := List.mem_map.1 hw
    rcases hx c (hg1 c hc) with h | h
    · exact absurd h (hne c hc)
    · exact h.hsep
  have hgg1 : ∀ w ∈ g1.map Blk.addr, HSep g.addr w := by
    intro w hw
    obtain ⟨c, hc, rfl⟩ := List.mem_map.1 hw
    exact (pairwise_hsep_append hpp).1 c hc |>.symm
  have hr1 : Rep st1 ⟨A.lv, A.ca, g1 ++ g2⟩ := by
    refine ⟨?_, u1, ?_⟩
    · show BSeg st1.mem st1.local_head A.ca 0
      rw [u3]
      refine BSeg.frame_seg u2 ?_ hr.cache
      intro b hb w hw
      obtain ⟨c, hc, rfl⟩ := List.mem_map.1 hw
      exact (hi.ca_po b hb c (hg1 c hc)).hsep
    · refine live_frame u2 hr.live ?_
      intro b hb w hw
      obtain ⟨c, hc, rfl⟩ := List.mem_map.1 hw
      exact (hi.lv_free b hb c (by simp [hg1 c hc])).hsep
  have hgs : readW st1.mem g.addr = g.size :=
    ((u2.hdr g.addr hgg1).1).trans (hpool.node).2.1
  have t : Tiles base st1.brk (g :: ((⟨A.lv, A.ca, g1 ++ g2⟩ : Abs).all ++ [])) := by
    rw [u4]
    refine hi.tiles.perm ?_
    unfold Abs.all
    rw [← he]
    simp only [List.perm_iff_count]
    intro a
    simp only [List.count_append, List.count_cons, List.count_nil]
    omega
  obtain ⟨st2, f1, f2, f3, f4, f5, f6, f7, f8⟩ := free_gen base st1 ⟨A.lv, A.ca, g1 ++ g2⟩ g fuel
    [] hr1 hgs t hi.sorted hi.base_pos (by rw [u4]; exact hi.brk_lt) hf1
  have hi1 : AInv base st2.brk ⟨A.lv, ains g A.ca, g1 ++ g2⟩ :=
    ⟨hi.base_pos, by rw [f6, u4]; exact hi.brk_lt, by simpa using f3, f4⟩
  have e2 : st2.brk = st.brk := by rw [f6, u4]
  refine ⟨by rw [← e2]; exact hi1, ?_⟩
  have tfit : Tiles base st.brk (g :: (A.ca ++ (A.lv ++ (g1 ++ g2)))) := by
    refine hi.tiles.perm ?_
    unfold Abs.all
    rw [← he]
    simp only [List.perm_iff_count]
    intro a
    simp only [List.count_append, List.count_cons, List.count_nil]
    omega
  obtain ⟨c0, hc0, hle0⟩ := ains_has_fit hi.brk_lt tfit hi.sorted
  obtain ⟨c, l2, hfit⟩ := @splitFit_found size _ ⟨c0, hc0, le_trans (h2 g rfl) hle0⟩
  refine ⟨c, l2, hfit, ?_⟩
  have hlen2 : (splitFit size (ains g A.ca)).1.length < fuel := by
    have := ains_length g A.ca
    have h3 := splitFit_length size (ains g A.ca)
    rw [hfit] at h3
    simp only [List.length_cons] at h3
    omega
  have hw := fit_walk_fit st2 size fuel (ains g A.ca) st2.local_head f2.cache hlen2
  rw [hfit] at hw
  simp only [headA_cons] at hw
  have hcn : (splitFit size (ains g A.ca)).1 ++ c :: l2 = ains g A.ca := by
    rw [← hfit]; exact (splitFit_eq size (ains g A.ca)).1
  have hcache2 := f2.cache
  simp only [] at hcache2
  rw [← hcn] at hcache2
  obtain ⟨hcz, hcs, -⟩ := hcache2.node
  rw [f1] at hpf
  simp only [hw, ne_eq, hcz, not_false_eq_true, if_true, State.size, hcs] at hpf
  obtain ⟨k1, k2, k3, k4, k5, k6, k7⟩ := takeFit_rep base st2 ⟨A.lv, ains g A.ca, g1 ++ g2⟩ size
    c l2 f2 hi1 hfit h8 hal
  refine ⟨_, hpf, k1, by rw [k5]; exact k2, ?_, by rw [k5, e2], by rw [k6, f7, u5],
    by rw [k7, f8, u6]⟩
  have F1 : Frame (A.ca ++ A.po) st.brk st.mem st1.mem :=
    frame_of_same_addrs u2 (by
      intro w hw
      obtain ⟨x, hx, rfl⟩ := List.mem_map.1 hw
      exact ⟨x, by simp [hg1 x hx], rfl⟩)
  have F2 : Frame (A.ca ++ A.po) st.brk st1.mem st2.mem :=
    frame_of_same_addrs f5 (by
      intro w hw
      rcases List.mem_cons.1 hw with rfl | hw
      · exact ⟨g, by simp [hgpo], rfl⟩
      · obtain ⟨x, hx, rfl⟩ := List.mem_map.1 hw
        exact ⟨x, by simp [hx], rfl⟩)
  have F3 : Frame (A.ca ++ A.po) st.brk st2.mem
      (takeBlock st2 size (lastA (splitFit size (ains g A.ca)).1 0) c.addr).mem := by
    refine k3.sub ?_ (by rw [e2])
    intro x hx
    apply ains_out
    intro d hd
    rcases List.mem_cons.1 hd with rfl | hd
    · exact hx d (by simp [hgpo])
    · exact hx d (by simp [hd])
  exact (F1.trans_frame F2).trans_frame F3

theorem Rep.frame_rep {st st' : State} {A : Abs} {W : List Nat} (hr : Rep st A)
    (hs : Same W st.mem st'.mem) (h1 : st'.local_head = st.local_head)
    (h2 : st'.global_head = st.global_head)
    (hsep : ∀ b ∈ A.all, ∀ w ∈ W, HSep b.addr w) : Rep st' A := by
  refine ⟨?_, ?_, ?_⟩
  · rw [h1]
    exact BSeg.frame_seg hs (fun b hb => hsep b (by simp [Abs.all, hb])) hr.cache
  · rw [h2]
    exact BSeg.frame_seg hs (fun b hb => hsep b (by simp [Abs.all, hb])) hr.pool
  · exact live_frame hs hr.live (fun b hb => hsep b (by simp [Abs.all, hb]))

/-- Lines 163-164: the block `cur` becomes live. -/
theorem live_intro {st : State} {A : Abs} (cur : Blk) (hr : Rep st A)
    (hd : ∀ b ∈ A.all, Disj b cur) (hlt : cur.size < W64) :
    Rep ((st.setSize cur.addr cur.size).setNext cur.addr 0) ⟨cur :: A.lv, A.ca, A.po⟩ ∧
    Same [cur.addr] st.mem ((st.setSize cur.addr cur.size).setNext cur.addr 0).mem := by
  have hW : Same [cur.addr] st.mem ((st.setSize cur.addr cur.size).setNext cur.addr 0).mem :=
    ((Same.refl [cur.addr] st.mem).size cur.addr _ (by simp)).next cur.addr _ (by simp)
  have hr2 : Rep ((st.setSize cur.addr cur.size).setNext cur.addr 0) A :=
    hr.frame_rep hW rfl rfl (by
      intro b hb w hw
      simp only [List.mem_singleton] at hw
      subst hw
      exact (hd b hb).hsep)
  refine ⟨⟨hr2.cache, hr2.pool, ?_⟩, hW⟩
  intro b hb
  rcases List.mem_cons.1 hb with rfl | hb
  · simp only [State.setSize, State.setNext]
    rw [readW_writeW_disj _ _ _ _ (by omega), readW_writeW_same, Nat.mod_eq_of_lt hlt]
  · exact hr2.live b hb

/-- Lines 157-158 / 181-182: the block `half` is pushed on the global list. -/
theorem pool_push {st : State} {A : Abs} (half : Blk) (hr : Rep st A)
    (hd : ∀ b ∈ A.all, Disj b half) (hs : readW st.mem half.addr = half.size)
    (hz : half.addr ≠ 0) (hg : st.global_head < W64) :
    Rep ((st.setNext half.addr st.global_head).setGlobal half.addr)
      ⟨A.lv, A.ca, half :: A.po⟩ ∧
    Same [half.addr] st.mem ((st.setNext half.addr st.global_head).setGlobal half.addr).mem := by
  have hW : Same [half.addr] st.mem
      ((st.setNext half.addr st.global_head).setGlobal half.addr).mem :=
    (Same.refl [half.addr] st.mem).next half.addr _ (by simp)
  have hr2 : Rep (st.setNext half.addr st.global_head) A :=
    hr.frame_rep hW rfl rfl (by
      intro b hb w hw
      simp only [List.mem_singleton] at hw
      subst hw
      exact (hd b hb).hsep)
  refine ⟨⟨hr2.cache, ?_, hr2.live⟩, hW⟩
  refine ⟨rfl, hz, ?_, ?_⟩
  · simp only [State.setGlobal, State.setNext]
    rw [readW_writeW_disj _ _ _ _ (by omega)]; exact hs
  · have := hr2.pool
    simp only [State.setGlobal, State.setNext] at this ⊢
    rw [readW_writeW_same, Nat.mod_eq_of_lt hg]
    exact this

theorem BSeg.lt_head {m : Mem} {l : List Blk} {h : Nat} (hl : BSeg m h l 0)
    (hlt : ∀ b ∈ l, b.addr < W64) : h < W64 := by
  cases l with
  | nil => simp only [BSeg] at hl; subst hl; simp [W64]
  | cons b l => rw [hl.1]; exact hlt b (by simp)

/-- Lines 189-191: the chunk is linked behind the last block of the local list. -/
theorem tail_push {st : State} {A : Abs} (chunk : Blk) (hr : Rep st A)
    (hall : A.all.Pairwise Disj) (hd : ∀ b ∈ A.all, Disj b chunk) (hs : readW st.mem chunk.addr = chunk.size)
    (hn : readW st.mem (chunk.addr + 8) = 0) (hz : chunk.addr ≠ 0) (hlt : chunk.addr < W64) :
    Rep (if lastA A.ca 0 ≠ 0 then st.setNext (lastA A.ca 0) chunk.addr
         else st.setLocal chunk.addr) ⟨A.lv, A.ca ++ [chunk], A.po⟩ ∧
    Same (A.ca.map Blk.addr) st.mem
      (if lastA A.ca 0 ≠ 0 then st.setNext (lastA A.ca 0) chunk.addr
       else st.setLocal chunk.addr).mem := by
  have hcache := hr.cache
  rcases List.eq_nil_or_concat A.ca with e | ⟨l, pre, e⟩
  · rw [e] at hcache ⊢
    simp only [lastA_nil, ne_eq, not_true_eq_false, if_false, List.nil_append, State.setLocal]
    refine ⟨⟨⟨rfl, hz, hs, ?_⟩, hr.pool, hr.live⟩, Same.refl _ _⟩
    simp only [BSeg]
    exact hn
  · rw [List.concat_eq_append] at e
    rw [e] at hcache ⊢
    obtain ⟨k, hA, hB⟩ := BSeg.append.1 hcache
    obtain ⟨hk, hpz, hps, _⟩ := hB
    subst hk
    simp only [lastA_concat, ne_eq, hpz, not_false_eq_true, if_true, State.setNext]
    have hW : Same [pre.addr] st.mem (writeW st.mem (pre.addr + 8) chunk.addr) :=
      (Same.refl [pre.addr] st.mem).next pre.addr _ (by simp)
    have hpin : pre ∈ A.ca := by rw [e]; simp
    have hpc : HSep pre.addr chunk.addr := (hd pre (by simp [Abs.all, hpin])).hsep
    have hall2 := hall
    unfold Abs.all at hall2
    rw [e, List.pairwise_append, List.pairwise_append, List.pairwise_append] at hall2
    obtain ⟨-, ⟨⟨-, -, hlp⟩, -, hcp⟩, hlc⟩ := hall2
    refine ⟨⟨?_, ?_, ?_⟩,
      hW.mono_same (by intro w hw; simp only [List.mem_singleton] at hw; subst hw; simp)⟩
    · show BSeg _ st.local_head ((l ++ [pre]) ++ [chunk]) 0
      rw [List.append_assoc]
      refine BSeg.append.2 ⟨pre.addr, ?_, rfl, hpz, ?_, ?_⟩
      · refine BSeg.frame_seg hW ?_ hA
        intro b hb w hw
        simp only [List.mem_singleton] at hw
        subst hw
        exact (hlp b hb pre (by simp)).hsep
      · rw [readW_writeW_disj _ _ _ _ (by omega)]; exact hps
      · rw [readW_writeW_same, Nat.mod_eq_of_lt hlt]
        refine ⟨rfl, hz, ?_, ?_⟩
        · rw [readW_writeW_disj _ _ _ _ (by omega)]; exact hs
        · simp only [BSeg]
          rw [readW_writeW_disj _ _ _ _ (by omega)]; exact hn
    · refine BSeg.frame_seg hW ?_ hr.pool
      intro b hb w hw
      simp only [List.mem_singleton] at hw
      subst hw
      exact (hcp pre (by simp) b hb).hsep.symm
    · refine live_frame hW hr.live ?_
      intro b hb w hw
      simp only [List.mem_singleton] at hw
      subst hw
      exact (hlc b hb pre (by simp)).hsep

theorem sbrk_ok (n : Nat) (st : State) (h : st.brk + n + 1 < W64) :
    sbrk n st = (st.brk, { st with brk := st.brk + n, nsbrk := st.nsbrk + 1 }) := by
  unfold sbrk
  rw [if_pos (by omega)]

theorem sbrk_fail (n : Nat) (st : State) (h : ¬ st.brk + n + 1 < W64) :
    (sbrk n st).1 = W64 - 1 := by
  unfold sbrk
  rw [if_neg (by omega)]

theorem tiles_grow2 {base brk : Nat} {l : List Blk} (t : Tiles base brk l) (n1 n2 : Nat)
    (h2 : n1 % 8 = 0) (h4 : n2 % 8 = 0) :
    Tiles base (brk + 16 + n1 + 16 + n2) (⟨brk + 16 + n1, n2⟩ :: ⟨brk, n1⟩ :: l) := by
  have t1 := t.grow t.base_le n1 h2 t.brk_rel
  exact t1.grow t1.base_le n2 h4 t1.brk_rel

theorem large_rep (base : Nat) (st : State) (A : Abs) (size fuel : Nat) (t2 : Bool)
    (hr : Rep st A) (hi : AInv base st.brk A) (hal : size % 8 = 0)
    (hn : 2 * size + 32 < W64) (hf : A.ca.length < fuel) :
    if st.brk + (2 * size + 32) + 1 < W64 then
      ∃ st', malloc_large fuel t2 st size = some (st.brk + meta_size, Path.large, st') ∧
        Rep st' (largeA st.brk t2 size A) ∧ AInv base st'.brk (largeA st.brk t2 size A) ∧
        st'.brk = st.brk + (2 * size + 32) ∧ Frame A.ca st.brk st.mem st'.mem ∧
        st'.ntry = st.ntry + 1 ∧ st'.nsbrk = st.nsbrk + 1
    else malloc_large fuel t2 st size = none := by
  have hnn : addw (mulw size 2) (mulw meta_size 2) = 2 * size + 32 := by
    rw [mulw_eq _ _ (by omega), mulw_eq _ _ (by simp [meta_size, W64]), addw_eq _ _
      (by simp only [meta_size]; omega)]
    simp only [meta_size]; omega
  split
  · rename_i hroom
    have hs := sbrk_ok (2 * size + 32) st hroom
    have hne : st.brk ≠ W64 - 1 := by omega
    have hsz : size < W64 := by omega
    -- the fresh blocks
    have tg := tiles_grow2 hi.tiles size size hal hal
    have hbrk' : st.brk + 16 + size + 16 + size = st.brk + (2 * size + 32) := by omega
    rw [hbrk'] at tg
    have hdisj := tg.disj
    rw [List.pairwise_cons, List.pairwise_cons] at hdisj
    obtain ⟨hdh, hdc, -⟩ := hdisj
    have hdh2 : ∀ b ∈ A.all, Disj b ⟨st.brk + 16 + size, size⟩ :=
      fun b hb => (hdh b (by simp [hb])).symm
    have hdc2 : ∀ b ∈ A.all, Disj b ⟨st.brk, size⟩ := fun b hb => (hdc b hb).symm
    -- state after sbrk and `half->size = size`
    have hW1 : Same [st.brk + 16 + size] st.mem (writeW st.mem (st.brk + 16 + size) size) :=
      (Same.refl _ st.mem).size _ _ (by simp)
    have hr1 : Rep ((({ st with brk := st.brk + (2 * size + 32), nsbrk := st.nsbrk + 1 } :
        State).setSize (st.brk + 16 + size) size).tryLock) A :=
      hr.frame_rep (W := [st.brk + 16 + size]) hW1 rfl rfl (by
        intro b hb w hw
        simp only [List.mem_singleton] at hw
        subst hw
        exact (hdh2 b hb).hsep)
    have hhs : readW ((({ st with brk := st.brk + (2 * size + 32), nsbrk := st.nsbrk + 1 } :
        State).setSize (st.brk + 16 + size) size).tryLock).mem (st.brk + 16 + size) = size := by
      simp only [State.setSize, State.tryLock]
      rw [readW_writeW_same, Nat.mod_eq_of_lt hsz]
    have hgl : st.global_head < W64 :=
      hr.pool.lt_head (fun b hb => ((hi.good_po b hb).lt hi.brk_lt).1)
    cases t2 with
    | true =>
      obtain ⟨p1, p2⟩ := pool_push ⟨st.brk + 16 + size, size⟩ hr1 hdh2 hhs (by simp) hgl
      obtain ⟨q1, q2⟩ := live_intro ⟨st.brk, size⟩ p1 (by
        intro b hb
        simp only [Abs.all, List.mem_append, List.mem_cons] at hb
        rcases hb with hb | hb | rfl | hb
        · exact hdc2 b (by simp [Abs.all, hb])
        · exact hdc2 b (by simp [Abs.all, hb])
        · exact hdh _ (by simp)
        · exact hdc2 b (by simp [Abs.all, hb])) hsz
      refine ⟨_, ?_, q1, ⟨hi.base_pos, ?_, ?_, hi.sorted⟩, rfl, ?_, rfl, rfl⟩
      · simp only [malloc_large, hnn, hs, hne, if_false, if_true]
        rfl
      · show st.brk + (2 * size + 32) + 1 < W64
        exact hroom
      · show Tiles base (st.brk + (2 * size + 32)) _
        refine tg.perm ?_
        simp only [largeA, if_true, Abs.all, meta_size]
        simp only [List.perm_iff_count]
        intro a
        simp only [List.count_append, List.count_cons, List.count_nil]
        omega
      · refine Frame.of_same (W := [st.brk + 16 + size, st.brk]) ?_ ?_
        · refine (Same.trans_same (hW1.mono_same ?_) ((p2.mono_same ?_).trans_same (q2.mono_same ?_))) <;>
            (intro w hw; simp only [List.mem_singleton] at hw; subst hw; simp)
        · intro w hw
          simp only [List.mem_cons, List.mem_singleton, List.not_mem_nil, or_false] at hw
          rcases hw with rfl | rfl <;> exact Or.inr (by omega)
    | false =>
      have t : Tiles base (st.brk + (2 * size + 32))
          ((⟨st.brk + 16 + size, size⟩ : Blk) :: (A.all ++ [⟨st.brk, size⟩])) := by
        refine tg.perm ?_
        simp only [List.perm_iff_count]
        intro a
        simp only [List.count_append, List.count_cons, List.count_nil]
        omega
      obtain ⟨s2, f1, f2, f3, f4, f5, f6, f7, f8⟩ := free_gen base _ A
        ⟨st.brk + 16 + size, size⟩ fuel [⟨st.brk, size⟩] hr1 hhs t hi.sorted hi.base_pos
        hroom hf
      have hd3 := f3.disj
      rw [List.pairwise_append] at hd3
      obtain ⟨q1, q2⟩ := live_intro ⟨st.brk, size⟩ f2
        (fun b hb => hd3.2.2 b hb _ (by simp)) hsz
      refine ⟨_, ?_, q1, ⟨hi.base_pos, ?_, ?_, f4⟩, f6, ?_, f7, f8⟩
      · simp only [malloc_large, hnn, hs, hne, if_false, Bool.false_eq_true]
        have f1' : free fuel (st.brk + meta_size + size + meta_size)
            (({ st with brk := st.brk + (2 * size + 32), nsbrk := st.nsbrk + 1 } :
              State).setSize (st.brk + meta_size + size) size).tryLock = some s2 := f1
        rw [f1']
      · show s2.brk + 1 < W64
        rw [f6]; exact hroom
      · show Tiles base s2.brk _
        refine f3.perm ?_
        simp only [largeA, Abs.all, meta_size, Bool.false_eq_true, if_false]
        simp only [List.perm_iff_count]
        intro a
        simp only [List.count_append, List.count_cons, List.count_nil]
        omega
      · have F1 : Frame A.ca st.brk st.mem (writeW st.mem (st.brk + 16 + size) size) :=
          Frame.of_same hW1 (by
            intro w hw
            simp only [List.mem_singleton] at hw
            subst hw
            exact Or.inr (by omega))
        have F2 : Frame A.ca st.brk (writeW st.mem (st.brk + 16 + size) size) s2.mem :=
          Frame.of_same f5 (by
            intro w hw
            rcases List.mem_cons.1 hw with rfl | hw
            · exact Or.inr (by show st.brk ≤ st.brk + 16 + size; omega)
            · obtain ⟨x, hx, rfl⟩ := List.mem_map.1 hw
              exact Or.inl ⟨x, hx, inside_self x⟩)
        have F3 : Frame A.ca st.brk s2.mem
            ((s2.setSize st.brk size).setNext st.brk 0).mem :=
          Frame.of_same q2 (by
            intro w hw
            simp only [List.mem_singleton] at hw
            subst hw
            exact Or.inr (le_refl _))
        exact (F1.trans_frame F2).trans_frame F3
  · rename_i hroom
    have hs := sbrk_fail (2 * size + 32) st hroom
    simp only [malloc_large, hnn, hs, if_true]

theorem writeW_comm (m : Mem) (a b v w : Nat) (h : a + 8 ≤ b ∨ b + 8 ≤ a) :
    writeW (writeW m a v) b w = writeW (writeW m b w) a v := by
  funext x
  unfold writeW
  by_cases h1 : a ≤ x ∧ x < a + 8
  · have h2 : ¬ (b ≤ x ∧ x < b + 8) := by omega
    simp [h1, h2]
  · by_cases h2 : b ≤ x ∧ x < b + 8
    · simp [h1, h2]
    · simp [h1, h2]

theorem takeBlockM_eq (st : State) (size pp p : Nat) (h : pp ≠ 0 → HSep pp p) :
    takeBlockM st size pp p = takeBlock st size pp p := by
  unfold takeBlockM takeBlock
  by_cases hgt : st.size p > addw size meta_size
  · simp only [hgt, if_true]
    by_cases hp : pp = 0
    · simp [hp, State.setSize, State.setNext, State.setLocal]
    · have := h hp
      simp only [ne_eq, hp, not_false_eq_true, if_true, State.setSize, State.setNext]
      congr 1
      rw [writeW_comm _ (pp + 8) p _ _ (by omega), writeW_comm _ (pp + 8) (p + 8) _ _ (by omega)]
  · simp only [hgt, if_false]

theorem malloc_small_eq (t2 : Bool) (st : State) (size prepre pre : Nat) :
    malloc_small t2 st size prepre pre =
      if (sbrk (mulw chunk_size 2) st).1 = W64 - 1 then none
      else smallTake (growSmall t2 st pre) size prepre pre (sbrk (mulw chunk_size 2) st).1 :=
  rfl

theorem smallTake_eq (st : State) (size prepre pre cur : Nat) (hp : pre = 0 → cur = st.local_head) :
    smallTake st size prepre pre cur =
      if cur ≠ st.local_head then
        if pre + meta_size + st.size pre = cur then
          some (pre + meta_size,
            (if (absorbT st pre cur).size pre > addw size meta_size then Path.merge_split
             else Path.merge_whole),
            takeBlockM (absorbT st pre cur) size prepre pre)
        else
          some (cur + meta_size,
            (if st.size cur > addw size meta_size then Path.tail_split else Path.tail_whole),
            takeBlock st size pre cur)
      else
        some (cur + meta_size,
          (if st.size cur > addw size meta_size then Path.head_split else Path.head_whole),
          takeBlock st size 0 cur) := by
  unfold smallTake
  by_cases h1 : cur = st.local_head
  · simp only [h1, ne_eq, not_true_eq_false, if_false, takeBlock]
    split_ifs <;> rfl
  · have hpz : pre ≠ 0 := fun h => h1 (hp h)
    simp only [ne_eq, h1, not_false_eq_true, if_true]
    by_cases h2 : pre + meta_size + st.size pre = cur
    · simp only [h2, if_true, takeBlockM, absorbT]
      split_ifs <;> first | rfl | simp_all
    · simp only [h2, if_false, takeBlock, ne_eq, hpz, not_false_eq_true, if_true]
      split_ifs <;> rfl

theorem ghost_size {st : State} {A : Abs} (h v : Nat) (hr : Rep st A)
    (hsep : ∀ b ∈ A.all, HSep b.addr h) (hv : v < W64) :
    Rep (st.setSize h v) A ∧ readW (st.setSize h v).mem h = v ∧
    Same [h] st.mem (st.setSize h v).mem := by
  have hW : Same [h] st.mem (st.setSize h v).mem := (Same.refl [h] st.mem).size h v (by simp)
  refine ⟨hr.frame_rep hW rfl rfl ?_, ?_, hW⟩
  · intro b hb w hw
    simp only [List.mem_singleton] at hw
    subst hw
    exact hsep b hb
  · simp only [State.setSize]
    rw [readW_writeW_same, Nat.mod_eq_of_lt hv]

theorem ghost_init {st : State} {A : Abs} (h v : Nat) (hr : Rep st A)
    (hsep : ∀ b ∈ A.all, HSep b.addr h) (hv : v < W64) :
    Rep ((st.setSize h v).setNext h 0) A ∧ readW ((st.setSize h v).setNext h 0).mem h = v ∧
    readW ((st.setSize h v).setNext h 0).mem (h + 8) = 0 ∧
    Same [h] st.mem ((st.setSize h v).setNext h 0).mem := by
  have hW : Same [h] st.mem ((st.setSize h v).setNext h 0).mem :=
    ((Same.refl [h] st.mem).size h v (by simp)).next h 0 (by simp)
  refine ⟨hr.frame_rep hW rfl rfl ?_, ?_, ?_, hW⟩
  · intro b hb w hw
    simp only [List.mem_singleton] at hw
    subst hw
    exact hsep b hb
  · simp only [State.setSize, State.setNext]
    rw [readW_writeW_disj _ _ _ _ (by omega), readW_writeW_same, Nat.mod_eq_of_lt hv]
  · simp only [State.setSize, State.setNext]
    rw [readW_writeW_same]
    rfl

theorem pairwise_all_cons_po {lv ca po : List Blk} {h : Blk}
    (hp : (lv ++ (ca ++ po)).Pairwise Disj) (hd : ∀ b ∈ lv ++ (ca ++ po), Disj b h) :
    (lv ++ (ca ++ h :: po)).Pairwise Disj := by
  have e : (h :: (lv ++ (ca ++ po))).Perm (lv ++ (ca ++ h :: po)) := by
    simp only [List.perm_iff_count]
    intro a
    simp only [List.count_append, List.count_cons, List.count_nil]
    omega
  refine (e.pairwise_iff (fun h => Disj.symm_disj h)).1 ?_
  rw [List.pairwise_cons]
  exact ⟨fun b hb => (hd b hb).symm, hp⟩

theorem growSmall_rep (base : Nat) (st : State) (A : Abs) (t2 : Bool)
    (hr : Rep st A) (hi : AInv base st.brk A) (hroom : st.brk + 65536 + 1 < W64) :
    (sbrk (mulw chunk_size 2) st).1 = st.brk ∧
    Rep (growSmall t2 st (lastA A.ca 0))
      ⟨A.lv, A.ca ++ [chunkA st.brk t2], poolA st.brk t2 A.po⟩ ∧
    Tiles base (st.brk + 65536) (chunkA st.brk t2 :: (A.lv ++ (A.ca ++ poolA st.brk t2 A.po))) ∧
    Same ((st.brk + 32768) :: st.brk :: A.ca.map Blk.addr) st.mem
      (growSmall t2 st (lastA A.ca 0)).mem ∧
    (growSmall t2 st (lastA A.ca 0)).brk = st.brk + 65536 ∧
    (growSmall t2 st (lastA A.ca 0)).ntry = st.ntry + 1 ∧
    (growSmall t2 st (lastA A.ca 0)).nsbrk = st.nsbrk + 1 := by
  have hm : mulw chunk_size 2 = 65536 := by simp [mulw, chunk_size, W64]
  have hs := sbrk_ok 65536 st hroom
  have hold : ∀ b ∈ A.all, b.addr + 16 + b.size ≤ st.brk := fun b hb => (hi.tiles.good b hb).hi
  have hgl : st.global_head < W64 :=
    hr.pool.lt_head (fun b hb => ((hi.good_po b hb).lt hi.brk_lt).1)
  have hbz : st.brk ≠ 0 := by
    have := hi.tiles.base_le
    have := hi.base_pos
    omega
  have hr0 : Rep ({ st with brk := st.brk + 65536, nsbrk := st.nsbrk + 1 } : State) A :=
    ⟨hr.cache, hr.pool, hr.live⟩
  obtain ⟨a1, a2, a3⟩ := ghost_size (st.brk + 32768) 32752 hr0
    (by intro b hb; have := hold b hb; unfold HSep; omega) (by simp [W64])
  have a1' := a1.tryLock
  refine ⟨by rw [hm, hs], ?_⟩
  cases t2 with
  | true =>
    obtain ⟨p1, p2⟩ := pool_push ⟨st.brk + 32768, 32752⟩ a1'
      (by intro b hb; have := hold b hb; unfold Disj; left; show _ ≤ st.brk + 32768; omega)
      a2 (by show st.brk + 32768 ≠ 0; omega) hgl
    obtain ⟨c1, c2, c3, c4⟩ := ghost_init st.brk 32752 p1 (by
        intro b hb
        simp only [Abs.all, List.mem_append, List.mem_cons] at hb
        rcases hb with hb | hb | rfl | hb
        · have := hold b (by simp [Abs.all, hb]); unfold HSep; omega
        · have := hold b (by simp [Abs.all, hb]); unfold HSep; omega
        · unfold HSep; right; show st.brk + 16 ≤ st.brk + 32768; omega
        · have := hold b (by simp [Abs.all, hb]); unfold HSep; omega) (by simp [W64])
    have tg := tiles_grow2 hi.tiles 32752 32752 (by omega) (by omega)
    have e1 : st.brk + 16 + 32752 = st.brk + 32768 := by omega
    have e2 : st.brk + 32768 + 16 + 32752 = st.brk + 65536 := by omega
    rw [e1, e2] at tg
    have hdj := tg.disj
    rw [List.pairwise_cons, List.pairwise_cons] at hdj
    obtain ⟨q1, q2⟩ := tail_push (chunkA st.brk true) c1
      (pairwise_all_cons_po hdj.2.2 (fun b hb => (hdj.1 b (by simp [Abs.all, hb])).symm))
      (by
        intro b hb
        simp only [Abs.all, List.mem_append, List.mem_cons] at hb
        unfold Disj chunkA
        rcases hb with hb | hb | rfl | hb
        · have := hold b (by simp [Abs.all, hb]); left; exact this
        · have := hold b (by simp [Abs.all, hb]); left; exact this
        · right; show st.brk + 16 + 32752 ≤ st.brk + 32768; omega
        · have := hold b (by simp [Abs.all, hb]); left; exact this)
      c2 c3 hbz (by show st.brk < W64; omega)
    refine ⟨?_, ?_, ?_, ?_, ?_, ?_⟩
    · simp only [growSmall, hm, hs]
      simp only [chunk_size, meta_size, if_true, Nat.reduceSub, Nat.reduceMul]
      exact q1
    · refine tg.perm ?_
      simp only [poolA, chunkA, if_true, Abs.all]
      simp only [List.perm_iff_count]
      intro a
      simp only [List.count_append, List.count_cons, List.count_nil]
      omega
    · simp only [growSmall, hm, hs]
      simp only [chunk_size, meta_size, if_true, Nat.reduceSub, Nat.reduceMul]
      have m1 : ∀ w ∈ [st.brk + 32768], w ∈ (st.brk + 32768) :: st.brk :: A.ca.map Blk.addr := by
        intro w hw; simp only [List.mem_singleton] at hw; subst hw; exact List.mem_cons_self _ _
      have m2 : ∀ w ∈ [st.brk], w ∈ (st.brk + 32768) :: st.brk :: A.ca.map Blk.addr := by
        intro w hw; simp only [List.mem_singleton] at hw; subst hw
        exact List.mem_cons_of_mem _ (List.mem_cons_self _ _)
      have m3 : ∀ w ∈ A.ca.map Blk.addr, w ∈ (st.brk + 32768) :: st.brk :: A.ca.map Blk.addr :=
        fun w hw => List.mem_cons_of_mem _ (List.mem_cons_of_mem _ hw)
      exact ((a3.mono_same m1).trans_same ((p2.mono_same m1).trans_same ((c4.mono_same m2).trans_same (q2.mono_same m3))))
    · simp only [growSmall, hm, hs]
      split <;> rfl
    · simp only [growSmall, hm, hs]
      split <;> rfl
    · simp only [growSmall, hm, hs]
      split <;> rfl
  | false =>
    obtain ⟨c1, c2, c3, c4⟩ := ghost_init st.brk 65520 a1' (by
        intro b hb
        have := hold b hb; unfold HSep; omega) (by simp [W64])
    have tg := hi.tiles.grow hi.tiles.base_le 65520 (by omega) hi.tiles.brk_rel
    have e2 : st.brk + 16 + 65520 = st.brk + 65536 := by omega
    rw [e2] at tg
    have hdj := tg.disj
    rw [List.pairwise_cons] at hdj
    obtain ⟨q1, q2⟩ := tail_push (chunkA st.brk false) c1 hdj.2
      (fun b hb => (hdj.1 b hb).symm) c2 c3 hbz (by show st.brk < W64; omega)
    refine ⟨?_, ?_, ?_, ?_, ?_, ?_⟩
    · simp only [growSmall, hm, hs]
      simp only [chunk_size, meta_size, Bool.false_eq_true, if_false, Nat.reduceSub,
        Nat.reduceMul]
      exact q1
    · exact tg
    · simp only [growSmall, hm, hs]
      simp only [chunk_size, meta_size, Bool.false_eq_true, if_false, Nat.reduceSub,
        Nat.reduceMul]
      have m1 : ∀ w ∈ [st.brk + 32768], w ∈ (st.brk + 32768) :: st.brk :: A.ca.map Blk.addr := by
        intro w hw; simp only [List.mem_singleton] at hw; subst hw; exact List.mem_cons_self _ _
      have m2 : ∀ w ∈ [st.brk], w ∈ (st.brk + 32768) :: st.brk :: A.ca.map Blk.addr := by
        intro w hw; simp only [List.mem_singleton] at hw; subst hw
        exact List.mem_cons_of_mem _ (List.mem_cons_self _ _)
      have m3 : ∀ w ∈ A.ca.map Blk.addr, w ∈ (st.brk + 32768) :: st.brk :: A.ca.map Blk.addr :=
        fun w hw => List.mem_cons_of_mem _ (List.mem_cons_of_mem _ hw)
      exact ((a3.mono_same m1).trans_same ((c4.mono_same m2).trans_same (q2.mono_same m3)))
    · simp only [growSmall, hm, hs]
      split <;> rfl
    · simp only [growSmall, hm, hs]
      split <;> rfl
    · simp only [growSmall, hm, hs]
      split <;> rfl

theorem splitFit_append_miss (size : Nat) (l : List Blk) (c : Blk)
    (hm : ∀ b ∈ l, b.size < size) (hc : size ≤ c.size) :
    splitFit size (l ++ [c]) = (l, [c]) := by
  induction l with
  | nil => simp [splitFit, hc]
  | cons a l ih =>
    have h1 := hm a (by simp)
    have h2 : ¬ a.size ≥ size := by omega
    have e := ih (fun b hb => hm b (by simp [hb]))
    show splitFit size (a :: (l ++ [c])) = _
    simp only [splitFit, h2, if_false, e]

theorem absorbT_rep {st : State} {lv l po : List Blk} {pre chunk : Blk}
    (hr : Rep st ⟨lv, l ++ [pre, chunk], po⟩)
    (hall : (lv ++ (l ++ [pre, chunk] ++ po)).Pairwise Disj) :
    Rep (absorbT st pre.addr chunk.addr)
      ⟨lv, l ++ [⟨pre.addr, addw pre.size (addw meta_size chunk.size)⟩], po⟩ ∧
    Same [pre.addr] st.mem (absorbT st pre.addr chunk.addr).mem ∧
    (absorbT st pre.addr chunk.addr).brk = st.brk ∧
    (absorbT st pre.addr chunk.addr).ntry = st.ntry ∧
    (absorbT st pre.addr chunk.addr).nsbrk = st.nsbrk := by
  have hcache := hr.cache
  obtain ⟨k, hA, hB⟩ := BSeg.append.1 hcache
  obtain ⟨hk, hpz, hps, hB2⟩ := hB
  obtain ⟨_, hcz, hcs, hcn⟩ := hB2
  simp only [BSeg] at hcn
  subst hk
  rw [List.pairwise_append, List.pairwise_append, List.pairwise_append] at hall
  obtain ⟨-, ⟨⟨-, hpc, hlp⟩, -, hcp⟩, hlc⟩ := hall
  rw [List.pairwise_cons] at hpc
  have hsep : HSep pre.addr chunk.addr := (hpc.1 chunk (by simp)).hsep
  have hn : readW (writeW st.mem pre.addr (addw pre.size (addw 16 chunk.size))) (chunk.addr + 8)
      = 0 := by rw [readW_writeW_disj _ _ _ _ (by omega)]; exact hcn
  have hW : Same [pre.addr] st.mem (absorbT st pre.addr chunk.addr).mem :=
    ((Same.refl [pre.addr] st.mem).size pre.addr _ (by simp)).next pre.addr _ (by simp)
  refine ⟨⟨?_, ?_, ?_⟩, hW, rfl, rfl, rfl⟩
  · show BSeg _ st.local_head (l ++ [_]) 0
    refine BSeg.append.2 ⟨pre.addr, ?_, rfl, hpz, ?_, ?_⟩
    · refine BSeg.frame_seg hW ?_ hA
      intro b hb w hw
      simp only [List.mem_singleton] at hw
      subst hw
      exact (hlp b hb pre (by simp)).hsep
    · simp only [absorbT, State.setSize, State.setNext, State.size, State.next, hps, hcs,
        meta_size]
      rw [readW_writeW_disj _ _ _ _ (by omega), readW_writeW_same, addw_mod]
    · simp only [absorbT, State.setSize, State.setNext, State.size, State.next, hps, hcs,
        meta_size, hn, BSeg]
      rw [readW_writeW_same]; rfl
  · refine BSeg.frame_seg hW ?_ hr.pool
    intro b hb w hw
    simp only [List.mem_singleton] at hw
    subst hw
    exact (hcp pre (by simp) b hb).hsep.symm
  · refine live_frame hW hr.live ?_
    intro b hb w hw
    simp only [List.mem_singleton] at hw
    subst hw
    exact (hlc b hb pre (by simp)).hsep


theorem Frame.sub2 {F F2 : List Blk} {brk brk2 : Nat} {m m2 : Mem} (h : Frame F brk m m2)
    (hF : ∀ x, x < brk2 → OutB F2 x → OutB F x) (hb : brk2 ≤ brk) : Frame F2 brk2 m m2 :=
  fun x hx hlt => h x (hF x hlt hx) (by omega)

/-- Serving the request from the last block of the local list. -/
theorem small_finish (base : Nat) (s : State) (A1 : Abs) (size : Nat) (l1 : List Blk) (c : Blk)
    (hr : Rep s A1) (hi : AInv base s.brk A1) (hca : A1.ca = l1 ++ [c])
    (hm : ∀ b ∈ l1, b.size < size) (hc : size ≤ c.size) (h8 : 8 ≤ size) (hal : size % 8 = 0) :
    (splitFit size A1.ca).2 = [c] ∧ (splitFit size A1.ca).1 = l1 ∧
    Rep (takeBlock s size (lastA l1 0) c.addr)
      ⟨(takeA size c).1 :: A1.lv, l1 ++ (takeA size c).2 ++ [], A1.po⟩ ∧
    AInv base s.brk ⟨(takeA size c).1 :: A1.lv, l1 ++ (takeA size c).2 ++ [], A1.po⟩ ∧
    Frame A1.ca s.brk s.mem (takeBlock s size (lastA l1 0) c.addr).mem ∧
    (takeBlock s size (lastA l1 0) c.addr).brk = s.brk ∧
    (takeBlock s size (lastA l1 0) c.addr).ntry = s.ntry ∧
    (takeBlock s size (lastA l1 0) c.addr).nsbrk = s.nsbrk ∧
    readW s.mem c.addr = c.size := by
  have hsf : splitFit size A1.ca = (l1, [c]) := by
    rw [hca]; exact splitFit_append_miss size l1 c hm hc
  have h2 : (splitFit size A1.ca).2 = [c] := by rw [hsf]
  have h1 : (splitFit size A1.ca).1 = l1 := by rw [hsf]
  obtain ⟨r1, r2, r3, _, r5, r6, r7⟩ := takeFit_rep base s A1 size c [] hr hi h2 h8 hal
  rw [h1] at r1 r2 r3 r5 r6 r7
  have hcs : readW s.mem c.addr = c.size := by
    have := hr.cache
    rw [hca] at this
    exact this.node.2.1
  exact ⟨h2, h1, r1, r2, r3, r5, r6, r7, hcs⟩

theorem smallA_inv_nomerge {base brk brk2 : Nat} {A : Abs} {chunk : Blk} {po1 : List Blk}
    (hi : AInv base brk A) (t : Tiles base brk2 (chunk :: (A.lv ++ (A.ca ++ po1))))
    (hc : chunk.addr = brk) (hb : brk2 + 1 < W64)
    (hna : ∀ pre ∈ A.ca.getLast?, pre.addr + 16 + pre.size ≠ brk) :
    AInv base brk2 ⟨A.lv, A.ca ++ [chunk], po1⟩ := by
  refine ⟨hi.base_pos, hb, ?_, ?_⟩
  · refine t.perm ?_
    simp only [Abs.all, List.perm_iff_count]
    intro a
    simp only [List.count_append, List.count_cons, List.count_nil]
    omega
  · rw [List.pairwise_append]
    refine ⟨hi.sorted, List.pairwise_singleton _ _, ?_⟩
    intro a ha b hb
    simp only [List.mem_singleton] at hb
    subst hb
    have hs := hi.sorted
    rcases List.eq_nil_or_concat A.ca with e | ⟨l, pre, e⟩
    · rw [e] at ha; cases ha
    · rw [List.concat_eq_append] at e
      rw [e] at ha hs hna
      have gp := (hi.good_ca pre (by rw [e]; simp)).hi
      have hp := hna pre (by simp)
      rw [List.pairwise_append] at hs
      rcases List.mem_append.1 ha with ha | ha
      · have := hs.2.2 a ha pre (by simp)
        show a.addr + 16 + a.size < b.addr
        omega
      · simp only [List.mem_singleton] at ha
        subst ha
        show a.addr + 16 + a.size < b.addr
        omega

theorem smallA_inv_merge {base brk brk2 : Nat} {A : Abs} {chunk pre : Blk} {l po1 : List Blk}
    (hi : AInv base brk A) (t : Tiles base brk2 (chunk :: (A.lv ++ (A.ca ++ po1))))
    (hc : chunk.addr = brk) (hb : brk2 + 1 < W64) (e : A.ca = l ++ [pre])
    (hadj : pre.addr + 16 + pre.size = brk) :
    AInv base brk2 ⟨A.lv, l ++ [⟨pre.addr, pre.size + 16 + chunk.size⟩], po1⟩ := by
  refine ⟨hi.base_pos, hb, ?_, ?_⟩
  · have t2 : Tiles base brk2 (pre :: chunk :: (A.lv ++ (l ++ po1))) := by
      refine t.perm ?_
      rw [e]
      simp only [List.perm_iff_count]
      intro a
      simp only [List.count_append, List.count_cons, List.count_nil]
      omega
    refine (t2.merge (by rw [hc]; exact hadj)).perm ?_
    simp only [Abs.all, List.perm_iff_count]
    intro a
    simp only [List.count_append, List.count_cons, List.count_nil]
    omega
  · have hs := hi.sorted
    rw [e, List.pairwise_append] at hs
    rw [List.pairwise_append]
    refine ⟨hs.1, List.pairwise_singleton _ _, ?_⟩
    intro a ha b hb
    simp only [List.mem_singleton] at hb
    subst hb
    exact hs.2.2 a ha pre (by simp)


theorem chunkA_addr (brk : Nat) (t2 : Bool) : (chunkA brk t2).addr = brk := rfl

theorem chunkA_size (brk : Nat) (t2 : Bool) :
    32752 ≤ (chunkA brk t2).size ∧ (chunkA brk t2).size ≤ 65520 := by
  cases t2 <;> simp [chunkA]

theorem smallPath_nil (brk : Nat) (sp : Bool) :
    smallPath [] brk sp = if sp then Path.head_split else Path.head_whole := rfl

theorem smallPath_concat (l : List Blk) (pre : Blk) (brk : Nat) (sp : Bool) :
    smallPath (l ++ [pre]) brk sp =
      if pre.addr + meta_size + pre.size = brk
      then (if sp then Path.merge_split else Path.merge_whole)
      else (if sp then Path.tail_split else Path.tail_whole) := by
  simp [smallPath, List.getLast?_concat]

/-- The small growth path on a represented state. -/
theorem small_rep (base : Nat) (st : State) (A : Abs) (size : Nat) (t2 : Bool)
    (hr : Rep st A) (hi : AInv base st.brk A) (h8 : 8 ≤ size) (hal : size % 8 = 0)
    (hsm : size ≤ 32752) (hmiss : ∀ b ∈ A.ca, b.size < size) :
    (st.brk + 65536 + 1 < W64 →
      ∃ l1 c st', (smallA st.brk t2 A).ca = l1 ++ [c] ∧ (∀ b ∈ l1, b.size < size) ∧
        size ≤ c.size ∧ AInv base (st.brk + 65536) (smallA st.brk t2 A) ∧
        malloc_small t2 st size (penA A.ca 0 0) (lastA A.ca 0) =
          some (c.addr + meta_size,
            smallPath A.ca st.brk (decide (c.size > addw size meta_size)), st') ∧
        Rep st' ⟨(takeA size c).1 :: A.lv, l1 ++ (takeA size c).2 ++ [], poolA st.brk t2 A.po⟩ ∧
        AInv base st'.brk
          ⟨(takeA size c).1 :: A.lv, l1 ++ (takeA size c).2 ++ [], poolA st.brk t2 A.po⟩ ∧
        st'.brk = st.brk + 65536 ∧ Frame A.ca st.brk st.mem st'.mem ∧
        st'.ntry = st.ntry + 1 ∧ st'.nsbrk = st.nsbrk + 1) ∧
    (¬ st.brk + 65536 + 1 < W64 →
      malloc_small t2 st size (penA A.ca 0 0) (lastA A.ca 0) = none) := by
  have hm : mulw chunk_size 2 = 65536 := by simp [mulw, chunk_size, W64]
  refine ⟨fun hroom => ?_, fun hroom => ?_⟩
  · obtain ⟨g0, g1, g2, g3, g4, g5, g6⟩ := growSmall_rep base st A t2 hr hi hroom
    have hne : st.brk ≠ W64 - 1 := by omega
    rw [malloc_small_eq, g0, if_neg hne]
    generalize growSmall t2 st (lastA A.ca 0) = s2 at g1 g3 g4 g5 g6 ⊢
    have hcs := chunkA_size st.brk t2
    have hb2 : s2.brk + 1 < W64 := by rw [g4]; exact hroom
    have F0 : Frame A.ca st.brk st.mem s2.mem := by
      refine Frame.of_same g3 ?_
      intro w hw
      simp only [List.mem_cons] at hw
      rcases hw with rfl | rfl | hw
      · exact Or.inr (by omega)
      · exact Or.inr (le_refl _)
      · obtain ⟨x, hx, rfl⟩ := List.mem_map.1 hw
        exact Or.inl ⟨x, hx, inside_self x⟩
    have hout : ∀ x, x < st.brk → OutB A.ca x → OutB (smallA st.brk t2 A).ca x := by
      intro x hx ho
      apply mergeL_out
      intro d hd
      rcases List.mem_append.1 hd with hd | hd
      · exact ho d hd
      · simp only [List.mem_singleton] at hd
        subst hd
        left; exact hx
    rcases List.eq_nil_or_concat A.ca with e | ⟨l, pre, e⟩
    · -- the local list is empty: the chunk becomes its head
      have hlh : s2.local_head = st.brk := by
        have := g1.cache
        simp only [e, List.nil_append] at this
        exact this.1
      have hi2 : AInv base s2.brk ⟨A.lv, [chunkA st.brk t2], poolA st.brk t2 A.po⟩ := by
        rw [g4]
        have := @smallA_inv_nomerge _ _ _ _ (chunkA st.brk t2) _ hi g2 rfl hroom
          (by rw [e]; intro p hp; cases hp)
        simpa [e] using this
      have hr2 : Rep s2 ⟨A.lv, [chunkA st.brk t2], poolA st.brk t2 A.po⟩ := by
        simpa [e] using g1
      obtain ⟨k1, k2, k3, k4, k5, k6, k7, k8, k9⟩ := small_finish base s2 _ size []
        (chunkA st.brk t2) hr2 hi2 rfl (by intro b hb; cases hb) (by omega) h8 hal
      have hst := smallTake_eq s2 size 0 0 st.brk (fun _ => hlh.symm)
      rw [if_neg (by rw [hlh]; simp)] at hst
      refine ⟨[], chunkA st.brk t2, _, ?_, ?_, ?_, ?_, ?_, k3, by rw [k6]; exact k4,
        ?_, ?_, ?_, ?_⟩
      · simp [smallA, e]
      · intro b hb; cases hb
      · omega
      · rw [← g4]; simpa [smallA, e] using hi2
      rotate_left
      · rw [k6, g4]
      rotate_left
      · rw [k7, g5]
      · rw [k8, g6]
      · simp only [e, penA_nil, lastA_nil, hst, smallPath_nil, State.size, chunkA_addr] at *
        simp only [k9, decide_eq_true_eq]
      · refine F0.trans_frame ((k5.sub2 ?_ (by rw [g4]; omega)))
        intro x hx ho
        simpa [smallA, e] using hout x hx ho
    · rw [List.concat_eq_append] at e
      have hpin : pre ∈ A.ca := by rw [e]; simp
      have gp := hi.good_ca pre hpin
      have hc3 : BSeg s2.mem s2.local_head (l ++ pre :: [chunkA st.brk t2]) 0 := by
        have := g1.cache
        simpa [e] using this
      obtain ⟨hpz, hps, -⟩ := hc3.node
      have hlne : st.brk ≠ s2.local_head := by
        have hh := BSeg.head_eq hc3
        cases l with
        | nil =>
          simp only [List.nil_append, List.map_cons, List.headD_cons] at hh
          have := gp.hi
          omega
        | cons a l' =>
          simp only [List.cons_append, List.map_cons, List.headD_cons] at hh
          have := (hi.good_ca a (by rw [e]; simp)).hi
          omega
      have hst := smallTake_eq s2 size (lastA l 0) pre.addr st.brk (fun h => absurd h hpz)
      rw [if_pos hlne] at hst
      simp only [State.size, hps] at hst
      have hla : lastA A.ca 0 = pre.addr := by rw [e]; exact lastA_concat _ _ _
      have hpa : penA A.ca 0 0 = lastA l 0 := by rw [e]; exact penA_concat _ _ _ _
      rw [hla, hpa, hst]
      have hsp : smallPath A.ca st.brk = fun sp =>
          if pre.addr + meta_size + pre.size = st.brk
          then (if sp then Path.merge_split else Path.merge_whole)
          else (if sp then Path.tail_split else Path.tail_whole) := by
        funext sp; rw [e]; exact smallPath_concat _ _ _ _
      have hsA : (smallA st.brk t2 A).ca =
          if pre.addr + meta_size + pre.size = st.brk
          then l ++ [⟨pre.addr, addw pre.size (addw meta_size (chunkA st.brk t2).size)⟩]
          else l ++ [pre] ++ [chunkA st.brk t2] := by
        simp only [smallA, e, mergeL_concat, chunkA_addr]
      by_cases hadj : pre.addr + meta_size + pre.size = st.brk
      · -- the chunk is merged into the last block
        have hadj' : pre.addr + 16 + pre.size = (chunkA st.brk t2).addr := hadj
        have gch : Good base (st.brk + 65536) (chunkA st.brk t2) := g2.good _ (by simp)
        have hme := merged_eq gch hroom hadj'
        have hall : (A.lv ++ (l ++ [pre, chunkA st.brk t2] ++ poolA st.brk t2 A.po)).Pairwise
            Disj := by
          refine (List.Perm.pairwise_iff (fun h => Disj.symm_disj h) ?_).1 g2.disj
          rw [e]
          simp only [List.perm_iff_count]
          intro a
          simp only [List.count_append, List.count_cons, List.count_nil]
          omega
        have hr2 : Rep s2 ⟨A.lv, l ++ [pre, chunkA st.brk t2], poolA st.brk t2 A.po⟩ := by
          simpa [e] using g1
        obtain ⟨a1, a2, a3, a4, a5⟩ := absorbT_rep hr2 hall
        rw [hme] at a1
        simp only [chunkA_addr] at a1 a2 a3 a4 a5
        have hi3 := @smallA_inv_merge _ _ _ _ (chunkA st.brk t2) _ _ _ hi g2 rfl hroom e hadj
        rw [← g4, ← a3] at hi3
        have hmiss2 : ∀ b ∈ l, b.size < size := fun b hb => hmiss b (by rw [e]; simp [hb])
        obtain ⟨k1, k2, k3, k4, k5, k6, k7, k8, k9⟩ := small_finish base
          (absorbT s2 pre.addr st.brk) _ size l
          ⟨pre.addr, pre.size + 16 + (chunkA st.brk t2).size⟩ a1 hi3 rfl hmiss2
          (by show size ≤ pre.size + 16 + (chunkA st.brk t2).size; omega) h8 hal
        have htm : takeBlockM (absorbT s2 pre.addr st.brk) size (lastA l 0) pre.addr =
            takeBlock (absorbT s2 pre.addr st.brk) size (lastA l 0) pre.addr := by
          apply takeBlockM_eq
          intro hne
          rcases List.eq_nil_or_concat l with rfl | ⟨l', q, rfl⟩
          · exact absurd rfl hne
          · rw [List.concat_eq_append, lastA_concat]
            have := hi.ca_disj
            rw [e, List.pairwise_append] at this
            exact (this.2.2 q (by simp) pre (by simp)).hsep
        refine ⟨l, ⟨pre.addr, pre.size + 16 + (chunkA st.brk t2).size⟩, _, ?_, hmiss2, ?_, ?_,
          ?_, k3, by rw [k6]; exact k4, ?_, ?_, ?_, ?_⟩
        · rw [hsA, if_pos hadj, hme]
        · show size ≤ pre.size + 16 + (chunkA st.brk t2).size; omega
        · have := @smallA_inv_merge _ _ _ _ (chunkA st.brk t2) _ _ _ hi g2 rfl hroom e hadj
          simpa [smallA, e, mergeL_concat, chunkA_addr, hadj, hme] using this
        · rw [if_pos hadj, htm, hsp]
          simp only [hadj, if_true, State.size, decide_eq_true_eq]
          have k9' : readW (absorbT s2 pre.addr st.brk).mem pre.addr =
              pre.size + 16 + (chunkA st.brk t2).size := k9
          simp only [k9']
        · rw [k6, a3, g4]
        · have F1 : Frame A.ca st.brk s2.mem (absorbT s2 pre.addr st.brk).mem :=
            frame_of_same_addrs a2 (by
              intro w hw
              simp only [List.mem_singleton] at hw
              subst hw
              exact ⟨pre, hpin, rfl⟩)
          refine (F0.trans_frame F1).trans_frame (k5.sub2 ?_ (by rw [a3, g4]; omega))
          intro x hx ho
          have := hout x hx ho
          rw [hsA, if_pos hadj, hme] at this
          exact this
        · rw [k7, a4, g5]
        · rw [k8, a5, g6]
      · -- the chunk stays a block of its own at the tail
        have hi2 : AInv base s2.brk ⟨A.lv, A.ca ++ [chunkA st.brk t2], poolA st.brk t2 A.po⟩ := by
          rw [g4]
          refine @smallA_inv_nomerge _ _ _ _ (chunkA st.brk t2) _ hi g2 rfl hroom ?_
          rw [e]
          intro p hp
          simp only [List.getLast?_concat, Option.mem_def, Option.some.injEq] at hp
          subst hp
          exact hadj
        obtain ⟨k1, k2, k3, k4, k5, k6, k7, k8, k9⟩ := small_finish base s2 _ size A.ca
          (chunkA st.brk t2) g1 hi2 rfl hmiss (by omega) h8 hal
        rw [hla] at k3 k5 k6 k7 k8
        simp only [chunkA_addr] at k3 k5 k6 k7 k8 k9
        refine ⟨A.ca, chunkA st.brk t2, _, ?_, hmiss, by omega, ?_,
          ?_, k3, by rw [k6]; exact k4, ?_, ?_, ?_, ?_⟩
        · rw [hsA, if_neg hadj, e]
        · have := hi2
          rw [g4] at this
          simpa [smallA, e, mergeL_concat, chunkA_addr, hadj] using this
        · rw [if_neg hadj, hsp]
          simp only [hadj, if_false, State.size, decide_eq_true_eq, k9, chunkA_addr]
        · rw [k6, g4]
        · refine F0.trans_frame (k5.sub2 ?_ (by rw [g4]; omega))
          intro x hx ho
          have := hout x hx ho
          rw [hsA, if_neg hadj, ← e] at this
          exact this
        · rw [k7, g5]
        · rw [k8, g6]
  · have hs := sbrk_fail 65536 st hroom
    rw [malloc_small_eq, hm, hs, if_pos rfl]

theorem takeFit_some {A : Abs} {size brk : Nat} {pf : Bool → Path} {c : Blk} {l2 : List Blk}
    (h : (splitFit size A.ca).2 = c :: l2) :
    takeFit A size brk pf =
      some ⟨(takeA size c).1, pf (decide (c.size > addw size meta_size)),
        ⟨(takeA size c).1 :: A.lv, (splitFit size A.ca).1 ++ (takeA size c).2 ++ l2, A.po⟩, brk⟩ := by
  unfold takeFit
  rw [h]

theorem size_align_props (s : Nat) (h0 : s ≠ 0) (h : s + 7 < W64) :
    8 ≤ size_align s ∧ size_align s % 8 = 0 ∧ s ≤ size_align s ∧ size_align s < s + 8 := by
  rw [size_align_of_lt s h]
  omega

theorem smallPath_tries (ca : List Blk) (brk : Nat) (sp : Bool) :
    (smallPath ca brk sp).tries = 2 ∧ (smallPath ca brk sp).sbrks = 1 := by
  unfold smallPath
  cases ca.getLast? with
  | none => cases sp <;> exact ⟨rfl, rfl⟩
  | some pre =>
    simp only []
    split <;> cases sp <;> exact ⟨rfl, rfl⟩


theorem malloc_unfold (fuel : Nat) (t1 t2 : Bool) (s size : Nat) (st : State) (pp p c : Nat)
    (h0 : s ≠ 0) (hsz : size_align s = size)
    (hw : fit_walk st size fuel 0 0 st.local_head = some (pp, p, c)) :
    malloc fuel t1 t2 s st =
      if c = 0 then
        match malloc_probe fuel t1 st size with
        | none => none
        | some (Sum.inl r) => some r
        | some (Sum.inr st) =>
          if size > chunk_size - meta_size then malloc_large fuel t2 st size
          else malloc_small t2 st size pp p
      else some (malloc_hit st size p c) := by
  subst hsz
  unfold malloc
  rw [if_neg h0]
  simp only [hw]

theorem frame_ca_all {A : Abs} {brk : Nat} {m m2 : Mem} (h : Frame A.ca brk m m2) :
    Frame (A.ca ++ A.po) brk m m2 :=
  h.sub (fun x hx c hc => hx c (by simp [hc])) (le_refl _)

/-- The growth paths (lines 145-256), entered after the probe's `try_lock`. -/
theorem grow_rep (base : Nat) (st : State) (A : Abs) (size fuel : Nat) (t2 : Bool)
    (hr : Rep st A) (hi : AInv base st.brk A) (h8 : 8 ≤ size) (hal : size % 8 = 0)
    (hn : 2 * size + 32 < W64) (hf : A.ca.length < fuel) (hmiss : ∀ b ∈ A.ca, b.size < size) :
    MallocOk base st A
      (if size > chunk_size - meta_size then
         some ⟨⟨st.brk, size⟩, Path.large, largeA st.brk t2 size A, st.brk + (2 * size + 32)⟩
       else takeFit (smallA st.brk t2 A) size (st.brk + 65536) (smallPath A.ca st.brk))
      (st.brk + growBy size)
      (if size > chunk_size - meta_size then malloc_large fuel t2 st.tryLock size
       else malloc_small t2 st.tryLock size (penA A.ca 0 0) (lastA A.ca 0)) 2 := by
  have hrt : Rep st.tryLock A := hr.tryLock
  unfold growBy
  by_cases hbig : size > chunk_size - meta_size
  · rw [if_pos hbig, if_pos hbig, if_pos hbig]
    refine ⟨?_, ?_⟩
    · intro hroom
      have := large_rep base st.tryLock A size fuel t2 hrt hi hal hn hf
      rw [if_pos (show st.tryLock.brk + (2 * size + 32) + 1 < W64 from hroom)] at this
      obtain ⟨st', h1, h2, h3, h4, h5, h6, h7⟩ := this
      exact ⟨_, st', rfl, rfl, rfl, h1, h2, h3, h4, frame_ca_all h5, h6, h7⟩
    · intro hroom
      have := large_rep base st.tryLock A size fuel t2 hrt hi hal hn hf
      rw [if_neg (show ¬ st.tryLock.brk + (2 * size + 32) + 1 < W64 from hroom)] at this
      exact this
  · rw [if_neg hbig, if_neg hbig, if_neg hbig]
    have hsm : size ≤ 32752 := by simp only [chunk_size, meta_size] at hbig; omega
    obtain ⟨k1, k2⟩ := small_rep base st.tryLock A size t2 hrt hi h8 hal hsm hmiss
    refine ⟨?_, ?_⟩
    · intro hroom
      obtain ⟨l1, c, st', h1, h2, h3, h4, h5, h6, h7, h8', h9, h10, h11⟩ :=
        k1 (show st.tryLock.brk + 65536 + 1 < W64 from hroom)
      have hb : st.tryLock.brk = st.brk := rfl
      rw [hb] at h1 h4 h5 h6 h7 h8'
      have h1' : (smallA st.brk t2 A).ca = l1 ++ [c] := h1
      have hta : (takeA size c).1.addr = c.addr := by unfold takeA; split <;> rfl
      have hfit : (splitFit size (smallA st.brk t2 A).ca).2 = [c] ∧
          (splitFit size (smallA st.brk t2 A).ca).1 = l1 := by
        rw [h1', splitFit_append_miss size l1 c h2 h3]
        exact ⟨rfl, rfl⟩
      refine ⟨_, st', takeFit_some hfit.1, rfl, (smallPath_tries _ _ _).1, ?_, ?_, ?_, h8',
        frame_ca_all h9, h10, ?_⟩
      · show _ = some ((takeA size c).1.addr + meta_size, _, st')
        rw [hta]; exact h5
      · show Rep st' ⟨_, (splitFit size (smallA st.brk t2 A).ca).1 ++ _ ++ [], _⟩
        rw [hfit.2]; exact h6
      · show AInv base st'.brk ⟨_, (splitFit size (smallA st.brk t2 A).ca).1 ++ _ ++ [], _⟩
        rw [hfit.2]; exact h7
      · show st'.nsbrk = st.nsbrk + (smallPath _ _ _).sbrks
        rw [h11, (smallPath_tries _ _ _).2]; rfl
    · intro hroom
      exact k2 (show ¬ st.tryLock.brk + 65536 + 1 < W64 from hroom)

theorem takeA_addr (size : Nat) (c : Blk) : (takeA size c).1.addr = c.addr := by
  unfold takeA; split <;> rfl

/-- `malloc` refines the block-level `malloc`: with enough fuel, a request
`s > 0` returns exactly when the break may move to `abrk`, and then memory
represents the blocks computed by `amalloc`. -/
theorem malloc_rep (base : Nat) (st : State) (A : Abs) (s fuel : Nat) (t1 t2 : Bool)
    (hr : Rep st A) (hi : AInv base st.brk A) (h0 : s ≠ 0) (hs : 2 * s + 64 < W64)
    (hf1 : A.ca.length < fuel) (hf2 : A.po.length < fuel) :
    (abrk st.brk t1 (size_align s) A + 1 < W64 →
      ∃ o st', amalloc st.brk t1 t2 (size_align s) A = some o ∧
        o.brk = abrk st.brk t1 (size_align s) A ∧
        malloc fuel t1 t2 s st = some (o.blk.addr + meta_size, o.path, st') ∧
        Rep st' o.abs ∧ AInv base st'.brk o.abs ∧ st'.brk = o.brk ∧
        Frame (A.ca ++ A.po) st.brk st.mem st'.mem ∧
        st'.ntry = st.ntry + o.path.tries ∧ st'.nsbrk = st.nsbrk + o.path.sbrks) ∧
    (¬ abrk st.brk t1 (size_align s) A + 1 < W64 → malloc fuel t1 t2 s st = none) := by
  obtain ⟨h8, hal, hle, hlt⟩ := size_align_props s h0 (by omega)
  generalize hsz : size_align s = size at *
  have hn : 2 * size + 32 < W64 := by omega
  have hsl := splitFit_length size A.ca
  have hw := fit_walk_fit st size fuel A.ca st.local_head hr.cache (by omega)
  obtain ⟨he, hm1, hm2⟩ := splitFit_eq size A.ca
  cases hfit : (splitFit size A.ca).2 with
  | cons c l2 =>
    -- found in the local list
    rw [hfit] at he hw
    have hcache := hr.cache
    rw [← he] at hcache
    have hp : (((splitFit size A.ca).1 ++ c :: l2).map Blk.addr).Pairwise HSep := by
      rw [he]; exact pairwise_hsep_of_disj hi.ca_disj
    have hcz := hcache.node.1
    simp only [headA_cons] at hw
    have hmal := malloc_unfold fuel t1 t2 s size st _ _ _ h0 hsz hw
    rw [if_neg hcz, malloc_hit_eq st size _ l2 c hcache hp] at hmal
    have hab : abrk st.brk t1 size A = st.brk := by unfold abrk; rw [hfit]
    have ham : amalloc st.brk t1 t2 size A = takeFit A size st.brk
        (fun sp => if sp then Path.cache_split else Path.cache_whole) := by
      unfold amalloc
      rw [hfit]
    rw [takeFit_some hfit] at ham
    obtain ⟨k1, k2, k3, k4, k5, k6, k7⟩ := takeFit_rep base st A size c l2 hr hi hfit h8 hal
    rw [hab]
    refine ⟨fun _ => ⟨_, _, ham, rfl, ?_, k1, by rw [k5]; exact k2, k5, frame_ca_all k3, ?_, ?_⟩,
      fun hno => absurd hi.brk_lt hno⟩
    · rw [hmal]
      simp only [takeA_addr, decide_eq_true_eq]
    · rw [k6]
      show st.ntry = st.ntry + (if decide (c.size > addw size meta_size) = true then
        Path.cache_split else Path.cache_whole).tries
      split <;> rfl
    · rw [k7]
      show st.nsbrk = st.nsbrk + (if decide (c.size > addw size meta_size) = true then
        Path.cache_split else Path.cache_whole).sbrks
      split <;> rfl
  | nil =>
    rw [hfit] at he hw
    simp only [headA_nil, List.append_nil] at he hw
    rw [he] at hw
    have hmiss : ∀ b ∈ A.ca, b.size < size := splitFit_none hfit
    have hmal := malloc_unfold fuel t1 t2 s size st _ _ _ h0 hsz hw
    rw [if_pos rfl] at hmal
    have hgrow := grow_rep base st A size fuel t2 hr hi h8 hal hn hf1 hmiss
    have key : malloc_probe fuel t1 st size = some (Sum.inr st.tryLock) →
        (if t1 then (splitFit size A.po).2 else []) = [] →
        ((abrk st.brk t1 size A + 1 < W64 →
          ∃ o st', amalloc st.brk t1 t2 size A = some o ∧
            o.brk = abrk st.brk t1 size A ∧
            malloc fuel t1 t2 s st = some (o.blk.addr + meta_size, o.path, st') ∧
            Rep st' o.abs ∧ AInv base st'.brk o.abs ∧ st'.brk = o.brk ∧
            Frame (A.ca ++ A.po) st.brk st.mem st'.mem ∧
            st'.ntry = st.ntry + o.path.tries ∧ st'.nsbrk = st.nsbrk + o.path.sbrks) ∧
        (¬ abrk st.brk t1 size A + 1 < W64 → malloc fuel t1 t2 s st = none)) := by
      intro hprobe hpo
      rw [hprobe] at hmal
      simp only [] at hmal
      have hab : abrk st.brk t1 size A = st.brk + growBy size := by
        unfold abrk; rw [hfit]; simp only []; rw [hpo]
      have ham : amalloc st.brk t1 t2 size A =
          (if size > chunk_size - meta_size then
            some ⟨⟨st.brk, size⟩, Path.large, largeA st.brk t2 size A, st.brk + (2 * size + 32)⟩
          else takeFit (smallA st.brk t2 A) size (st.brk + 65536) (smallPath A.ca st.brk)) := by
        unfold amalloc; rw [hfit]; simp only []; rw [hpo]
      rw [hab, ham, hmal]
      refine ⟨fun hroom => ?_, hgrow.2⟩
      obtain ⟨o, st', g1, g2, g3, g4, g5, g6, g7, g8, g9, g10⟩ := hgrow.1 hroom
      exact ⟨o, st', g1, g2, g4, g5, g6, g7, g8, by rw [g9, g3], g10⟩
    cases t1 with
    | false => exact key (malloc_probe_false fuel st size) rfl
    | true =>
      cases hg : (splitFit size A.po).2 with
      | nil =>
        refine key (malloc_probe_miss fuel st size A.po hr.pool (splitFit_none hg) hf2) ?_
        simp [hg]
      | cons g g2 =>
        obtain ⟨p1, c, l2, p2, st', p3, p4, p5, p6, p7, p8, p9⟩ :=
          probe_rep base st A size fuel g g2 hr hi hg h8 hal hf1 hf2
        rw [p3] at hmal
        simp only [] at hmal
        have hab : abrk st.brk true size A = st.brk := by
          unfold abrk; rw [hfit]; simp only [if_true]; rw [hg]
        have ham : amalloc st.brk true t2 size A =
            takeFit ⟨A.lv, ains g A.ca, (splitFit size A.po).1 ++ g2⟩ size st.brk
              (fun sp => if sp then Path.pool_split else Path.pool_whole) := by
          unfold amalloc
          rw [hfit]
          simp only [if_true]
          rw [hg]
        rw [takeFit_some (A := ⟨A.lv, ains g A.ca, (splitFit size A.po).1 ++ g2⟩) p2] at ham
        rw [hab]
        refine ⟨fun _ => ⟨_, _, ham, rfl, ?_, p4, p5, p7, p6, ?_, ?_⟩,
          fun hno => absurd hi.brk_lt hno⟩
        · rw [hmal]
          simp only [takeA_addr, decide_eq_true_eq]
        · rw [p8]
          show st.ntry + 1 = st.ntry + (if decide (c.size > addw size meta_size) = true then
            Path.pool_split else Path.pool_whole).tries
          split <;> rfl
        · rw [p9]
          show st.nsbrk = st.nsbrk + (if decide (c.size > addw size meta_size) = true then
            Path.pool_split else Path.pool_whole).sbrks
          split <;> rfl

theorem BSeg.congr {m m2 : Mem} : ∀ {l : List Blk} {h t : Nat},
    (∀ b ∈ l, readW m2 b.addr = readW m b.addr ∧ readW m2 (b.addr + 8) = readW m (b.addr + 8)) →
    BSeg m h l t → BSeg m2 h l t := by
  intro l
  induction l with
  | nil => intro h t _ hb; exact hb
  | cons b l ih =>
    intro h t hc hb
    obtain ⟨h1, h2, h3, h4⟩ := hb
    have hb := hc b (List.mem_cons_self _ _)
    refine ⟨h1, h2, hb.1.trans h3, ?_⟩
    rw [hb.2]
    exact ih (fun c hc' => hc c (List.mem_cons_of_mem _ hc')) h4

theorem SameR.hdr_range {lo hi : Nat} {m m2 : Mem} (h : SameR lo hi m m2) (a : Nat)
    (ha : a + 16 ≤ lo ∨ hi ≤ a) :
    readW m2 a = readW m a ∧ readW m2 (a + 8) = readW m (a + 8) := by
  constructor
  · apply readW_congr
    intro x h1 h2
    exact h x (by omega)
  · apply readW_congr
    intro x h1 h2
    exact h x (by omega)

theorem Rep.frame_range {st : State} {A : Abs} {lo hi : Nat} {m2 : Mem} (hr : Rep st A)
    (hs : SameR lo hi st.mem m2) (hsep : ∀ b ∈ A.all, b.addr + 16 ≤ lo ∨ hi ≤ b.addr) :
    Rep { st with mem := m2 } A := by
  refine ⟨?_, ?_, ?_⟩
  · exact BSeg.congr (fun b hb => hs.hdr_range b.addr (hsep b (by simp [Abs.all, hb]))) hr.cache
  · exact BSeg.congr (fun b hb => hs.hdr_range b.addr (hsep b (by simp [Abs.all, hb]))) hr.pool
  · intro b hb
    exact ((hs.hdr_range b.addr (hsep b (by simp [Abs.all, hb]))).1).trans (hr.live b hb)

theorem memset_sameR (m : Mem) (p c n : Nat) : SameR p (p + n) m (memset m p c n) := by
  intro x hx
  unfold memset
  rw [if_neg (by omega)]

theorem memcpy_sameR (m : Mem) (d s n : Nat) : SameR d (d + n) m (memcpy m d s n) := by
  intro x hx
  unfold memcpy
  rw [if_neg (by omega)]

/-- A range inside the payload of a block of a tiling is clear of every header. -/
theorem payload_clear {base brk : Nat} {l : List Blk} (t : Tiles base brk l) (b : Blk)
    (hb : b ∈ l) (lo hi : Nat) (h1 : b.addr + 16 ≤ lo) (h2 : hi ≤ b.addr + 16 + b.size) :
    ∀ c ∈ l, c.addr + 16 ≤ lo ∨ hi ≤ c.addr := by
  intro c hc
  by_cases e : c = b
  · subst e; left; exact h1
  · have hd : Disj c b := t.disj.forall disj_symmetric hc hb e
    unfold Disj at hd
    omega

theorem takeFit_props {A : Abs} {size brk : Nat} {pf : Bool → Path} {o : AOut}
    (h : takeFit A size brk pf = some o) (hs : size + 16 < W64) :
    o.abs.lv = o.blk :: A.lv ∧ size ≤ o.blk.size ∧ o.blk.size ≤ size + 16 ∧ o.brk = brk ∧
    o.abs.po = A.po ∧
    ∃ sp, o.path = pf sp ∧ (sp = true → o.blk.size = size) := by
  unfold takeFit at h
  obtain ⟨-, -, h2⟩ := splitFit_eq size A.ca
  cases hfit : (splitFit size A.ca).2 with
  | nil => rw [hfit] at h; cases h
  | cons c l2 =>
    rw [hfit] at h h2
    have hc := h2 c rfl
    simp only [Option.some.injEq] at h
    subst h
    have hadd : addw size meta_size = size + 16 := addw_eq _ _ hs
    refine ⟨rfl, ?_, ?_, rfl, rfl, decide (c.size > addw size meta_size), rfl, ?_⟩
    · show size ≤ (takeA size c).1.size
      unfold takeA; split
      · exact le_refl _
      · exact hc
    · show (takeA size c).1.size ≤ size + 16
      unfold takeA; split
      · show size ≤ size + 16; omega
      · rename_i hn; rw [hadd] at hn; show c.size ≤ size + 16; omega
    · intro hsp
      simp only [decide_eq_true_eq] at hsp
      show (takeA size c).1.size = size
      unfold takeA; rw [if_pos hsp]

theorem smallPath_split (ca : List Blk) (brk : Nat) (sp : Bool) :
    (smallPath ca brk sp).isSplit = sp := by
  unfold smallPath
  cases ca.getLast? with
  | none => cases sp <;> rfl
  | some pre =>
    simp only []
    split <;> cases sp <;> rfl

/-- The block handed out by the block-level `malloc`. -/
theorem amalloc_props {brk : Nat} {t1 t2 : Bool} {size : Nat} {A : Abs} {o : AOut}
    (h : amalloc brk t1 t2 size A = some o) (hs : size + 16 < W64) :
    o.abs.lv = o.blk :: A.lv ∧ size ≤ o.blk.size ∧ o.blk.size ≤ size + 16 ∧
    ((o.path.isSplit = true ∨ o.path = Path.large) → o.blk.size = size) ∧
    o.path ≠ Path.zero := by
  unfold amalloc at h
  have key : ∀ (A' : Abs) (b' : Nat) (pf : Bool → Path), A'.lv = A.lv →
      (∀ sp, (pf sp).isSplit = sp ∧ pf sp ≠ Path.large ∧ pf sp ≠ Path.zero) →
      takeFit A' size b' pf = some o →
      o.abs.lv = o.blk :: A.lv ∧ size ≤ o.blk.size ∧ o.blk.size ≤ size + 16 ∧
      ((o.path.isSplit = true ∨ o.path = Path.large) → o.blk.size = size) ∧
      o.path ≠ Path.zero := by
    intro A' b' pf hlv hpf ht
    obtain ⟨p1, p2, p3, -, -, sp, p5, p6⟩ := takeFit_props ht hs
    refine ⟨by rw [p1, hlv], p2, p3, ?_, by rw [p5]; exact (hpf sp).2.2⟩
    rintro (hsp | hl)
    · rw [p5, (hpf sp).1] at hsp
      exact p6 hsp
    · rw [p5] at hl
      exact absurd hl (hpf sp).2.1
  cases hfit : (splitFit size A.ca).2 with
  | cons c l2 =>
    rw [hfit] at h
    exact key A brk _ rfl (by intro sp; cases sp <;> simp [Path.isSplit]) h
  | nil =>
    rw [hfit] at h
    simp only [] at h
    cases hg : (if t1 then (splitFit size A.po).2 else []) with
    | cons g g2 =>
      rw [hg] at h
      simp only [] at h
      exact key ⟨A.lv, ains g A.ca, (splitFit size A.po).1 ++ g2⟩ brk
        (fun sp => if sp then Path.pool_split else Path.pool_whole) rfl
        (by intro sp; cases sp <;> simp [Path.isSplit]) h
    | nil =>
      rw [hg] at h
      simp only [] at h
      by_cases hbig : size > chunk_size - meta_size
      · rw [if_pos hbig] at h
        simp only [Option.some.injEq] at h
        subst h
        exact ⟨rfl, le_refl _, by show size ≤ size + 16; omega, fun _ => rfl, by simp⟩
      · rw [if_neg hbig] at h
        refine key (smallA brk t2 A) (brk + 65536) (smallPath A.ca brk) rfl ?_ h
        intro sp
        refine ⟨smallPath_split _ _ _, ?_, ?_⟩
        · intro hl
          have := (smallPath_split A.ca brk sp)
          have h2 := smallPath_tries A.ca brk sp
          unfold smallPath at hl
          cases hq : A.ca.getLast? with
          | none => rw [hq] at hl; cases sp <;> simp at hl
          | some pre =>
            rw [hq] at hl
            simp only [] at hl
            split at hl <;> cases sp <;> simp at hl
        · intro hl
          have h2 := (smallPath_tries A.ca brk sp).1
          rw [hl] at h2
          cases h2

theorem realloc_unfold (fuel : Nat) (t1 t2 : Bool) (ptr s size : Nat) (st : State)
    (hp : ptr ≠ 0) (h0 : s ≠ 0) (hsz : size_align s = size) :
    realloc fuel t1 t2 ptr s st =
      if st.size (ptr - meta_size) = size then some (ptr, st)
      else if st.size (ptr - meta_size) > size then
        if st.size (ptr - meta_size) > addw size meta_size then
          match free fuel (ptr - meta_size + size + meta_size + meta_size)
            (st.setSize (ptr - meta_size + size + meta_size)
              (subw (subw (st.size (ptr - meta_size)) size) meta_size)) with
          | none => none
          | some st => some (ptr, st.setSize (ptr - meta_size) size)
        else some (ptr, st)
      else
        match addr_walk st (ptr - meta_size) fuel 0 st.local_head with
        | none => none
        | some (pre, cur) =>
          if cur ≠ 0 ∧ ptr - meta_size + meta_size + st.size (ptr - meta_size) = cur
              ∧ addw (addw (st.size (ptr - meta_size)) meta_size) (st.size cur) ≥ size then
            some (ptr - meta_size + meta_size,
              takeBlock (absorbC st (ptr - meta_size) cur) size pre (ptr - meta_size))
          else
            match malloc fuel t1 t2 size st with
            | none => none
            | some (new_ptr, _, st1) =>
              if new_ptr = 0 then none
              else
                match free fuel ptr
                  { st1 with mem := memcpy st1.mem new_ptr ptr (st1.size (ptr - meta_size)) } with
                | none => none
                | some st2 => some (new_ptr, st2) := by
  subst hsz
  unfold realloc
  rw [if_neg hp, if_neg h0]
  simp only []
  split
  · rfl
  · split
    · rfl
    · cases addr_walk st (ptr - meta_size) fuel 0 st.local_head with
      | none => rfl
      | some r =>
        obtain ⟨pre, cur⟩ := r
        simp only []
        split
        · simp only [takeBlock, absorbC]
          have e : addw meta_size (size_align s) = addw (size_align s) meta_size := by
            unfold addw; rw [Nat.add_comm]
          rw [e]
          split <;> rfl
        · rfl

/-- Shrinking `realloc` with a tail large enough to become a block. -/
theorem realloc_shrink_rep (base : Nat) (st : State) (A : Abs) (b : Blk) (lv' : List Blk)
    (s size fuel : Nat) (t1 t2 : Bool) (hr : Rep st A) (hi : AInv base st.brk A)
    (hp : A.lv.Perm (b :: lv')) (h0 : s ≠ 0) (hsz : size_align s = size)
    (hal : size % 8 = 0) (hgt : size + 16 < b.size) (hf : A.ca.length < fuel) :
    ∃ st', realloc fuel t1 t2 (b.addr + meta_size) s st = some (b.addr + meta_size, st') ∧
      Rep st' ⟨⟨b.addr, size⟩ :: lv', ains ⟨b.addr + size + 16, b.size - size - 16⟩ A.ca, A.po⟩ ∧
      AInv base st'.brk
        ⟨⟨b.addr, size⟩ :: lv', ains ⟨b.addr + size + 16, b.size - size - 16⟩ A.ca, A.po⟩ ∧
      Same (b.addr :: (b.addr + size + 16) :: A.ca.map Blk.addr) st.mem st'.mem ∧
      st'.brk = st.brk ∧ st'.ntry = st.ntry ∧ st'.nsbrk = st.nsbrk := by
  have hbin : b ∈ A.lv := hp.mem_iff.2 (by simp)
  have gb := hi.good_lv b hbin
  have hbl := gb.lt hi.brk_lt
  have hbs : readW st.mem b.addr = b.size := hr.live b hbin
  have hadd : addw size meta_size = size + 16 := addw_eq _ _ (by simp only [meta_size]; omega)
  have hsub : subw (subw b.size size) meta_size = b.size - size - 16 := by
    rw [subw_eq _ _ hbl.2.1 (by omega), subw_eq _ _ (by omega) (by simp only [meta_size]; omega)]
    rfl
  have hun := realloc_unfold fuel t1 t2 (b.addr + meta_size) s size st (by simp [meta_size]) h0 hsz
  rw [Nat.add_sub_cancel] at hun
  simp only [State.size, hbs] at hun
  rw [if_neg (by omega), if_pos (by omega), if_pos (by rw [hadd]; omega), hsub] at hun
  -- blocks
  have hr0 : Rep st ⟨lv', A.ca, A.po⟩ := hr.perm_lv (fun x hx => hp.mem_iff.2 (by simp [hx]))
  have T0 : Tiles base st.brk (b :: (lv' ++ (A.ca ++ A.po))) := by
    refine hi.tiles.perm ?_
    unfold Abs.all
    exact hp.append_right _
  have T1 := T0.split size hal hgt
  have hd0 := T0.disj
  rw [List.pairwise_cons] at hd0
  obtain ⟨g1, g2, g3⟩ := ghost_size (A := ⟨lv', A.ca, A.po⟩) (b.addr + size + 16)
    (b.size - size - 16) hr0
    (by
      intro x hx
      have := hd0.1 x hx
      unfold Disj at this; unfold HSep; omega)
    (by omega)
  have T2 : Tiles base (st.setSize (b.addr + size + 16) (b.size - size - 16)).brk
      ((⟨b.addr + size + 16, b.size - size - 16⟩ : Blk) ::
        ((⟨lv', A.ca, A.po⟩ : Abs).all ++ [⟨b.addr, size⟩])) := by
    refine T1.perm ?_
    simp only [Abs.all, List.perm_iff_count]
    intro a
    simp only [List.count_append, List.count_cons, List.count_nil]
    omega
  obtain ⟨st2, f1, f2, f3, f4, f5, f6, f7, f8⟩ := free_gen base _ ⟨lv', A.ca, A.po⟩
    ⟨b.addr + size + 16, b.size - size - 16⟩ fuel [⟨b.addr, size⟩] g1 g2 T2 hi.sorted
    hi.base_pos hi.brk_lt hf
  have hd3 := f3.disj
  rw [List.pairwise_append] at hd3
  obtain ⟨q1, q2, q3⟩ := ghost_size b.addr size f2
    (fun x hx => (hd3.2.2 x hx ⟨b.addr, size⟩ (by simp)).hsep) (by omega)
  have f1' : free fuel (b.addr + size + meta_size + meta_size)
      (st.setSize (b.addr + size + meta_size) (b.size - size - 16)) = some st2 := f1
  rw [f1'] at hun
  refine ⟨_, hun, ⟨q1.cache, q1.pool, ?_⟩, ⟨hi.base_pos, ?_, ?_, f4⟩, ?_, f6, f7, f8⟩
  · intro x hx
    rcases List.mem_cons.1 hx with rfl | hx
    · exact q2
    · exact q1.live x hx
  · show st2.brk + 1 < W64
    rw [f6]; exact hi.brk_lt
  · show Tiles base st2.brk _
    refine f3.perm ?_
    simp only [Abs.all, List.perm_iff_count]
    intro a
    simp only [List.count_append, List.count_cons, List.count_nil]
    omega
  · have m1 : ∀ w ∈ [b.addr + size + 16],
        w ∈ b.addr :: (b.addr + size + 16) :: A.ca.map Blk.addr := by
      intro w hw; simp only [List.mem_singleton] at hw; subst hw; simp
    have m2 : ∀ w ∈ (b.addr + size + 16) :: A.ca.map Blk.addr,
        w ∈ b.addr :: (b.addr + size + 16) :: A.ca.map Blk.addr :=
      fun w hw => List.mem_cons_of_mem _ hw
    have m3 : ∀ w ∈ [b.addr], w ∈ b.addr :: (b.addr + size + 16) :: A.ca.map Blk.addr := by
      intro w hw; simp only [List.mem_singleton] at hw; subst hw; simp
    exact (g3.mono_same m1).trans_same ((f5.mono_same m2).trans_same (q3.mono_same m3))


theorem sorted_replace {l1 l2 : List Blk} {c d : Blk} (hs : (l1 ++ c :: l2).Pairwise Gap)
    (h1 : c.addr ≤ d.addr) (h2 : d.addr + 16 + d.size ≤ c.addr + 16 + c.size) :
    (l1 ++ d :: l2).Pairwise Gap := by
  rw [List.pairwise_append, List.pairwise_cons] at hs ⊢
  refine ⟨hs.1, ⟨?_, hs.2.1.2⟩, ?_⟩
  · intro x hx
    have := hs.2.1.1 x hx
    show d.addr + 16 + d.size < x.addr
    omega
  · intro a ha x hx
    rcases List.mem_cons.1 hx with rfl | hx
    · have := hs.2.2 a ha c (by simp)
      show a.addr + 16 + a.size < x.addr
      omega
    · exact hs.2.2 a ha x (by simp [hx])

theorem sorted_remove {l1 l2 : List Blk} {c : Blk} (hs : (l1 ++ c :: l2).Pairwise Gap) :
    (l1 ++ l2).Pairwise Gap :=
  hs.sublist (List.Sublist.append_left (List.sublist_cons_self _ _) _)

theorem absorbC_mem (st : State) (x y : Nat) (h : HSep x y) :
    readW (absorbC st x y).mem x = addw (st.size x) (addw meta_size (st.size y)) ∧
    readW (absorbC st x y).mem (x + 8) = readW st.mem (y + 8) ∧
    Same [x, y] st.mem (absorbC st x y).mem := by
  have hn : readW (writeW st.mem x (addw (readW st.mem x) (addw 16 (readW st.mem y)))) (y + 8)
      = readW st.mem (y + 8) := readW_writeW_disj _ _ _ _ (by omega)
  simp only [absorbC, State.setSize, State.setNext, State.size, State.next, meta_size, hn]
  refine ⟨?_, ?_, ?_⟩
  · simp (disch := omega) only [readW_writeW_same, readW_writeW_disj, addw_mod]
  · simp (disch := omega) only [readW_writeW_same, readW_writeW_disj, readW_mod]
  · exact (((Same.refl [x, y] st.mem).size x _ (by simp)).next x _ (by simp)).next y _ (by simp)

/-- Growing `realloc` that absorbs the free block right behind the live block. -/
theorem realloc_inplace_rep (base : Nat) (st : State) (A : Abs) (b c : Blk)
    (lv' l2' : List Blk) (s size fuel : Nat) (t1 t2 : Bool) (hr : Rep st A)
    (hi : AInv base st.brk A) (hp : A.lv.Perm (b :: lv')) (h0 : s ≠ 0)
    (hsz : size_align s = size) (hal : size % 8 = 0) (hlt : b.size < size)
    (hl2 : (splitAddr b.addr A.ca).2 = c :: l2') (hadj : b.addr + 16 + b.size = c.addr)
    (hfit : size ≤ b.size + 16 + c.size) (hf : A.ca.length < fuel) :
    ∃ st', realloc fuel t1 t2 (b.addr + meta_size) s st = some (b.addr + meta_size, st') ∧
      Rep st' ⟨(takeA size ⟨b.addr, b.size + 16 + c.size⟩).1 :: lv',
        (splitAddr b.addr A.ca).1 ++ (takeA size ⟨b.addr, b.size + 16 + c.size⟩).2 ++ l2',
        A.po⟩ ∧
      AInv base st'.brk ⟨(takeA size ⟨b.addr, b.size + 16 + c.size⟩).1 :: lv',
        (splitAddr b.addr A.ca).1 ++ (takeA size ⟨b.addr, b.size + 16 + c.size⟩).2 ++ l2',
        A.po⟩ ∧
      Same ((b.addr + size + 16) :: b.addr :: A.ca.map Blk.addr) st.mem st'.mem ∧
      st'.brk = st.brk ∧ st'.ntry = st.ntry ∧ st'.nsbrk = st.nsbrk := by
  obtain ⟨he, hl1, hl2h⟩ := splitAddr_eq b.addr A.ca
  rw [hl2] at he hl2h
  generalize (splitAddr b.addr A.ca).1 = l1 at he hl1 ⊢
  have hbin : b ∈ A.lv := hp.mem_iff.2 (by simp)
  have hcin : c ∈ A.ca := by rw [← he]; simp
  have gb := hi.good_lv b hbin
  have gc := hi.good_ca c hcin
  have hbl := gb.lt hi.brk_lt
  have hcl := gc.lt hi.brk_lt
  have hbs : readW st.mem b.addr = b.size := hr.live b hbin
  have hcache := hr.cache
  rw [← he] at hcache
  obtain ⟨hcz, hcs, hcn⟩ := hcache.node
  obtain ⟨k, hA, hB⟩ := BSeg.append.1 hcache
  obtain ⟨hk, -, -, hC⟩ := hB
  subst hk
  have hlen : l1.length < fuel := by
    have : (l1 ++ c :: l2').length = A.ca.length := by rw [he]
    simp only [List.length_append, List.length_cons] at this
    omega
  have hw := addr_walk_spec st b.addr l1 (c :: l2') fuel 0 st.local_head hcache hl1 hl2h hlen
  simp only [headA_cons] at hw
  have hun := realloc_unfold fuel t1 t2 (b.addr + meta_size) s size st (by simp [meta_size]) h0 hsz
  rw [Nat.add_sub_cancel] at hun
  have e1 : addw (addw b.size meta_size) c.size = b.size + 16 + c.size := by
    have := gc.hi
    have := gb.hi
    have := hi.brk_lt
    rw [addw_eq b.size meta_size (by simp only [meta_size]; omega),
      addw_eq _ _ (by simp only [meta_size]; omega)]
    rfl
  simp only [State.size, hbs, hw, hcs, e1] at hun
  rw [if_neg (by omega), if_neg (by omega),
    if_pos ⟨hcz, by simp only [meta_size]; exact hadj, hfit⟩] at hun
  refine ⟨_, hun, ?_⟩
  have hR : A.all.Perm (b :: c :: (lv' ++ (l1 ++ l2' ++ A.po))) := by
    unfold Abs.all
    rw [← he]
    refine (List.Perm.append_right _ hp).trans ?_
    simp only [List.perm_iff_count]
    intro a
    simp only [List.count_append, List.count_cons, List.count_nil]
    omega
  have t0 := hi.tiles.perm hR
  have tm := t0.merge hadj
  have hd0 := t0.disj
  simp only [List.pairwise_cons, List.mem_cons, forall_eq_or_imp] at hd0
  obtain ⟨⟨hbc, hbR⟩, hcR, -⟩ := hd0
  have hRb : ∀ x ∈ lv' ++ (l1 ++ l2' ++ A.po), Disj x b ∧ Disj x c :=
    fun x hx => ⟨(hbR x hx).symm, (hcR x hx).symm⟩
  have hsep : HSep b.addr c.addr := hbc.hsep
  obtain ⟨a1, a2, a3⟩ := absorbC_mem st b.addr c.addr hsep
  obtain ⟨f1, f2, f3, f4, f5⟩ := absorbC_fields st b.addr c.addr
  simp only [State.size, hbs, hcs] at a1
  rw [show addw b.size (addw meta_size c.size) = b.size + 16 + c.size by
    have := gc.hi
    have := gb.hi
    have := hi.brk_lt
    rw [addw_eq meta_size c.size (by simp only [meta_size]; omega),
      addw_eq _ _ (by simp only [meta_size]; omega)]
    simp only [meta_size]; omega] at a1
  generalize absorbC st b.addr c.addr = s1 at a1 a2 a3 f1 f2 f3 f4 f5 ⊢
  have hl1R : ∀ x ∈ l1, x ∈ lv' ++ (l1 ++ l2' ++ A.po) := fun x hx => by simp [hx]
  have hl2R : ∀ x ∈ l2', x ∈ lv' ++ (l1 ++ l2' ++ A.po) := fun x hx => by simp [hx]
  have hW1 : ∀ x ∈ lv' ++ (l1 ++ l2' ++ A.po), ∀ w ∈ [b.addr, c.addr], HSep x.addr w := by
    intro x hx w hw
    simp only [List.mem_cons, List.mem_singleton, List.not_mem_nil, or_false] at hw
    rcases hw with rfl | rfl
    · exact (hRb x hx).1.hsep
    · exact (hRb x hx).2.hsep
  have hA1 : BSeg s1.mem s1.local_head l1 c.addr := by
    rw [f2]
    exact BSeg.frame_seg a3 (fun x hx => hW1 x (hl1R x hx)) hA
  have hC1 : BSeg s1.mem (readW s1.mem (b.addr + 8)) l2' 0 := by
    rw [a2]
    exact BSeg.frame_seg a3 (fun x hx => hW1 x (hl2R x hx)) hC
  have hadd : addw size 16 = size + 16 := addw_eq _ _ (by omega)
  have hin : b.size + 16 + c.size > size + 16 → Inside (b.addr + size + 16) c := by
    intro h; unfold Inside; omega
  have hps : ((l1 ++ l2').map Blk.addr).Pairwise HSep := by
    refine pairwise_hsep_of_disj ?_
    have := hi.ca_disj
    rw [← he] at this
    exact this.sublist (List.Sublist.append_left (List.sublist_cons_self _ _) _)
  have hl12 : ∀ x ∈ l1 ++ l2', x ∈ lv' ++ (l1 ++ l2' ++ A.po) := by
    intro x hx
    rcases List.mem_append.1 hx with h | h
    · exact hl1R x h
    · exact hl2R x h
  obtain ⟨t1, t2, t3, t4, t5, t6, t7⟩ := takeBlock_spec s1 size l1 l2'
    ⟨b.addr, b.size + 16 + c.size⟩ c.addr hA1 a1 hC1
    (pairwise_insert hps (fun x hx => (hRb x (hl12 x hx)).1.hsep))
    (by
      intro h
      rw [hadd] at h
      refine ⟨?_, by have := gc.hi; have := hi.brk_lt; show b.addr + size + 16 < W64; omega⟩
      intro x hx
      rcases List.mem_append.1 hx with hx | hx
      · exact hsep_inside (hRb x (hl1R x hx)).2 (hin h)
      · rcases List.mem_cons.1 hx with rfl | hx
        · show HSep b.addr (b.addr + size + 16)
          unfold HSep; omega
        · exact hsep_inside (hRb x (hl2R x hx)).2 (hin h))
    (by have := gc.hi; have := hi.brk_lt; omega)
  have hS : Same ((b.addr + size + 16) :: b.addr :: A.ca.map Blk.addr) st.mem
      (takeBlock s1 size (lastA l1 0) b.addr).mem := by
    refine (a3.mono_same ?_).trans_same (t3.mono_same ?_)
    · intro w hw
      simp only [List.mem_cons, List.mem_singleton, List.not_mem_nil, or_false] at hw
      rcases hw with rfl | rfl
      · simp
      · simp only [List.mem_cons, List.mem_map]
        exact Or.inr (Or.inr ⟨c, hcin, rfl⟩)
    · intro w hw
      rcases List.mem_append.1 hw with hw | hw
      · by_cases h : b.size + 16 + c.size > addw size 16
        · simp only [h, if_true, List.mem_singleton] at hw
          subst hw
          simp
        · simp [h] at hw
      · rw [← he]
        simp only [List.map_append, List.map_cons, List.mem_append, List.mem_cons] at hw ⊢
        rcases hw with hw | hw | hw
        · exact Or.inr (Or.inr (Or.inl hw))
        · exact Or.inr (Or.inl hw)
        · exact Or.inr (Or.inr (Or.inr (Or.inr hw)))
  have hW : ∀ x : Blk, Disj x b → Disj x c → (∀ c' ∈ A.ca, Disj x c') →
      (∀ w ∈ [b.addr, c.addr], HSep x.addr w) ∧
      ∀ w ∈ (if b.size + 16 + c.size > addw size 16 then [b.addr + size + 16] else []) ++
        (l1 ++ (⟨b.addr, b.size + 16 + c.size⟩ : Blk) :: l2').map Blk.addr, HSep x.addr w := by
    intro x hxb hxc hxa
    constructor
    · intro w hw
      simp only [List.mem_cons, List.mem_singleton, List.not_mem_nil, or_false] at hw
      rcases hw with rfl | rfl
      · exact hxb.hsep
      · exact hxc.hsep
    · intro w hw
      rcases List.mem_append.1 hw with hw | hw
      · by_cases h : b.size + 16 + c.size > addw size 16
        · simp only [h, if_true, List.mem_singleton] at hw
          subst hw
          rw [hadd] at h
          exact hsep_inside hxc (hin h)
        · simp [h] at hw
      · simp only [List.map_append, List.map_cons, List.mem_append, List.mem_cons,
          List.mem_map] at hw
        rcases hw with ⟨y, hy, rfl⟩ | rfl | ⟨y, hy, rfl⟩
        · exact (hxa y (by rw [← he]; simp [hy])).hsep
        · exact hxb.hsep
        · exact (hxa y (by rw [← he]; simp [hy])).hsep
  have hpo : ∀ x ∈ A.po, Disj x b ∧ Disj x c ∧ ∀ c' ∈ A.ca, Disj x c' :=
    fun x hx => ⟨(hRb x (by simp [hx])).1, (hRb x (by simp [hx])).2,
      fun c' hc' => (hi.ca_po c' hc' x hx).symm⟩
  have hlv : ∀ x ∈ lv', Disj x b ∧ Disj x c ∧ ∀ c' ∈ A.ca, Disj x c' :=
    fun x hx => ⟨(hRb x (by simp [hx])).1, (hRb x (by simp [hx])).2,
      fun c' hc' => hi.lv_free x (hp.mem_iff.2 (by simp [hx])) c' (by simp [hc'])⟩
  have hta : (takeA size (⟨b.addr, b.size + 16 + c.size⟩ : Blk)).1.addr = b.addr := by
    unfold takeA; split <;> rfl
  have hs := hi.sorted
  rw [← he] at hs
  refine ⟨⟨t1, ?_, ?_⟩, ?_, hS, by rw [t5, f3], by rw [t6, f4], by rw [t7, f5]⟩
  · show BSeg _ _ A.po 0
    rw [t4, f1]
    refine BSeg.frame_seg t3 (fun x hx => ?_) (BSeg.frame_seg a3 (fun x hx => ?_) hr.pool)
    · exact (hW x (hpo x hx).1 (hpo x hx).2.1 (hpo x hx).2.2).2
    · exact (hW x (hpo x hx).1 (hpo x hx).2.1 (hpo x hx).2.2).1
  · intro x hx
    rcases List.mem_cons.1 hx with rfl | hx
    · rw [hta]; exact t2
    · refine live_frame t3 (live_frame a3 (fun y hy => hr.live y (hp.mem_iff.2 (by simp [hy])))
        (fun y hy => ?_)) (fun y hy => ?_) x hx
      · exact (hW y (hlv y hy).1 (hlv y hy).2.1 (hlv y hy).2.2).1
      · exact (hW y (hlv y hy).1 (hlv y hy).2.1 (hlv y hy).2.2).2
  · rw [t5, f3]
    by_cases hgt : size + 16 < b.size + 16 + c.size
    · rw [takeA_eq_split (c := ⟨b.addr, b.size + 16 + c.size⟩) hgt
        (by have := gc.hi; have := hi.brk_lt; show b.size + 16 + c.size < W64; omega)]
      refine ⟨hi.base_pos, hi.brk_lt, ?_, ?_⟩
      · exact (tm.split size hal hgt).perm (perm_take_split _ _ _ _ _ _)
      · simp only [List.append_assoc, List.singleton_append]
        refine sorted_replace hs ?_ ?_
        · show c.addr ≤ b.addr + size + 16
          omega
        · show b.addr + size + 16 + 16 + (b.size + 16 + c.size - size - 16) ≤ _
          omega
    · rw [takeA_eq_whole (c := ⟨b.addr, b.size + 16 + c.size⟩) hgt
        (by have := gc.hi; have := hi.brk_lt; omega)]
      refine ⟨hi.base_pos, hi.brk_lt, ?_, ?_⟩
      · refine tm.perm ?_
        simp only [List.perm_iff_count]
        intro a
        simp only [List.count_append, List.count_cons, List.count_nil, Abs.all]
        omega
      · simp only [List.append_nil]
        exact sorted_remove hs


theorem size_align_idem (n : Nat) (hal : n % 8 = 0) (h : n + 7 < W64) : size_align n = n := by
  rw [size_align_of_lt n h]
  omega

theorem tot_length (l : List Blk) : l.length * 16 ≤ tot l := by
  induction l with
  | nil => simp
  | cons b l ih => simp only [List.length_cons, tot_cons]; omega

theorem AInv.len {base brk : Nat} {A : Abs} (hi : AInv base brk A) :
    A.ca.length < brk ∧ A.po.length < brk ∧ A.lv.length < brk := by
  have h := hi.tiles.total
  have hb := hi.base_pos
  unfold Abs.all at h
  simp only [tot_append] at h
  have := tot_length A.ca
  have := tot_length A.po
  have := tot_length A.lv
  omega

theorem growBlk_none (st : State) (A : Abs) (b : Blk) (size fuel : Nat) (hr : Rep st A)
    {base : Nat} (hi : AInv base st.brk A) (hb : b ∈ A.lv) (hf : A.ca.length < fuel)
    (hg : growBlk b size A.ca = none) :
    ∃ pre cur, addr_walk st b.addr fuel 0 st.local_head = some (pre, cur) ∧
      ¬ (cur ≠ 0 ∧ b.addr + meta_size + b.size = cur ∧
        addw (addw b.size meta_size) (st.size cur) ≥ size) := by
  obtain ⟨he, hl1, hl2h⟩ := splitAddr_eq b.addr A.ca
  unfold growBlk at hg
  generalize (splitAddr b.addr A.ca).1 = l1 at he hl1
  generalize (splitAddr b.addr A.ca).2 = l2 at he hl2h hg
  have hcache := hr.cache
  rw [← he] at hcache
  have hlen : l1.length < fuel := by
    have : (l1 ++ l2).length = A.ca.length := by rw [he]
    simp only [List.length_append] at this
    omega
  refine ⟨_, _, addr_walk_spec st b.addr l1 l2 fuel 0 st.local_head hcache hl1 hl2h hlen, ?_⟩
  cases l2 with
  | nil => simp
  | cons c l2' =>
    have hcin : c ∈ A.ca := by rw [← he]; simp
    have gc := hi.good_ca c hcin
    have gb := hi.good_lv b hb
    obtain ⟨-, hcs, -⟩ := hcache.node
    simp only [headA_cons, State.size, hcs]
    simp only [] at hg
    intro h
    have hadj : b.addr + 16 + b.size = c.addr := h.2.1
    have e1 : addw (addw b.size meta_size) c.size = b.size + 16 + c.size := by
      have := gc.hi
      have := gb.hi
      have := hi.brk_lt
      rw [addw_eq b.size meta_size (by simp only [meta_size]; omega),
        addw_eq _ _ (by simp only [meta_size]; omega)]
      rfl
    rw [if_pos ⟨hadj, by have := h.2.2; rw [e1] at this; exact this⟩] at hg
    cases hg

/-- Growing `realloc` that cannot extend in place: allocate, copy, release. -/
theorem realloc_copy_rep (base : Nat) (st : State) (A : Abs) (b : Blk)
    (lv' : List Blk) (s size fuel : Nat) (t1 t2 : Bool) (hr : Rep st A)
    (hi : AInv base st.brk A) (hp : A.lv.Perm (b :: lv')) (h0 : s ≠ 0)
    (hsz : size_align s = size) (hal : size % 8 = 0) (hlt : b.size < size)
    (hs : 2 * size + 64 < W64) (hg : growBlk b size A.ca = none)
    (hf : abrk st.brk t1 size A < fuel)
    (hroom : abrk st.brk t1 size A + 1 < W64) :
    ∃ o st', amalloc st.brk t1 t2 size A = some o ∧
      realloc fuel t1 t2 (b.addr + meta_size) s st = some (o.blk.addr + meta_size, st') ∧
      Rep st' ⟨o.blk :: lv', ains b o.abs.ca, o.abs.po⟩ ∧
      AInv base st'.brk ⟨o.blk :: lv', ains b o.abs.ca, o.abs.po⟩ ∧
      (∀ i, i < b.size → st'.mem (o.blk.addr + 16 + i) = st.mem (b.addr + 16 + i)) ∧
      st'.brk = abrk st.brk t1 size A ∧ st'.ntry = st.ntry + o.path.tries ∧
      st'.nsbrk = st.nsbrk + o.path.sbrks := by
  have hbin : b ∈ A.lv := hp.mem_iff.2 (by simp)
  have hbs : readW st.mem b.addr = b.size := hr.live b hbin
  have gb := hi.good_lv b hbin
  have hsa : size_align size = size := size_align_idem size hal (by omega)
  have hab : st.brk ≤ abrk st.brk t1 size A := by
    unfold abrk; split
    · exact le_refl _
    · split
      · exact le_refl _
      · exact Nat.le_add_right _ _
  have hl := hi.len
  have hmr := malloc_rep base st A size fuel t1 t2 hr hi (by omega) hs (by omega) (by omega)
  rw [hsa] at hmr
  obtain ⟨o, st1, ho, hob, hm, hr1, hi1, hb1, hfr, hnt, hns⟩ := hmr.1 hroom
  obtain ⟨p1, p2, p3, p4, p5⟩ := amalloc_props ho (by omega)
  obtain ⟨pre, cur, hw, hnc⟩ := growBlk_none st A b size fuel hr hi hbin (by omega) hg
  have hun := realloc_unfold fuel t1 t2 (b.addr + meta_size) s size st (by simp [meta_size]) h0 hsz
  rw [Nat.add_sub_cancel] at hun
  simp only [State.size, hbs, hw] at hun
  rw [if_neg (by omega), if_neg (by omega)] at hun
  simp only [State.size] at hnc
  rw [if_neg hnc, hm] at hun
  simp only [] at hun
  rw [if_neg (by simp [meta_size])] at hun
  have hbin1 : b ∈ o.abs.lv := by rw [p1]; simp [hbin]
  have hb1s : readW st1.mem b.addr = b.size := hr1.live b hbin1
  simp only [State.size, hb1s] at hun
  have hoin : o.blk ∈ o.abs.all := by simp [Abs.all, p1]
  have hrc : Rep { st1 with
      mem := (memcpy st1.mem (o.blk.addr + meta_size) (b.addr + meta_size) b.size) } o.abs :=
    hr1.frame_range (memcpy_sameR _ _ _ _)
      (payload_clear hi1.tiles o.blk hoin _ _ (by simp [meta_size])
        (by simp only [meta_size]; omega))
  have hperm : o.abs.lv.Perm (b :: (o.blk :: lv')) := by
    rw [p1]
    exact (hp.cons o.blk).trans (List.Perm.swap _ _ _)
  have hl1 := hi1.len
  obtain ⟨st2, g1, g2, g3, g4, g5, g6, g7⟩ := free_rep base
    { st1 with mem := (memcpy st1.mem (o.blk.addr + meta_size) (b.addr + meta_size) b.size) }
    o.abs b (o.blk :: lv') fuel hrc hi1 hperm (by rw [hb1, hob] at hl1; omega)
  rw [g1] at hun
  refine ⟨o, st2, ho, hun, g2, g3, ?_, by rw [g5]; exact hb1.trans hob, by rw [g6]; exact hnt,
    by rw [g7]; exact hns⟩
  intro i hi2
  have hd1 := hi1.tiles.disj
  have hne : o.blk ≠ b := by
    intro e
    have := hi1.lv_disj
    rw [p1, List.pairwise_cons] at this
    have := this.1 b hbin
    rw [e] at this
    unfold Disj at this
    omega
  have hdb : Disj o.blk b := hd1.forall disj_symmetric hoin (by simp [Abs.all, hbin1]) hne
  have e1 : st2.mem (o.blk.addr + 16 + i) =
      memcpy st1.mem (o.blk.addr + meta_size) (b.addr + meta_size) b.size (o.blk.addr + 16 + i) := by
    apply g4
    intro w hw
    rcases List.mem_cons.1 hw with rfl | hw
    · unfold Disj at hdb; omega
    · obtain ⟨c, hc, rfl⟩ := List.mem_map.1 hw
      have := hi1.lv_free o.blk (by rw [p1]; simp) c (by simp [hc])
      unfold Disj at this; omega
  rw [e1]
  unfold memcpy
  rw [if_pos (by simp only [meta_size]; omega)]
  have e2 : b.addr + meta_size + (o.blk.addr + 16 + i - (o.blk.addr + meta_size)) = b.addr + 16 + i := by
    simp only [meta_size]; omega
  rw [e2]
  apply hfr
  · intro c hc
    have hcf : c ∈ A.ca ++ A.po := hc
    have := hi.lv_free b hbin c hcf
    unfold Disj at this; omega
  · have := gb.hi; omega

/-- `calloc` with a non-zero rounded product: allocate and clear. -/
theorem calloc_rep (base : Nat) (st : State) (A : Abs) (a k n fuel : Nat) (t1 t2 : Bool)
    (hr : Rep st A) (hi : AInv base st.brk A) (ha : a ≠ 0) (hk : k ≠ 0)
    (hn : size_align (mulw a k) = n) (hn0 : n ≠ 0) (hs : 2 * n + 64 < W64)
    (hf : st.brk < fuel) (hroom : abrk st.brk t1 n A + 1 < W64) :
    ∃ o st1, amalloc st.brk t1 t2 n A = some o ∧
      malloc fuel t1 t2 n st = some (o.blk.addr + meta_size, o.path, st1) ∧
      calloc fuel t1 t2 a k st = some (o.blk.addr + meta_size,
        { st1 with mem := (memset st1.mem (o.blk.addr + meta_size) 0 n) }) ∧
      Rep { st1 with mem := (memset st1.mem (o.blk.addr + meta_size) 0 n) } o.abs ∧
      AInv base st1.brk o.abs ∧ Rep st1 o.abs ∧
      Frame (A.ca ++ A.po) st.brk st.mem st1.mem ∧
      st1.brk = abrk st.brk t1 n A ∧ st1.ntry = st.ntry + o.path.tries ∧
      st1.nsbrk = st.nsbrk + o.path.sbrks := by
  have hal : n % 8 = 0 := by rw [← hn, size_align_eq]; omega
  have hsa : size_align n = n := size_align_idem n hal (by omega)
  have hl := hi.len
  have hmr := malloc_rep base st A n fuel t1 t2 hr hi hn0 (by omega) (by omega) (by omega)
  rw [hsa] at hmr
  obtain ⟨o, st1, ho, hob, hm, hr1, hi1, hb1, hfr, hnt, hns⟩ := hmr.1 hroom
  obtain ⟨p1, p2, p3, p4, p5⟩ := amalloc_props ho (by omega)
  have hoin : o.blk ∈ o.abs.all := by simp [Abs.all, p1]
  refine ⟨o, st1, ho, hm, ?_, ?_, hi1, hr1, hfr, hb1.trans hob, hnt, hns⟩
  · unfold calloc
    rw [if_neg (by simp [ha, hk])]
    simp only [hn, hm]
    rw [if_neg (by simp [meta_size])]
  · exact hr1.frame_range (memset_sameR _ _ _ _)
      (payload_clear hi1.tiles o.blk hoin _ _ (by simp [meta_size])
        (by simp only [meta_size]; omega))

theorem memset_zero (m : Mem) (p n i : Nat) (h : i < n) : memset m p 0 n (p + i) = 0 := by
  unfold memset
  rw [if_pos (by omega)]

theorem addr_walk_mono (st : State) (mid : Nat) :
    ∀ (f f2 pre cur : Nat) (r : Nat × Nat), addr_walk st mid f pre cur = some r → f ≤ f2 →
      addr_walk st mid f2 pre cur = some r := by
  intro f
  induction f with
  | zero => intro f2 pre cur r h; simp [addr_walk] at h
  | succ f ih =>
    intro f2 pre cur r h hle
    obtain ⟨g, rfl⟩ : ∃ g, f2 = g + 1 := ⟨f2 - 1, by omega⟩
    unfold addr_walk at h ⊢
    by_cases h1 : cur = 0
    · rw [if_pos h1] at h ⊢; exact h
    · rw [if_neg h1] at h ⊢
      by_cases h2 : cur > mid
      · rw [if_pos h2] at h ⊢; exact h
      · rw [if_neg h2] at h ⊢
        exact ih g _ _ r h (by omega)

theorem fit_walk_mono (st : State) (size : Nat) :
    ∀ (f f2 pp pre cur : Nat) (r : Nat × Nat × Nat), fit_walk st size f pp pre cur = some r →
      f ≤ f2 → fit_walk st size f2 pp pre cur = some r := by
  intro f
  induction f with
  | zero => intro f2 pp pre cur r h; simp [fit_walk] at h
  | succ f ih =>
    intro f2 pp pre cur r h hle
    obtain ⟨g, rfl⟩ : ∃ g, f2 = g + 1 := ⟨f2 - 1, by omega⟩
    unfold fit_walk at h ⊢
    by_cases h1 : cur = 0
    · rw [if_pos h1] at h ⊢; exact h
    · rw [if_neg h1] at h ⊢
      by_cases h2 : st.size cur ≥ size
      · rw [if_pos h2] at h ⊢; exact h
      · rw [if_neg h2] at h ⊢
        exact ih g _ _ _ r h (by omega)

theorem free_mono (f f2 ptr : Nat) (st r : State) (h : free f ptr st = some r) (hle : f ≤ f2) :
    free f2 ptr st = some r := by
  unfold free at h ⊢
  by_cases h1 : ptr = 0
  · rw [if_pos h1] at h ⊢; exact h
  · rw [if_neg h1] at h ⊢
    cases hw : addr_walk st (ptr - meta_size) f 0 st.local_head with
    | none => simp only [hw] at h; cases h
    | some w =>
      simp only [hw] at h
      simp only [addr_walk_mono st _ f f2 0 _ w hw hle]
      exact h

theorem malloc_probe_mono (f f2 : Nat) (t1 : Bool) (st : State) (size : Nat)
    (r : (Nat × Path × State) ⊕ State) (h : malloc_probe f t1 st size = some r) (hle : f ≤ f2) :
    malloc_probe f2 t1 st size = some r := by
  unfold malloc_probe at h ⊢
  simp only [] at h ⊢
  by_cases ht : t1 = true
  · rw [if_pos ht] at h ⊢
    cases hw : fit_walk st.tryLock size f 0 0 st.tryLock.global_head with
    | none => simp only [hw] at h; cases h
    | some w =>
      simp only [hw] at h
      simp only [fit_walk_mono _ _ f f2 0 0 _ w hw hle]
      by_cases hc : w.2.2 ≠ 0
      · rw [if_pos hc] at h ⊢
        generalize (if w.2.1 ≠ 0 then st.tryLock.setNext w.2.1 (st.tryLock.next w.2.2)
          else st.tryLock.setGlobal (st.tryLock.next w.2.2)) = s1 at h ⊢
        cases hfr : free f (w.2.2 + meta_size) s1 with
        | none => simp only [hfr] at h; cases h
        | some s2 =>
          simp only [hfr] at h
          simp only [free_mono f f2 _ s1 s2 hfr hle]
          cases hw2 : fit_walk s2 size f 0 0 s2.local_head with
          | none => simp only [hw2] at h; cases h
          | some w2 =>
            simp only [hw2] at h
            simp only [fit_walk_mono _ _ f f2 0 0 _ w2 hw2 hle]
            exact h
      · rw [if_neg hc] at h ⊢; exact h
  · rw [if_neg ht] at h ⊢; exact h

theorem malloc_large_mono (f f2 : Nat) (t2 : Bool) (st : State) (size : Nat)
    (r : Nat × Path × State) (h : malloc_large f t2 st size = some r) (hle : f ≤ f2) :
    malloc_large f2 t2 st size = some r := by
  unfold malloc_large at h ⊢
  simp only [] at h ⊢
  by_cases h1 : (sbrk (addw (mulw size 2) (mulw meta_size 2)) st).1 = W64 - 1
  · rw [if_pos h1] at h; cases h
  · rw [if_neg h1] at h ⊢
    by_cases ht : t2 = true
    · rw [if_pos ht] at h ⊢; exact h
    · rw [if_neg ht] at h ⊢
      generalize (((sbrk (addw (mulw size 2) (mulw meta_size 2)) st).2.setSize
        ((sbrk (addw (mulw size 2) (mulw meta_size 2)) st).1 + meta_size + size) size).tryLock)
        = s1 at h ⊢
      cases hfr : free f ((sbrk (addw (mulw size 2) (mulw meta_size 2)) st).1 + meta_size + size
          + meta_size) s1 with
      | none => simp only [hfr] at h; cases h
      | some s2 =>
        simp only [hfr] at h
        simp only [free_mono f f2 _ s1 s2 hfr hle]
        exact h

theorem malloc_mono (f f2 : Nat) (t1 t2 : Bool) (s : Nat) (st : State)
    (r : Nat × Path × State) (h : malloc f t1 t2 s st = some r) (hle : f ≤ f2) :
    malloc f2 t1 t2 s st = some r := by
  unfold malloc at h ⊢
  by_cases h0 : s = 0
  · rw [if_pos h0] at h ⊢; exact h
  · rw [if_neg h0] at h ⊢
    simp only [] at h ⊢
    cases hw : fit_walk st (size_align s) f 0 0 st.local_head with
    | none => simp only [hw] at h; cases h
    | some w =>
      simp only [hw] at h
      simp only [fit_walk_mono _ _ f f2 0 0 _ w hw hle]
      by_cases hc : w.2.2 = 0
      · rw [if_pos hc] at h ⊢
        cases hp : malloc_probe f t1 st (size_align s) with
        | none => simp only [hp] at h; cases h
        | some pr =>
          simp only [hp] at h
          simp only [malloc_probe_mono f f2 t1 st _ pr hp hle]
          cases pr with
          | inl x => exact h
          | inr s1 =>
            simp only [] at h ⊢
            by_cases hl : size_align s > chunk_size - meta_size
            · rw [if_pos hl] at h ⊢
              exact malloc_large_mono f f2 t2 s1 _ r h hle
            · rw [if_neg hl] at h ⊢; exact h
      · rw [if_neg hc] at h ⊢; exact h

theorem calloc_mono (f f2 : Nat) (t1 t2 : Bool) (a k : Nat) (st : State)
    (r : Nat × State) (h : calloc f t1 t2 a k st = some r) (hle : f ≤ f2) :
    calloc f2 t1 t2 a k st = some r := by
  unfold calloc at h ⊢
  by_cases h0 : a = 0 ∨ k = 0
  · rw [if_pos h0] at h ⊢; exact h
  · rw [if_neg h0] at h ⊢
    simp only [] at h ⊢
    cases hm : malloc f t1 t2 (size_align (mulw a k)) st with
    | none => simp only [hm] at h; cases h
    | some x =>
      simp only [hm] at h
      simp only [malloc_mono f f2 t1 t2 _ st x hm hle]
      exact h

theorem realloc_mono (f f2 : Nat) (t1 t2 : Bool) (p s : Nat) (st : State)
    (r : Nat × State) (h : realloc f t1 t2 p s st = some r) (hle : f ≤ f2) :
    realloc f2 t1 t2 p s st = some r := by
  by_cases hp : p = 0
  · unfold realloc at h ⊢
    rw [if_pos hp] at h ⊢
    cases hm : malloc f t1 t2 s st with
    | none => simp only [hm] at h; cases h
    | some x =>
      simp only [hm] at h
      simp only [malloc_mono f f2 t1 t2 _ st x hm hle]
      exact h
  · by_cases h0 : s = 0
    · unfold realloc at h ⊢
      rw [if_neg hp, if_pos h0] at h ⊢
      cases hm : free f p st with
      | none => simp only [hm] at h; cases h
      | some x =>
        simp only [hm] at h
        simp only [free_mono f f2 _ st x hm hle]
        exact h
    · rw [realloc_unfold f t1 t2 p s _ st hp h0 rfl] at h
      rw [realloc_unfold f2 t1 t2 p s _ st hp h0 rfl]
      split at h
      · rename_i c1; rw [if_pos c1]; exact h
      · rename_i c1; rw [if_neg c1]
        split at h
        · rename_i c2; rw [if_pos c2]
          split at h
          · rename_i c3; rw [if_pos c3]
            split at h
            · cases h
            · rename_i x hx
              simp only [free_mono f f2 _ _ x hx hle]
              exact h
          · rename_i c3; rw [if_neg c3]; exact h
        · rename_i c2; rw [if_neg c2]
          split at h
          · cases h
          · rename_i pre cur hw
            simp only [addr_walk_mono st _ f f2 0 _ _ hw hle]
            split at h
            · rename_i c4; rw [if_pos c4]; exact h
            · rename_i c4; rw [if_neg c4]
              split at h
              · cases h
              · rename_i np pa st1 hm
                simp only [malloc_mono f f2 t1 t2 _ st _ hm hle]
                split at h
                · cases h
                · rename_i c5; rw [if_neg c5]
                  split at h
                  · cases h
                  · rename_i st2 hfr
                    simp only [free_mono f f2 _ _ st2 hfr hle]
                    exact h


theorem abrk_ge (brk : Nat) (t1 : Bool) (size : Nat) (A : Abs) : brk ≤ abrk brk t1 size A := by
  unfold abrk; split
  · exact le_refl _
  · split
    · exact le_refl _
    · exact Nat.le_add_right _ _

/-- The copying `realloc` aborts when the heap cannot grow. -/
theorem realloc_copy_none (base : Nat) (st : State) (A : Abs) (b : Blk)
    (s size fuel : Nat) (t1 t2 : Bool) (hr : Rep st A)
    (hi : AInv base st.brk A) (hb : b ∈ A.lv) (h0 : s ≠ 0)
    (hsz : size_align s = size) (hal : size % 8 = 0) (hlt : b.size < size)
    (hs : 2 * size + 64 < W64) (hg : growBlk b size A.ca = none)
    (hf : st.brk < fuel) (hroom : ¬ abrk st.brk t1 size A + 1 < W64) :
    realloc fuel t1 t2 (b.addr + meta_size) s st = none := by
  have hbs : readW st.mem b.addr = b.size := hr.live b hb
  have hsa : size_align size = size := size_align_idem size hal (by omega)
  have hl := hi.len
  have hmr := malloc_rep base st A size fuel t1 t2 hr hi (by omega) hs (by omega) (by omega)
  rw [hsa] at hmr
  have hm := hmr.2 hroom
  obtain ⟨pre, cur, hw, hnc⟩ := growBlk_none st A b size fuel hr hi hb (by omega) hg
  have hun := realloc_unfold fuel t1 t2 (b.addr + meta_size) s size st (by simp [meta_size]) h0 hsz
  rw [Nat.add_sub_cancel] at hun
  simp only [State.size, hbs, hw] at hun
  rw [if_neg (by omega), if_neg (by omega)] at hun
  simp only [State.size] at hnc
  rw [if_neg hnc, hm] at hun
  exact hun

/-- The free block that starts where the live block `b` ends is the first
cache block behind `b`. -/
theorem growBlk_some {base brk : Nat} {A : Abs} (hi : AInv base brk A) (b c : Blk) (size : Nat)
    (hb : b ∈ A.lv) (hc : c ∈ A.ca) (hadj : b.addr + 16 + b.size = c.addr)
    (hfit : size ≤ b.size + 16 + c.size) :
    growBlk b size A.ca = some c ∧ ∃ l2, (splitAddr b.addr A.ca).2 = c :: l2 := by
  obtain ⟨he, hl1, hl2h⟩ := splitAddr_eq b.addr A.ca
  unfold growBlk
  generalize (splitAddr b.addr A.ca).1 = l1 at he hl1
  generalize (splitAddr b.addr A.ca).2 = l2 at he hl2h
  have hs := hi.sorted
  rw [← he] at hc hs
  have hc2 : c ∈ l2 := by
    rcases List.mem_append.1 hc with h | h
    · have := hl1 c h; omega
    · exact h
  cases l2 with
  | nil => cases hc2
  | cons h t =>
    have hh : c = h := by
      rcases List.mem_cons.1 hc2 with e | e
      · exact e
      · exfalso
        have h1 := hl2h h rfl
        rw [List.pairwise_append, List.pairwise_cons] at hs
        have h2 : h.addr + 16 + h.size < c.addr := hs.2.1.1 c e
        have h3 := hi.lv_free b hb h (by rw [← he]; simp)
        unfold Disj at h3
        omega
    subst hh
    simp only []
    rw [if_pos ⟨hadj, hfit⟩]
    exact ⟨rfl, t, rfl⟩

theorem growBlk_mem {b c : Blk} {size : Nat} {ca : List Blk} (h : growBlk b size ca = some c) :
    (∃ l2, (splitAddr b.addr ca).2 = c :: l2) ∧ b.addr + 16 + b.size = c.addr ∧
      size ≤ b.size + 16 + c.size := by
  unfold growBlk at h
  cases h2 : (splitAddr b.addr ca).2 with
  | nil => rw [h2] at h; cases h
  | cons x t =>
    rw [h2] at h
    simp only [] at h
    by_cases hc : b.addr + 16 + b.size = x.addr ∧ size ≤ b.size + 16 + x.size
    · rw [if_pos hc] at h
      cases h
      exact ⟨⟨t, rfl⟩, hc.1, hc.2⟩
    · rw [if_neg hc] at h; cases h


theorem AInv.perm_live {base brk : Nat} {A : Abs} (hi : AInv base brk A) {lv : List Blk}
    (hp : A.lv.Perm lv) : AInv base brk ⟨lv, A.ca, A.po⟩ :=
  ⟨hi.base_pos, hi.brk_lt, hi.tiles.perm (by unfold Abs.all; exact hp.append_right _), hi.sorted⟩

/-- The payload of a live block is clear of the headers written by a call. -/
theorem payload_same {W : List Nat} {m m2 : Mem} (hs : Same W m m2) (b : Blk) (n : Nat)
    (hW : ∀ w ∈ W, w = b.addr ∨ b.addr + 16 + n ≤ w ∨ w + 16 ≤ b.addr) :
    ∀ i, i < n → m2 (b.addr + 16 + i) = m (b.addr + 16 + i) := by
  intro i hi
  apply hs
  intro w hw
  rcases hW w hw with rfl | h | h <;> omega

/-- `realloc` of a live block with a non-zero request: it returns exactly when
the heap can grow as far as the copying path needs, and then the block lists
stay well-formed and the old contents are kept. -/
theorem realloc_rep (base : Nat) (st : State) (A : Abs) (b : Blk) (lv' : List Blk)
    (s fuel : Nat) (t1 t2 : Bool) (hr : Rep st A) (hi : AInv base st.brk A)
    (hp : A.lv.Perm (b :: lv')) (h0 : s ≠ 0) (hs : 2 * s + 80 < W64) (hf : W64 ≤ fuel) :
    ((b.size < size_align s → growBlk b (size_align s) A.ca = none →
        abrk st.brk t1 (size_align s) A + 1 < W64) →
      ∃ nb st' A', realloc fuel t1 t2 (b.addr + meta_size) s st = some (nb.addr + meta_size, st') ∧
        Rep st' A' ∧ AInv base st'.brk A' ∧ A'.lv = nb :: lv' ∧ size_align s ≤ nb.size ∧
        (∀ i, i < b.size → i < size_align s →
          st'.mem (nb.addr + 16 + i) = st.mem (b.addr + 16 + i)) ∧
        st.brk ≤ st'.brk) ∧
    (¬ (b.size < size_align s → growBlk b (size_align s) A.ca = none →
        abrk st.brk t1 (size_align s) A + 1 < W64) →
      realloc fuel t1 t2 (b.addr + meta_size) s st = none) := by
  obtain ⟨a1, hal, a3, a4⟩ := size_align_props s h0 (by omega)
  generalize hsz : size_align s = size at a1 hal a3 a4 ⊢
  have hbin : b ∈ A.lv := hp.mem_iff.2 (by simp)
  have hbs : readW st.mem b.addr = b.size := hr.live b hbin
  have gb := hi.good_lv b hbin
  have hl := hi.len
  have hbr := hi.brk_lt
  have hun := realloc_unfold fuel t1 t2 (b.addr + meta_size) s size st (by simp [meta_size]) h0 hsz
  rw [Nat.add_sub_cancel] at hun
  have hadd : addw size meta_size = size + 16 := addw_eq _ _ (by simp only [meta_size]; omega)
  have hsame : Rep st ⟨b :: lv', A.ca, A.po⟩ ∧ AInv base st.brk ⟨b :: lv', A.ca, A.po⟩ :=
    ⟨hr.perm_lv (fun x hx => hp.mem_iff.2 hx), hi.perm_live hp⟩
  by_cases c1 : b.size = size
  · refine ⟨fun _ => ?_, fun h => absurd (fun h1 => absurd h1 (by omega)) h⟩
    simp only [State.size, hbs] at hun
    rw [if_pos c1] at hun
    exact ⟨b, st, _, hun, hsame.1, hsame.2, rfl, by omega, fun i _ _ => rfl, le_refl _⟩
  by_cases c2 : b.size > size
  · refine ⟨fun _ => ?_, fun h => absurd (fun h1 => absurd h1 (by omega)) h⟩
    by_cases c3 : size + 16 < b.size
    · obtain ⟨st', r1, r2, r3, r4, r5, r6, r7⟩ := realloc_shrink_rep base st A b lv' s size fuel
        t1 t2 hr hi hp h0 hsz hal c3 (by omega)
      refine ⟨⟨b.addr, size⟩, st', _, r1, r2, r3, rfl, le_refl _, ?_, by omega⟩
      intro i _ h2
      refine payload_same r4 ⟨b.addr, size⟩ size ?_ i h2
      intro w hw
      rcases List.mem_cons.1 hw with rfl | hw
      · exact Or.inl rfl
      · rcases List.mem_cons.1 hw with rfl | hw
        · right; left; show b.addr + 16 + size ≤ b.addr + size + 16; omega
        · obtain ⟨c, hc, rfl⟩ := List.mem_map.1 hw
          have := hi.lv_free b hbin c (by simp [hc])
          unfold Disj at this
          right
          show b.addr + 16 + size ≤ c.addr ∨ c.addr + 16 ≤ b.addr
          omega
    · simp only [State.size, hbs] at hun
      rw [if_neg c1, if_pos c2, if_neg (by rw [hadd]; omega)] at hun
      exact ⟨b, st, _, hun, hsame.1, hsame.2, rfl, by omega, fun i _ _ => rfl, le_refl _⟩
  have hlt : b.size < size := by omega
  cases hg : growBlk b size A.ca with
  | some c =>
    refine ⟨fun _ => ?_, fun h => absurd (fun _ h2 => absurd h2 (by simp)) h⟩
    obtain ⟨⟨l2, hl2⟩, hadj, hfit⟩ := growBlk_mem hg
    obtain ⟨st', r1, r2, r3, r4, r5, r6, r7⟩ := realloc_inplace_rep base st A b c lv' l2 s size
      fuel t1 t2 hr hi hp h0 hsz hal hlt hl2 hadj hfit (by omega)
    have hta := takeA_addr size ⟨b.addr, b.size + 16 + c.size⟩
    refine ⟨_, st', _, by rw [hta]; exact r1, r2, r3, rfl, ?_, ?_, by omega⟩
    · unfold takeA
      split
      · exact le_refl _
      · exact hfit
    · rw [hta]
      intro i h1 _
      refine payload_same r4 b b.size ?_ i h1
      intro w hw
      rcases List.mem_cons.1 hw with rfl | hw
      · right; left; omega
      · rcases List.mem_cons.1 hw with rfl | hw
        · exact Or.inl rfl
        · obtain ⟨c', hc', rfl⟩ := List.mem_map.1 hw
          have := hi.lv_free b hbin c' (by simp [hc'])
          unfold Disj at this
          right
          omega
  | none =>
    constructor
    · intro hroom
      have hroom2 := hroom hlt rfl
      obtain ⟨o, st', r1, r2, r3, r4, r5, r6, r7, r8⟩ := realloc_copy_rep base st A b lv' s size
        fuel t1 t2 hr hi hp h0 hsz hal hlt (by omega) hg (by omega) hroom2
      obtain ⟨p1, p2, p3, p4, p5⟩ := amalloc_props r1 (by omega)
      refine ⟨o.blk, st', _, r2, r3, r4, rfl, p2, fun i h1 _ => r5 i h1, ?_⟩
      rw [r6]
      exact abrk_ge _ _ _ _
    · intro hroom
      refine realloc_copy_none base st A b s size fuel t1 t2 hr hi hbin h0 hsz hal hlt (by omega)
        hg (by omega) ?_
      intro h
      exact hroom (fun _ _ => h)

theorem inv_init (base : Nat) (m0 : Mem) (h0 : 0 < base) (h1 : base + 1 < W64) :
    Inv base (init base m0) [] := by
  refine ⟨⟨[], [], []⟩, ⟨rfl, rfl, fun b hb => by cases hb⟩, ⟨h0, h1, ⟨?_, ?_, ?_⟩, ?_⟩, ?_⟩
  · intro b hb; cases hb
  · exact List.Pairwise.nil
  · simp [Abs.all, init]
  · exact List.Pairwise.nil
  · exact List.Perm.refl _

theorem ptr_ne_zero (b : Blk) : b.addr + meta_size ≠ 0 := by simp [meta_size]

theorem live_nodup {base brk : Nat} {A : Abs} (hi : AInv base brk A) :
    (A.lv.map Blk.ptr).Nodup := by
  have h := hi.lv_disj
  rw [List.Nodup, List.pairwise_map]
  refine h.imp ?_
  intro a b hd e
  unfold Blk.ptr at e
  unfold Disj at hd
  omega

/-- A live pointer is the payload address of a live block. -/
theorem live_block {A : Abs} {L : List Nat}
    (hL : L.Perm (A.lv.map Blk.ptr)) {p : Nat} (hp : p ∈ L) :
    ∃ b lv', A.lv.Perm (b :: lv') ∧ b.addr + meta_size = p ∧
      (L.erase p).Perm (lv'.map Blk.ptr) := by
  have h1 : p ∈ A.lv.map Blk.ptr := hL.mem_iff.1 hp
  obtain ⟨b, hb, rfl⟩ := List.mem_map.1 h1
  refine ⟨b, A.lv.erase b, List.perm_cons_erase hb, rfl, ?_⟩
  have h2 : (A.lv.map Blk.ptr).Perm (b.ptr :: (A.lv.erase b).map Blk.ptr) :=
    (List.perm_cons_erase hb).map Blk.ptr
  have h3 := (hL.trans h2).erase b.ptr
  rwa [List.erase_cons_head] at h3

theorem not_live_zero {A : Abs} {L : List Nat}
    (hL : L.Perm (A.lv.map Blk.ptr)) : (0 : Nat) ∉ L := by
  intro h
  obtain ⟨b, -, hb⟩ := List.mem_map.1 (hL.mem_iff.1 h)
  exact ptr_ne_zero b hb

theorem inv_malloc {base : Nat} {st st' : State} {L : List Nat} {fuel : Nat} {t1 t2 : Bool}
    {s p : Nat} {path : Path} (hI : Inv base st L) (hs : 2 * s + 80 < W64)
    (h : malloc fuel t1 t2 s st = some (p, path, st')) :
    Inv base st' (if p = 0 then L else p :: L) := by
  obtain ⟨A, hr, hi, hL⟩ := hI
  by_cases h0 : s = 0
  · unfold malloc at h
    rw [if_pos h0] at h
    cases h
    rw [if_pos rfl]
    exact ⟨A, hr, hi, hL⟩
  · have hl := hi.len
    have h2 := malloc_mono fuel (max fuel (st.brk + 1)) t1 t2 s st _ h (le_max_left _ _)
    have hfl : st.brk < max fuel (st.brk + 1) := lt_of_lt_of_le (Nat.lt_succ_self _) (le_max_right _ _)
    have hmr := malloc_rep base st A s (max fuel (st.brk + 1)) t1 t2 hr hi h0 (by omega)
      (by omega) (by omega)
    by_cases hroom : abrk st.brk t1 (size_align s) A + 1 < W64
    · obtain ⟨o, st1, ho, hob, hm, hr1, hi1, hb1, hfr, hnt, hns⟩ := hmr.1 hroom
      rw [hm] at h2
      cases h2
      obtain ⟨p1, -⟩ := amalloc_props ho (by have := (size_align_props s h0 (by omega)).2.2.2; omega)
      rw [if_neg (ptr_ne_zero _)]
      refine ⟨o.abs, hr1, hi1, ?_⟩
      rw [p1, List.map_cons]
      exact hL.cons _
    · rw [hmr.2 hroom] at h2
      cases h2

theorem inv_free {base : Nat} {st st' : State} {L : List Nat} {fuel p : Nat}
    (hI : Inv base st L) (hp : p = 0 ∨ p ∈ L) (h : free fuel p st = some st') :
    Inv base st' (L.erase p) := by
  obtain ⟨A, hr, hi, hL⟩ := hI
  by_cases h0 : p = 0
  · unfold free at h
    rw [if_pos h0] at h
    cases h
    rw [List.erase_of_not_mem (by rw [h0]; exact not_live_zero hL)]
    exact ⟨A, hr, hi, hL⟩
  · have hpl : p ∈ L := hp.resolve_left h0
    obtain ⟨b, lv', hperm, rfl, hL'⟩ := live_block hL hpl
    have hl := hi.len
    have h2 := free_mono fuel (max fuel (st.brk + 1)) _ st _ h (le_max_left _ _)
    have hfl : st.brk < max fuel (st.brk + 1) := lt_of_lt_of_le (Nat.lt_succ_self _) (le_max_right _ _)
    obtain ⟨st2, g1, g2, g3, -⟩ := free_rep base st A b lv' (max fuel (st.brk + 1)) hr hi hperm
      (by omega)
    rw [g1] at h2
    cases h2
    exact ⟨_, g2, g3, hL'⟩

theorem inv_store {base : Nat} {st : State} {L : List Nat} {p i v : Nat}
    (hI : Inv base st L) (hp : p ∈ L) (hlt : i < st.size (p - meta_size)) :
    Inv base { st with mem := fun x => if x = p + i then v else st.mem x } L := by
  obtain ⟨A, hr, hi, hL⟩ := hI
  obtain ⟨b, lv', hperm, rfl, -⟩ := live_block hL hp
  have hbin : b ∈ A.lv := hperm.mem_iff.2 (by simp)
  rw [Nat.add_sub_cancel] at hlt
  have hbs : readW st.mem b.addr = b.size := hr.live b hbin
  simp only [State.size, hbs] at hlt
  refine ⟨A, ?_, hi, hL⟩
  refine @Rep.frame_range _ _ (b.addr + meta_size + i) (b.addr + meta_size + i + 1) _ hr ?_
    (payload_clear hi.tiles b (by simp [Abs.all, hbin]) _ _ (by simp only [meta_size]; omega)
      (by simp only [meta_size]; omega))
  intro x hx
  show (if x = b.addr + meta_size + i then v else st.mem x) = st.mem x
  rw [if_neg (by omega)]


theorem inv_calloc {base : Nat} {st st' : State} {L : List Nat} {fuel : Nat} {t1 t2 : Bool}
    {a k p : Nat} (hI : Inv base st L) (hs : 2 * (a * k) + 80 < W64)
    (h : calloc fuel t1 t2 a k st = some (p, st')) :
    Inv base st' (if p = 0 then L else p :: L) := by
  obtain ⟨A, hr, hi, hL⟩ := hI
  by_cases h0 : a = 0 ∨ k = 0
  · unfold calloc at h
    rw [if_pos h0] at h
    cases h
    rw [if_pos rfl]
    exact ⟨A, hr, hi, hL⟩
  · have ha : a ≠ 0 := fun e => h0 (Or.inl e)
    have hk : k ≠ 0 := fun e => h0 (Or.inr e)
    have hm : mulw a k = a * k := mulw_eq _ _ (by omega)
    have hpos : a * k ≠ 0 := Nat.mul_ne_zero ha hk
    obtain ⟨q1, q2, q3, q4⟩ := size_align_props (a * k) hpos (by omega)
    have h2 := calloc_mono fuel (max fuel (st.brk + 1)) t1 t2 a k st _ h (le_max_left _ _)
    have hfl : st.brk < max fuel (st.brk + 1) :=
      lt_of_lt_of_le (Nat.lt_succ_self _) (le_max_right _ _)
    by_cases hroom : abrk st.brk t1 (size_align (a * k)) A + 1 < W64
    · obtain ⟨o, st1, ho, -, hc, hr2, hi1, -⟩ := calloc_rep base st A a k (size_align (a * k))
        (max fuel (st.brk + 1)) t1 t2 hr hi ha hk (by rw [hm]) (by omega) (by omega) hfl hroom
      rw [hc] at h2
      cases h2
      obtain ⟨p1, -⟩ := amalloc_props ho (by omega)
      rw [if_neg (ptr_ne_zero _)]
      refine ⟨o.abs, hr2, hi1, ?_⟩
      rw [p1, List.map_cons]
      exact hL.cons _
    · exfalso
      have hl := hi.len
      have hmr := malloc_rep base st A (size_align (a * k)) (max fuel (st.brk + 1)) t1 t2 hr hi
        (by omega) (by omega) (by omega) (by omega)
      rw [size_align_idem _ q2 (by omega)] at hmr
      have hn := hmr.2 hroom
      unfold calloc at h2
      rw [if_neg h0] at h2
      simp only [hm, hn] at h2
      cases h2

theorem inv_realloc {base : Nat} {st st' : State} {L : List Nat} {fuel : Nat} {t1 t2 : Bool}
    {p s q : Nat} (hI : Inv base st L) (hp : p = 0 ∨ p ∈ L) (hs : 2 * s + 80 < W64)
    (h : realloc fuel t1 t2 p s st = some (q, st')) :
    Inv base st' (if q = 0 then L.erase p else q :: L.erase p) := by
  by_cases hp0 : p = 0
  · have hz : L.erase p = L := by
      obtain ⟨A, -, -, hL⟩ := hI
      exact List.erase_of_not_mem (by rw [hp0]; exact not_live_zero hL)
    rw [hz]
    unfold realloc at h
    rw [if_pos hp0] at h
    cases hm : malloc fuel t1 t2 s st with
    | none => rw [hm] at h; cases h
    | some x =>
      obtain ⟨p1, pa, s1⟩ := x
      rw [hm] at h
      cases h
      exact inv_malloc hI hs hm
  · by_cases h0 : s = 0
    · unfold realloc at h
      rw [if_neg hp0, if_pos h0] at h
      cases hm : free fuel p st with
      | none => rw [hm] at h; cases h
      | some x =>
        rw [hm] at h
        cases h
        rw [if_pos rfl]
        exact inv_free hI hp hm
    · obtain ⟨A, hr, hi, hL⟩ := hI
      have hpl : p ∈ L := hp.resolve_left hp0
      obtain ⟨b, lv', hperm, rfl, hL'⟩ := live_block hL hpl
      have h2 := realloc_mono fuel (max fuel W64) t1 t2 _ s st _ h (le_max_left _ _)
      have hrr := realloc_rep base st A b lv' s (max fuel W64) t1 t2 hr hi hperm h0 hs
        (le_max_right _ _)
      by_cases hroom : (b.size < size_align s → growBlk b (size_align s) A.ca = none →
          abrk st.brk t1 (size_align s) A + 1 < W64)
      · obtain ⟨nb, st2, A', r1, r2, r3, r4, -⟩ := hrr.1 hroom
        rw [r1] at h2
        cases h2
        rw [if_neg (ptr_ne_zero _)]
        refine ⟨A', r2, r3, ?_⟩
        rw [r4, List.map_cons]
        exact hL'.cons _
      · rw [hrr.2 hroom] at h2
        cases h2

/-- Every reachable state satisfies the representation invariant. -/
theorem reach_inv {base : Nat} {st : State} {L : List Nat} (h : Reach base st L) :
    Inv base st L := by
  induction h with
  | init m0 h0 h1 => exact inv_init base m0 h0 h1
  | malloc fuel t1 t2 s p path st' _ hs hm ih => exact inv_malloc ih hs hm
  | calloc fuel t1 t2 a k p st' _ hs hm ih => exact inv_calloc ih hs hm
  | free fuel p st' _ hp hm ih => exact inv_free ih hp hm
  | realloc fuel t1 t2 p s q st' _ hp hs hm ih => exact inv_realloc ih hp hs hm
  | store p i v _ hp hlt ih => exact inv_store ih hp hlt

theorem live_facts {st : State} {A : Abs} {L : List Nat} (hr : Rep st A)
    (hL : L.Perm (A.lv.map Blk.ptr)) {p : Nat} (hp : p ∈ L) :
    ∃ b ∈ A.lv, p = b.addr + meta_size ∧ st.size (p - meta_size) = b.size := by
  obtain ⟨b, hb, rfl⟩ := List.mem_map.1 (hL.mem_iff.1 hp)
  refine ⟨b, hb, rfl, ?_⟩
  unfold Blk.ptr
  rw [Nat.add_sub_cancel]
  exact hr.live b hb

/-- C1 (non-overlap of live memory): in every reachable state the thread
cache and the global pool are null-terminated lists of blocks `ca` and `po`
such that the payload `[p, p + capacity)` of every live pointer `p` is
disjoint from the extent `[q - H, q + capacity)` of every other live block and
from the extent `[hdr, hdr + H + size)` of every block of `ca` and of `po`,
and no block is linked in both lists. -/
theorem C1_live_disjoint {base : Nat} {st : State} {L : List Nat} (h : Reach base st L) :
    ∃ ca po : List Blk, BSeg st.mem st.local_head ca 0 ∧ BSeg st.mem st.global_head po 0 ∧
      (∀ p ∈ L, ∀ q ∈ L, p ≠ q → meta_size ≤ q ∧
        (p + st.size (p - meta_size) ≤ q - meta_size ∨ q + st.size (q - meta_size) ≤ p)) ∧
      (∀ p ∈ L, ∀ c ∈ ca ++ po,
        p + st.size (p - meta_size) ≤ c.addr ∨ c.addr + meta_size + c.size ≤ p) ∧
      (∀ c ∈ ca, ∀ d ∈ po, c.addr ≠ d.addr) := by
  obtain ⟨A, hr, hi, hL⟩ := reach_inv h
  refine ⟨A.ca, A.po, hr.cache, hr.pool, ?_, ?_, ?_⟩
  · intro p hp q hq hne
    obtain ⟨b, hb, rfl, e1⟩ := live_facts hr hL hp
    obtain ⟨c, hc, rfl, e2⟩ := live_facts hr hL hq
    rw [e1, e2]
    have hbc : b ≠ c := fun e => hne (by rw [e])
    have hd : Disj b c := hi.lv_disj.forall disj_symmetric hb hc hbc
    unfold Disj at hd
    simp only [meta_size]
    omega
  · intro p hp c hc
    obtain ⟨b, hb, rfl, e1⟩ := live_facts hr hL hp
    rw [e1]
    have hd := hi.lv_free b hb c hc
    unfold Disj at hd
    simp only [meta_size]
    omega
  · intro c hc d hd
    have := hi.ca_po c hc d hd
    unfold Disj at this
    omega

theorem inv_aligned {base : Nat} {st : State} {L : List Nat} (hI : Inv base st L)
    (hb : base % 8 = 0) :
    ∀ p ∈ L, p % 8 = 0 ∧ meta_size ≤ p ∧ (p - meta_size) % 8 = 0 ∧
      st.size (p - meta_size) % 8 = 0 := by
  obtain ⟨A, hr, hi, hL⟩ := hI
  intro p hp
  obtain ⟨b, hb2, rfl, e1⟩ := live_facts hr hL hp
  rw [e1]
  have g := hi.good_lv b hb2
  have := g.rel
  have := g.lo
  have := g.al
  simp only [meta_size]
  omega

/-- C3 (payload alignment): when the heap starts at a multiple of 8, then in
every reachable state every block of the thread cache and of the global pool
has a header address and a size that are multiples of 8, every live pointer
`p` is a multiple of 8 and lies `H` bytes behind its header, whose address
`p - H` and recorded size are multiples of 8, and every non-null pointer
returned by a call of `malloc`, `calloc` or `realloc` from that state is a
multiple of 8 that lies `H` bytes behind a header at a multiple of 8. -/
theorem C3_alignment {base : Nat} {st : State} {L : List Nat} (h : Reach base st L)
    (hb : base % 8 = 0) :
    (∃ ca po : List Blk, BSeg st.mem st.local_head ca 0 ∧ BSeg st.mem st.global_head po 0 ∧
      ∀ c ∈ ca ++ po, c.addr % 8 = 0 ∧ c.size % 8 = 0) ∧
    (∀ p ∈ L, p % 8 = 0 ∧ meta_size ≤ p ∧ (p - meta_size) % 8 = 0 ∧
      st.size (p - meta_size) % 8 = 0) ∧
    (∀ (fuel : Nat) (t1 t2 : Bool) (s p : Nat) (path : Path) (st' : State),
      2 * s + 80 < W64 → malloc fuel t1 t2 s st = some (p, path, st') → p ≠ 0 →
      p % 8 = 0 ∧ meta_size ≤ p ∧ (p - meta_size) % 8 = 0) ∧
    (∀ (fuel : Nat) (t1 t2 : Bool) (a k p : Nat) (st' : State),
      2 * (a * k) + 80 < W64 → calloc fuel t1 t2 a k st = some (p, st') → p ≠ 0 →
      p % 8 = 0 ∧ meta_size ≤ p ∧ (p - meta_size) % 8 = 0) ∧
    (∀ (fuel : Nat) (t1 t2 : Bool) (p s q : Nat) (st' : State),
      p = 0 ∨ p ∈ L → 2 * s + 80 < W64 → realloc fuel t1 t2 p s st = some (q, st') → q ≠ 0 →
      q % 8 = 0 ∧ meta_size ≤ q ∧ (q - meta_size) % 8 = 0) := by
  have hI := reach_inv h
  refine ⟨?_, inv_aligned hI hb, ?_, ?_, ?_⟩
  · obtain ⟨A, hr, hi, hL⟩ := hI
    refine ⟨A.ca, A.po, hr.cache, hr.pool, ?_⟩
    intro c hc
    have g : Good base st.brk c := hi.tiles.good c
      (by simp only [Abs.all, List.mem_append]; exact Or.inr (List.mem_append.1 hc))
    have := g.rel
    have := g.lo
    have := g.al
    omega
  · intro fuel t1 t2 s p path st' hs hm hp
    have h2 := inv_malloc hI hs hm
    rw [if_neg hp] at h2
    obtain ⟨a1, a2, a3, -⟩ := inv_aligned h2 hb p (List.mem_cons_self _ _)
    exact ⟨a1, a2, a3⟩
  · intro fuel t1 t2 a k p st' hs hm hp
    have h2 := inv_calloc hI hs hm
    rw [if_neg hp] at h2
    obtain ⟨a1, a2, a3, -⟩ := inv_aligned h2 hb p (List.mem_cons_self _ _)
    exact ⟨a1, a2, a3⟩
  · intro fuel t1 t2 p s q st' hp hs hm hq
    have h2 := inv_realloc hI hp hs hm
    rw [if_neg hq] at h2
    obtain ⟨a1, a2, a3, -⟩ := inv_aligned h2 hb q (List.mem_cons_self _ _)
    exact ⟨a1, a2, a3⟩

/-- C4 (thread-cache well-formedness): in every reachable state the thread
cache is a null-terminated list of blocks that is strictly sorted by
ascending header address and has no two blocks `x`, `y` with
`x + H + x.size = y`. -/
theorem C4_cache_sorted {base : Nat} {st : State} {L : List Nat} (h : Reach base st L) :
    ∃ ca : List Blk, BSeg st.mem st.local_head ca 0 ∧
      ca.Pairwise (fun x y => x.addr < y.addr) ∧
      (∀ x ∈ ca, ∀ y ∈ ca, x.addr + meta_size + x.size ≠ y.addr) := by
  obtain ⟨A, hr, hi, -⟩ := reach_inv h
  refine ⟨A.ca, hr.cache, ?_, ?_⟩
  · refine hi.sorted.imp ?_
    intro a b hg
    unfold Gap at hg
    omega
  · intro x hx y hy
    by_cases e : x = y
    · subst e
      simp only [meta_size]
      omega
    · have : Gap x y ∨ Gap y x := by
        have hs := hi.sorted
        rcases List.mem_iff_get.1 hx with ⟨i, rfl⟩
        rcases List.mem_iff_get.1 hy with ⟨j, rfl⟩
        rcases Nat.lt_trichotomy i.1 j.1 with hlt | heq | hgt
        · exact Or.inl (List.pairwise_iff_get.1 hs i j hlt)
        · exact absurd (by rw [Fin.ext heq]) e
        · exact Or.inr (List.pairwise_iff_get.1 hs j i hgt)
      simp only [meta_size]
      unfold Gap at this
      omega


theorem abrk_le (brk : Nat) (t1 : Bool) (size : Nat) (A : Abs) :
    abrk brk t1 size A ≤ brk + growBy size := by
  unfold abrk; split
  · exact Nat.le_add_right _ _
  · split
    · exact Nat.le_add_right _ _
    · exact le_refl _

/-- With enough fuel and room for the growth, `malloc` of a non-zero request
returns, and the result refines the block-level `malloc`. -/
theorem malloc_total {base : Nat} {st : State} {L : List Nat} (hI : Inv base st L)
    (s fuel : Nat) (t1 t2 : Bool) (h0 : s ≠ 0) (hs : 2 * s + 80 < W64) (hf : st.brk < fuel)
    (hroom : st.brk + growBy (size_align s) + 1 < W64) :
    ∃ A o st', Rep st A ∧ AInv base st.brk A ∧ L.Perm (A.lv.map Blk.ptr) ∧
      amalloc st.brk t1 t2 (size_align s) A = some o ∧
      malloc fuel t1 t2 s st = some (o.blk.addr + meta_size, o.path, st') ∧
      Rep st' o.abs ∧ AInv base st'.brk o.abs ∧ st'.brk = abrk st.brk t1 (size_align s) A ∧
      Frame (A.ca ++ A.po) st.brk st.mem st'.mem ∧
      st'.ntry = st.ntry + o.path.tries ∧ st'.nsbrk = st.nsbrk + o.path.sbrks := by
  obtain ⟨A, hr, hi, hL⟩ := hI
  have hl := hi.len
  have hmr := malloc_rep base st A s fuel t1 t2 hr hi h0 (by omega) (by omega) (by omega)
  have hab := abrk_le st.brk t1 (size_align s) A
  obtain ⟨o, st', ho, hob, hm, hr1, hi1, hb1, hfr, hnt, hns⟩ := hmr.1 (by omega)
  exact ⟨A, o, st', hr, hi, hL, ho, hm, hr1, hi1, hb1.trans hob, hfr, hnt, hns⟩

/-- C2 (returned capacity): in every reachable state, for all `try_lock`
outcomes and every request `0 < s ≤ 2^32`, with enough fuel for the list walks
and room in the address space for the growth of the heap, `malloc(s)` returns
a non-null pointer `p` whose header at `p - H` records a capacity `c` with
`size_align(s) ≤ c ≤ size_align(s) + H`, and `c = size_align(s)` when the
selected block was split or the large-request growth path was taken. -/
theorem C2_capacity {base : Nat} {st : State} {L : List Nat} (h : Reach base st L)
    (s fuel : Nat) (t1 t2 : Bool) (h0 : 0 < s) (hs : s ≤ 2 ^ 32) (hf : W64 ≤ fuel)
    (hroom : st.brk + growBy (size_align s) + 1 < W64) :
    ∃ p path st', malloc fuel t1 t2 s st = some (p, path, st') ∧ p ≠ 0 ∧
      size_align s ≤ st'.size (p - meta_size) ∧
      st'.size (p - meta_size) ≤ size_align s + meta_size ∧
      (path.isSplit = true ∨ path = Path.large → st'.size (p - meta_size) = size_align s) := by
  have hI := reach_inv h
  have hw : (2 : Nat) ^ 32 = 4294967296 := by norm_num
  have hW : W64 = 18446744073709551616 := by unfold W64; norm_num
  obtain ⟨A0, -, hi0, -⟩ := reach_inv h
  have hb := hi0.brk_lt
  obtain ⟨q1, q2, q3, q4⟩ := size_align_props s (by omega) (by omega)
  obtain ⟨A, o, st', hr, hi, hL, ho, hm, hr1, hi1, -⟩ := malloc_total hI s fuel t1 t2 (by omega)
    (by omega) (by omega) hroom
  obtain ⟨p1, p2, p3, p4, p5⟩ := amalloc_props ho (by omega)
  have hsz : st'.size (o.blk.addr + meta_size - meta_size) = o.blk.size := by
    rw [Nat.add_sub_cancel]
    exact hr1.live o.blk (by rw [p1]; simp)
  refine ⟨_, _, _, hm, ptr_ne_zero _, ?_, ?_, ?_⟩
  · rw [hsz]; exact p2
  · rw [hsz]; simp only [meta_size]; exact p3
  · rw [hsz]; exact p4

/-- C9 (zeroed allocation), the failing inputs: the product `n * k` is formed
in `size_t` without an overflow check. `calloc(2^63, 2)` has the product 0, so
`malloc(0)` returns null and the `assert` at line 288 fails: no pointer is
returned, in any state. `calloc(2^61 + 1, 8)` on a fresh thread has the
product 8 and returns a block whose capacity, 8 bytes, is less than `n * k`. -/
theorem C9_calloc_wraps :
    (∀ (fuel : Nat) (t1 t2 : Bool) (st : State), calloc fuel t1 t2 (2 ^ 63) 2 st = none) ∧
    (∃ p st', calloc 8 true true (2 ^ 61 + 1) 8 (init 4096 (fun _ => 0)) = some (p, st') ∧
      p = 4112 ∧ st'.size (p - meta_size) = 8 ∧
      st'.size (p - meta_size) < (2 ^ 61 + 1) * 8) := by
  constructor
  · intro fuel t1 t2 st
    have h1 : size_align (mulw (2 ^ 63) 2) = 0 := by decide
    unfold calloc
    rw [if_neg (by decide)]
    simp only [h1]
    have h2 : malloc fuel t1 t2 0 st = some (0, Path.zero, st) := by
      unfold malloc
      rw [if_pos rfl]
    rw [h2]
    rfl
  · exact ⟨4112, _, rfl, rfl, by decide, by decide⟩

/-- C10 (rejected inputs have no effect): in every state `malloc(0)`,
`calloc(0, k)`, `calloc(n, 0)` and `realloc(null, 0)` return null, and these
calls and `free(null)` return the state they were given: memory, both list
heads, the break, and the counts of `try_lock` and `sbrk` calls are
unchanged. -/
theorem C10_rejected_inputs (st : State) (fuel n k : Nat) (t1 t2 : Bool) :
    malloc fuel t1 t2 0 st = some (0, Path.zero, st) ∧
    calloc fuel t1 t2 0 k st = some (0, st) ∧
    calloc fuel t1 t2 n 0 st = some (0, st) ∧
    realloc fuel t1 t2 0 0 st = some (0, st) ∧
    free fuel 0 st = some st := by
  have hm : malloc fuel t1 t2 0 st = some (0, Path.zero, st) := by
    unfold malloc
    rw [if_pos rfl]
  refine ⟨hm, ?_, ?_, ?_, ?_⟩
  · unfold calloc
    rw [if_pos (Or.inl rfl)]
  · unfold calloc
    rw [if_pos (Or.inr rfl)]
  · unfold realloc
    rw [if_pos rfl, hm]
  · unfold free
    rw [if_pos rfl]

/-- C6 (resize preserves content): in every reachable state, for every live
pointer `p` with recorded capacity `old` and every request `0 < s ≤ 2^32`,
with enough fuel and room for the growth of the heap, `realloc(p, s)` returns
a pointer `q`, and the first `min(old, s)` bytes at `q` afterwards are the
bytes that were at `p` before the call. All paths of `realloc` are covered:
unchanged, shrink with and without split, in-place extension, and
allocate-copy-release. -/
theorem C6_realloc_content {base : Nat} {st : State} {L : List Nat} (h : Reach base st L)
    (p s fuel : Nat) (t1 t2 : Bool) (hp : p ∈ L) (h0 : 0 < s) (hs : s ≤ 2 ^ 32)
    (hf : W64 ≤ fuel) (hroom : st.brk + growBy (size_align s) + 1 < W64) :
    ∃ q st', realloc fuel t1 t2 p s st = some (q, st') ∧
      ∀ i, i < min (st.size (p - meta_size)) s → st'.mem (q + i) = st.mem (p + i) := by
  obtain ⟨A, hr, hi, hL⟩ := reach_inv h
  have hw : (2 : Nat) ^ 32 = 4294967296 := by norm_num
  have hW : W64 = 18446744073709551616 := by unfold W64; norm_num
  obtain ⟨b, lv', hperm, rfl, -⟩ := live_block hL hp
  have hbin : b ∈ A.lv := hperm.mem_iff.2 (by simp)
  have hbs : st.size (b.addr + meta_size - meta_size) = b.size := by
    rw [Nat.add_sub_cancel]; exact hr.live b hbin
  obtain ⟨q1, q2, q3, q4⟩ := size_align_props s (by omega) (by omega)
  have hab := abrk_le st.brk t1 (size_align s) A
  obtain ⟨nb, st', A', r1, -, -, -, -, r5, -⟩ :=
    (realloc_rep base st A b lv' s fuel t1 t2 hr hi hperm (by omega) (by omega) hf).1
      (fun _ _ => by omega)
  refine ⟨_, st', r1, ?_⟩
  intro i hlt
  rw [hbs] at hlt
  have := r5 i (by omega) (by omega)
  simp only [meta_size]
  exact this

/-- C7 (shrinking resize): in every reachable state, for a live pointer `p`
with recorded capacity `old` and a request `s > 0` with
`s' = size_align(s) < old`, `realloc(p, s)` returns `p` without a call of the
heap extender. If `old > s' + H`, the recorded capacity of `p` becomes `s'`
and the thread cache becomes the result of releasing (ordered insertion, then
coalescing) the block with header at `p + s'` and size `old - s' - H` into the
old cache `ca`. If `old ≤ s' + H`, the state is unchanged. -/
theorem C7_realloc_shrink {base : Nat} {st : State} {L : List Nat} (h : Reach base st L)
    (p s fuel : Nat) (t1 t2 : Bool) (hp : p ∈ L) (h0 : 0 < s)
    (hlt : size_align s < st.size (p - meta_size)) (hf : W64 ≤ fuel) :
    ∃ ca st', BSeg st.mem st.local_head ca 0 ∧
      realloc fuel t1 t2 p s st = some (p, st') ∧ st'.nsbrk = st.nsbrk ∧
      (size_align s + meta_size < st.size (p - meta_size) →
        st'.size (p - meta_size) = size_align s ∧
        BSeg st'.mem st'.local_head
          (ains ⟨p + size_align s, st.size (p - meta_size) - size_align s - meta_size⟩ ca) 0) ∧
      (st.size (p - meta_size) ≤ size_align s + meta_size → st' = st) := by
  obtain ⟨A, hr, hi, hL⟩ := reach_inv h
  have hW : W64 = 18446744073709551616 := by unfold W64; norm_num
  obtain ⟨b, lv', hperm, rfl, -⟩ := live_block hL hp
  have hbin : b ∈ A.lv := hperm.mem_iff.2 (by simp)
  have hbs : readW st.mem b.addr = b.size := hr.live b hbin
  have hl := hi.len
  have hbr := hi.brk_lt
  have gb := hi.good_lv b hbin
  have hal : size_align s % 8 = 0 := by rw [size_align_eq]; omega
  rw [Nat.add_sub_cancel] at hlt ⊢
  simp only [State.size, hbs] at hlt ⊢
  by_cases c3 : size_align s + 16 < b.size
  · obtain ⟨st', r1, r2, r3, r4, r5, r6, r7⟩ := realloc_shrink_rep base st A b lv' s
      (size_align s) fuel t1 t2 hr hi hperm (by omega) rfl hal c3 (by omega)
    refine ⟨A.ca, st', hr.cache, r1, r7, fun _ => ⟨?_, ?_⟩, fun hle => ?_⟩
    · exact r2.live ⟨b.addr, size_align s⟩ (by simp)
    · have hc := r2.cache
      have e : b.addr + meta_size + size_align s = b.addr + size_align s + 16 := by
        simp only [meta_size]; omega
      rw [e]
      exact hc
    · simp only [meta_size] at hle; omega
  · have hun := realloc_unfold fuel t1 t2 (b.addr + meta_size) s (size_align s) st
      (by simp [meta_size]) (by omega) rfl
    rw [Nat.add_sub_cancel] at hun
    have hadd : addw (size_align s) meta_size = size_align s + 16 :=
      addw_eq _ _ (by simp only [meta_size]; have := gb.hi; omega)
    simp only [State.size, hbs] at hun
    rw [if_neg (by omega), if_pos (by omega), if_neg (by rw [hadd]; omega)] at hun
    refine ⟨A.ca, st, hr.cache, hun, rfl, fun hgt => ?_, fun _ => rfl⟩
    simp only [meta_size] at hgt; omega

/-- C8 (in-place growth): in every reachable state, for a live pointer `p`
with recorded capacity `old` and a request `s > 0` with
`s' = size_align(s) > old`: if the thread cache `ca` contains a block `n`
with header at `p + old` and `old + H + n.size ≥ s'`, then `realloc(p, s)`
returns `p` without a call of the heap extender, the new capacity `c` of `p`
satisfies `s' ≤ c ≤ s' + H`, and in the cache `n` is replaced by the
remainder with header at `p + s'` and size `old + n.size - s'` when
`old + H + n.size > s' + H`, and is removed otherwise. -/
theorem C8_realloc_inplace {base : Nat} {st : State} {L : List Nat} (h : Reach base st L)
    (p s fuel : Nat) (t1 t2 : Bool) (ca : List Blk) (n : Blk) (hp : p ∈ L) (h0 : 0 < s)
    (hgt : st.size (p - meta_size) < size_align s)
    (hca : BSeg st.mem st.local_head ca 0) (hn : n ∈ ca)
    (hadj : n.addr = p + st.size (p - meta_size))
    (hfit : size_align s ≤ st.size (p - meta_size) + meta_size + n.size) (hf : W64 ≤ fuel) :
    ∃ l1 l2 st', ca = l1 ++ n :: l2 ∧
      realloc fuel t1 t2 p s st = some (p, st') ∧ st'.nsbrk = st.nsbrk ∧
      size_align s ≤ st'.size (p - meta_size) ∧
      st'.size (p - meta_size) ≤ size_align s + meta_size ∧
      (size_align s + meta_size < st.size (p - meta_size) + meta_size + n.size →
        BSeg st'.mem st'.local_head
          (l1 ++ ⟨p + size_align s, st.size (p - meta_size) + n.size - size_align s⟩ :: l2) 0) ∧
      (st.size (p - meta_size) + meta_size + n.size ≤ size_align s + meta_size →
        BSeg st'.mem st'.local_head (l1 ++ l2) 0) := by
  obtain ⟨A, hr, hi, hL⟩ := reach_inv h
  have hW : W64 = 18446744073709551616 := by unfold W64; norm_num
  obtain ⟨b, lv', hperm, rfl, -⟩ := live_block hL hp
  have hbin : b ∈ A.lv := hperm.mem_iff.2 (by simp)
  have hbs : readW st.mem b.addr = b.size := hr.live b hbin
  have hl := hi.len
  have hbr := hi.brk_lt
  have e : ca = A.ca := BSeg.unique hca hr.cache
  subst e
  have gn := hi.good_ca n hn
  have hal : size_align s % 8 = 0 := by rw [size_align_eq]; omega
  rw [Nat.add_sub_cancel] at hgt hadj hfit ⊢
  simp only [State.size, hbs, meta_size] at hgt hadj hfit ⊢
  obtain ⟨-, l2, hl2⟩ := growBlk_some hi b n (size_align s) hbin hn (by omega) hfit
  obtain ⟨st', r1, r2, r3, r4, r5, r6, r7⟩ := realloc_inplace_rep base st A b n lv' l2 s
    (size_align s) fuel t1 t2 hr hi hperm (by omega) rfl hal hgt hl2 (by omega) hfit (by omega)
  have he := (splitAddr_eq b.addr A.ca).1
  rw [hl2] at he
  have hlive := r2.live _ (List.mem_cons_self _ _)
  rw [takeA_addr] at hlive
  have hc := r2.cache
  simp only [] at hlive hc
  have hnl := gn.lt hbr
  have hnh := gn.hi
  refine ⟨(splitAddr b.addr A.ca).1, l2, st', he.symm, r1, r7, ?_, ?_, ?_, ?_⟩
  · rw [hlive]
    unfold takeA
    split
    · exact le_refl _
    · exact hfit
  · rw [hlive]
    by_cases c : size_align s + 16 < b.size + 16 + n.size
    · rw [takeA_eq_split (c := ⟨b.addr, b.size + 16 + n.size⟩) c
        (by show b.size + 16 + n.size < W64; omega)]
      exact Nat.le_add_right _ _
    · rw [takeA_eq_whole (c := ⟨b.addr, b.size + 16 + n.size⟩) c (by omega)]
      show b.size + 16 + n.size ≤ _
      omega
  · intro c
    rw [takeA_eq_split (c := ⟨b.addr, b.size + 16 + n.size⟩) c
      (by show b.size + 16 + n.size < W64; omega)] at hc
    simp only [List.append_assoc, List.singleton_append] at hc
    have e1 : b.addr + 16 + size_align s = b.addr + size_align s + 16 := by omega
    have e2 : b.size + n.size - size_align s = b.size + 16 + n.size - size_align s - 16 := by
      omega
    rw [e1, e2]
    exact hc
  · intro c
    have c2 : ¬ size_align s + 16 < (⟨b.addr, b.size + 16 + n.size⟩ : Blk).size := by
      show ¬ size_align s + 16 < b.size + 16 + n.size
      omega
    rw [takeA_eq_whole c2 (by omega)] at hc
    simp only [List.append_nil] at hc
    exact hc

theorem splitAddr_append (mid : Nat) (l r : List Blk) (h1 : ∀ x ∈ l, x.addr ≤ mid)
    (h2 : ∀ b, r.head? = some b → mid < b.addr) : splitAddr mid (l ++ r) = (l, r) := by
  induction l with
  | nil =>
    cases r with
    | nil => rfl
    | cons c r =>
      have := h2 c rfl
      simp only [List.nil_append, splitAddr]
      rw [if_pos this]
  | cons a l ih =>
    have ha := h1 a (List.mem_cons_self _ _)
    have := ih (fun x hx => h1 x (List.mem_cons_of_mem _ hx))
    show splitAddr mid (a :: (l ++ r)) = (a :: l, r)
    rw [splitAddr, if_neg (by omega), this]

theorem splitFit_append (size : Nat) (l r : List Blk) (h1 : ∀ x ∈ l, x.size < size)
    (h2 : ∀ b, r.head? = some b → size ≤ b.size) : splitFit size (l ++ r) = (l, r) := by
  induction l with
  | nil =>
    cases r with
    | nil => rfl
    | cons c r =>
      have := h2 c rfl
      simp only [List.nil_append, splitFit]
      rw [if_pos this]
  | cons a l ih =>
    have ha := h1 a (List.mem_cons_self _ _)
    have := ih (fun x hx => h1 x (List.mem_cons_of_mem _ hx))
    show splitFit size (a :: (l ++ r)) = (a :: l, r)
    rw [splitFit, if_neg (by omega), this]

theorem mergeL_keep (l1 : List Blk) (b : Blk) (r : List Blk)
    (h : ∀ pre, l1.getLast? = some pre → pre.addr + 16 + pre.size ≠ b.addr) :
    mergeL l1 b r = l1 ++ b :: r := by
  unfold mergeL
  cases hl : l1.getLast? with
  | none => rfl
  | some pre =>
    simp only []
    rw [if_neg (by simp only [meta_size]; exact h pre hl)]

theorem gap_last {l1 : List Blk} {c : Blk} {l2 : List Blk} (hs : (l1 ++ c :: l2).Pairwise Gap) :
    (∀ x ∈ l1, x.addr + 16 + x.size < c.addr) ∧ (∀ y ∈ l2, c.addr + 16 + c.size < y.addr) := by
  rw [List.pairwise_append, List.pairwise_cons] at hs
  exact ⟨fun x hx => hs.2.2 x hx c (List.mem_cons_self _ _), fun y hy => hs.2.1.1 y hy⟩

/-- Releasing the block that was just taken from the list restores the list. -/
theorem ains_take (size : Nat) (l1 l2 : List Blk) (c : Blk)
    (hs : (l1 ++ c :: l2).Pairwise Gap) (hle : size ≤ c.size) (hc : c.size < W64)
    (hsz : size + 16 < W64) :
    ains (takeA size c).1 (l1 ++ (takeA size c).2 ++ l2) = l1 ++ c :: l2 := by
  obtain ⟨g1, g2⟩ := gap_last hs
  have hl1 : ∀ x ∈ l1, x.addr ≤ c.addr := fun x hx => by have := g1 x hx; omega
  have hlast : ∀ pre, l1.getLast? = some pre → pre.addr + 16 + pre.size ≠ c.addr := by
    intro pre hp
    have := g1 pre (List.mem_of_getLast?_eq_some hp)
    omega
  unfold ains
  rw [takeA_addr]
  by_cases hgt : size + 16 < c.size
  · rw [takeA_eq_split hgt hc]
    simp only [List.append_assoc, List.singleton_append]
    rw [splitAddr_append c.addr l1 _ hl1 (by
      intro b hb
      simp only [List.head?_cons, Option.some.injEq] at hb
      subst hb
      show c.addr < c.addr + size + 16
      omega)]
    simp only [mergeR, meta_size]
    rw [if_pos (by omega)]
    simp only []
    have e : addw size (addw 16 (c.size - size - 16)) = c.size := by
      rw [addw_eq 16 _ (by omega), addw_eq _ _ (by omega)]
      omega
    rw [e]
    exact mergeL_keep l1 _ l2 hlast
  · rw [takeA_eq_whole hgt (by omega)]
    simp only [List.append_nil]
    rw [splitAddr_append c.addr l1 l2 hl1 (by
      intro b hb
      have := g2 b (List.mem_of_mem_head? hb)
      omega)]
    have hm : mergeR c l2 = (c, l2) := by
      cases l2 with
      | nil => rfl
      | cons y l2 =>
        have := g2 y (List.mem_cons_self _ _)
        simp only [mergeR, meta_size]
        rw [if_neg (by omega)]
    rw [hm]
    exact mergeL_keep l1 c l2 hlast


theorem takeFit_inv {A : Abs} {size brk : Nat} {pf : Bool → Path} {o : AOut}
    (h : takeFit A size brk pf = some o) :
    ∃ c l2, (splitFit size A.ca).2 = c :: l2 ∧ o.blk = (takeA size c).1 ∧
      o.abs.ca = (splitFit size A.ca).1 ++ (takeA size c).2 ++ l2 := by
  unfold takeFit at h
  cases h2 : (splitFit size A.ca).2 with
  | nil => rw [h2] at h; cases h
  | cons c l2 =>
    rw [h2] at h
    simp only [Option.some.injEq] at h
    subst h
    exact ⟨c, l2, rfl, rfl, rfl⟩

/-- The two shapes of a block-level `malloc`: the block is taken from a
well-formed list (the local list, possibly after a transfer from the global
list or a small growth), or it is the first half of a large growth. -/
theorem amalloc_cases (base : Nat) (st : State) (A : Abs) (size : Nat) (t1 t2 : Bool)
    (o : AOut) (hr : Rep st A) (hi : AInv base st.brk A) (h8 : 8 ≤ size)
    (hal : size % 8 = 0) (hroom : abrk st.brk t1 size A + 1 < W64)
    (ho : amalloc st.brk t1 t2 size A = some o) :
    (∃ ca c l2, ca.Pairwise Gap ∧ (splitFit size ca).2 = c :: l2 ∧ c.size < W64 ∧
      o.blk = (takeA size c).1 ∧ o.abs.ca = (splitFit size ca).1 ++ (takeA size c).2 ++ l2) ∨
    (o.path = Path.large ∧ (∀ c ∈ A.ca, c.size < size) ∧ o.blk = ⟨st.brk, size⟩ ∧
      o.abs = largeA st.brk t2 size A) := by
  have hl := hi.len
  unfold amalloc at ho
  unfold abrk at hroom
  have hmem : ∀ (ca : List Blk) (c l2 : List Blk) (x : Blk), (splitFit size ca).2 = x :: l2 →
      x ∈ ca := by
    intro ca _ l2 x hx
    have := (splitFit_eq size ca).1
    rw [hx] at this
    rw [← this]
    simp
  cases h1 : (splitFit size A.ca).2 with
  | cons c0 l0 =>
    rw [h1] at ho
    simp only [] at ho
    obtain ⟨c, l2, e1, e2, e3⟩ := takeFit_inv ho
    exact Or.inl ⟨A.ca, c, l2, hi.sorted, e1,
      ((hi.good_ca c (hmem A.ca [] l2 c e1)).lt hi.brk_lt).2.1, e2, e3⟩
  | nil =>
    rw [h1] at ho hroom
    simp only [] at ho hroom
    have hmiss := splitFit_none h1
    cases h2 : (if t1 then (splitFit size A.po).2 else []) with
    | cons g g2 =>
      rw [h2] at ho
      simp only [] at ho
      have ht : t1 = true := by
        cases t1
        · simp at h2
        · rfl
      subst ht
      simp only [if_true] at h2
      obtain ⟨hi2, -⟩ := probe_rep base st A size (st.brk + 1) g g2 hr hi h2 h8 hal (by omega)
        (by omega)
      obtain ⟨c, l2, e1, e2, e3⟩ := takeFit_inv ho
      exact Or.inl ⟨ains g A.ca, c, l2, hi2.sorted, e1,
        ((hi2.good_ca c (hmem _ [] l2 c e1)).lt hi.brk_lt).2.1, e2, e3⟩
    | nil =>
      rw [h2] at ho hroom
      simp only [] at ho hroom
      by_cases hbig : size > chunk_size - meta_size
      · rw [if_pos hbig] at ho
        simp only [Option.some.injEq] at ho
        subst ho
        exact Or.inr ⟨rfl, hmiss, rfl, rfl⟩
      · rw [if_neg hbig] at ho
        have hg : growBy size = 65536 := by unfold growBy; rw [if_neg hbig]
        rw [hg] at hroom
        obtain ⟨l1, c1, st', -, -, -, hi2, -⟩ := (small_rep base st A size t2 hr hi h8 hal
          (by simp only [chunk_size, meta_size] at hbig; omega) hmiss).1 hroom
        obtain ⟨c, l2, e1, e2, e3⟩ := takeFit_inv ho
        exact Or.inl ⟨(smallA st.brk t2 A).ca, c, l2, hi2.sorted, e1,
          ((hi2.good_ca c (hmem _ [] l2 c e1)).lt hroom).2.1, e2, e3⟩


theorem ains_tail (b : Blk) (ca : List Blk) (h1 : ∀ c ∈ ca, c.addr ≤ b.addr)
    (h2 : ∀ c ∈ ca, c.addr + 16 + c.size ≠ b.addr) : ains b ca = ca ++ [b] := by
  unfold ains
  have e : splitAddr b.addr ca = (ca, []) := by
    have := splitAddr_append b.addr ca [] h1 (fun x hx => by cases hx)
    rwa [List.append_nil] at this
  rw [e]
  simp only [mergeR]
  exact mergeL_keep ca b [] (fun pre hp => h2 pre (List.mem_of_getLast?_eq_some hp))

/-- After a large growth that starts behind every block of the local list
without touching one, releasing the block handed out makes it (merged with the
second half when that is in the local list) the first fit. -/
theorem large_reuse (brk size : Nat) (t2 : Bool) (A : Abs) (hmiss : ∀ c ∈ A.ca, c.size < size)
    (hgood : ∀ c ∈ A.ca, c.addr + 16 + c.size ≤ brk)
    (hne : ∀ c ∈ A.ca, c.addr + 16 + c.size ≠ brk) (hn : 2 * size + 32 < W64) :
    ∃ c2, splitFit size (ains ⟨brk, size⟩ (largeA brk t2 size A).ca) = (A.ca, [c2]) ∧
      c2.addr = brk := by
  unfold largeA
  cases t2 with
  | true =>
    simp only [if_true]
    rw [ains_tail ⟨brk, size⟩ A.ca (fun c hc => by have := hgood c hc; show c.addr ≤ brk; omega)
      (fun c hc => hne c hc)]
    exact ⟨⟨brk, size⟩, splitFit_append_miss size A.ca _ hmiss (le_refl _), rfl⟩
  | false =>
    simp only [Bool.false_eq_true, if_false]
    rw [ains_tail ⟨brk + meta_size + size, size⟩ A.ca
      (fun c hc => by have := hgood c hc; show c.addr ≤ brk + meta_size + size; omega)
      (fun c hc => by
        have := hgood c hc
        show c.addr + 16 + c.size ≠ brk + meta_size + size
        simp only [meta_size]; omega)]
    unfold ains
    rw [splitAddr_append brk A.ca [⟨brk + meta_size + size, size⟩]
      (fun c hc => by have := hgood c hc; omega)
      (fun x hx => by
        simp only [List.head?_cons, Option.some.injEq] at hx
        subst hx
        show brk < brk + meta_size + size
        simp only [meta_size]; omega)]
    simp only [mergeR, if_true]
    rw [mergeL_keep A.ca _ [] (fun pre hp => hne pre (List.mem_of_getLast?_eq_some hp))]
    refine ⟨_, splitFit_append_miss size A.ca _ hmiss ?_, rfl⟩
    show size ≤ addw size (addw meta_size size)
    rw [addw_eq meta_size size (by simp only [meta_size]; omega),
      addw_eq _ _ (by simp only [meta_size]; omega)]
    omega

/-- After `a = malloc(s)` and `free(a)`, the block of `a` is the first fit of
the local list again, unless the large growth started right behind a block of
the local list. -/
theorem reuse_fit (base : Nat) (st : State) (A : Abs) (size : Nat) (t1 t2 : Bool)
    (o : AOut) (hr : Rep st A) (hi : AInv base st.brk A) (h8 : 8 ≤ size)
    (hal : size % 8 = 0) (hn : 2 * size + 32 < W64)
    (hroom : abrk st.brk t1 size A + 1 < W64)
    (ho : amalloc st.brk t1 t2 size A = some o)
    (hex : o.path = Path.large → ∀ c ∈ A.ca, c.addr + 16 + c.size ≠ st.brk) :
    ∃ c2 l2, (splitFit size (ains o.blk o.abs.ca)).2 = c2 :: l2 ∧ c2.addr = o.blk.addr := by
  rcases amalloc_cases base st A size t1 t2 o hr hi h8 hal hroom ho with
    ⟨ca, c, l2, hs, e1, hc, e2, e3⟩ | ⟨e1, hmiss, e2, e3⟩
  · obtain ⟨q1, q2, q3⟩ := splitFit_eq size ca
    rw [e1] at q1 q3
    have hle := q3 c rfl
    have hs2 : ((splitFit size ca).1 ++ c :: l2).Pairwise Gap := by rw [q1]; exact hs
    rw [e3, e2, ains_take size _ l2 c hs2 hle hc (by omega), q1]
    exact ⟨c, l2, e1, (takeA_addr size c).symm⟩
  · obtain ⟨c2, k1, k2⟩ := large_reuse st.brk size t2 A hmiss
      (fun c hc => (hi.good_ca c hc).hi) (hex e1) hn
    rw [e3, e2, k1]
    exact ⟨c2, [], rfl, k2⟩

/-- C5 (immediate reuse), amended: in every reachable state, for every request
`s > 0` that makes no `size_t` computation wrap (`2 * s + 80 < 2^64`), with
enough fuel and room in the address space for the growth of the heap,
`a = malloc(s)` and `free(a)` return, and the next `malloc(s)` returns `a`
again, provided that the first call was not served by the large-request
growth path while a block of the thread cache ended exactly at the break. -/
theorem C5_reuse_amended {base : Nat} {st : State} {L : List Nat} (h : Reach base st L)
    (s fuel : Nat) (t1 t2 t3 t4 : Bool) (h0 : 0 < s) (hs : 2 * s + 80 < W64) (hf : W64 ≤ fuel)
    (hroom : st.brk + growBy (size_align s) + 1 < W64) :
    ∃ a pa st1 st2, malloc fuel t1 t2 s st = some (a, pa, st1) ∧ a ≠ 0 ∧
      free fuel a st1 = some st2 ∧
      ((pa = Path.large → ∀ ca, BSeg st.mem st.local_head ca 0 →
          ∀ c ∈ ca, c.addr + meta_size + c.size ≠ st.brk) →
        ∃ pb st3, malloc fuel t3 t4 s st2 = some (a, pb, st3)) := by
  have hI := reach_inv h
  obtain ⟨A0, -, hi0, -⟩ := reach_inv h
  have hb := hi0.brk_lt
  obtain ⟨q1, q2, q3, q4⟩ := size_align_props s (by omega) (by omega)
  obtain ⟨A, o, st1, hr, hi, hL, ho, hm, hr1, hi1, hb1, -⟩ := malloc_total hI s fuel t1 t2
    (by omega) (by omega) (by omega) hroom
  obtain ⟨p1, -⟩ := amalloc_props ho (by omega)
  have hl1 := hi1.len
  have hbl1 := hi1.brk_lt
  obtain ⟨st2, g1, g2, g3, g4, g5, g6, g7⟩ := free_rep base st1 o.abs o.blk A.lv fuel hr1 hi1
    (by rw [p1]) (by omega)
  refine ⟨_, _, st1, st2, hm, ptr_ne_zero _, g1, fun hex => ?_⟩
  have hab := abrk_le st.brk t1 (size_align s) A
  obtain ⟨c2, l2, k1, k2⟩ := reuse_fit base st A (size_align s) t1 t2 o hr hi q1 q2 (by omega)
    (by omega) ho (fun hp c hc => by
      have := hex hp A.ca hr.cache c hc
      simp only [meta_size] at this
      exact this)
  have hbl2 : st2.brk + 1 < W64 := by rw [g5]; exact hbl1
  have hl2 := g3.len
  have hmr := malloc_rep base st2 _ s fuel t3 t4 g2 g3 (by omega) (by omega) (by omega)
    (by omega)
  have hab2 : abrk st2.brk t3 (size_align s) ⟨A.lv, ains o.blk o.abs.ca, o.abs.po⟩ = st2.brk := by
    unfold abrk
    simp only [k1]
  obtain ⟨o2, st3, ho2, -, hm2, -⟩ := hmr.1 (by rw [hab2]; exact hbl2)
  unfold amalloc at ho2
  simp only [k1] at ho2
  obtain ⟨c3, l3, e1, e2, e3⟩ := takeFit_inv ho2
  simp only [] at e1
  rw [k1] at e1
  cases e1
  have : o2.blk.addr = o.blk.addr := by rw [e2, takeA_addr, k2]
  rw [this] at hm2
  exact ⟨_, st3, hm2⟩

/-- C5 (immediate reuse), the counterexample. On a fresh thread, after
`malloc(16)` with a failing donation `try_lock` the cache block at 4128 ends
at the break 69632. Then `a = malloc(70000)` takes the large growth path and
returns 69648; `free(a)` merges the block of `a` into the cache block at 4128;
the next `malloc(70000)` returns 4144, which is not `a`. -/
theorem C5_counterexample :
    Reach 4096 demo2 [4112] ∧
    ∃ st1 st2 st3, malloc 8 true true 70000 demo2 = some (69648, Path.large, st1) ∧
      free 8 69648 st1 = some st2 ∧
      malloc 8 true true 70000 st2 = some (4144, Path.cache_split, st3) ∧
      (4144 : Nat) ≠ 69648 := by
  refine ⟨?_, ?_⟩
  · exact Reach.malloc 8 true false 16 4112 Path.head_split demo2
      (Reach.init (fun _ => 0) (by decide) (by decide)) (by decide) rfl
  · exact ⟨_, _, _, rfl, rfl, rfl, by decide⟩

/-- The fresh thread is a reachable state. -/
theorem demo0_reach : Reach 4096 demo0 [] := Reach.init _ (by decide) (by decide)

/-- One `malloc(100)` on the fresh thread returns 4112. -/
theorem demo1_reach : Reach 4096 demo1 [4112] :=
  Reach.malloc 8 true true 100 4112 Path.head_split demo1 demo0_reach (by decide) rfl

/-- After `malloc(100)` the thread cache holds the remainder of the chunk. -/
theorem demo1_cache : BSeg demo1.mem demo1.local_head [⟨4216, 32632⟩] 0 :=
  ⟨by decide, by decide, by decide, by show readW demo1.mem (4216 + 8) = 0; decide⟩

/-- C1 at the state after `malloc(100)` on a fresh thread. -/
theorem C1_live_disjoint_witness :
    Reach 4096 demo1 [4112] ∧
    ∃ ca po : List Blk, BSeg demo1.mem demo1.local_head ca 0 ∧
      BSeg demo1.mem demo1.global_head po 0 ∧
      (∀ p ∈ [4112], ∀ q ∈ [4112], p ≠ q → meta_size ≤ q ∧
        (p + demo1.size (p - meta_size) ≤ q - meta_size ∨
          q + demo1.size (q - meta_size) ≤ p)) ∧
      (∀ p ∈ [4112], ∀ c ∈ ca ++ po,
        p + demo1.size (p - meta_size) ≤ c.addr ∨ c.addr + meta_size + c.size ≤ p) ∧
      (∀ c ∈ ca, ∀ d ∈ po, c.addr ≠ d.addr) :=
  ⟨demo1_reach, C1_live_disjoint demo1_reach⟩

/-- C2 for `malloc(100)` on a fresh thread. -/
theorem C2_capacity_witness :
    Reach 4096 demo0 [] ∧ 0 < 100 ∧ 100 ≤ 2 ^ 32 ∧ W64 ≤ W64 ∧
    demo0.brk + growBy (size_align 100) + 1 < W64 ∧
    ∃ p path st', malloc W64 true true 100 demo0 = some (p, path, st') ∧ p ≠ 0 ∧
      size_align 100 ≤ st'.size (p - meta_size) ∧
      st'.size (p - meta_size) ≤ size_align 100 + meta_size ∧
      (path.isSplit = true ∨ path = Path.large →
        st'.size (p - meta_size) = size_align 100) :=
  ⟨demo0_reach, by decide, by decide, le_refl _, by decide,
    C2_capacity demo0_reach 100 W64 true true (by decide) (by decide) (le_refl _) (by decide)⟩

/-- C3 at the state after `malloc(100)` on a fresh thread, the heap starting at 4096. -/
theorem C3_alignment_witness :
    Reach 4096 demo1 [4112] ∧ 4096 % 8 = 0 ∧
    (∃ ca po : List Blk, BSeg demo1.mem demo1.local_head ca 0 ∧
      BSeg demo1.mem demo1.global_head po 0 ∧
      ∀ c ∈ ca ++ po, c.addr % 8 = 0 ∧ c.size % 8 = 0) ∧
    (∀ p ∈ [4112], p % 8 = 0 ∧ meta_size ≤ p ∧ (p - meta_size) % 8 = 0 ∧
      demo1.size (p - meta_size) % 8 = 0) ∧
    (∀ (fuel : Nat) (t1 t2 : Bool) (s p : Nat) (path : Path) (st' : State),
      2 * s + 80 < W64 → malloc fuel t1 t2 s demo1 = some (p, path, st') → p ≠ 0 →
      p % 8 = 0 ∧ meta_size ≤ p ∧ (p - meta_size) % 8 = 0) ∧
    (∀ (fuel : Nat) (t1 t2 : Bool) (a k p : Nat) (st' : State),
      2 * (a * k) + 80 < W64 → calloc fuel t1 t2 a k demo1 = some (p, st') → p ≠ 0 →
      p % 8 = 0 ∧ meta_size ≤ p ∧ (p - meta_size) % 8 = 0) ∧
    (∀ (fuel : Nat) (t1 t2 : Bool) (p s q : Nat) (st' : State),
      p = 0 ∨ p ∈ [4112] → 2 * s + 80 < W64 →
      realloc fuel t1 t2 p s demo1 = some (q, st') → q ≠ 0 →
      q % 8 = 0 ∧ meta_size ≤ q ∧ (q - meta_size) % 8 = 0) :=
  ⟨demo1_reach, by decide, C3_alignment demo1_reach (by decide)⟩

/-- C5, the example of the spec: `s = 16` on a fresh thread. -/
theorem C5_reuse_amended_witness :
    Reach 4096 demo0 [] ∧ 0 < 16 ∧ 2 * 16 + 80 < W64 ∧ W64 ≤ W64 ∧
    demo0.brk + growBy (size_align 16) + 1 < W64 ∧
    ∃ a pa st1 st2, malloc W64 true true 16 demo0 = some (a, pa, st1) ∧ a ≠ 0 ∧
      free W64 a st1 = some st2 ∧
      ((pa = Path.large → ∀ ca, BSeg demo0.mem demo0.local_head ca 0 →
          ∀ c ∈ ca, c.addr + meta_size + c.size ≠ demo0.brk) →
        ∃ pb st3, malloc W64 true true 16 st2 = some (a, pb, st3)) :=
  ⟨demo0_reach, by decide, by decide, le_refl _, by decide,
    C5_reuse_amended demo0_reach 16 W64 true true true true (by decide) (by decide) (le_refl _)
      (by decide)⟩

/-- C6 for `realloc(a, 200)` after `a = malloc(100)` on a fresh thread. -/
theorem C6_realloc_content_witness :
    Reach 4096 demo1 [4112] ∧ 4112 ∈ [4112] ∧ 0 < 200 ∧ 200 ≤ 2 ^ 32 ∧ W64 ≤ W64 ∧
    demo1.brk + growBy (size_align 200) + 1 < W64 ∧
    ∃ q st', realloc W64 true true 4112 200 demo1 = some (q, st') ∧
      ∀ i, i < min (demo1.size (4112 - meta_size)) 200 → st'.mem (q + i) = demo1.mem (4112 + i) :=
  ⟨demo1_reach, by decide, by decide, by decide, le_refl _, by decide,
    C6_realloc_content demo1_reach 4112 200 W64 true true (by decide) (by decide) (by decide)
      (le_refl _) (by decide)⟩

/-- C7 for `realloc(a, 16)` after `a = malloc(100)` on a fresh thread. -/
theorem C7_realloc_shrink_witness :
    Reach 4096 demo1 [4112] ∧ 4112 ∈ [4112] ∧ 0 < 16 ∧
    size_align 16 < demo1.size (4112 - meta_size) ∧ W64 ≤ W64 ∧
    ∃ ca st', BSeg demo1.mem demo1.local_head ca 0 ∧
      realloc W64 true true 4112 16 demo1 = some (4112, st') ∧ st'.nsbrk = demo1.nsbrk ∧
      (size_align 16 + meta_size < demo1.size (4112 - meta_size) →
        st'.size (4112 - meta_size) = size_align 16 ∧
        BSeg st'.mem st'.local_head
          (ains ⟨4112 + size_align 16,
            demo1.size (4112 - meta_size) - size_align 16 - meta_size⟩ ca) 0) ∧
      (demo1.size (4112 - meta_size) ≤ size_align 16 + meta_size → st' = demo1) :=
  ⟨demo1_reach, by decide, by decide, by decide, le_refl _,
    C7_realloc_shrink demo1_reach 4112 16 W64 true true (by decide) (by decide) (by decide)
      (le_refl _)⟩

/-- C8, the example of the spec: `a = malloc(100)` on a fresh thread, then
`realloc(a, 200)`; the free block behind `a` has its header at 4216. -/
theorem C8_realloc_inplace_witness :
    Reach 4096 demo1 [4112] ∧ 4112 ∈ [4112] ∧ 0 < 200 ∧
    demo1.size (4112 - meta_size) < size_align 200 ∧
    BSeg demo1.mem demo1.local_head [⟨4216, 32632⟩] 0 ∧
    (⟨4216, 32632⟩ : Blk) ∈ [(⟨4216, 32632⟩ : Blk)] ∧
    (⟨4216, 32632⟩ : Blk).addr = 4112 + demo1.size (4112 - meta_size) ∧
    size_align 200 ≤ demo1.size (4112 - meta_size) + meta_size + (⟨4216, 32632⟩ : Blk).size ∧
    W64 ≤ W64 ∧
    ∃ l1 l2 st', [(⟨4216, 32632⟩ : Blk)] = l1 ++ ⟨4216, 32632⟩ :: l2 ∧
      realloc W64 true true 4112 200 demo1 = some (4112, st') ∧ st'.nsbrk = demo1.nsbrk ∧
      size_align 200 ≤ st'.size (4112 - meta_size) ∧
      st'.size (4112 - meta_size) ≤ size_align 200 + meta_size ∧
      (size_align 200 + meta_size <
          demo1.size (4112 - meta_size) + meta_size + (⟨4216, 32632⟩ : Blk).size →
        BSeg st'.mem st'.local_head
          (l1 ++ ⟨4112 + size_align 200,
            demo1.size (4112 - meta_size) + (⟨4216, 32632⟩ : Blk).size - size_align 200⟩ ::
            l2) 0) ∧
      (demo1.size (4112 - meta_size) + meta_size + (⟨4216, 32632⟩ : Blk).size ≤
          size_align 200 + meta_size →
        BSeg st'.mem st'.local_head (l1 ++ l2) 0) :=
  ⟨demo1_reach, by decide, by decide, by decide, demo1_cache, List.mem_singleton.2 rfl,
    by decide, by decide, le_refl _,
    C8_realloc_inplace demo1_reach 4112 200 W64 true true [⟨4216, 32632⟩] ⟨4216, 32632⟩
      (by decide) (by decide) (by decide) demo1_cache (List.mem_singleton.2 rfl) (by decide)
      (by decide) (le_refl _)⟩

/-- When the product `n * k` does not wrap (`n * k ≤ 2^32`), `calloc(n, k)`
in a reachable state, with enough fuel and room for the growth of the heap,
returns the non-null pointer `p` of `malloc(size_align(n * k))`, the capacity
recorded for `p` is at least `n * k`, the first `n * k` bytes at `p` are
zero, and the zero-fill changes no byte outside `[p, p + capacity)`. -/
theorem calloc_zeroed {base : Nat} {st : State} {L : List Nat} (h : Reach base st L)
    (n k fuel : Nat) (t1 t2 : Bool) (hn : 0 < n) (hk : 0 < k) (hs : n * k ≤ 2 ^ 32)
    (hf : W64 ≤ fuel) (hroom : st.brk + growBy (size_align (n * k)) + 1 < W64) :
    ∃ p path st1 st', malloc fuel t1 t2 (size_align (n * k)) st = some (p, path, st1) ∧
      calloc fuel t1 t2 n k st = some (p, st') ∧ p ≠ 0 ∧
      n * k ≤ st'.size (p - meta_size) ∧
      (∀ i, i < n * k → st'.mem (p + i) = 0) ∧
      (∀ x, x < p ∨ p + st'.size (p - meta_size) ≤ x → st'.mem x = st1.mem x) := by
  obtain ⟨A, hr, hi, hL⟩ := reach_inv h
  have hw : (2 : Nat) ^ 32 = 4294967296 := by norm_num
  have hW : W64 = 18446744073709551616 := by unfold W64; norm_num
  have hb := hi.brk_lt
  have hm : mulw n k = n * k := mulw_eq _ _ (by omega)
  have hpos : n * k ≠ 0 := Nat.mul_ne_zero (by omega) (by omega)
  obtain ⟨q1, q2, q3, q4⟩ := size_align_props (n * k) hpos (by omega)
  have hab := abrk_le st.brk t1 (size_align (n * k)) A
  obtain ⟨o, st1, ho, hml, hc, hr2, hi1, hr1, -⟩ := calloc_rep base st A n k
    (size_align (n * k)) fuel t1 t2 hr hi (by omega) (by omega) (by rw [hm]) (by omega)
    (by omega) (by omega) (by omega)
  obtain ⟨p1, p2, -⟩ := amalloc_props ho (by omega)
  have hsz : readW (memset st1.mem (o.blk.addr + meta_size) 0 (size_align (n * k))) o.blk.addr
      = o.blk.size := hr2.live o.blk (by rw [p1]; simp)
  refine ⟨_, _, st1, _, hml, hc, ptr_ne_zero _, ?_, ?_, ?_⟩
  · rw [Nat.add_sub_cancel]
    show n * k ≤ readW _ o.blk.addr
    rw [hsz]
    omega
  · intro i hlt
    exact memset_zero _ _ _ i (by omega)
  · intro x hx
    rw [Nat.add_sub_cancel] at hx
    have hx2 : x < o.blk.addr + meta_size ∨ o.blk.addr + meta_size + o.blk.size ≤ x := by
      rcases hx with hx | hx
      · exact Or.inl hx
      · right
        have : (State.size { st1 with
            mem := (memset st1.mem (o.blk.addr + meta_size) 0 (size_align (n * k))) }
            o.blk.addr) = o.blk.size := hsz
        rw [this] at hx
        exact hx
    exact memset_sameR st1.mem _ 0 _ x (by omega)

/-- The spec's example `calloc(10, 8)` on a fresh thread. -/
theorem calloc_zeroed_demo :
    Reach 4096 demo0 [] ∧ 0 < 10 ∧ 0 < 8 ∧ 10 * 8 ≤ 2 ^ 32 ∧ W64 ≤ W64 ∧
    demo0.brk + growBy (size_align (10 * 8)) + 1 < W64 ∧
    ∃ p path st1 st', malloc W64 true true (size_align (10 * 8)) demo0 = some (p, path, st1) ∧
      calloc W64 true true 10 8 demo0 = some (p, st') ∧ p ≠ 0 ∧
      10 * 8 ≤ st'.size (p - meta_size) ∧
      (∀ i, i < 10 * 8 → st'.mem (p + i) = 0) ∧
      (∀ x, x < p ∨ p + st'.size (p - meta_size) ≤ x → st'.mem x = st1.mem x) :=
  ⟨demo0_reach, by decide, by decide, by decide, le_refl _, by decide,
    calloc_zeroed demo0_reach 10 8 W64 true true (by decide) (by decide) (by decide)
      (le_refl _) (by decide)⟩

theorem AInv.take_any {base brk : Nat} {A : Abs} (hi : AInv base brk A) (size : Nat)
    (l1 l2 : List Blk) (c : Blk) (hca : A.ca = l1 ++ c :: l2)
    (hal : size % 8 = 0) (hle : size ≤ c.size) :
    AInv base brk ⟨(takeA size c).1 :: A.lv, l1 ++ (takeA size c).2 ++ l2, A.po⟩ := by
  have gc : Good base brk c := hi.good_ca c (by simp [hca])
  have hclt := gc.lt hi.brk_lt
  have t0 : Tiles base brk (c :: (A.lv ++ (l1 ++ l2 ++ A.po))) := by
    have := hi.tiles
    unfold Abs.all at this
    rw [hca] at this
    exact this.perm (perm_middle_all _ _ _ _ _)
  have hs := hi.sorted
  rw [hca] at hs
  by_cases hgt : size + 16 < c.size
  · rw [takeA_eq_split hgt hclt.2.1]
    refine ⟨hi.base_pos, hi.brk_lt, ?_, ?_⟩
    · exact (t0.split size hal hgt).perm (perm_take_split _ _ _ _ _ _)
    · simp only [List.append_assoc, List.singleton_append]
      refine sorted_replace hs ?_ ?_
      · show c.addr ≤ c.addr + size + 16
        omega
      · show c.addr + size + 16 + 16 + (c.size - size - 16) ≤ _
        omega
  · rw [takeA_eq_whole hgt (by omega)]
    refine ⟨hi.base_pos, hi.brk_lt, ?_, ?_⟩
    · refine t0.perm ?_
      simp only [List.perm_iff_count]
      intro a
      simp only [List.count_append, List.count_cons, List.count_nil, Abs.all]
      omega
    · simp only [List.append_nil]
      exact sorted_remove hs

/-- A request that finds a fit in the local list: `malloc` takes the first
fit, whatever the rounded size is. -/
theorem malloc_hit_rep (base : Nat) (st : State) (A : Abs) (s fuel : Nat) (t1 t2 : Bool)
    (c : Blk) (l2 : List Blk) (hr : Rep st A) (hi : AInv base st.brk A) (h0 : s ≠ 0)
    (hfit : (splitFit (size_align s) A.ca).2 = c :: l2) (hf : A.ca.length < fuel) :
    ∃ st', malloc fuel t1 t2 s st = some (c.addr + meta_size,
        (if c.size > addw (size_align s) meta_size then Path.cache_split else Path.cache_whole),
        st') ∧
      Rep st' ⟨(takeA (size_align s) c).1 :: A.lv,
        (splitFit (size_align s) A.ca).1 ++ (takeA (size_align s) c).2 ++ l2, A.po⟩ ∧
      AInv base st'.brk ⟨(takeA (size_align s) c).1 :: A.lv,
        (splitFit (size_align s) A.ca).1 ++ (takeA (size_align s) c).2 ++ l2, A.po⟩ ∧
      Frame A.ca st.brk st.mem st'.mem ∧
      st'.brk = st.brk ∧ st'.ntry = st.ntry ∧ st'.nsbrk = st.nsbrk ∧
      st'.global_head = st.global_head := by
  have hal : size_align s % 8 = 0 := by rw [size_align_eq]; omega
  generalize hsz : size_align s = size at *
  have hsl := splitFit_length size A.ca
  have hw := fit_walk_fit st size fuel A.ca st.local_head hr.cache (by omega)
  obtain ⟨he, hm1, hm2⟩ := splitFit_eq size A.ca
  rw [hfit] at he hw hm2
  have hle : size ≤ c.size := hm2 c rfl
  have hcache := hr.cache
  rw [← he] at hcache
  have hp : (((splitFit size A.ca).1 ++ c :: l2).map Blk.addr).Pairwise HSep := by
    rw [he]; exact pairwise_hsep_of_disj hi.ca_disj
  have hcz := hcache.node.1
  simp only [headA_cons] at hw
  have hmal := malloc_unfold fuel t1 t2 s size st _ _ _ h0 hsz hw
  rw [if_neg hcz, malloc_hit_eq st size _ l2 c hcache hp] at hmal
  obtain ⟨r1, r2, r3, r4, r5, r6⟩ := takeBlock_rep base st A size _ l2 c hr hi he.symm hle
  have hi2 := hi.take_any size _ l2 c he.symm hal hle
  refine ⟨_, hmal, r1, by rw [r4]; exact hi2, r2, r4, r5, r6, ?_⟩
  unfold takeBlock
  split
  · split <;> rfl
  · split <;> rfl


theorem splitFit_hit {size : Nat} {ca : List Blk} (h : ∃ c ∈ ca, size ≤ c.size) :
    ∃ x l2, (splitFit size ca).2 = x :: l2 ∧ ca = (splitFit size ca).1 ++ x :: l2 ∧
      (∀ c ∈ (splitFit size ca).1, c.size < size) ∧ size ≤ x.size := by
  obtain ⟨x, l2, hx⟩ := @splitFit_found size ca h
  obtain ⟨he, h1, h2⟩ := splitFit_eq size ca
  rw [hx] at he h2
  exact ⟨x, l2, hx, he.symm, h1, h2 x rfl⟩

/-- C16 (first fit on the thread cache): in every state that satisfies the
representation invariant (well-formed lists), for every request whose rounded
size `s'` is positive and for which the thread cache `ca` has a block of size
`≥ s'`: `malloc` returns `x + H` for the first such block `x` of the list,
which is the lowest-addressed one (every block before `x` has size `< s'`);
it makes no `try_lock` and no `sbrk` call, leaves the break and the global
pool unchanged, and in the cache replaces `x` by its split remainder when
`x.size > s' + H` and removes `x` otherwise, all other blocks unchanged. -/
theorem C16_first_fit {base : Nat} {st : State} {L : List Nat} (h : Inv base st L)
    (s fuel : Nat) (t1 t2 : Bool) (ca : List Blk) (hca : BSeg st.mem st.local_head ca 0)
    (hpos : 0 < size_align s) (hfit : ∃ c ∈ ca, size_align s ≤ c.size) (hf : W64 ≤ fuel) :
    ∃ l1 x l2 path st', ca = l1 ++ x :: l2 ∧ (∀ c ∈ l1, c.size < size_align s) ∧
      size_align s ≤ x.size ∧ (∀ c ∈ ca, size_align s ≤ c.size → x.addr ≤ c.addr) ∧
      malloc fuel t1 t2 s st = some (x.addr + meta_size, path, st') ∧
      st'.ntry = st.ntry ∧ st'.nsbrk = st.nsbrk ∧ st'.brk = st.brk ∧
      st'.global_head = st.global_head ∧
      (∀ po, BSeg st.mem st.global_head po 0 → BSeg st'.mem st'.global_head po 0) ∧
      (size_align s + meta_size < x.size →
        BSeg st'.mem st'.local_head
          (l1 ++ ⟨x.addr + meta_size + size_align s, x.size - size_align s - meta_size⟩ :: l2)
          0) ∧
      (x.size ≤ size_align s + meta_size → BSeg st'.mem st'.local_head (l1 ++ l2) 0) := by
  obtain ⟨A, hr, hi, hL⟩ := h
  have hW : W64 = 18446744073709551616 := by unfold W64; norm_num
  have e : ca = A.ca := BSeg.unique hca hr.cache
  subst e
  have h0 : s ≠ 0 := by
    intro e
    rw [e] at hpos
    exact absurd hpos (by decide)
  obtain ⟨x, l2, hx, he, hm, hle⟩ := splitFit_hit hfit
  have hl := hi.len
  have hb := hi.brk_lt
  obtain ⟨st', r1, r2, r3, r4, r5, r6, r7, r8⟩ := malloc_hit_rep base st A s fuel t1 t2 x l2
    hr hi h0 hx (by omega)
  have gx := hi.good_ca x (by rw [he]; simp)
  have hxl := gx.lt hb
  have hs := hi.sorted
  rw [he] at hs
  obtain ⟨g1, g2⟩ := gap_last hs
  have hc := r2.cache
  simp only [] at hc
  refine ⟨_, x, l2, _, st', he, hm, hle, ?_, r1, r6, r7, r5, r8, ?_, ?_, ?_⟩
  · intro c hc hcs
    rw [he] at hc
    rcases List.mem_append.1 hc with h1 | h1
    · have := hm c h1; omega
    · rcases List.mem_cons.1 h1 with rfl | h2
      · exact le_refl _
      · have := g2 c h2; omega
  · intro po hpo
    have e : po = A.po := BSeg.unique hpo hr.pool
    subst e
    exact r2.pool
  · intro hgt
    simp only [meta_size] at hgt ⊢
    rw [takeA_eq_split hgt hxl.2.1] at hc
    simp only [List.append_assoc, List.singleton_append] at hc
    have e1 : x.addr + 16 + size_align s = x.addr + size_align s + 16 := by omega
    rw [e1]
    exact hc
  · intro hgt
    simp only [meta_size] at hgt
    rw [takeA_eq_whole (by omega) (by omega)] at hc
    simp only [List.append_nil] at hc
    exact hc

/-- C13 (round trip on a cache hit): in every reachable state, for every
request `s > 0` for which the thread cache `ca` has a block of size
`≥ size_align(s)`, with enough fuel: `a = malloc(s)` and `free(a)` return,
and afterwards the thread cache is again the list `ca` (the same header
addresses and sizes in the same order), the global pool is the same list and
the break is unchanged. -/
theorem C13_round_trip {base : Nat} {st : State} {L : List Nat} (h : Reach base st L)
    (s fuel : Nat) (t1 t2 : Bool) (ca po : List Blk)
    (hca : BSeg st.mem st.local_head ca 0) (hpo : BSeg st.mem st.global_head po 0)
    (h0 : 0 < s) (hfit : ∃ c ∈ ca, size_align s ≤ c.size) (hf : W64 ≤ fuel) :
    ∃ a pa st1 st2, malloc fuel t1 t2 s st = some (a, pa, st1) ∧ a ≠ 0 ∧
      free fuel a st1 = some st2 ∧
      BSeg st2.mem st2.local_head ca 0 ∧ BSeg st2.mem st2.global_head po 0 ∧
      st2.global_head = st.global_head ∧ st2.brk = st.brk := by
  obtain ⟨A, hr, hi, hL⟩ := reach_inv h
  have hW : W64 = 18446744073709551616 := by unfold W64; norm_num
  have e : ca = A.ca := BSeg.unique hca hr.cache
  subst e
  have e : po = A.po := BSeg.unique hpo hr.pool
  subst e
  obtain ⟨x, l2, hx, he, hm, hle⟩ := splitFit_hit hfit
  have hl := hi.len
  have hb := hi.brk_lt
  obtain ⟨st1, r1, r2, r3, r4, r5, r6, r7, r8⟩ := malloc_hit_rep base st A s fuel t1 t2 x l2
    hr hi (by omega) hx (by omega)
  have gx := hi.good_ca x (by rw [he]; simp)
  have hxl := gx.lt hb
  have hs := hi.sorted
  rw [he] at hs
  have hl1 := r3.len
  obtain ⟨st2, g1, g2, g3, g4, g5, g6, g7⟩ := free_rep base st1 _ (takeA (size_align s) x).1
    A.lv fuel r2 r3 (List.Perm.refl _) (by rw [r5] at hl1; simp only [] at hl1 ⊢; omega)
  rw [takeA_addr] at g1
  have hc := g2.cache
  simp only [] at hc
  rw [ains_take (size_align s) _ l2 x hs hle hxl.2.1 (by omega), ← he] at hc
  have hgh : st2.global_head = st.global_head := by
    have k1 := (BSeg.head_eq g2.pool)
    have k2 := (BSeg.head_eq hr.pool)
    simp only [] at k1
    rw [k1, k2]
  exact ⟨_, _, st1, st2, r1, ptr_ne_zero _, g1, hc, g2.pool, hgh, by rw [g5, r5]⟩

/-- A request that misses the local list and finds a fit in the global list
with the probe `try_lock` succeeding. -/
theorem malloc_pool_rep (base : Nat) (st : State) (A : Abs) (s fuel : Nat) (t2 : Bool)
    (g : Blk) (g2 : List Blk) (hr : Rep st A) (hi : AInv base st.brk A)
    (hpos : 0 < size_align s) (hmiss : ∀ c ∈ A.ca, c.size < size_align s)
    (hg : (splitFit (size_align s) A.po).2 = g :: g2)
    (hf1 : A.ca.length < fuel) (hf2 : A.po.length < fuel) :
    ∃ c l2 st', (splitFit (size_align s) (ains g A.ca)).2 = c :: l2 ∧
      malloc fuel true t2 s st = some (c.addr + meta_size,
        (if c.size > addw (size_align s) meta_size then Path.pool_split else Path.pool_whole),
        st') ∧
      Rep st' ⟨(takeA (size_align s) c).1 :: A.lv,
        (splitFit (size_align s) (ains g A.ca)).1 ++ (takeA (size_align s) c).2 ++ l2,
        (splitFit (size_align s) A.po).1 ++ g2⟩ ∧
      AInv base st'.brk ⟨(takeA (size_align s) c).1 :: A.lv,
        (splitFit (size_align s) (ains g A.ca)).1 ++ (takeA (size_align s) c).2 ++ l2,
        (splitFit (size_align s) A.po).1 ++ g2⟩ ∧
      AInv base st.brk ⟨A.lv, ains g A.ca, (splitFit (size_align s) A.po).1 ++ g2⟩ ∧
      st'.brk = st.brk ∧ st'.ntry = st.ntry + 1 ∧ st'.nsbrk = st.nsbrk := by
  have hal : size_align s % 8 = 0 := by rw [size_align_eq]; omega
  have h0 : s ≠ 0 := by
    intro e
    rw [e] at hpos
    exact absurd hpos (by decide)
  generalize hsz : size_align s = size at *
  have h8 : 8 ≤ size := by omega
  have hfit : (splitFit size A.ca).2 = [] := by
    cases hc : (splitFit size A.ca).2 with
    | nil => rfl
    | cons c l =>
      exfalso
      obtain ⟨he, -, h2⟩ := splitFit_eq size A.ca
      rw [hc] at he h2
      have := hmiss c (by rw [← he]; simp)
      have := h2 c rfl
      omega
  have hsl := splitFit_length size A.ca
  have hw := fit_walk_fit st size fuel A.ca st.local_head hr.cache (by omega)
  obtain ⟨he, hm1, hm2⟩ := splitFit_eq size A.ca
  rw [hfit] at he hw
  simp only [headA_nil, List.append_nil] at he hw
  rw [he] at hw
  have hmal := malloc_unfold fuel true t2 s size st _ _ _ h0 hsz hw
  rw [if_pos rfl] at hmal
  obtain ⟨p1, c, l2, p2, st', p3, p4, p5, p6, p7, p8, p9⟩ :=
    probe_rep base st A size fuel g g2 hr hi hg h8 hal hf1 hf2
  rw [p3] at hmal
  simp only [] at hmal
  exact ⟨c, l2, st', p2, hmal, p4, p5, p1, p7, p8, p9⟩

/-- C18 (global probe): in every reachable state, for a request with rounded
size `s' > 0` such that the thread cache `ca` has no block of size `≥ s'`,
the probe `try_lock` succeeds and the global pool `po` has a block of size
`≥ s'`: `malloc` unlinks the first such block `g` of the pool list (the pool
becomes `g1 ++ g2`, where `po = g1 ++ g :: g2`), releases it into the thread
cache (`ains g ca`: ordered insertion, then coalescing), and the second local
search finds a first fit `x` there; `malloc` returns `x + H` at one of the two
`return` statements of the pool branch (lines 130 and 136), after one
`try_lock` and without a call of `sbrk`, and in the cache `x` is replaced by
its split remainder or removed. -/
theorem C18_global_probe {base : Nat} {st : State} {L : List Nat} (h : Reach base st L)
    (s fuel : Nat) (t2 : Bool) (ca po : List Blk)
    (hca : BSeg st.mem st.local_head ca 0) (hpo : BSeg st.mem st.global_head po 0)
    (hpos : 0 < size_align s) (hmiss : ∀ c ∈ ca, c.size < size_align s)
    (hhit : ∃ g ∈ po, size_align s ≤ g.size) (hf : W64 ≤ fuel) :
    ∃ g1 g g2 l1 x l2 path st', po = g1 ++ g :: g2 ∧ (∀ c ∈ g1, c.size < size_align s) ∧
      size_align s ≤ g.size ∧
      ains g ca = l1 ++ x :: l2 ∧ (∀ c ∈ l1, c.size < size_align s) ∧ size_align s ≤ x.size ∧
      malloc fuel true t2 s st = some (x.addr + meta_size, path, st') ∧
      (path = Path.pool_split ∨ path = Path.pool_whole) ∧
      st'.ntry = st.ntry + 1 ∧ st'.nsbrk = st.nsbrk ∧ st'.brk = st.brk ∧
      BSeg st'.mem st'.global_head (g1 ++ g2) 0 ∧
      (size_align s + meta_size < x.size →
        BSeg st'.mem st'.local_head
          (l1 ++ ⟨x.addr + meta_size + size_align s, x.size - size_align s - meta_size⟩ :: l2)
          0) ∧
      (x.size ≤ size_align s + meta_size → BSeg st'.mem st'.local_head (l1 ++ l2) 0) := by
  obtain ⟨A, hr, hi, hL⟩ := reach_inv h
  have hW : W64 = 18446744073709551616 := by unfold W64; norm_num
  have e : ca = A.ca := BSeg.unique hca hr.cache
  subst e
  have e : po = A.po := BSeg.unique hpo hr.pool
  subst e
  obtain ⟨g, g2, hg, he, hm, hle⟩ := splitFit_hit hhit
  have hl := hi.len
  have hb := hi.brk_lt
  obtain ⟨x, l2, st', r1, r2, r3, r4, r5, r6, r7, r8⟩ := malloc_pool_rep base st A s fuel t2
    g g2 hr hi hpos hmiss hg (by omega) (by omega)
  obtain ⟨q1, q2, q3⟩ := splitFit_eq (size_align s) (ains g A.ca)
  rw [r1] at q1 q3
  have gx := r5.good_ca x (by show x ∈ ains g A.ca; rw [← q1]; simp)
  have hxl := gx.lt hb
  have hc := r3.cache
  simp only [] at hc
  refine ⟨_, g, g2, _, x, l2, _, st', he, hm, hle, q1.symm, q2, q3 x rfl, r2, ?_, r7, r8, r6,
    r3.pool, ?_, ?_⟩
  · split
    · exact Or.inl rfl
    · exact Or.inr rfl
  · intro hgt
    simp only [meta_size] at hgt ⊢
    rw [takeA_eq_split hgt hxl.2.1] at hc
    simp only [List.append_assoc, List.singleton_append] at hc
    have e1 : x.addr + 16 + size_align s = x.addr + size_align s + 16 := by omega
    rw [e1]
    exact hc
  · intro hgt
    simp only [meta_size] at hgt
    have := q3 x rfl
    rw [takeA_eq_whole (by omega) (by omega)] at hc
    simp only [List.append_nil] at hc
    exact hc


theorem splitFit_miss {size : Nat} {l : List Blk} (h : ∀ c ∈ l, c.size < size) :
    (splitFit size l).2 = [] := by
  cases hc : (splitFit size l).2 with
  | nil => rfl
  | cons c r =>
    exfalso
    obtain ⟨he, -, h2⟩ := splitFit_eq size l
    rw [hc] at he h2
    have := h c (by rw [← he]; simp)
    have := h2 c rfl
    omega

/-- No growth: a fit in the local list, or a fit in the global list with the
probe `try_lock` succeeding. -/
theorem amalloc_nogrow {brk : Nat} {t1 t2 : Bool} {size : Nat} {A : Abs} {o : AOut}
    (ho : amalloc brk t1 t2 size A = some o) (hs : size + 16 < W64)
    (h : (∃ c ∈ A.ca, size ≤ c.size) ∨ (t1 = true ∧ ∃ g ∈ A.po, size ≤ g.size)) :
    abrk brk t1 size A = brk ∧ o.path.sbrks = 0 := by
  unfold amalloc at ho
  unfold abrk
  cases h1 : (splitFit size A.ca).2 with
  | cons c l2 =>
    rw [h1] at ho
    simp only [] at ho ⊢
    obtain ⟨-, -, -, -, -, sp, e, -⟩ := takeFit_props ho hs
    refine ⟨trivial, ?_⟩
    rw [e]
    cases sp <;> rfl
  | nil =>
    rw [h1] at ho
    simp only [] at ho ⊢
    have hmiss := splitFit_none h1
    rcases h with ⟨c, hc, hle⟩ | ⟨ht, hg⟩
    · have := hmiss c hc; omega
    · subst ht
      obtain ⟨g, g2, hg2, -⟩ := splitFit_hit hg
      simp only [if_true, hg2] at ho ⊢
      obtain ⟨-, -, -, -, -, sp, e, -⟩ := takeFit_props ho hs
      refine ⟨trivial, ?_⟩
      rw [e]
      cases sp <;> rfl

/-- Growth: no fit in the local list, and no block taken from the global list. -/
theorem amalloc_grow {brk : Nat} {t1 t2 : Bool} {size : Nat} {A : Abs} {o : AOut}
    (ho : amalloc brk t1 t2 size A = some o) (hs : size + 16 < W64)
    (hmiss : ∀ c ∈ A.ca, c.size < size) (hp : t1 = false ∨ ∀ g ∈ A.po, g.size < size) :
    abrk brk t1 size A = brk + growBy size ∧ o.path.sbrks = 1 ∧
    (size > chunk_size - meta_size →
      o = ⟨⟨brk, size⟩, Path.large, largeA brk t2 size A, brk + (2 * size + 32)⟩) := by
  unfold amalloc at ho
  unfold abrk
  have h1 := splitFit_miss hmiss
  have h2 : (if t1 then (splitFit size A.po).2 else []) = [] := by
    rcases hp with rfl | hp
    · rfl
    · rw [splitFit_miss hp]; simp
  rw [h1] at ho
  simp only [] at ho
  rw [h2] at ho
  simp only [h1, h2] at ho ⊢
  refine ⟨trivial, ?_, ?_⟩
  · by_cases hbig : size > chunk_size - meta_size
    · rw [if_pos hbig] at ho
      simp only [Option.some.injEq] at ho
      subst ho
      rfl
    · rw [if_neg hbig] at ho
      obtain ⟨-, -, -, -, -, sp, e, -⟩ := takeFit_props ho hs
      rw [e]
      exact (smallPath_tries A.ca brk sp).2
  · intro hbig
    rw [if_pos hbig] at ho
    simp only [Option.some.injEq] at ho
    exact ho.symm

/-- C12 (heap-growth policy): in every reachable state, for a request
`0 < s ≤ 2^32` with rounded size `s'`, with enough fuel and room for the
growth, `malloc(s)` returns, and: when the thread cache `ca` has a block of
size `≥ s'`, or the probe `try_lock` succeeds and the global pool `po` has
one, `sbrk` is not called and the break stays; otherwise `sbrk` is called
exactly once, with `2 * s' + 2 * H` bytes when `s' > C - H` and with `2 * C`
bytes otherwise. In the large case the call returns `r + H` for the start `r`
of the new region, with capacity `s'`, and the second block (header at
`r + H + s'`, size `s'`) is pushed on the global pool when the donation
`try_lock` succeeds and is released into the thread cache otherwise. -/
theorem C12_growth_policy {base : Nat} {st : State} {L : List Nat} (h : Reach base st L)
    (s fuel : Nat) (t1 t2 : Bool) (ca po : List Blk)
    (hca : BSeg st.mem st.local_head ca 0) (hpo : BSeg st.mem st.global_head po 0)
    (h0 : 0 < s) (hs : s ≤ 2 ^ 32) (hf : W64 ≤ fuel)
    (hroom : st.brk + growBy (size_align s) + 1 < W64) :
    ∃ p path st', malloc fuel t1 t2 s st = some (p, path, st') ∧
      ((∃ c ∈ ca, size_align s ≤ c.size) ∨ (t1 = true ∧ ∃ g ∈ po, size_align s ≤ g.size) →
        st'.nsbrk = st.nsbrk ∧ st'.brk = st.brk) ∧
      ((∀ c ∈ ca, c.size < size_align s) → (t1 = false ∨ ∀ g ∈ po, g.size < size_align s) →
        st'.nsbrk = st.nsbrk + 1 ∧
        (size_align s ≤ chunk_size - meta_size → st'.brk = st.brk + 2 * chunk_size) ∧
        (size_align s > chunk_size - meta_size →
          st'.brk = st.brk + (2 * size_align s + 2 * meta_size) ∧
          p = st.brk + meta_size ∧ path = Path.large ∧
          st'.size (p - meta_size) = size_align s ∧
          (t2 = true →
            BSeg st'.mem st'.global_head (⟨st.brk + meta_size + size_align s, size_align s⟩ :: po)
              0 ∧
            BSeg st'.mem st'.local_head ca 0) ∧
          (t2 = false →
            BSeg st'.mem st'.global_head po 0 ∧
            BSeg st'.mem st'.local_head
              (ains ⟨st.brk + meta_size + size_align s, size_align s⟩ ca) 0))) := by
  have hI := reach_inv h
  have hw : (2 : Nat) ^ 32 = 4294967296 := by norm_num
  have hW : W64 = 18446744073709551616 := by unfold W64; norm_num
  obtain ⟨q1, q2, q3, q4⟩ := size_align_props s (by omega) (by omega)
  obtain ⟨A0, -, hi0, -⟩ := reach_inv h
  have hb := hi0.brk_lt
  obtain ⟨A, o, st', hr, hi, hL, ho, hm, hr1, hi1, hb1, -, -, hns⟩ :=
    malloc_total hI s fuel t1 t2 (by omega) (by omega) (by omega) hroom
  have e : ca = A.ca := BSeg.unique hca hr.cache
  subst e
  have e : po = A.po := BSeg.unique hpo hr.pool
  subst e
  refine ⟨_, _, st', hm, ?_, ?_⟩
  · intro hc
    obtain ⟨k1, k2⟩ := amalloc_nogrow ho (by omega) hc
    rw [hns, k2, hb1, k1]
    exact ⟨rfl, rfl⟩
  · intro hmiss hp
    obtain ⟨k1, k2, k3⟩ := amalloc_grow ho (by omega) hmiss hp
    rw [hns, k2, hb1, k1]
    refine ⟨rfl, ?_, ?_⟩
    · intro hsm
      unfold growBy
      rw [if_neg (by omega)]
      simp only [chunk_size]
    · intro hbig
      have ko := k3 hbig
      subst ko
      simp only [] at hr1
      refine ⟨?_, rfl, rfl, ?_, ?_, ?_⟩
      · unfold growBy
        rw [if_pos hbig]
        simp only [meta_size]
      · rw [Nat.add_sub_cancel]
        exact hr1.live ⟨st.brk, size_align s⟩ (by simp [largeA])
      · intro ht
        subst ht
        have k4 := hr1.pool
        have k5 := hr1.cache
        simp only [largeA, if_true] at k4 k5
        exact ⟨k4, k5⟩
      · intro ht
        subst ht
        have k4 := hr1.pool
        have k5 := hr1.cache
        simp only [largeA, Bool.false_eq_true, if_false] at k4 k5
        exact ⟨k4, k5⟩

/-- The list a block-level `malloc` selects from, when it is not a large
growth: the local list as it is, or after the release of the block `g`
unlinked from the global list, or after the insertion of the retained chunk
of a small growth. The selected block is the first fit of that list. -/
theorem amalloc_sel (base : Nat) (st : State) (A : Abs) (size : Nat) (t1 t2 : Bool)
    (o : AOut) (hr : Rep st A) (hi : AInv base st.brk A) (h8 : 8 ≤ size)
    (hal : size % 8 = 0) (hroom : abrk st.brk t1 size A + 1 < W64)
    (ho : amalloc st.brk t1 t2 size A = some o) :
    o.path = Path.large ∨
    ∃ sel x l2, (sel = A.ca ∨ (∃ g ∈ A.po, sel = ains g A.ca) ∨
        sel = mergeL A.ca (chunkA st.brk t2) []) ∧
      (splitFit size sel).2 = x :: l2 ∧ x.size < W64 ∧ x.size % 8 = 0 ∧
      o.blk = (takeA size x).1 ∧ o.abs.ca = (splitFit size sel).1 ++ (takeA size x).2 ++ l2 := by
  have hl := hi.len
  unfold amalloc at ho
  unfold abrk at hroom
  have hmem : ∀ (ca : List Blk) (l2 : List Blk) (x : Blk), (splitFit size ca).2 = x :: l2 →
      x ∈ ca := by
    intro ca l2 x hx
    have := (splitFit_eq size ca).1
    rw [hx] at this
    rw [← this]
    simp
  cases h1 : (splitFit size A.ca).2 with
  | cons c0 l0 =>
    rw [h1] at ho
    simp only [] at ho
    obtain ⟨c, l2, e1, e2, e3⟩ := takeFit_inv ho
    have g := hi.good_ca c (hmem A.ca l2 c e1)
    exact Or.inr ⟨A.ca, c, l2, Or.inl rfl, e1, (g.lt hi.brk_lt).2.1, g.al, e2, e3⟩
  | nil =>
    rw [h1] at ho hroom
    simp only [] at ho hroom
    have hmiss := splitFit_none h1
    cases h2 : (if t1 then (splitFit size A.po).2 else []) with
    | cons g g2 =>
      rw [h2] at ho
      simp only [] at ho
      have ht : t1 = true := by
        cases t1
        · simp at h2
        · rfl
      subst ht
      simp only [if_true] at h2
      obtain ⟨hi2, -⟩ := probe_rep base st A size (st.brk + 1) g g2 hr hi h2 h8 hal (by omega)
        (by omega)
      obtain ⟨c, l2, e1, e2, e3⟩ := takeFit_inv ho
      have gc := hi2.good_ca c (hmem _ l2 c e1)
      exact Or.inr ⟨ains g A.ca, c, l2, Or.inr (Or.inl ⟨g, hmem A.po g2 g h2, rfl⟩), e1,
        (gc.lt hi.brk_lt).2.1, gc.al, e2, e3⟩
    | nil =>
      rw [h2] at ho hroom
      simp only [] at ho hroom
      by_cases hbig : size > chunk_size - meta_size
      · rw [if_pos hbig] at ho
        simp only [Option.some.injEq] at ho
        subst ho
        exact Or.inl rfl
      · rw [if_neg hbig] at ho
        have hg : growBy size = 65536 := by unfold growBy; rw [if_neg hbig]
        rw [hg] at hroom
        obtain ⟨l1, c1, st', -, -, -, hi2, -⟩ := (small_rep base st A size t2 hr hi h8 hal
          (by simp only [chunk_size, meta_size] at hbig; omega) hmiss).1 hroom
        obtain ⟨c, l2, e1, e2, e3⟩ := takeFit_inv ho
        have gc := hi2.good_ca c (hmem _ l2 c e1)
        exact Or.inr ⟨(smallA st.brk t2 A).ca, c, l2, Or.inr (Or.inr rfl), e1,
          (gc.lt hroom).2.1, gc.al, e2, e3⟩

/-- C17 (split-or-hand-over rule): in every reachable state, for a request
`0 < s ≤ 2^32` with rounded size `s'`, with enough fuel and room for the
growth. First part, `malloc(s)`: unless the large growth path is taken, the
block `x` handed out is the first fit of the list `sel = l1 ++ x :: l2` that
the thread cache `ca` is at the time of the selection (`ca` itself on a cache
hit, `ains g ca` after the transfer of a pool block `g`, `ca` with the
retained chunk at its tail after a small growth). If `x.size > s' + H`, the
capacity of the returned block is `s'` and in the cache `x` is replaced by
the remainder with header at `x + H + s'` and size `x.size - s' - H`, a
positive multiple of 8; if `x.size ≤ s' + H`, the returned block keeps the
capacity `x.size` and `x` is removed without a remainder. Second part, the
in-place growth of `realloc(p, s)` into the free block `n` behind `p`: the
same rule for the merged block of size `old + H + n.size`. -/
theorem C17_split_rule {base : Nat} {st : State} {L : List Nat} (h : Reach base st L)
    (s fuel : Nat) (t1 t2 : Bool) (ca : List Blk) (hca : BSeg st.mem st.local_head ca 0)
    (h0 : 0 < s) (hs : s ≤ 2 ^ 32) (hf : W64 ≤ fuel)
    (hroom : st.brk + growBy (size_align s) + 1 < W64) :
    (∃ p path st', malloc fuel t1 t2 s st = some (p, path, st') ∧
      (path = Path.large ∨
        ∃ sel l1 x l2, (sel = ca ∨ (∃ g, sel = ains g ca) ∨
            sel = mergeL ca (chunkA st.brk t2) []) ∧
          sel = l1 ++ x :: l2 ∧ (∀ c ∈ l1, c.size < size_align s) ∧ size_align s ≤ x.size ∧
          p = x.addr + meta_size ∧
          (size_align s + meta_size < x.size →
            st'.size x.addr = size_align s ∧
            BSeg st'.mem st'.local_head
              (l1 ++ ⟨x.addr + meta_size + size_align s, x.size - size_align s - meta_size⟩ :: l2)
              0 ∧
            8 ≤ x.size - size_align s - meta_size ∧
            (x.size - size_align s - meta_size) % 8 = 0) ∧
          (x.size ≤ size_align s + meta_size →
            st'.size x.addr = x.size ∧ BSeg st'.mem st'.local_head (l1 ++ l2) 0))) ∧
    (∀ (p : Nat) (n : Blk), p ∈ L → n ∈ ca → n.addr = p + st.size (p - meta_size) →
      st.size (p - meta_size) < size_align s →
      size_align s ≤ st.size (p - meta_size) + meta_size + n.size →
      ∃ l1 l2 st', ca = l1 ++ n :: l2 ∧ realloc fuel t1 t2 p s st = some (p, st') ∧
        (size_align s + meta_size < st.size (p - meta_size) + meta_size + n.size →
          st'.size (p - meta_size) = size_align s ∧
          BSeg st'.mem st'.local_head
            (l1 ++ ⟨p + size_align s,
              st.size (p - meta_size) + meta_size + n.size - size_align s - meta_size⟩ :: l2)
            0 ∧
          8 ≤ st.size (p - meta_size) + meta_size + n.size - size_align s - meta_size ∧
          (st.size (p - meta_size) + meta_size + n.size - size_align s - meta_size) % 8 = 0) ∧
        (st.size (p - meta_size) + meta_size + n.size ≤ size_align s + meta_size →
          st'.size (p - meta_size) = st.size (p - meta_size) + meta_size + n.size ∧
          BSeg st'.mem st'.local_head (l1 ++ l2) 0)) := by
  have hI := reach_inv h
  have hw : (2 : Nat) ^ 32 = 4294967296 := by norm_num
  have hW : W64 = 18446744073709551616 := by unfold W64; norm_num
  obtain ⟨q1, q2, q3, q4⟩ := size_align_props s (by omega) (by omega)
  obtain ⟨A0, -, hi0, -⟩ := reach_inv h
  have hb := hi0.brk_lt
  constructor
  · obtain ⟨A, o, st', hr, hi, hL, ho, hm, hr1, hi1, hb1, -⟩ :=
      malloc_total hI s fuel t1 t2 (by omega) (by omega) (by omega) hroom
    have e : ca = A.ca := BSeg.unique hca hr.cache
    subst e
    have hab := abrk_le st.brk t1 (size_align s) A
    refine ⟨_, _, st', hm, ?_⟩
    rcases amalloc_sel base st A (size_align s) t1 t2 o hr hi q1 q2 (by omega) ho with
      hl | ⟨sel, x, l2, hsel, e1, hx, hxa, e2, e3⟩
    · exact Or.inl hl
    · right
      obtain ⟨k1, k2, k3⟩ := splitFit_eq (size_align s) sel
      rw [e1] at k1 k3
      have hle := k3 x rfl
      have hlive := hr1.live o.blk (by rw [(amalloc_props ho (by omega)).1]; simp)
      have hcache := hr1.cache
      rw [e3] at hcache
      rw [e2] at hlive
      rw [takeA_addr] at hlive
      refine ⟨sel, _, x, l2, ?_, k1.symm, k2, hle, by rw [e2, takeA_addr], ?_, ?_⟩
      · rcases hsel with hsel | ⟨g, -, hsel⟩ | hsel
        · exact Or.inl hsel
        · exact Or.inr (Or.inl ⟨g, hsel⟩)
        · exact Or.inr (Or.inr hsel)
      · intro hgt
        simp only [meta_size] at hgt ⊢
        rw [takeA_eq_split hgt hx] at hlive hcache
        simp only [List.append_assoc, List.singleton_append] at hcache
        have e4 : x.addr + 16 + size_align s = x.addr + size_align s + 16 := by omega
        rw [e4]
        exact ⟨hlive, hcache, by omega, by omega⟩
      · intro hgt
        simp only [meta_size] at hgt
        rw [takeA_eq_whole (by omega) (by omega)] at hlive hcache
        simp only [List.append_nil] at hcache
        exact ⟨hlive, hcache⟩
  · obtain ⟨A, hr, hi, hL⟩ := hI
    have e : ca = A.ca := BSeg.unique hca hr.cache
    subst e
    intro p n hp hn hadj hgt hfit
    obtain ⟨b, lv', hperm, rfl, -⟩ := live_block hL hp
    have hbin : b ∈ A.lv := hperm.mem_iff.2 (by simp)
    have hbs : readW st.mem b.addr = b.size := hr.live b hbin
    have hl := hi.len
    have gn := hi.good_ca n hn
    have gb := hi.good_lv b hbin
    rw [Nat.add_sub_cancel] at hgt hadj hfit ⊢
    simp only [State.size, hbs, meta_size] at hgt hadj hfit ⊢
    obtain ⟨-, l2, hl2⟩ := growBlk_some hi b n (size_align s) hbin hn (by omega) hfit
    obtain ⟨st', r1, r2, r3, r4, r5, r6, r7⟩ := realloc_inplace_rep base st A b n lv' l2 s
      (size_align s) fuel t1 t2 hr hi hperm (by omega) rfl q2 hgt hl2 (by omega) hfit (by omega)
    have he := (splitAddr_eq b.addr A.ca).1
    rw [hl2] at he
    have hlive := r2.live _ (List.mem_cons_self _ _)
    rw [takeA_addr] at hlive
    have hc := r2.cache
    simp only [] at hlive hc
    have hnl := gn.lt hi.brk_lt
    have hnh := gn.hi
    have hna := gn.al
    have hba := gb.al
    refine ⟨(splitAddr b.addr A.ca).1, l2, st', he.symm, r1, ?_, ?_⟩
    · intro c
      have c2 : size_align s + 16 < (⟨b.addr, b.size + 16 + n.size⟩ : Blk).size := c
      rw [takeA_eq_split c2 (by show b.size + 16 + n.size < W64; omega)] at hc hlive
      simp only [List.append_assoc, List.singleton_append] at hc
      have e1 : b.addr + 16 + size_align s = b.addr + size_align s + 16 := by omega
      rw [e1]
      exact ⟨hlive, hc, by omega, by omega⟩
    · intro c
      have c2 : ¬ size_align s + 16 < (⟨b.addr, b.size + 16 + n.size⟩ : Blk).size := by
        show ¬ size_align s + 16 < b.size + 16 + n.size
        omega
      rw [takeA_eq_whole c2 (by omega)] at hc hlive
      simp only [List.append_nil] at hc
      exact ⟨hlive, hc⟩

theorem amalloc_po {brk : Nat} {t1 t2 : Bool} {size : Nat} {A : Abs} {o : AOut}
    (ho : amalloc brk t1 t2 size A = some o) (hs : size + 16 < W64) :
    PoolStep brk A.po o.abs.po := by
  unfold amalloc at ho
  cases h1 : (splitFit size A.ca).2 with
  | cons c0 l0 =>
    rw [h1] at ho
    simp only [] at ho
    obtain ⟨-, -, -, -, e, -⟩ := takeFit_props ho hs
    rw [e]
    exact Or.inl (List.Sublist.refl _)
  | nil =>
    rw [h1] at ho
    simp only [] at ho
    cases h2 : (if t1 then (splitFit size A.po).2 else []) with
    | cons g g2 =>
      rw [h2] at ho
      simp only [] at ho
      have ht : t1 = true := by
        cases t1
        · simp at h2
        · rfl
      subst ht
      simp only [if_true] at h2
      obtain ⟨-, -, -, -, e, -⟩ := takeFit_props ho hs
      rw [e]
      left
      have he := (splitFit_eq size A.po).1
      rw [h2] at he
      show List.Sublist ((splitFit size A.po).1 ++ g2) A.po
      have hsub : List.Sublist ((splitFit size A.po).1 ++ g2)
          ((splitFit size A.po).1 ++ g :: g2) :=
        List.Sublist.append_left (List.sublist_cons_self _ _) _
      rw [he] at hsub
      exact hsub
    | nil =>
      rw [h2] at ho
      simp only [] at ho
      by_cases hbig : size > chunk_size - meta_size
      · rw [if_pos hbig] at ho
        simp only [Option.some.injEq] at ho
        subst ho
        show PoolStep brk A.po (largeA brk t2 size A).po
        unfold largeA
        cases t2
        · exact Or.inl (List.Sublist.refl _)
        · exact Or.inr ⟨_, rfl, by show brk ≤ brk + meta_size + size; omega⟩
      · rw [if_neg hbig] at ho
        obtain ⟨-, -, -, -, e, -⟩ := takeFit_props ho hs
        rw [e]
        show PoolStep brk A.po (poolA brk t2 A.po)
        unfold poolA
        cases t2
        · exact Or.inl (List.Sublist.refl _)
        · exact Or.inr ⟨_, rfl, by show brk ≤ brk + 32768; omega⟩

theorem PoolStep.desc {base brk : Nat} {A : Abs} {po2 : List Blk} (hi : AInv base brk A)
    (hd : A.po.Pairwise (fun x y => y.addr < x.addr)) (hp : PoolStep brk A.po po2) :
    po2.Pairwise (fun x y => y.addr < x.addr) := by
  rcases hp with hp | ⟨hb, rfl, hle⟩
  · exact hd.sublist hp
  · rw [List.pairwise_cons]
    refine ⟨?_, hd⟩
    intro g hg
    have := (hi.good_po g hg).hi
    omega

/-- The global list after `realloc` of a live block: unchanged on the paths
that stay in place, changed as by `malloc` on the copying path. -/
theorem realloc_po (base : Nat) (st : State) (A : Abs) (b : Blk) (lv' : List Blk)
    (s fuel : Nat) (t1 t2 : Bool) (hr : Rep st A) (hi : AInv base st.brk A)
    (hp : A.lv.Perm (b :: lv')) (h0 : s ≠ 0) (hs : 2 * s + 80 < W64) (hf : W64 ≤ fuel)
    (hroom : b.size < size_align s → growBlk b (size_align s) A.ca = none →
        abrk st.brk t1 (size_align s) A + 1 < W64) :
    ∃ q st' po2, realloc fuel t1 t2 (b.addr + meta_size) s st = some (q, st') ∧
      BSeg st'.mem st'.global_head po2 0 ∧ PoolStep st.brk A.po po2 := by
  obtain ⟨a1, hal, a3, a4⟩ := size_align_props s h0 (by omega)
  generalize hsz : size_align s = size at a1 hal a3 a4 hroom ⊢
  have hbin : b ∈ A.lv := hp.mem_iff.2 (by simp)
  have hbs : readW st.mem b.addr = b.size := hr.live b hbin
  have gb := hi.good_lv b hbin
  have hl := hi.len
  have hbr := hi.brk_lt
  have hun := realloc_unfold fuel t1 t2 (b.addr + meta_size) s size st (by simp [meta_size]) h0 hsz
  rw [Nat.add_sub_cancel] at hun
  have hadd : addw size meta_size = size + 16 := addw_eq _ _ (by simp only [meta_size]; omega)
  have hrefl : PoolStep st.brk A.po A.po := Or.inl (List.Sublist.refl _)
  by_cases c1 : b.size = size
  · simp only [State.size, hbs] at hun
    rw [if_pos c1] at hun
    exact ⟨_, st, A.po, hun, hr.pool, hrefl⟩
  by_cases c2 : b.size > size
  · by_cases c3 : size + 16 < b.size
    · obtain ⟨st', r1, r2, -⟩ := realloc_shrink_rep base st A b lv' s size fuel
        t1 t2 hr hi hp h0 hsz hal c3 (by omega)
      exact ⟨_, st', A.po, r1, r2.pool, hrefl⟩
    · simp only [State.size, hbs] at hun
      rw [if_neg c1, if_pos c2, if_neg (by rw [hadd]; omega)] at hun
      exact ⟨_, st, A.po, hun, hr.pool, hrefl⟩
  have hlt : b.size < size := by omega
  cases hg : growBlk b size A.ca with
  | some c =>
    obtain ⟨⟨l2, hl2⟩, hadj, hfit⟩ := growBlk_mem hg
    obtain ⟨st', r1, r2, -⟩ := realloc_inplace_rep base st A b c lv' l2 s size
      fuel t1 t2 hr hi hp h0 hsz hal hlt hl2 hadj hfit (by omega)
    exact ⟨_, st', A.po, r1, r2.pool, hrefl⟩
  | none =>
    have hroom2 := hroom hlt hg
    obtain ⟨o, st', r1, r2, r3, -⟩ := realloc_copy_rep base st A b lv' s size
      fuel t1 t2 hr hi hp h0 hsz hal hlt (by omega) hg (by omega) hroom2
    exact ⟨_, st', o.abs.po, r2, r3.pool, amalloc_po r1 (by omega)⟩

theorem invPool_init (base : Nat) (m0 : Mem) (h0 : 0 < base) (h1 : base + 1 < W64) :
    InvPool base (init base m0) [] := by
  obtain ⟨A, hr, hi, hL⟩ := inv_init base m0 h0 h1
  have e : A.po = [] := BSeg.unique hr.pool (show BSeg (init base m0).mem 0 [] 0 from rfl)
  exact ⟨A, hr, hi, hL, by rw [e]; exact List.Pairwise.nil⟩

/-- A state reached by a call keeps the order of the global list when the
list changes by a `PoolStep`. -/
theorem invPool_step {base : Nat} {st st' : State} {L L' : List Nat} (hI : InvPool base st L)
    (hI' : Inv base st' L')
    (hstep : ∀ A, Rep st A → AInv base st.brk A → L.Perm (A.lv.map Blk.ptr) →
      ∃ po2, BSeg st'.mem st'.global_head po2 0 ∧ PoolStep st.brk A.po po2) :
    InvPool base st' L' := by
  obtain ⟨A, hr, hi, hL, hd⟩ := hI
  obtain ⟨A', hr', hi', hL'⟩ := hI'
  obtain ⟨po2, hb, hp⟩ := hstep A hr hi hL
  have e : A'.po = po2 := BSeg.unique hr'.pool hb
  exact ⟨A', hr', hi', hL', by rw [e]; exact hp.desc hi hd⟩


theorem malloc_po {base : Nat} {st st' : State} {A : Abs} {fuel : Nat} {t1 t2 : Bool}
    {s p : Nat} {path : Path} (hr : Rep st A) (hi : AInv base st.brk A)
    (hs : 2 * s + 80 < W64) (h : malloc fuel t1 t2 s st = some (p, path, st')) :
    ∃ po2, BSeg st'.mem st'.global_head po2 0 ∧ PoolStep st.brk A.po po2 := by
  by_cases h0 : s = 0
  · unfold malloc at h
    rw [if_pos h0] at h
    cases h
    exact ⟨A.po, hr.pool, Or.inl (List.Sublist.refl _)⟩
  · have hl := hi.len
    have h2 := malloc_mono fuel (max fuel (st.brk + 1)) t1 t2 s st _ h (le_max_left _ _)
    have hfl : st.brk < max fuel (st.brk + 1) :=
      lt_of_lt_of_le (Nat.lt_succ_self _) (le_max_right _ _)
    have hmr := malloc_rep base st A s (max fuel (st.brk + 1)) t1 t2 hr hi h0 (by omega)
      (by omega) (by omega)
    by_cases hroom : abrk st.brk t1 (size_align s) A + 1 < W64
    · obtain ⟨o, st1, ho, hob, hm, hr1, -⟩ := hmr.1 hroom
      rw [hm] at h2
      cases h2
      exact ⟨o.abs.po, hr1.pool, amalloc_po ho
        (by have := (size_align_props s h0 (by omega)).2.2.2; omega)⟩
    · rw [hmr.2 hroom] at h2
      cases h2

theorem free_po {base : Nat} {st st' : State} {A : Abs} {L : List Nat} {fuel p : Nat}
    (hr : Rep st A) (hi : AInv base st.brk A) (hL : L.Perm (A.lv.map Blk.ptr))
    (hp : p = 0 ∨ p ∈ L) (h : free fuel p st = some st') :
    ∃ po2, BSeg st'.mem st'.global_head po2 0 ∧ PoolStep st.brk A.po po2 := by
  by_cases h0 : p = 0
  · unfold free at h
    rw [if_pos h0] at h
    cases h
    exact ⟨A.po, hr.pool, Or.inl (List.Sublist.refl _)⟩
  · have hpl : p ∈ L := hp.resolve_left h0
    obtain ⟨b, lv', hperm, rfl, -⟩ := live_block hL hpl
    have hl := hi.len
    have h2 := free_mono fuel (max fuel (st.brk + 1)) _ st _ h (le_max_left _ _)
    have hfl : st.brk < max fuel (st.brk + 1) :=
      lt_of_lt_of_le (Nat.lt_succ_self _) (le_max_right _ _)
    obtain ⟨st2, g1, g2, -⟩ := free_rep base st A b lv' (max fuel (st.brk + 1)) hr hi hperm
      (by omega)
    rw [g1] at h2
    cases h2
    exact ⟨A.po, g2.pool, Or.inl (List.Sublist.refl _)⟩

theorem calloc_po {base : Nat} {st st' : State} {A : Abs} {fuel : Nat} {t1 t2 : Bool}
    {a k p : Nat} (hr : Rep st A) (hi : AInv base st.brk A)
    (hs : 2 * (a * k) + 80 < W64) (h : calloc fuel t1 t2 a k st = some (p, st')) :
    ∃ po2, BSeg st'.mem st'.global_head po2 0 ∧ PoolStep st.brk A.po po2 := by
  by_cases h0 : a = 0 ∨ k = 0
  · unfold calloc at h
    rw [if_pos h0] at h
    cases h
    exact ⟨A.po, hr.pool, Or.inl (List.Sublist.refl _)⟩
  · have ha : a ≠ 0 := fun e => h0 (Or.inl e)
    have hk : k ≠ 0 := fun e => h0 (Or.inr e)
    have hm : mulw a k = a * k := mulw_eq _ _ (by omega)
    have hpos : a * k ≠ 0 := Nat.mul_ne_zero ha hk
    obtain ⟨q1, q2, q3, q4⟩ := size_align_props (a * k) hpos (by omega)
    have h2 := calloc_mono fuel (max fuel (st.brk + 1)) t1 t2 a k st _ h (le_max_left _ _)
    have hfl : st.brk < max fuel (st.brk + 1) :=
      lt_of_lt_of_le (Nat.lt_succ_self _) (le_max_right _ _)
    by_cases hroom : abrk st.brk t1 (size_align (a * k)) A + 1 < W64
    · obtain ⟨o, st1, ho, -, hc, hr2, -⟩ := calloc_rep base st A a k (size_align (a * k))
        (max fuel (st.brk + 1)) t1 t2 hr hi ha hk (by rw [hm]) (by omega) (by omega) hfl hroom
      rw [hc] at h2
      cases h2
      exact ⟨o.abs.po, hr2.pool, amalloc_po ho (by omega)⟩
    · exfalso
      have hl := hi.len
      have hmr := malloc_rep base st A (size_align (a * k)) (max fuel (st.brk + 1)) t1 t2 hr hi
        (by omega) (by omega) (by omega) (by omega)
      rw [size_align_idem _ q2 (by omega)] at hmr
      have hn := hmr.2 hroom
      unfold calloc at h2
      rw [if_neg h0] at h2
      simp only [hm, hn] at h2
      cases h2

theorem realloc_step_po {base : Nat} {st st' : State} {A : Abs} {L : List Nat} {fuel : Nat}
    {t1 t2 : Bool} {p s q : Nat} (hr : Rep st A) (hi : AInv base st.brk A)
    (hL : L.Perm (A.lv.map Blk.ptr)) (hp : p = 0 ∨ p ∈ L) (hs : 2 * s + 80 < W64)
    (h : realloc fuel t1 t2 p s st = some (q, st')) :
    ∃ po2, BSeg st'.mem st'.global_head po2 0 ∧ PoolStep st.brk A.po po2 := by
  by_cases hp0 : p = 0
  · unfold realloc at h
    rw [if_pos hp0] at h
    cases hm : malloc fuel t1 t2 s st with
    | none => rw [hm] at h; cases h
    | some x =>
      obtain ⟨p1, pa, s1⟩ := x
      rw [hm] at h
      cases h
      exact malloc_po hr hi hs hm
  · by_cases h0 : s = 0
    · unfold realloc at h
      rw [if_neg hp0, if_pos h0] at h
      cases hm : free fuel p st with
      | none => rw [hm] at h; cases h
      | some x =>
        rw [hm] at h
        cases h
        exact free_po hr hi hL hp hm
    · have hpl : p ∈ L := hp.resolve_left hp0
      obtain ⟨b, lv', hperm, rfl, -⟩ := live_block hL hpl
      have h2 := realloc_mono fuel (max fuel W64) t1 t2 _ s st _ h (le_max_left _ _)
      by_cases hroom : (b.size < size_align s → growBlk b (size_align s) A.ca = none →
          abrk st.brk t1 (size_align s) A + 1 < W64)
      · obtain ⟨q2, st2, po2, r1, r2, r3⟩ := realloc_po base st A b lv' s (max fuel W64) t1 t2
          hr hi hperm h0 hs (le_max_right _ _) hroom
        rw [r1] at h2
        cases h2
        exact ⟨po2, r2, r3⟩
      · have hrr := realloc_rep base st A b lv' s (max fuel W64) t1 t2 hr hi hperm h0 hs
          (le_max_right _ _)
        rw [hrr.2 hroom] at h2
        cases h2

theorem store_po {base : Nat} {st : State} {A : Abs} {L : List Nat} {p i v : Nat}
    (hr : Rep st A) (hi : AInv base st.brk A) (hL : L.Perm (A.lv.map Blk.ptr))
    (hp : p ∈ L) (hlt : i < st.size (p - meta_size)) :
    ∃ po2, BSeg (fun x => if x = p + i then v else st.mem x) st.global_head po2 0 ∧
      PoolStep st.brk A.po po2 := by
  obtain ⟨b, lv', hperm, rfl, -⟩ := live_block hL hp
  have hbin : b ∈ A.lv := hperm.mem_iff.2 (by simp)
  rw [Nat.add_sub_cancel] at hlt
  have hbs : readW st.mem b.addr = b.size := hr.live b hbin
  simp only [State.size, hbs] at hlt
  have hr2 : Rep { st with mem := fun x => if x = b.addr + meta_size + i then v else st.mem x }
      A := by
    refine @Rep.frame_range _ _ (b.addr + meta_size + i) (b.addr + meta_size + i + 1) _ hr ?_
      (payload_clear hi.tiles b (by simp [Abs.all, hbin]) _ _ (by simp only [meta_size]; omega)
        (by simp only [meta_size]; omega))
    intro x hx
    show (if x = b.addr + meta_size + i then v else st.mem x) = st.mem x
    rw [if_neg (by omega)]
  exact ⟨A.po, hr2.pool, Or.inl (List.Sublist.refl _)⟩

/-- Every reachable state has its global list in strictly descending order
of header addresses. -/
theorem reach_invPool {base : Nat} {st : State} {L : List Nat} (h : Reach base st L) :
    InvPool base st L := by
  induction h with
  | init m0 h0 h1 => exact invPool_init base m0 h0 h1
  | malloc fuel t1 t2 s p path st' hR hs hm ih =>
    exact invPool_step ih (reach_inv (Reach.malloc fuel t1 t2 s p path st' hR hs hm))
      (fun A hr hi _ => malloc_po hr hi hs hm)
  | calloc fuel t1 t2 a k p st' hR hs hm ih =>
    exact invPool_step ih (reach_inv (Reach.calloc fuel t1 t2 a k p st' hR hs hm))
      (fun A hr hi _ => calloc_po hr hi hs hm)
  | free fuel p st' hR hp hm ih =>
    exact invPool_step ih (reach_inv (Reach.free fuel p st' hR hp hm))
      (fun A hr hi hL => free_po hr hi hL hp hm)
  | realloc fuel t1 t2 p s q st' hR hp hs hm ih =>
    exact invPool_step ih (reach_inv (Reach.realloc fuel t1 t2 p s q st' hR hp hs hm))
      (fun A hr hi hL => realloc_step_po hr hi hL hp hs hm)
  | store p i v hR hp hlt ih =>
    exact invPool_step ih (reach_inv (Reach.store p i v hR hp hlt))
      (fun A hr hi hL => store_po hr hi hL hp hlt)

theorem demo3_reach : Reach 4096 demo3 [69648, 4112] :=
  Reach.malloc 8 false true 40000 69648 Path.large demo3 demo1_reach (by decide) rfl

theorem demo3_pool :
    BSeg demo3.mem demo3.global_head [⟨109648, 40000⟩, ⟨36864, 32752⟩] 0 :=
  ⟨by decide, by decide, by decide, by decide, by decide, by decide,
    by show readW demo3.mem (36864 + 8) = 0; decide⟩

/-- C14 (global pool ordering), amended: in every state reachable by a
single-thread sequence of `malloc` / `calloc` / `realloc` / `free` calls (any
`try_lock` outcomes) the global list, read in link order, is strictly sorted
by DESCENDING header address, so it has no duplicates: the growth paths push
the donated block at the head (lines 157-158 and 181-182) and every donated
block lies above all earlier ones. -/
theorem C14_pool_descending {base : Nat} {st : State} {L : List Nat} (h : Reach base st L) :
    ∃ po : List Blk, BSeg st.mem st.global_head po 0 ∧
      po.Pairwise (fun x y => y.addr < x.addr) ∧ (po.map Blk.addr).Nodup := by
  obtain ⟨A, hr, -, -, hd⟩ := reach_invPool h
  refine ⟨A.po, hr.pool, hd, ?_⟩
  rw [List.Nodup, List.pairwise_map]
  exact hd.imp (fun h e => by omega)

theorem C14_pool_descending_witness :
    Reach 4096 demo3 [69648, 4112] ∧
    ∃ po : List Blk, BSeg demo3.mem demo3.global_head po 0 ∧
      po.Pairwise (fun x y => y.addr < x.addr) ∧ (po.map Blk.addr).Nodup :=
  ⟨demo3_reach, C14_pool_descending demo3_reach⟩

/-- C14 (global pool ordering), the counterexample. After `malloc(100)` and
`malloc(40000)` on a fresh thread (a reachable state) the global list is the
block at 109648 followed by the block at 36864: it is not sorted by ascending
header address. -/
theorem C14_counterexample :
    Reach 4096 demo3 [69648, 4112] ∧
    BSeg demo3.mem demo3.global_head [⟨109648, 40000⟩, ⟨36864, 32752⟩] 0 ∧
    ¬ [(⟨109648, 40000⟩ : Blk), ⟨36864, 32752⟩].Pairwise (fun x y => x.addr < y.addr) := by
  refine ⟨demo3_reach, demo3_pool, ?_⟩
  intro h
  have := List.rel_of_pairwise_cons h (List.mem_singleton.2 rfl)
  exact absurd this (by decide)


theorem size_align_zero : size_align 0 = 0 := by
  rw [size_align_of_lt 0 (by unfold W64; norm_num)]

theorem size_align_twice (s : Nat) (h : s + 7 < W64) : size_align (size_align s) = size_align s := by
  have hW : W64 = 18446744073709551616 := by unfold W64; norm_num
  by_cases h0 : s = 0
  · subst h0; rw [size_align_zero, size_align_zero]
  · obtain ⟨-, q2, -, q4⟩ := size_align_props s h0 h
    exact size_align_idem _ q2 (by omega)

/-- The outcome of `malloc` depends on a non-zero request only through its
rounded value. -/
theorem malloc_congr (fuel : Nat) (t1 t2 : Bool) (s s2 : Nat) (st : State) (h0 : s ≠ 0)
    (h2 : s2 ≠ 0) (he : size_align s = size_align s2) :
    malloc fuel t1 t2 s st = malloc fuel t1 t2 s2 st := by
  unfold malloc
  rw [if_neg h0, if_neg h2]
  simp only [he]

/-- The outcome of `realloc` depends on a non-zero request only through its
rounded value. -/
theorem realloc_congr (fuel : Nat) (t1 t2 : Bool) (p s s2 : Nat) (st : State) (h0 : s ≠ 0)
    (h2 : s2 ≠ 0) (he : size_align s = size_align s2) :
    realloc fuel t1 t2 p s st = realloc fuel t1 t2 p s2 st := by
  unfold realloc
  rw [malloc_congr fuel t1 t2 s s2 st h0 h2 he, if_neg h0, if_neg h2]
  simp only [he]

/-- C15 (size rounding), amended: for every request size `s ≤ 2^64 - 8`,
`size_align s` is the smallest multiple of 8 that is at least `s`
(`size_align s ≥ s`, `size_align s - s < 8`, `size_align s mod 8 = 0`), and
`malloc`, `realloc` and `calloc` (for a product `n * k = s`) compute with this
rounded value only: the call with `s` and the call with `size_align s` have
the same outcome. -/
theorem C15_size_rounding (s : Nat) (h : s + 7 < W64) :
    (s ≤ size_align s ∧ size_align s - s < 8 ∧ size_align s % 8 = 0 ∧
      ∀ m, m % 8 = 0 → s ≤ m → size_align s ≤ m) ∧
    (∀ fuel t1 t2 st, malloc fuel t1 t2 s st = malloc fuel t1 t2 (size_align s) st) ∧
    (∀ fuel t1 t2 p st, realloc fuel t1 t2 p s st = realloc fuel t1 t2 p (size_align s) st) ∧
    (∀ fuel t1 t2 n k st, n * k = s →
      calloc fuel t1 t2 n k st = calloc fuel t1 t2 1 (size_align s) st) := by
  have hW : W64 = 18446744073709551616 := by unfold W64; norm_num
  have e := size_align_of_lt s h
  have e2 := size_align_twice s h
  refine ⟨⟨by omega, by omega, by omega, fun m hm hs => by omega⟩, ?_, ?_, ?_⟩
  · intro fuel t1 t2 st
    by_cases h0 : s = 0
    · subst h0; rw [size_align_zero]
    · exact malloc_congr fuel t1 t2 s _ st h0 (by omega) e2.symm
  · intro fuel t1 t2 p st
    by_cases h0 : s = 0
    · subst h0; rw [size_align_zero]
    · exact realloc_congr fuel t1 t2 p s _ st h0 (by omega) e2.symm
  · intro fuel t1 t2 n k st hnk
    have hm : mulw n k = s := by rw [mulw_eq _ _ (by omega), hnk]
    have hm1 : mulw 1 (size_align s) = size_align s := by
      rw [mulw_eq _ _ (by omega), Nat.one_mul]
    by_cases h0 : s = 0
    · subst h0
      have hz : n = 0 ∨ k = 0 := Nat.mul_eq_zero.1 hnk
      unfold calloc
      rw [if_pos hz, size_align_zero, if_pos (Or.inr rfl)]
    · have hz : ¬ (n = 0 ∨ k = 0) := by
        rintro (rfl | rfl) <;> simp at hnk <;> omega
      have hz1 : ¬ ((1 : Nat) = 0 ∨ size_align s = 0) := by
        rintro (h1 | h1) <;> omega
      unfold calloc
      rw [if_neg hz, if_neg hz1]
      simp only [hm, hm1, e2]

theorem C15_size_rounding_witness :
    100 + 7 < W64 ∧
    (100 ≤ size_align 100 ∧ size_align 100 - 100 < 8 ∧ size_align 100 % 8 = 0 ∧
      ∀ m, m % 8 = 0 → 100 ≤ m → size_align 100 ≤ m) ∧
    (∀ fuel t1 t2 st, malloc fuel t1 t2 100 st = malloc fuel t1 t2 (size_align 100) st) ∧
    (∀ fuel t1 t2 p st,
      realloc fuel t1 t2 p 100 st = realloc fuel t1 t2 p (size_align 100) st) ∧
    (∀ fuel t1 t2 n k st, n * k = 100 →
      calloc fuel t1 t2 n k st = calloc fuel t1 t2 1 (size_align 100) st) :=
  ⟨by decide, C15_size_rounding 100 (by decide)⟩

/-- C15 (size rounding), the counterexample. For the 64-bit request size
`2^64 - 1` the sum `s + 7` wraps and `size_align` returns 0, which is less
than the request. -/
theorem C15_counterexample :
    18446744073709551615 < W64 ∧ size_align 18446744073709551615 = 0 ∧
    ¬ (18446744073709551615 ≤ size_align 18446744073709551615) := by
  have e : size_align 18446744073709551615 = 0 := by
    rw [size_align_eq]; unfold W64; norm_num
  refine ⟨by unfold W64; norm_num, e, ?_⟩
  rw [e]; norm_num

theorem hit_path (st : State) (size pre cur : Nat) :
    (malloc_hit st size pre cur).2.1.testsPre = false := by
  unfold malloc_hit
  split <;> rfl

theorem large_path {fuel : Nat} {t2 : Bool} {st st' : State} {size p : Nat} {path : Path}
    (h : malloc_large fuel t2 st size = some (p, path, st')) : path = Path.large := by
  unfold malloc_large at h
  simp only [] at h
  split at h
  · cases h
  · split at h
    · cases h; rfl
    · split at h
      · cases h
      · cases h; rfl

theorem probe_path {fuel : Nat} {t1 : Bool} {st st' : State} {size p : Nat} {path : Path}
    (h : malloc_probe fuel t1 st size = some (Sum.inl (p, path, st'))) :
    path.testsPre = false := by
  unfold malloc_probe at h
  simp only [] at h
  split at h
  · split at h
    · cases h
    · split at h
      · split at h
        · cases h
        · split at h
          · cases h
          · split at h
            · split at h
              · cases h; rfl
              · cases h; rfl
            · cases h
      · cases h
  · cases h

theorem small_guard {t2 : Bool} {st st' : State} {size prepre pre p : Nat} {path : Path}
    (h : malloc_small t2 st size prepre pre = some (p, path, st'))
    (ht : path.testsPre = true) : pre ≠ 0 := by
  intro hp
  subst hp
  rw [malloc_small_eq] at h
  split at h
  · cases h
  · have hl : (growSmall t2 st 0).local_head = (sbrk (mulw chunk_size 2) st).1 := by
      unfold growSmall
      simp only [ne_eq, not_true_eq_false, if_false, State.setLocal]
    unfold smallTake at h
    rw [if_neg (not_not.2 hl.symm)] at h
    split at h <;> cases h <;> cases ht

/-- C19 (predecessor on small growth), amended: the left-merge step of the
small growth path is guarded. Line 194 tests `cur != local_head`, and with
`pre = null` line 191 has just set `local_head = cur`; so when the thread
cache is empty `malloc` does not evaluate the adjacency test of line 197
(whether the donation `try_lock` succeeds or fails), and whenever `malloc`
returns behind that test the walk of lines 82-87 has left a non-null `pre`. -/
theorem C19_pre_guarded (fuel : Nat) (t1 t2 : Bool) (s : Nat) (st st' : State) (p : Nat)
    (path : Path) (h : malloc fuel t1 t2 s st = some (p, path, st')) :
    (st.local_head = 0 → path.testsPre = false) ∧
    (path.testsPre = true → ∃ prepre pre, pre ≠ 0 ∧
      fit_walk st (size_align s) fuel 0 0 st.local_head = some (prepre, pre, 0)) := by
  by_cases h0 : s = 0
  · unfold malloc at h
    rw [if_pos h0] at h
    cases h
    exact ⟨fun _ => rfl, fun ht => by cases ht⟩
  · cases hw : fit_walk st (size_align s) fuel 0 0 st.local_head with
    | none =>
      unfold malloc at h
      rw [if_neg h0] at h
      simp only [hw] at h
      cases h
    | some x =>
      obtain ⟨pp, pr, c⟩ := x
      rw [malloc_unfold fuel t1 t2 s _ st pp pr c h0 rfl hw] at h
      have key : path.testsPre = true → pr ≠ 0 ∧ c = 0 := by
        intro ht
        by_cases hc : c = 0
        · rw [if_pos hc] at h
          cases hp : malloc_probe fuel t1 st (size_align s) with
          | none => rw [hp] at h; cases h
          | some y =>
            rw [hp] at h
            cases y with
            | inl r =>
              simp only [] at h
              cases h
              rw [probe_path hp] at ht
              cases ht
            | inr st1 =>
              simp only [] at h
              split at h
              · rw [large_path h] at ht
                cases ht
              · exact ⟨small_guard h ht, hc⟩
        · rw [if_neg hc] at h
          have e := Option.some.inj h
          have e2 : path = (malloc_hit st (size_align s) pr c).2.1 := by rw [e]
          rw [e2, hit_path] at ht
          cases ht
      refine ⟨?_, ?_⟩
      · intro hl
        cases hb : path.testsPre with
        | false => rfl
        | true =>
          exfalso
          obtain ⟨k1, -⟩ := key hb
          rw [hl] at hw
          cases fuel with
          | zero => simp [fit_walk] at hw
          | succ n =>
            simp only [fit_walk, if_true] at hw
            cases hw
            exact k1 rfl
      · intro ht
        obtain ⟨k1, k2⟩ := key ht
        subst k2
        exact ⟨pp, pr, k1, rfl⟩

theorem C19_pre_guarded_witness :
    malloc 8 false true 32700 demo1 = some (69648, Path.tail_split, demo4) ∧
    (demo1.local_head = 0 → Path.tail_split.testsPre = false) ∧
    (Path.tail_split.testsPre = true → ∃ prepre pre, pre ≠ 0 ∧
      fit_walk demo1 (size_align 32700) 8 0 0 demo1.local_head = some (prepre, pre, 0)) :=
  ⟨rfl, C19_pre_guarded 8 false true 32700 demo1 demo4 69648 Path.tail_split rfl⟩

/-- C19 (predecessor on small growth), the counterexample. On a fresh thread
(empty cache, so `pre = null`) `malloc(16)` with a failing donation `try_lock`
takes the small growth path, retains the chunk of payload `2·C - H = 65520`
and returns from line 248, in the `else` branch of `cur != local_head`: the
adjacency test of line 197 is not evaluated. -/
theorem C19_counterexample :
    demo0.local_head = 0 ∧
    fit_walk demo0 (size_align 16) 8 0 0 demo0.local_head = some (0, 0, 0) ∧
    (growSmall false demo0 0).size 4096 = 65520 ∧
    malloc 8 true false 16 demo0 = some (4112, Path.head_split, demo2) ∧
    Path.head_split.testsPre = false :=
  ⟨rfl, rfl, by decide, rfl, rfl⟩

theorem mem_extents (l : List Blk) (x : Nat) :
    x ∈ extents l ↔ ∃ b ∈ l, b.addr ≤ x ∧ x < b.addr + 16 + b.size := by
  induction l with
  | nil => simp [extents]
  | cons c l ih =>
    have e : extents (c :: l) = Finset.Ico c.addr (c.addr + 16 + c.size) ∪ extents l := rfl
    rw [e, Finset.mem_union, ih, Finset.mem_Ico]
    simp only [List.mem_cons, exists_eq_or_imp]

theorem card_extents (l : List Blk) (hd : l.Pairwise Disj) : (extents l).card = tot l := by
  induction l with
  | nil => simp [extents]
  | cons c l ih =>
    have e : extents (c :: l) = Finset.Ico c.addr (c.addr + 16 + c.size) ∪ extents l := rfl
    obtain ⟨h1, h2⟩ := List.pairwise_cons.1 hd
    have hdj : Disjoint (Finset.Ico c.addr (c.addr + 16 + c.size)) (extents l) := by
      rw [Finset.disjoint_left]
      intro x hx hx2
      rw [Finset.mem_Ico] at hx
      obtain ⟨b, hb, g1, g2⟩ := (mem_extents l x).1 hx2
      have := h1 b hb
      unfold Disj at this
      omega
    rw [e, Finset.card_union_of_disjoint hdj, ih h2, Nat.card_Ico, tot_cons]
    omega

/-- The extents of a tiling cover the heap: every address of `[base, brk)`
lies in the extent of some block. -/
theorem tiles_cover {base brk : Nat} {l : List Blk} (t : Tiles base brk l) (x : Nat)
    (h1 : base ≤ x) (h2 : x < brk) : ∃ b ∈ l, b.addr ≤ x ∧ x < b.addr + 16 + b.size := by
  have hsub : extents l ⊆ Finset.Ico base brk := by
    intro y hy
    obtain ⟨b, hb, g1, g2⟩ := (mem_extents l y).1 hy
    have g := t.good b hb
    rw [Finset.mem_Ico]
    exact ⟨le_trans g.lo g1, lt_of_lt_of_le g2 g.hi⟩
  have hc : (Finset.Ico base brk).card ≤ (extents l).card := by
    rw [card_extents l t.disj, Nat.card_Ico]
    have := t.total
    omega
  have he := Finset.eq_of_subset_of_card_le hsub hc
  exact (mem_extents l x).1 (by rw [he, Finset.mem_Ico]; exact ⟨h1, h2⟩)

/-- C20 (exact tiling): in every reachable state there are lists `lv` (one
block per live pointer, with the size stored in its header), `ca` (the thread
cache) and `po` (the global pool) such that the extents
`[hdr, hdr + H + size)` of all these blocks are pairwise disjoint, an address
lies in `[base, break)` exactly when it lies in one of the extents, and the
sum of `H + size` over all blocks is `break - base`, the number of bytes
obtained from the heap extender. -/
theorem C20_exact_tiling {base : Nat} {st : State} {L : List Nat} (h : Reach base st L) :
    ∃ lv ca po : List Blk, BSeg st.mem st.local_head ca 0 ∧ BSeg st.mem st.global_head po 0 ∧
      L.Perm (lv.map (fun b => b.addr + meta_size)) ∧ (∀ b ∈ lv, st.size b.addr = b.size) ∧
      (lv ++ ca ++ po).Pairwise (fun a b =>
        a.addr + meta_size + a.size ≤ b.addr ∨ b.addr + meta_size + b.size ≤ a.addr) ∧
      (∀ x, (base ≤ x ∧ x < st.brk) ↔
        ∃ b ∈ lv ++ ca ++ po, b.addr ≤ x ∧ x < b.addr + meta_size + b.size) ∧
      ((lv ++ ca ++ po).map (fun b => meta_size + b.size)).sum + base = st.brk := by
  obtain ⟨A, hr, hi, hL⟩ := reach_inv h
  have ht := hi.tiles
  have hall : A.lv ++ A.ca ++ A.po = A.all := by unfold Abs.all; simp
  refine ⟨A.lv, A.ca, A.po, hr.cache, hr.pool, hL, hr.live, ?_, ?_, ?_⟩
  · rw [hall]
    exact ht.disj
  · rw [hall]
    intro x
    constructor
    · rintro ⟨h1, h2⟩
      exact tiles_cover ht x h1 h2
    · rintro ⟨b, hb, g1, g2⟩
      have g := ht.good b hb
      have := g.lo
      have := g.hi
      simp only [meta_size] at g2
      omega
  · rw [hall]
    exact ht.total

theorem C20_exact_tiling_witness :
    Reach 4096 demo3 [69648, 4112] ∧
    ∃ lv ca po : List Blk, BSeg demo3.mem demo3.local_head ca 0 ∧
      BSeg demo3.mem demo3.global_head po 0 ∧
      [69648, 4112].Perm (lv.map (fun b => b.addr + meta_size)) ∧
      (∀ b ∈ lv, demo3.size b.addr = b.size) ∧
      (lv ++ ca ++ po).Pairwise (fun a b =>
        a.addr + meta_size + a.size ≤ b.addr ∨ b.addr + meta_size + b.size ≤ a.addr) ∧
      (∀ x, (4096 ≤ x ∧ x < demo3.brk) ↔
        ∃ b ∈ lv ++ ca ++ po, b.addr ≤ x ∧ x < b.addr + meta_size + b.size) ∧
      ((lv ++ ca ++ po).map (fun b => meta_size + b.size)).sum + 4096 = demo3.brk :=
  ⟨demo3_reach, C20_exact_tiling demo3_reach⟩


theorem addw_16 : addw 16 meta_size = 32 := by decide

theorem amalloc_fresh (brk : Nat) (lv : List Blk) (t1 t2 : Bool) :
    amalloc brk t1 t2 16 ⟨lv, [], []⟩ =
      some ⟨⟨brk, 16⟩, Path.head_split,
        ⟨⟨brk, 16⟩ :: lv, [⟨brk + 32, if t2 then 32720 else 65488⟩],
          if t2 then [⟨brk + 32768, 32752⟩] else []⟩, brk + 65536⟩ := by
  have e1 : (splitFit 16 ([] : List Blk)).2 = [] := rfl
  have e2 : (if t1 = true then (splitFit 16 ([] : List Blk)).2 else []) = [] := by
    rw [e1, ite_self]
  have e3 : ¬ 16 > chunk_size - meta_size := by decide
  have hS1 : subw (subw 32752 16) meta_size = 32720 := by decide
  have hS2 : subw (subw 65520 16) meta_size = 65488 := by decide
  have h1 : (32752 : Nat) ≥ 16 := by decide
  have h2 : (65520 : Nat) ≥ 16 := by decide
  have h3 : (32752 : Nat) > 32 := by decide
  have h4 : (65520 : Nat) > 32 := by decide
  have e4 : brk + 16 + meta_size = brk + 32 := by simp only [meta_size]
  unfold amalloc
  simp only [e1, e2, if_neg e3, ite_self]
  cases t2
  · simp only [takeFit, smallA, mergeL_nil, chunkA, splitFit, poolA, takeA, smallPath, addw_16,
      Bool.false_eq_true, if_false, h2, h4, if_true, hS2, decide_True, List.nil_append,
      List.getLast?_nil, e4, List.append_nil, List.singleton_append]
  · simp only [takeFit, smallA, mergeL_nil, chunkA, splitFit, poolA, takeA, smallPath, addw_16,
      if_true, h1, h3, hS1, decide_True, List.nil_append,
      List.getLast?_nil, e4, List.append_nil, List.singleton_append]

theorem amalloc_second (brk a : Nat) (lv po : List Blk) (t1 t2 tt : Bool) :
    amalloc brk t1 t2 16 ⟨lv, [⟨a + 32, if tt then 32720 else 65488⟩], po⟩ =
      some ⟨⟨a + 32, 16⟩, Path.cache_split,
        ⟨⟨a + 32, 16⟩ :: lv, [⟨a + 64, if tt then 32688 else 65456⟩], po⟩, brk⟩ := by
  have hS1 : subw (subw 32720 16) meta_size = 32688 := by decide
  have hS2 : subw (subw 65488 16) meta_size = 65456 := by decide
  have h1 : (32720 : Nat) ≥ 16 := by decide
  have h2 : (65488 : Nat) ≥ 16 := by decide
  have h3 : (32720 : Nat) > 32 := by decide
  have h4 : (65488 : Nat) > 32 := by decide
  have e4 : a + 32 + 16 + meta_size = a + 64 := by simp only [meta_size]
  unfold amalloc
  cases tt
  · simp only [takeFit, splitFit, takeA, addw_16, Bool.false_eq_true, if_false, h2, h4, if_true,
      hS2, decide_True, List.nil_append, e4, List.append_nil, List.singleton_append]
  · simp only [takeFit, splitFit, takeA, addw_16, if_true, h1, h3, hS1, decide_True,
      List.nil_append, e4, List.append_nil, List.singleton_append]

theorem ains_first (a n : Nat) : ains ⟨a, 16⟩ [⟨a + 64, n⟩] = [⟨a, 16⟩, ⟨a + 64, n⟩] := by
  have h1 : a + 64 > a := by omega
  have h2 : ¬ a + meta_size + 16 = a + 64 := by simp only [meta_size]; omega
  simp only [ains, splitAddr, mergeR, mergeL_nil, h1, h2, if_true, if_false]

theorem ains_second (a : Nat) (tt : Bool) :
    ains ⟨a + 32, 16⟩ [⟨a, 16⟩, ⟨a + 64, if tt then 32688 else 65456⟩] =
      [⟨a, if tt then 32752 else 65520⟩] := by
  have h1 : ¬ a > a + 32 := by omega
  have h2 : a + 64 > a + 32 := by omega
  have h3 : a + 32 + meta_size + 16 = a + 64 := by simp only [meta_size]
  have h4 : a + meta_size + 16 = a + 32 := by simp only [meta_size]
  have hA1 : addw 16 (addw meta_size (addw 16 (addw meta_size 32688))) = 32752 := by decide
  have hA2 : addw 16 (addw meta_size (addw 16 (addw meta_size 65456))) = 65520 := by decide
  have hm := mergeL_concat [] ⟨a, 16⟩
  simp only [List.nil_append] at hm
  cases tt
  · simp only [ains, splitAddr, mergeR, h1, h2, h3, if_true, if_false, hm, h4, hA2,
      Bool.false_eq_true]
  · simp only [ains, splitAddr, mergeR, h1, h2, h3, if_true, if_false, hm, h4, hA1]

theorem bseg_null {m : Mem} {l : List Blk} (h : BSeg m 0 l 0) : l = [] := by
  cases l with
  | nil => rfl
  | cons b l => exact absurd h.1.symm h.2.1

theorem size_align_16 : size_align 16 = 16 :=
  size_align_idem 16 rfl (by unfold W64; norm_num)

/-- The scenario `a = malloc(16); b = malloc(16); free(a); free(b)` on blocks,
started with an empty cache and an empty pool: the cache ends as the single
block of the whole retained chunk. -/
theorem coalesce_rep (base : Nat) (st : State) (lv : List Blk) (fuel : Nat)
    (ta1 ta2 tb1 tb2 : Bool) (hr : Rep st ⟨lv, [], []⟩) (hi : AInv base st.brk ⟨lv, [], []⟩)
    (hb : st.brk + 65536 + 1 < W64) (hf : 3 ≤ fuel) :
    ∃ st1 st2 st3 st4,
      malloc fuel ta1 ta2 16 st = some (st.brk + 16, Path.head_split, st1) ∧
      malloc fuel tb1 tb2 16 st1 = some (st.brk + 48, Path.cache_split, st2) ∧
      free fuel (st.brk + 16) st2 = some st3 ∧ free fuel (st.brk + 48) st3 = some st4 ∧
      Rep st4 ⟨lv, [⟨st.brk, if ta2 then 32752 else 65520⟩],
        if ta2 then [⟨st.brk + 32768, 32752⟩] else []⟩ := by
  have hW : W64 = 18446744073709551616 := by unfold W64; norm_num
  -- a = malloc(16)
  have ha : abrk st.brk ta1 16 ⟨lv, [], []⟩ = st.brk + 65536 := by
    cases ta1 <;> simp [abrk, splitFit, growBy, chunk_size, meta_size]
  have m1 := (malloc_rep base st ⟨lv, [], []⟩ 16 fuel ta1 ta2 hr hi (by decide) (by omega)
    (by simp; omega) (by simp; omega)).1
  rw [size_align_16, ha, amalloc_fresh] at m1
  obtain ⟨o1, st1, ho1, -, hm1, hr1, hi1, hb1, -⟩ := m1 hb
  have ho1 := (Option.some.inj ho1).symm
  subst ho1
  simp only [] at hm1 hr1 hi1 hb1
  -- b = malloc(16)
  have ha2 : ∀ po, abrk st1.brk tb1 16
      ⟨⟨st.brk, 16⟩ :: lv, [⟨st.brk + 32, if ta2 = true then 32720 else 65488⟩], po⟩ =
      st1.brk := by
    intro po
    cases ta2 <;> simp [abrk, splitFit]
  have m2 := (malloc_rep base st1 _ 16 fuel tb1 tb2 hr1 hi1 (by decide) (by omega)
    (by simp; omega) (by cases ta2 <;> simp <;> omega)).1
  rw [size_align_16, ha2, amalloc_second] at m2
  obtain ⟨o2, st2, ho2, -, hm2, hr2, hi2, hb2, -⟩ := m2 (by omega)
  have ho2 := (Option.some.inj ho2).symm
  subst ho2
  simp only [] at hm2 hr2 hi2 hb2
  -- free(a)
  obtain ⟨st3, hf3, hr3, hi3, -, hb3, -⟩ := free_rep base st2 _ ⟨st.brk, 16⟩
    (⟨st.brk + 32, 16⟩ :: lv) fuel hr2 hi2 (List.Perm.swap _ _ _) (by simp; omega)
  rw [ains_first] at hr3 hi3
  -- free(b)
  obtain ⟨st4, hf4, hr4, -⟩ := free_rep base st3 _ ⟨st.brk + 32, 16⟩ lv fuel hr3 hi3
    (List.Perm.refl _) (by simp; omega)
  rw [ains_second] at hr4
  exact ⟨st1, st2, st3, st4, hm1, hm2, hf3, hf4, hr4⟩

/-- C11 (coalescing scenario S2), amended: starting from a reachable state
with an empty thread cache and an empty global pool (a fresh thread), after
`a = malloc(16); b = malloc(16); free(a); free(b)` the thread cache contains
exactly one free block, and that block is the whole retained chunk at the old
break: its payload size is `C - H = 32752` when the donation `try_lock` of
the first call succeeds and `2·C - H = 65520` when it fails, because the
block of `b` merges with the block of `a` and with the split remainder. -/
theorem C11_coalesce_chunk {base : Nat} {st : State} {L : List Nat} (h : Reach base st L)
    (fuel : Nat) (ta1 ta2 tb1 tb2 : Bool) (hc : st.local_head = 0) (hg : st.global_head = 0)
    (hb : st.brk + 65536 + 1 < W64) (hf : 3 ≤ fuel) :
    ∃ a b pa pb st1 st2 st3 st4,
      malloc fuel ta1 ta2 16 st = some (a, pa, st1) ∧
      malloc fuel tb1 tb2 16 st1 = some (b, pb, st2) ∧
      free fuel a st2 = some st3 ∧ free fuel b st3 = some st4 ∧
      a = st.brk + 16 ∧ b = st.brk + 48 ∧
      BSeg st4.mem st4.local_head [⟨st.brk, if ta2 then 32752 else 65520⟩] 0 ∧
      ∀ ca, BSeg st4.mem st4.local_head ca 0 →
        ca = [⟨st.brk, if ta2 then 32752 else 65520⟩] := by
  obtain ⟨A, hr, hi, -⟩ := reach_inv h
  have e1 : A.ca = [] := by
    have := hr.cache
    rw [hc] at this
    exact bseg_null this
  have e2 : A.po = [] := by
    have := hr.pool
    rw [hg] at this
    exact bseg_null this
  obtain ⟨lv, ca, po⟩ := A
  simp only [] at e1 e2
  subst e1 e2
  obtain ⟨st1, st2, st3, st4, g1, g2, g3, g4, g5⟩ :=
    coalesce_rep base st lv fuel ta1 ta2 tb1 tb2 hr hi hb hf
  exact ⟨_, _, _, _, st1, st2, st3, st4, g1, g2, g3, g4, rfl, rfl, g5.cache,
    fun ca hca => BSeg.unique hca g5.cache⟩

theorem C11_coalesce_chunk_witness :
    Reach 4096 demo0 [] ∧ demo0.local_head = 0 ∧ demo0.global_head = 0 ∧
    demo0.brk + 65536 + 1 < W64 ∧ 3 ≤ 8 ∧
    ∃ a b pa pb st1 st2 st3 st4,
      malloc 8 true true 16 demo0 = some (a, pa, st1) ∧
      malloc 8 true true 16 st1 = some (b, pb, st2) ∧
      free 8 a st2 = some st3 ∧ free 8 b st3 = some st4 ∧
      a = demo0.brk + 16 ∧ b = demo0.brk + 48 ∧
      BSeg st4.mem st4.local_head [⟨demo0.brk, if true then 32752 else 65520⟩] 0 ∧
      ∀ ca, BSeg st4.mem st4.local_head ca 0 →
        ca = [⟨demo0.brk, if true then 32752 else 65520⟩] :=
  ⟨demo0_reach, rfl, rfl, by decide, by decide,
    C11_coalesce_chunk demo0_reach 8 true true true true rfl rfl (by decide) (by decide)⟩

/-- C11 (coalescing scenario S2), the counterexample. On a fresh thread whose
heap starts at 4096, `a = malloc(16)` returns 4112 and `b = malloc(16)`
returns 4144; after `free(a); free(b)` the thread cache is the single block at
4096 with payload size 32752, not 48. -/
theorem C11_counterexample :
    demo0.local_head = 0 ∧ demo0.global_head = 0 ∧
    ∃ st1 st2 st3,
      malloc 8 true true 16 demo0 = some (4112, Path.head_split, st1) ∧
      malloc 8 true true 16 st1 = some (4144, Path.cache_split, st2) ∧
      free 8 4112 st2 = some st3 ∧ free 8 4144 st3 = some demo5 ∧
      BSeg demo5.mem demo5.local_head [⟨4096, 32752⟩] 0 ∧ (32752 : Nat) ≠ 2 * 16 + meta_size :=
  ⟨rfl, rfl, _, _, _, rfl, rfl, rfl, rfl,
    ⟨by decide, by decide, by decide, by show readW demo5.mem (4096 + 8) = 0; decide⟩,
    by decide⟩


theorem demo1_pool : BSeg demo1.mem demo1.global_head [⟨36864, 32752⟩] 0 :=
  ⟨by decide, by decide, by decide, by show readW demo1.mem (36864 + 8) = 0; decide⟩

theorem C16_first_fit_witness :
    Inv 4096 demo1 [4112] ∧ BSeg demo1.mem demo1.local_head [⟨4216, 32632⟩] 0 ∧
    0 < size_align 100 ∧ (∃ c ∈ [(⟨4216, 32632⟩ : Blk)], size_align 100 ≤ c.size) ∧ W64 ≤ W64 ∧
    ∃ l1 x l2 path st', [(⟨4216, 32632⟩ : Blk)] = l1 ++ x :: l2 ∧
      (∀ c ∈ l1, c.size < size_align 100) ∧
      size_align 100 ≤ x.size ∧
      (∀ c ∈ [(⟨4216, 32632⟩ : Blk)], size_align 100 ≤ c.size → x.addr ≤ c.addr) ∧
      malloc W64 true true 100 demo1 = some (x.addr + meta_size, path, st') ∧
      st'.ntry = demo1.ntry ∧ st'.nsbrk = demo1.nsbrk ∧ st'.brk = demo1.brk ∧
      st'.global_head = demo1.global_head ∧
      (∀ po, BSeg demo1.mem demo1.global_head po 0 → BSeg st'.mem st'.global_head po 0) ∧
      (size_align 100 + meta_size < x.size →
        BSeg st'.mem st'.local_head
          (l1 ++ ⟨x.addr + meta_size + size_align 100, x.size - size_align 100 - meta_size⟩ ::
            l2) 0) ∧
      (x.size ≤ size_align 100 + meta_size → BSeg st'.mem st'.local_head (l1 ++ l2) 0) :=
  ⟨reach_inv demo1_reach, demo1_cache, by decide, ⟨_, List.mem_singleton.2 rfl, by decide⟩,
    le_refl _,
    C16_first_fit (reach_inv demo1_reach) 100 W64 true true _ demo1_cache (by decide)
      ⟨_, List.mem_singleton.2 rfl, by decide⟩ (le_refl _)⟩

theorem C13_round_trip_witness :
    Reach 4096 demo1 [4112] ∧ BSeg demo1.mem demo1.local_head [⟨4216, 32632⟩] 0 ∧
    BSeg demo1.mem demo1.global_head [⟨36864, 32752⟩] 0 ∧ 0 < 100 ∧
    (∃ c ∈ [(⟨4216, 32632⟩ : Blk)], size_align 100 ≤ c.size) ∧ W64 ≤ W64 ∧
    ∃ a pa st1 st2, malloc W64 true true 100 demo1 = some (a, pa, st1) ∧ a ≠ 0 ∧
      free W64 a st1 = some st2 ∧
      BSeg st2.mem st2.local_head [⟨4216, 32632⟩] 0 ∧
      BSeg st2.mem st2.global_head [⟨36864, 32752⟩] 0 ∧
      st2.global_head = demo1.global_head ∧ st2.brk = demo1.brk :=
  ⟨demo1_reach, demo1_cache, demo1_pool, by decide, ⟨_, List.mem_singleton.2 rfl, by decide⟩,
    le_refl _,
    C13_round_trip demo1_reach 100 W64 true true _ _ demo1_cache demo1_pool (by decide)
      ⟨_, List.mem_singleton.2 rfl, by decide⟩ (le_refl _)⟩

theorem C18_global_probe_witness :
    Reach 4096 demo1 [4112] ∧ BSeg demo1.mem demo1.local_head [⟨4216, 32632⟩] 0 ∧
    BSeg demo1.mem demo1.global_head [⟨36864, 32752⟩] 0 ∧ 0 < size_align 32700 ∧
    (∀ c ∈ [(⟨4216, 32632⟩ : Blk)], c.size < size_align 32700) ∧
    (∃ g ∈ [(⟨36864, 32752⟩ : Blk)], size_align 32700 ≤ g.size) ∧ W64 ≤ W64 ∧
    ∃ g1 g g2 l1 x l2 path st', [(⟨36864, 32752⟩ : Blk)] = g1 ++ g :: g2 ∧
      (∀ c ∈ g1, c.size < size_align 32700) ∧ size_align 32700 ≤ g.size ∧
      ains g [⟨4216, 32632⟩] = l1 ++ x :: l2 ∧ (∀ c ∈ l1, c.size < size_align 32700) ∧
      size_align 32700 ≤ x.size ∧
      malloc W64 true true 32700 demo1 = some (x.addr + meta_size, path, st') ∧
      (path = Path.pool_split ∨ path = Path.pool_whole) ∧
      st'.ntry = demo1.ntry + 1 ∧ st'.nsbrk = demo1.nsbrk ∧ st'.brk = demo1.brk ∧
      BSeg st'.mem st'.global_head (g1 ++ g2) 0 ∧
      (size_align 32700 + meta_size < x.size →
        BSeg st'.mem st'.local_head
          (l1 ++ ⟨x.addr + meta_size + size_align 32700,
            x.size - size_align 32700 - meta_size⟩ :: l2) 0) ∧
      (x.size ≤ size_align 32700 + meta_size → BSeg st'.mem st'.local_head (l1 ++ l2) 0) :=
  ⟨demo1_reach, demo1_cache, demo1_pool, by decide, by decide,
    ⟨_, List.mem_singleton.2 rfl, by decide⟩, le_refl _,
    C18_global_probe demo1_reach 32700 W64 true _ _ demo1_cache demo1_pool (by decide)
      (by decide) ⟨_, List.mem_singleton.2 rfl, by decide⟩ (le_refl _)⟩


theorem C12_growth_policy_witness :
    Reach 4096 demo1 [4112] ∧ BSeg demo1.mem demo1.local_head [⟨4216, 32632⟩] 0 ∧
    BSeg demo1.mem demo1.global_head [⟨36864, 32752⟩] 0 ∧ 0 < 40000 ∧ 40000 ≤ 2 ^ 32 ∧
    W64 ≤ W64 ∧ demo1.brk + growBy (size_align 40000) + 1 < W64 ∧
    (∃ p path st', malloc W64 false true 40000 demo1 = some (p, path, st') ∧
      ((∃ c ∈ [(⟨4216, 32632⟩ : Blk)], size_align 40000 ≤ c.size) ∨ (false = true ∧ ∃ g ∈ [(⟨36864, 32752⟩ : Blk)], size_align 40000 ≤ g.size) →
        st'.nsbrk = demo1.nsbrk ∧ st'.brk = demo1.brk) ∧
      ((∀ c ∈ [(⟨4216, 32632⟩ : Blk)], c.size < size_align 40000) → (false = false ∨ ∀ g ∈ [(⟨36864, 32752⟩ : Blk)], g.size < size_align 40000) →
        st'.nsbrk = demo1.nsbrk + 1 ∧
        (size_align 40000 ≤ chunk_size - meta_size → st'.brk = demo1.brk + 2 * chunk_size) ∧
        (size_align 40000 > chunk_size - meta_size →
          st'.brk = demo1.brk + (2 * size_align 40000 + 2 * meta_size) ∧
          p = demo1.brk + meta_size ∧ path = Path.large ∧
          st'.size (p - meta_size) = size_align 40000 ∧
          (true = true →
            BSeg st'.mem st'.global_head (⟨demo1.brk + meta_size + size_align 40000, size_align 40000⟩ :: [(⟨36864, 32752⟩ : Blk)])
              0 ∧
            BSeg st'.mem st'.local_head [(⟨4216, 32632⟩ : Blk)] 0) ∧
          (true = false →
            BSeg st'.mem st'.global_head [(⟨36864, 32752⟩ : Blk)] 0 ∧
            BSeg st'.mem st'.local_head
              (ains ⟨demo1.brk + meta_size + size_align 40000, size_align 40000⟩ [(⟨4216, 32632⟩ : Blk)]) 0)))) :=
  ⟨demo1_reach, demo1_cache, demo1_pool, by decide, by decide, le_refl _, by decide,
    C12_growth_policy demo1_reach 40000 W64 false true _ _ demo1_cache demo1_pool (by decide)
      (by decide) (le_refl _) (by decide)⟩

theorem C17_split_rule_witness :
    Reach 4096 demo1 [4112] ∧ BSeg demo1.mem demo1.local_head [⟨4216, 32632⟩] 0 ∧
    0 < 100 ∧ 100 ≤ 2 ^ 32 ∧ W64 ≤ W64 ∧ demo1.brk + growBy (size_align 100) + 1 < W64 ∧
    ((∃ p path st', malloc W64 true true 100 demo1 = some (p, path, st') ∧
      (path = Path.large ∨
        ∃ sel l1 x l2, (sel = [(⟨4216, 32632⟩ : Blk)] ∨ (∃ g, sel = ains g [(⟨4216, 32632⟩ : Blk)]) ∨
            sel = mergeL [(⟨4216, 32632⟩ : Blk)] (chunkA demo1.brk true) []) ∧
          sel = l1 ++ x :: l2 ∧ (∀ c ∈ l1, c.size < size_align 100) ∧ size_align 100 ≤ x.size ∧
          p = x.addr + meta_size ∧
          (size_align 100 + meta_size < x.size →
            st'.size x.addr = size_align 100 ∧
            BSeg st'.mem st'.local_head
              (l1 ++ ⟨x.addr + meta_size + size_align 100, x.size - size_align 100 - meta_size⟩ :: l2)
              0 ∧
            8 ≤ x.size - size_align 100 - meta_size ∧
            (x.size - size_align 100 - meta_size) % 8 = 0) ∧
          (x.size ≤ size_align 100 + meta_size →
            st'.size x.addr = x.size ∧ BSeg st'.mem st'.local_head (l1 ++ l2) 0))) ∧
    (∀ (p : Nat) (n : Blk), p ∈ [4112] → n ∈ [(⟨4216, 32632⟩ : Blk)] → n.addr = p + demo1.size (p - meta_size) →
      demo1.size (p - meta_size) < size_align 100 →
      size_align 100 ≤ demo1.size (p - meta_size) + meta_size + n.size →
      ∃ l1 l2 st', [(⟨4216, 32632⟩ : Blk)] = l1 ++ n :: l2 ∧ realloc W64 true true p 100 demo1 = some (p, st') ∧
        (size_align 100 + meta_size < demo1.size (p - meta_size) + meta_size + n.size →
          st'.size (p - meta_size) = size_align 100 ∧
          BSeg st'.mem st'.local_head
            (l1 ++ ⟨p + size_align 100,
              demo1.size (p - meta_size) + meta_size + n.size - size_align 100 - meta_size⟩ :: l2)
            0 ∧
          8 ≤ demo1.size (p - meta_size) + meta_size + n.size - size_align 100 - meta_size ∧
          (demo1.size (p - meta_size) + meta_size + n.size - size_align 100 - meta_size) % 8 = 0) ∧
        (demo1.size (p - meta_size) + meta_size + n.size ≤ size_align 100 + meta_size →
          st'.size (p - meta_size) = demo1.size (p - meta_size) + meta_size + n.size ∧
          BSeg st'.mem st'.local_head (l1 ++ l2) 0))) :=
  ⟨demo1_reach, demo1_cache, by decide, by decide, le_refl _, by decide,
    C17_split_rule demo1_reach 100 W64 true true _ demo1_cache (by decide) (by decide)
      (le_refl _) (by decide)⟩


theorem demo4_reach : Reach 4096 demo4 [69648, 4112] :=
  Reach.malloc 8 false true 32700 69648 Path.tail_split demo4 demo1_reach (by decide) rfl

theorem demo4_cache :
    BSeg demo4.mem demo4.local_head [⟨4216, 32632⟩, ⟨102352, 32⟩] 0 :=
  ⟨by decide, by decide, by decide, by decide, by decide, by decide,
    by show readW demo4.mem (102352 + 8) = 0; decide⟩

/-- C4 at the state after `malloc(100)` and `malloc(32700)` on a fresh thread
(the second call grows the heap and leaves its split remainder at the tail):
the thread cache has the two blocks at 4216 and 102352. -/
theorem C4_cache_sorted_witness :
    Reach 4096 demo4 [69648, 4112] ∧
    BSeg demo4.mem demo4.local_head [⟨4216, 32632⟩, ⟨102352, 32⟩] 0 ∧
    ∃ ca : List Blk, BSeg demo4.mem demo4.local_head ca 0 ∧
      ca.Pairwise (fun x y => x.addr < y.addr) ∧
      (∀ x ∈ ca, ∀ y ∈ ca, x.addr + meta_size + x.size ≠ y.addr) :=
  ⟨demo4_reach, demo4_cache, C4_cache_sorted demo4_reach⟩

end MyMalloc
